import Mathlib

/-!
# cub3d: grid accessor, collision resolver, DDA ray tracer, camera and background

A shallow embedding of `src/collition.c`, `src/bonus/raycasting_bonus.c`,
`src/bonus/raycasting.c`, `src/bonus/quaternions.c`, `src/bonus/camera.c` and
`src/bonus/background_bonus.c`.

Numeric model.  A C `double` is a value of `Dbl`: either a finite number, held as a
rational, or one of the IEEE specials `+inf`, `-inf`, `NaN`.  The arithmetic on the specials
follows IEEE 754 (`x / 0`, `0 * inf`, `inf - inf`, comparisons with `NaN` are false).  There
is no signed zero: a zero divisor counts as `+0`.  The operators `+`, `-`, `*`, `/` of `Dbl`
are exact; `Dbl.fadd`, `Dbl.fsub`, `Dbl.fmul`, `Dbl.fdiv` round their result to binary64
(round to nearest, ties to even, subnormals, overflow to an infinity), and `Dbl.rnd`,
`Dbl.rnd32` give the double and the float that a decimal literal denotes.

The collision resolver, the ray tracers, the rotation primitive and the camera controller
are embedded with the exact operators.  `background_bonus.c` is embedded with the rounded
operators and with the values of its literals.  The namespace `binary64` embeds
`collition.c`, the stepping functions of `raycasting_bonus.c` and `update_camera_movement`
of `camera.c` a second time with the rounded operators; statements about the outcome of a
comparison that rounding can change are made about these.

A C `int` is a Lean `Int`.  The cast `(int)` of a double is defined in C only when the
truncated value fits an `int`; statements that go through a cast of a coordinate carry the
bound that keeps it in range.

The headers `cub3D.h` / `cub3D_bonus.h` are not part of the sources, so the constants
`WIDTH`, `HEIGHT` and `COLLISION_RADIUS`, the libm functions `sqrt`, `cos` and `sin`, the
key states of `mlx_is_key_down` and the externals `check_door_collision`, `fog` and
`calculate_grid_coordinates` are parameters of the functions that use them.
-/

/-! ## Doubles -/

/-- A C `double`: a finite value (an exact rational) or an IEEE special. -/
inductive Dbl where
  | fin (q : ℚ)
  | pinf
  | ninf
  | nan
  deriving DecidableEq

namespace Dbl

/-- Unary minus. -/
def neg : Dbl → Dbl
  | fin a => fin (-a)
  | pinf => ninf
  | ninf => pinf
  | nan => nan

/-- Operator `+` of doubles. -/
def add : Dbl → Dbl → Dbl
  | fin a, fin b => fin (a + b)
  | fin _, pinf => pinf
  | fin _, ninf => ninf
  | pinf, fin _ => pinf
  | pinf, pinf => pinf
  | ninf, fin _ => ninf
  | ninf, ninf => ninf
  | _, _ => nan

/-- An infinity with the sign of `a * s`, where `s` is `true` for `+inf`; `NaN` when `a = 0`. -/
def inf_times (s : Bool) (a : ℚ) : Dbl :=
  if a = 0 then nan else if (0 < a) = s then pinf else ninf

/-- Operator `*` of doubles. -/
def mul : Dbl → Dbl → Dbl
  | fin a, fin b => fin (a * b)
  | fin a, pinf => inf_times true a
  | fin a, ninf => inf_times false a
  | pinf, fin b => inf_times true b
  | ninf, fin b => inf_times false b
  | pinf, pinf => pinf
  | pinf, ninf => ninf
  | ninf, pinf => ninf
  | ninf, ninf => pinf
  | _, _ => nan

/-- Operator `/` of doubles (a zero divisor is `+0`). -/
def div : Dbl → Dbl → Dbl
  | fin a, fin b =>
    if b = 0 then (if a = 0 then nan else if 0 < a then pinf else ninf) else fin (a / b)
  | fin _, pinf => fin 0
  | fin _, ninf => fin 0
  | pinf, fin b => if 0 ≤ b then pinf else ninf
  | ninf, fin b => if 0 ≤ b then ninf else pinf
  | _, _ => nan

/-- Operator `<` of doubles; false as soon as one side is `NaN`. -/
def lt : Dbl → Dbl → Bool
  | fin a, fin b => decide (a < b)
  | fin _, pinf => true
  | ninf, fin _ => true
  | ninf, pinf => true
  | _, _ => false

/-- Operator `<=` of doubles; false as soon as one side is `NaN`. -/
def le : Dbl → Dbl → Bool
  | fin a, fin b => decide (a ≤ b)
  | fin _, pinf => true
  | ninf, fin _ => true
  | ninf, pinf => true
  | pinf, pinf => true
  | ninf, ninf => true
  | _, _ => false

/-- The libm function `fabs`. -/
def fabs : Dbl → Dbl
  | fin a => fin |a|
  | pinf => pinf
  | ninf => pinf
  | nan => nan

/-- The libm function `fmax`: the other argument when one is `NaN`. -/
def fmax : Dbl → Dbl → Dbl
  | nan, b => b
  | a, nan => a
  | a, b => if lt a b = true then b else a

/-- The libm function `floor`. -/
def floor : Dbl → Dbl
  | fin a => fin (⌊a⌋ : ℤ)
  | d => d

/-- The libm function `ceil`. -/
def ceil : Dbl → Dbl
  | fin a => fin (⌈a⌉ : ℤ)
  | d => d

/-- Conversion `int` to `double`. -/
def ofInt (n : Int) : Dbl := fin (n : ℚ)

/-- The cast `(int)d`: truncation toward zero.  The cast of a special is undefined in C;
it is `0` here and no theorem relies on it. -/
def toInt : Dbl → Int
  | fin a => if 0 ≤ a then ⌊a⌋ else ⌈a⌉
  | _ => 0

instance : Neg Dbl := ⟨neg⟩
instance : Add Dbl := ⟨add⟩
instance : Sub Dbl := ⟨fun a b => add a (neg b)⟩
instance : Mul Dbl := ⟨mul⟩
instance : Div Dbl := ⟨div⟩
instance : LT Dbl := ⟨fun a b => lt a b = true⟩
instance (a b : Dbl) : Decidable (a < b) := inferInstanceAs (Decidable (lt a b = true))
instance : LE Dbl := ⟨fun a b => le a b = true⟩
instance (a b : Dbl) : Decidable (a ≤ b) := inferInstanceAs (Decidable (le a b = true))

/-- The integer nearest to `n`; half way between two integers, the even one. -/
def round_even (n : ℚ) : Int :=
  if n - (⌊n⌋ : ℚ) < 1 / 2 then ⌊n⌋
  else if 1 / 2 < n - (⌊n⌋ : ℚ) then ⌊n⌋ + 1
  else if ⌊n⌋ % 2 = 0 then ⌊n⌋ else ⌊n⌋ + 1

/-- The unit in the last place at the magnitude `a`, in a binary format with `p`
significant bits and least exponent `emin`: `2 ^ (e - (p - 1))`, where `e` is the binary
exponent of `a`, raised to `emin` when `a` is below the normal range. -/
def ulp (p : Nat) (emin : Int) (a : ℚ) : ℚ :=
  (2 : ℚ) ^ (max (Int.log 2 a) emin - ((p : Int) - 1))

/-- The magnitude `a` rounded to the nearest multiple of its unit in the last place, ties
to the even multiple. -/
def round_mag (p : Nat) (emin : Int) (a : ℚ) : ℚ :=
  (round_even (a / ulp p emin a) : ℚ) * ulp p emin a

/-- The rational `q` rounded to nearest (ties to even) in the format, before the overflow
test: the sign of `q` and the rounded magnitude. -/
def round_val (p : Nat) (emin : Int) (q : ℚ) : ℚ :=
  if 0 ≤ q then round_mag p emin q else -round_mag p emin (-q)

/-- Rounding to a binary floating-point format with `p` significant bits and exponents
from `emin` to `emax`: round to nearest, ties to even, gradual underflow, overflow to the
infinity of the sign. -/
def round_to (p : Nat) (emin emax : Int) (q : ℚ) : Dbl :=
  if (2 : ℚ) ^ (emax + 1) ≤ |round_val p emin q| then (if 0 ≤ q then pinf else ninf)
  else fin (round_val p emin q)

/-- The double nearest to `q`, as a rational: the rounding to binary64 before the overflow
test. -/
def r64 (q : ℚ) : ℚ := round_val 53 (-1022) q

/-- Rounding to binary64, the format of a C `double`; `rnd (4 / 10)` is the value of the
literal `0.4`. -/
def rnd (q : ℚ) : Dbl := round_to 53 (-1022) 1023 q

/-- Rounding to binary32, the format of a C `float`; `rnd32 (5 / 1000)` is the value of the
literal `0.005f`, which converts to `double` unchanged. -/
def rnd32 (q : ℚ) : Dbl := round_to 24 (-126) 127 q

/-- The double that holds a value: the value rounded to binary64, a special unchanged. -/
def rndd : Dbl → Dbl
  | fin q => rnd q
  | d => d

/-- Operator `+` of doubles as the machine evaluates it: the exact sum, rounded. -/
def fadd (a b : Dbl) : Dbl := rndd (a + b)

/-- Operator `-` of doubles as the machine evaluates it: the exact difference, rounded. -/
def fsub (a b : Dbl) : Dbl := rndd (a - b)

/-- Operator `*` of doubles as the machine evaluates it: the exact product, rounded. -/
def fmul (a b : Dbl) : Dbl := rndd (a * b)

/-- Operator `/` of doubles as the machine evaluates it: the exact quotient, rounded. -/
def fdiv (a b : Dbl) : Dbl := rndd (a / b)

end Dbl

/-! ## Data model -/

/-- The struct `t_vec2`: two doubles. -/
structure t_vec2 where
  x : Dbl
  y : Dbl
  deriving DecidableEq

/-- The part of `t_game` the core reads: the rows of the map (a row is the characters
of its C string before the terminator) and the stored row count. -/
structure t_game where
  map : List (List Char)
  map_height : Int
  deriving DecidableEq

/-- The stored row count does not exceed the number of rows really allocated. -/
def t_game.wf (g : t_game) : Prop := g.map_height ≤ (g.map.length : Int)

instance (g : t_game) : Decidable g.wf := inferInstanceAs (Decidable (_ ≤ _))

/-- An array read `a[i]`: `none` when the index is outside the array. -/
def arr_read {α : Type} (a : List α) (i : Int) : Option α :=
  if 0 ≤ i then a[i.toNat]? else none

/-- The libft function `ft_strlen`. -/
def ft_strlen (s : List Char) : Int := (s.length : Int)

/-- Function `safe_get_tile` of `collition.c`.  The result is `none` when the function
reads outside the map or outside a row (undefined behaviour in C). -/
def safe_get_tile (game : t_game) (x y : Int) : Option Char :=
  if y < 0 ∨ y ≥ game.map_height then some '1'
  else
    match arr_read game.map y with
    | none => none
    | some row =>
      let len := ft_strlen row
      if x < 0 ∨ x ≥ len then some '1'
      else arr_read row x

/-! ## Collision resolver of `collition.c` -/

/-- The struct `t_collision`: the radius, the scanned range of rows `i` and of columns `j`
and the cell under test. -/
structure t_collision where
  r : Dbl
  min_i : Int
  max_i : Int
  min_j : Int
  max_j : Int
  i : Int
  j : Int
  deriving DecidableEq

/-- Function `init_collision`; `COLLISION_RADIUS` is the constant of the missing header. -/
def init_collision (COLLISION_RADIUS : Dbl) (c : t_collision) (new_x new_y : Dbl) :
    t_collision :=
  let r := COLLISION_RADIUS
  let c := { c with r := r }
  let c := { c with min_i := Dbl.toInt (Dbl.floor (new_y - r)) }
  let c := { c with max_i := Dbl.toInt (Dbl.ceil (new_y + r)) }
  let c := { c with min_j := Dbl.toInt (Dbl.floor (new_x - r)) }
  { c with max_j := Dbl.toInt (Dbl.ceil (new_x + r)) }

/-- Function `check_cell_collision`. -/
def check_cell_collision (new_x new_y : Dbl) (c : t_collision) : Int :=
  let closest_x := new_x
  let closest_x :=
    if new_x < Dbl.ofInt c.j then Dbl.ofInt c.j
    else if new_x > Dbl.ofInt (c.j + 1) then Dbl.ofInt (c.j + 1)
    else closest_x
  let closest_y := new_y
  let closest_y :=
    if new_y < Dbl.ofInt c.i then Dbl.ofInt c.i
    else if new_y > Dbl.ofInt (c.i + 1) then Dbl.ofInt (c.i + 1)
    else closest_y
  let dx := new_x - closest_x
  let dy := new_y - closest_y
  if (dx * dx + dy * dy) < (c.r * c.r) then 1 else 0

/-- The inner loop of `collides`, `while (++c.j <= c.max_j)`: `true` when the body reaches
`return (1)`.  The value of `c.j` the loop leaves is dead: the next row resets it. -/
def collides_row (game : t_game) (new_x new_y : Dbl) (c : t_collision) : Bool :=
  if c.j + 1 ≤ c.max_j then
    if safe_get_tile game (c.j + 1) c.i = some '1' then
      if check_cell_collision new_x new_y { c with j := c.j + 1 } = 1 then true
      else collides_row game new_x new_y { c with j := c.j + 1 }
    else collides_row game new_x new_y { c with j := c.j + 1 }
  else false
termination_by (c.max_j - c.j).toNat
decreasing_by all_goals (simp_wf; omega)

/-- The outer loop of `collides`, `while (++c.i <= c.max_i)`, down to the final
`return (0)`. -/
def collides_rows (game : t_game) (new_x new_y : Dbl) (c : t_collision) : Int :=
  if c.i + 1 ≤ c.max_i then
    if collides_row game new_x new_y { c with i := c.i + 1, j := c.min_j - 1 } = true then 1
    else collides_rows game new_x new_y { c with i := c.i + 1, j := c.min_j - 1 }
  else 0
termination_by (c.max_i - c.i).toNat
decreasing_by all_goals (simp_wf; omega)

/-- Function `collides`.  The local `c` is uninitialised before `init_collision`; every
field is written before it is read, and the model starts it at zero. -/
def collides (COLLISION_RADIUS : Dbl) (game : t_game) (new_x new_y : Dbl) : Int :=
  let c : t_collision := ⟨Dbl.fin 0, 0, 0, 0, 0, 0, 0⟩
  let c := init_collision COLLISION_RADIUS c new_x new_y
  let c := { c with i := c.min_i - 1 }
  collides_rows game new_x new_y c

/-! ## Ray tracer of `raycasting_bonus.c` -/

/-- The libm call `pow(a, 2)`. -/
def Dbl.pow2 (a : Dbl) : Dbl := a * a

namespace raycasting_bonus

/-- The fields of the camera read by the ray tracer. -/
structure t_camera where
  pos : t_vec2
  dir : t_vec2
  plane : t_vec2
  deriving DecidableEq

/-- The fields of `t_app` read by the ray tracer. -/
structure t_app where
  camera : t_camera
  game : t_game
  deriving DecidableEq

/-- The struct `t_ray`.  The field `hit_tile` holds what `safe_get_tile` returned. -/
structure t_ray where
  raydir : t_vec2
  map_x : Int
  map_y : Int
  raydir_mod : Dbl
  deltadist : t_vec2
  step : t_vec2
  sidedist : t_vec2
  side : Int
  hit_tile : Option Char
  perpwalldist : Dbl
  deriving DecidableEq

/-- Function `init_ray`; `sqrt` is the libm square root and `WIDTH` the screen width. -/
def init_ray (sqrt : Dbl → Dbl) (WIDTH : Int) (app : t_app) (x : Int) (ray : t_ray) : t_ray :=
  let camx := Dbl.ofInt (2 * x) / Dbl.ofInt WIDTH - Dbl.fin 1
  let ray := { ray with raydir := ⟨app.camera.dir.x + app.camera.plane.x * camx, ray.raydir.y⟩ }
  let ray := { ray with raydir := ⟨ray.raydir.x, app.camera.dir.y + app.camera.plane.y * camx⟩ }
  let ray := { ray with map_x := Dbl.toInt app.camera.pos.x }
  let ray := { ray with map_y := Dbl.toInt app.camera.pos.y }
  let ray := { ray with raydir_mod := sqrt (Dbl.pow2 ray.raydir.x + Dbl.pow2 ray.raydir.y) }
  let ray := { ray with
    deltadist := ⟨Dbl.fabs (ray.raydir_mod / ray.raydir.x), ray.deltadist.y⟩ }
  { ray with deltadist := ⟨ray.deltadist.x, Dbl.fabs (ray.raydir_mod / ray.raydir.y)⟩ }

/-- Function `init_step`: the step in `x`, the initial side distance in `y`. -/
def init_step (pos : Dbl) (map : Int) (deltadist raydir : Dbl) : t_vec2 :=
  if raydir < Dbl.fin 0 then
    ⟨Dbl.fin (-1), (pos - Dbl.ofInt map) * deltadist⟩
  else
    ⟨Dbl.fin 1, ((Dbl.ofInt map + Dbl.fin 1) - pos) * deltadist⟩

/-- Function `update_ray_position`. -/
def update_ray_position (ray : t_ray) : t_ray :=
  if ray.sidedist.x < ray.sidedist.y then
    let ray := { ray with sidedist := ⟨ray.sidedist.x + ray.deltadist.x, ray.sidedist.y⟩ }
    let ray := { ray with map_x := Dbl.toInt (Dbl.ofInt ray.map_x + ray.step.x) }
    { ray with side := 0 }
  else
    let ray := { ray with sidedist := ⟨ray.sidedist.x, ray.sidedist.y + ray.deltadist.y⟩ }
    let ray := { ray with map_y := Dbl.toInt (Dbl.ofInt ray.map_y + ray.step.y) }
    { ray with side := 1 }

/-- Function `dda_loop`, a `while (1)`.  The first argument bounds the number of
iterations: the result is `none` when the loop has not reached a `break` within that
many iterations.  `check_door_collision` is the external door test. -/
def dda_loop (check_door_collision : t_app → t_ray → Bool) (app : t_app) :
    Nat → t_ray → Option t_ray
  | 0, _ => none
  | fuel + 1, ray =>
    let ray := update_ray_position ray
    let ray := { ray with hit_tile := safe_get_tile app.game ray.map_x ray.map_y }
    if ray.hit_tile = some '1' then some ray
    else if (ray.hit_tile = some '2' ∨ ray.hit_tile = some '3')
        ∧ check_door_collision app ray = true then some ray
    else dda_loop check_door_collision app fuel ray

/-- Function `do_dda`; `fuel` bounds the iterations of `dda_loop`. -/
def do_dda (check_door_collision : t_app → t_ray → Bool) (fuel : Nat) (app : t_app)
    (ray : t_ray) : Option t_ray :=
  let steps := init_step app.camera.pos.x ray.map_x ray.deltadist.x ray.raydir.x
  let ray := { ray with step := ⟨steps.x, ray.step.y⟩ }
  let ray := { ray with sidedist := ⟨steps.y, ray.sidedist.y⟩ }
  let steps := init_step app.camera.pos.y ray.map_y ray.deltadist.y ray.raydir.y
  let ray := { ray with step := ⟨ray.step.x, steps.x⟩ }
  let ray := { ray with sidedist := ⟨ray.sidedist.x, steps.y⟩ }
  match dda_loop check_door_collision app fuel ray with
  | none => none
  | some ray =>
    if ray.side = 0 then
      some { ray with perpwalldist := (ray.sidedist.x - ray.deltadist.x) / ray.raydir_mod }
    else
      some { ray with perpwalldist := (ray.sidedist.y - ray.deltadist.y) / ray.raydir_mod }

end raycasting_bonus

/-! ## Ray tracer of `raycasting.c` -/

/-- The struct `t_quaternion`: a scalar part and three imaginary parts.  `raycasting.c`
keeps its 2D vectors in the fields `i` and `j`. -/
structure t_quaternion where
  s : Dbl
  i : Dbl
  j : Dbl
  k : Dbl
  deriving DecidableEq

namespace raycasting

/-- The fields of the camera read by the ray tracer. -/
structure t_camera where
  pos : t_quaternion
  dir : t_quaternion
  plane : t_quaternion
  deriving DecidableEq

/-- The fields of `t_app` read by the ray tracer. -/
structure t_app where
  camera : t_camera
  game : t_game
  deriving DecidableEq

/-- The fields of `t_ray` that `raycasting.c` reads or writes. -/
structure t_ray where
  raydir : t_quaternion
  map_x : Int
  map_y : Int
  raydir_mod : Dbl
  deltadist : t_quaternion
  step : t_quaternion
  sidedist : t_quaternion
  side : Int
  perpwalldist : Dbl
  deriving DecidableEq

/-- Function `init_ray`; `sqrt` is the libm square root and `WIDTH` the screen width. -/
def init_ray (sqrt : Dbl → Dbl) (WIDTH : Int) (app : t_app) (x : Int) (ray : t_ray) : t_ray :=
  let camx := Dbl.ofInt (2 * x) / Dbl.ofInt WIDTH - Dbl.fin 1
  let ray := { ray with
    raydir := { ray.raydir with i := app.camera.dir.i + app.camera.plane.i * camx } }
  let ray := { ray with
    raydir := { ray.raydir with j := app.camera.dir.j + app.camera.plane.j * camx } }
  let ray := { ray with map_x := Dbl.toInt app.camera.pos.i }
  let ray := { ray with map_y := Dbl.toInt app.camera.pos.j }
  let ray := { ray with raydir_mod := sqrt (Dbl.pow2 ray.raydir.i + Dbl.pow2 ray.raydir.j) }
  let ray := { ray with
    deltadist := { ray.deltadist with i := Dbl.fabs (ray.raydir_mod / ray.raydir.i) } }
  { ray with deltadist := { ray.deltadist with j := Dbl.fabs (ray.raydir_mod / ray.raydir.j) } }

/-- Function `init_step`: the step in `i`, the initial side distance in `j`.  The fields
`s` and `k` of the returned local are never assigned and never read; they are `NaN` here. -/
def init_step (pos : Dbl) (map : Int) (deltadist raydir : Dbl) : t_quaternion :=
  if raydir < Dbl.fin 0 then
    { s := Dbl.nan, i := Dbl.fin (-1), j := (pos - Dbl.ofInt map) * deltadist, k := Dbl.nan }
  else
    { s := Dbl.nan, i := Dbl.fin 1, j := ((Dbl.ofInt map + Dbl.fin 1) - pos) * deltadist,
      k := Dbl.nan }

/-- Function `dda_loop`, a `while (1)`.  The first argument bounds the number of
iterations: the result is `none` when the loop has not reached its `break` within that
many iterations. -/
def dda_loop (app : t_app) : Nat → t_ray → Option t_ray
  | 0, _ => none
  | fuel + 1, ray =>
    let ray :=
      if ray.sidedist.i < ray.sidedist.j then
        let ray := { ray with
          sidedist := { ray.sidedist with i := ray.sidedist.i + ray.deltadist.i } }
        let ray := { ray with map_x := Dbl.toInt (Dbl.ofInt ray.map_x + ray.step.i) }
        { ray with side := 0 }
      else
        let ray := { ray with
          sidedist := { ray.sidedist with j := ray.sidedist.j + ray.deltadist.j } }
        let ray := { ray with map_y := Dbl.toInt (Dbl.ofInt ray.map_y + ray.step.j) }
        { ray with side := 1 }
    if safe_get_tile app.game ray.map_x ray.map_y = some '1' then some ray
    else dda_loop app fuel ray

/-- Function `do_dda`; `fuel` bounds the iterations of `dda_loop`. -/
def do_dda (fuel : Nat) (app : t_app) (ray : t_ray) : Option t_ray :=
  let steps := init_step app.camera.pos.i ray.map_x ray.deltadist.i ray.raydir.i
  let ray := { ray with step := { ray.step with i := steps.i } }
  let ray := { ray with sidedist := { ray.sidedist with i := steps.j } }
  let steps := init_step app.camera.pos.j ray.map_y ray.deltadist.j ray.raydir.j
  let ray := { ray with step := { ray.step with j := steps.i } }
  let ray := { ray with sidedist := { ray.sidedist with j := steps.j } }
  match dda_loop app fuel ray with
  | none => none
  | some ray =>
    if ray.side = 0 then
      some { ray with perpwalldist := (ray.sidedist.i - ray.deltadist.i) / ray.raydir_mod }
    else
      some { ray with perpwalldist := (ray.sidedist.j - ray.deltadist.j) / ray.raydir_mod }

end raycasting

/-! ## Rotation primitive of `quaternions.c` -/

/-- Function `quaternion_product`. -/
def quaternion_product (p q : t_quaternion) : t_quaternion :=
  { s := p.s * q.s - p.i * q.i - p.j * q.j - p.k * q.k
    i := p.s * q.i + p.i * q.s + p.j * q.k - p.k * q.j
    j := p.s * q.j - p.i * q.k + p.j * q.s + p.k * q.i
    k := p.s * q.k + p.i * q.j - p.j * q.i + p.k * q.s }

/-- Function `conjugate`. -/
def conjugate (p : t_quaternion) : t_quaternion :=
  ⟨p.s, -p.i, -p.j, -p.k⟩

/-- Function `plane_rotation`; `sqrt`, `cos` and `sin` are the libm functions. -/
def plane_rotation (sqrt cos sin : Dbl → Dbl) (p axis : t_quaternion) (alpha : Dbl) :
    t_quaternion :=
  let alpha := alpha / Dbl.ofInt 2
  let arg := sqrt (axis.i * axis.i + axis.j * axis.j + axis.k * axis.k)
  let axis := { axis with s := cos alpha }
  let axis := { axis with i := sin alpha * (axis.i / arg) }
  let axis := { axis with j := sin alpha * (axis.j / arg) }
  let axis := { axis with k := sin alpha * (axis.k / arg) }
  quaternion_product axis (quaternion_product p (conjugate axis))

/-! ## Camera controller of `camera.c` -/

/-- The key codes of the MLX42 enum `keys_t` that `camera.c` polls. -/
inductive keys_t where
  | MLX_KEY_ESCAPE
  | MLX_KEY_LEFT_SHIFT
  | MLX_KEY_W
  | MLX_KEY_S
  | MLX_KEY_A
  | MLX_KEY_D
  deriving DecidableEq

/-- The conversion of a C `bool` to `int`. -/
def bool_to_int (b : Bool) : Int := if b then 1 else 0

namespace camera

/-- The fields of the camera that `camera.c` reads or writes. -/
structure t_camera where
  pos : t_quaternion
  dir : t_quaternion
  plane : t_quaternion
  view_z : Dbl
  move_speed : Dbl
  deriving DecidableEq

/-- The fields of `t_app` that `camera.c` reads or writes. -/
structure t_app where
  camera : t_camera
  game : t_game
  deriving DecidableEq

/-- Function `update_camera_movement`.  `mlx_is_key_down` is the key-state snapshot of the
frame and `COLLISION_RADIUS` the constant `collides` uses. -/
def update_camera_movement (COLLISION_RADIUS : Dbl) (mlx_is_key_down : keys_t → Bool)
    (app : t_app) (delta_time : Dbl) : t_app :=
  let new_x := app.camera.pos.i
  let new_y := app.camera.pos.j
  let speed := app.camera.move_speed * delta_time
  let speed := if mlx_is_key_down keys_t.MLX_KEY_LEFT_SHIFT then speed * Dbl.ofInt 2 else speed
  let new_x := new_x + Dbl.ofInt (bool_to_int (mlx_is_key_down keys_t.MLX_KEY_W)
      - bool_to_int (mlx_is_key_down keys_t.MLX_KEY_S)) * app.camera.dir.i * speed
  let new_y := new_y + Dbl.ofInt (bool_to_int (mlx_is_key_down keys_t.MLX_KEY_W)
      - bool_to_int (mlx_is_key_down keys_t.MLX_KEY_S)) * app.camera.dir.j * speed
  let new_x := new_x + Dbl.ofInt (bool_to_int (mlx_is_key_down keys_t.MLX_KEY_A)
      - bool_to_int (mlx_is_key_down keys_t.MLX_KEY_D)) * app.camera.dir.j * speed
  let new_y := new_y + Dbl.ofInt (bool_to_int (mlx_is_key_down keys_t.MLX_KEY_D)
      - bool_to_int (mlx_is_key_down keys_t.MLX_KEY_A)) * app.camera.dir.i * speed
  if collides COLLISION_RADIUS app.game new_x new_y = 0 then
    { app with camera := { app.camera with
        pos := { app.camera.pos with
          i := new_x
          j := new_y } } }
  else app

/-- Function `update_camera_rotation`.  `xpos` and `zpos` are what `mlx_get_mouse_pos`
returns; `WIDTH` and `HEIGHT` are the screen constants; the final `mlx_set_mouse_pos`
acts on the window only. -/
def update_camera_rotation (sqrt cos sin : Dbl → Dbl) (WIDTH HEIGHT : Int) (xpos zpos : Int)
    (app : t_app) (delta_time : Dbl) : t_app :=
  let alpha := Dbl.ofInt (xpos - Int.tdiv WIDTH 2) * delta_time / Dbl.ofInt 20
  let app := { app with camera := { app.camera with
    dir := plane_rotation sqrt cos sin app.camera.dir
      ⟨Dbl.ofInt 0, Dbl.ofInt 0, Dbl.ofInt 0, Dbl.ofInt xpos⟩ alpha } }
  let app := { app with camera := { app.camera with
    plane := plane_rotation sqrt cos sin app.camera.plane
      ⟨Dbl.ofInt 0, Dbl.ofInt 0, Dbl.ofInt 0, Dbl.ofInt xpos⟩ alpha } }
  let view_speed := Dbl.ofInt (zpos - Int.tdiv HEIGHT 2) * delta_time * Dbl.ofInt 100
  if ¬ (Dbl.fabs app.camera.view_z ≥ Dbl.ofInt HEIGHT
      ∧ app.camera.view_z * view_speed > Dbl.ofInt 0) then
    { app with camera := { app.camera with view_z := app.camera.view_z + view_speed } }
  else app

end camera

/-! ## Floor and ceiling of `background_bonus.c` -/

namespace background_bonus

/-- The fields of `app->cam` read by `background_bonus.c`. -/
structure t_cam where
  pos : t_vec2
  dir : t_vec2
  plane : t_vec2
  view_z : Dbl
  deriving DecidableEq

/-- The fields of `t_app` read by `background_bonus.c`: the camera and the two colours of
`app->game`, each an `int[3]`. -/
structure t_app where
  cam : t_cam
  c_color : Int × Int × Int
  floor_color : Int × Int × Int
  deriving DecidableEq

/-- A call `mlx_put_pixel(app->image, x, y, colour)`. -/
structure t_pixel where
  x : Int
  y : Int
  colour : Nat
  deriving DecidableEq

/-- The struct of `d->col`: the cell of the pattern table and the offsets inside the
cell, as the external `calculate_grid_coordinates` leaves them. -/
structure t_col where
  i : Int
  j : Int
  dx : Dbl
  dy : Dbl
  deriving DecidableEq

/-- The struct `t_ceiling`. -/
structure t_ceiling where
  x : Int
  y : Int
  wrd : t_vec2
  frac : t_vec2
  col : t_col
  deriving DecidableEq

/-- Function `handle_edge_case`: its return value and the pixels it writes.  The `float`
literals `0.005f` and `0.995f` are the binary32 roundings of the decimals, the `double`
literals the binary64 ones; every arithmetic operation is rounded to binary64. -/
def handle_edge_case (fog : Int × Int × Int → Dbl → Dbl → Dbl → Nat) (HEIGHT : Int)
    (app : t_app) (x y : Int) (frac : t_vec2) : Bool × List t_pixel :=
  let edge_mask := Int.lor (Int.lor (Int.lor
    (bool_to_int (decide (frac.x < Dbl.rnd32 (5 / 1000))))
    (bool_to_int (decide (frac.x > Dbl.rnd32 (995 / 1000)))))
    (bool_to_int (decide (frac.y < Dbl.rnd32 (5 / 1000)))))
    (bool_to_int (decide (frac.y > Dbl.rnd32 (995 / 1000))))
  let r := Dbl.fdiv (Dbl.ofInt HEIGHT) (Dbl.fmul (Dbl.fin 2)
    (Dbl.fsub (Dbl.fsub (Dbl.ofInt (Int.tdiv HEIGHT 2)) app.cam.view_z) (Dbl.ofInt y)))
  if edge_mask = 0 then (false, [])
  else
    let c := app.c_color
    let dark_c : Int × Int × Int :=
      (Dbl.toInt (Dbl.fmul (Dbl.ofInt c.1) (Dbl.rnd (8 / 10))),
        Dbl.toInt (Dbl.fmul (Dbl.ofInt c.2.1) (Dbl.rnd (8 / 10))),
        Dbl.toInt (Dbl.fmul (Dbl.ofInt c.2.2) (Dbl.rnd (8 / 10))))
    (true, [⟨x, y, fog dark_c r (Dbl.rnd (4 / 10)) (Dbl.rnd (2 / 10))⟩])

/-- Function `handle_light_panel`: its return value and the pixels it writes.  A read of
`pattern` outside the table counts as `false`.  The literals are the binary64 roundings of
the decimals and every arithmetic operation is rounded to binary64. -/
def handle_light_panel (fog : Int × Int × Int → Dbl → Dbl → Dbl → Nat) (HEIGHT : Int)
    (a : t_app) (pattern : List Bool) (d : t_ceiling) : Bool × List t_pixel :=
  if ¬ (arr_read pattern (d.col.i * 15 + d.col.j) = some true) then (false, [])
  else
    let r := Dbl.fdiv (Dbl.ofInt HEIGHT) (Dbl.fmul (Dbl.fin 2)
      (Dbl.fmax
        (Dbl.fsub (Dbl.fsub (Dbl.ofInt (Int.tdiv HEIGHT 2)) a.cam.view_z) (Dbl.ofInt d.y))
        (Dbl.rnd (1 / 100))))
    if Dbl.fabs (Dbl.fsub d.col.dx (Dbl.fin (1 / 2))) < Dbl.rnd (3338 / 10000)
        ∧ Dbl.fabs (Dbl.fsub d.col.dy (Dbl.fin (1 / 2))) < Dbl.rnd (3338 / 10000) then
      (true, [⟨d.x, d.y, fog (240, 240, 245) r (Dbl.rnd (8 / 100)) (Dbl.rnd (2 / 10))⟩])
    else
      let max_dist := Dbl.fmax (Dbl.fabs (Dbl.fsub d.col.dx (Dbl.fin (1 / 2))))
        (Dbl.fabs (Dbl.fsub d.col.dy (Dbl.fin (1 / 2))))
      if max_dist < Dbl.rnd (4338 / 10000) then
        let i := Dbl.fsub (Dbl.fin 1)
          (Dbl.fmul (Dbl.fsub max_dist (Dbl.rnd (3338 / 10000))) (Dbl.fin 10))
        if i > Dbl.fin 0 then
          let wht : Int × Int × Int :=
            (a.c_color.1 + Dbl.toInt (Dbl.fmul (Dbl.ofInt (235 - a.c_color.1)) i),
              a.c_color.2.1 + Dbl.toInt (Dbl.fmul (Dbl.ofInt (235 - a.c_color.2.1)) i),
              a.c_color.2.2 + Dbl.toInt (Dbl.fmul (Dbl.ofInt (240 - a.c_color.2.2)) i))
          (true, [⟨d.x, d.y, fog wht r (Dbl.rnd (8 / 100)) (Dbl.rnd (2 / 10))⟩])
        else (false, [])
      else (false, [])

/-- Function `draw_ceiling`: the pixels it writes, column after column.
`calculate_grid_coordinates` is external and fills `d.col` from `d.wrd`.  Every arithmetic
operation is rounded to binary64. -/
def draw_ceiling (fog : Int × Int × Int → Dbl → Dbl → Dbl → Nat)
    (calculate_grid_coordinates : t_vec2 → t_col) (WIDTH HEIGHT : Int) (app : t_app) (y : Int)
    (cam_x_table : Int → Dbl) (light_panel : List Bool) : List t_pixel :=
  let r := Dbl.fdiv (Dbl.ofInt HEIGHT) (Dbl.fmul (Dbl.fin 2)
    (Dbl.fsub (Dbl.fsub (Dbl.ofInt (Int.tdiv HEIGHT 2)) app.cam.view_z) (Dbl.ofInt y)))
  (List.range WIDTH.toNat).flatMap (fun (xn : Nat) =>
    let x : Int := xn
    let c := cam_x_table x
    let wrd : t_vec2 :=
      ⟨Dbl.fadd app.cam.pos.x (Dbl.fmul r (Dbl.fadd app.cam.dir.x (Dbl.fmul app.cam.plane.x c))),
        Dbl.fadd app.cam.pos.y
          (Dbl.fmul r (Dbl.fadd app.cam.dir.y (Dbl.fmul app.cam.plane.y c)))⟩
    let frac : t_vec2 :=
      ⟨Dbl.fsub wrd.x (Dbl.ofInt (Dbl.toInt wrd.x)), Dbl.fsub wrd.y (Dbl.ofInt (Dbl.toInt wrd.y))⟩
    let d : t_ceiling := ⟨x, y, wrd, frac, calculate_grid_coordinates wrd⟩
    let e := handle_edge_case fog HEIGHT app x y d.frac
    if e.1 = true then e.2
    else
      let p := handle_light_panel fog HEIGHT app light_panel d
      if p.1 = true then p.2
      else [⟨x, y, fog app.c_color r (Dbl.rnd (4 / 10)) (Dbl.rnd (2 / 10))⟩])

/-- Function `draw_floor`: the pixels it writes.  `fog` is the external attenuation
function.  Every arithmetic operation is rounded to binary64. -/
def draw_floor (fog : Int × Int × Int → Dbl → Dbl → Dbl → Nat) (WIDTH HEIGHT : Int)
    (app : t_app) (y : Int) : List t_pixel :=
  let h := Dbl.toInt (Dbl.fsub (Dbl.ofInt (Int.tdiv HEIGHT 2)) app.cam.view_z)
  let r := Dbl.fdiv (Dbl.ofInt HEIGHT) (Dbl.fmul (Dbl.fin 2) (Dbl.ofInt (y - h)))
  (List.range WIDTH.toNat).map (fun (x : Nat) =>
    ⟨(x : Int), y, fog app.floor_color r (Dbl.rnd (3 / 10)) (Dbl.rnd (2 / 10))⟩)

/-- Function `ft_draw_background`: the pixels it writes, row after row.  The tables
`cam` and `light_panel` are what the external `init_background_tables` leaves; the
parallax offsets `view_offs_y[1]` and `view_offs_y[2]` are computed and never read.  The
difference `HEIGHT / 2 - view_z` is rounded to binary64 before the conversion to `int`. -/
def ft_draw_background (fog : Int × Int × Int → Dbl → Dbl → Dbl → Nat)
    (calculate_grid_coordinates : t_vec2 → t_col) (WIDTH HEIGHT : Int) (app : t_app)
    (cam : Int → Dbl) (light_panel : List Bool) : List t_pixel :=
  let view_offs_y_0 := Dbl.toInt (Dbl.fsub (Dbl.ofInt (Int.tdiv HEIGHT 2)) app.cam.view_z)
  (List.range HEIGHT.toNat).flatMap (fun (yn : Nat) =>
    if (yn : Int) < view_offs_y_0 then
      draw_ceiling fog calculate_grid_coordinates WIDTH HEIGHT app yn cam light_panel
    else draw_floor fog WIDTH HEIGHT app yn)

end background_bonus

/-! ## The collision resolver, the ray stepper and the camera in binary64 arithmetic

The functions of `collition.c`, the functions `init_step`, `update_ray_position`,
`dda_loop` and `do_dda` of `raycasting_bonus.c` and `update_camera_movement` of `camera.c`
once more, this time with every arithmetic operation on doubles rounded to binary64 as the
compiled program evaluates it.  They are
what the statements about the outcome of a comparison at the last bit speak of. -/

namespace binary64

/-- Function `init_collision` of `collition.c`, the difference and the sum rounded.  The
cast `(int)` is defined when the value is within the range of `int`. -/
def init_collision (COLLISION_RADIUS : Dbl) (c : t_collision) (new_x new_y : Dbl) :
    t_collision :=
  let r := COLLISION_RADIUS
  let c := { c with r := r }
  let c := { c with min_i := Dbl.toInt (Dbl.floor (Dbl.fsub new_y r)) }
  let c := { c with max_i := Dbl.toInt (Dbl.ceil (Dbl.fadd new_y r)) }
  let c := { c with min_j := Dbl.toInt (Dbl.floor (Dbl.fsub new_x r)) }
  { c with max_j := Dbl.toInt (Dbl.ceil (Dbl.fadd new_x r)) }

/-- Function `check_cell_collision` of `collition.c`: the two differences, the three
products and the sum rounded. -/
def check_cell_collision (new_x new_y : Dbl) (c : t_collision) : Int :=
  let closest_x := new_x
  let closest_x :=
    if new_x < Dbl.ofInt c.j then Dbl.ofInt c.j
    else if new_x > Dbl.ofInt (c.j + 1) then Dbl.ofInt (c.j + 1)
    else closest_x
  let closest_y := new_y
  let closest_y :=
    if new_y < Dbl.ofInt c.i then Dbl.ofInt c.i
    else if new_y > Dbl.ofInt (c.i + 1) then Dbl.ofInt (c.i + 1)
    else closest_y
  let dx := Dbl.fsub new_x closest_x
  let dy := Dbl.fsub new_y closest_y
  if Dbl.fadd (Dbl.fmul dx dx) (Dbl.fmul dy dy) < Dbl.fmul c.r c.r then 1 else 0

/-- The inner loop of `collides`, `while (++c.j <= c.max_j)`: `true` when the body reaches
`return (1)`. -/
def collides_row (game : t_game) (new_x new_y : Dbl) (c : t_collision) : Bool :=
  if c.j + 1 ≤ c.max_j then
    if safe_get_tile game (c.j + 1) c.i = some '1' then
      if check_cell_collision new_x new_y { c with j := c.j + 1 } = 1 then true
      else collides_row game new_x new_y { c with j := c.j + 1 }
    else collides_row game new_x new_y { c with j := c.j + 1 }
  else false
termination_by (c.max_j - c.j).toNat
decreasing_by all_goals (simp_wf; omega)

/-- The outer loop of `collides`, `while (++c.i <= c.max_i)`, down to the final
`return (0)`. -/
def collides_rows (game : t_game) (new_x new_y : Dbl) (c : t_collision) : Int :=
  if c.i + 1 ≤ c.max_i then
    if collides_row game new_x new_y { c with i := c.i + 1, j := c.min_j - 1 } = true then 1
    else collides_rows game new_x new_y { c with i := c.i + 1, j := c.min_j - 1 }
  else 0
termination_by (c.max_i - c.i).toNat
decreasing_by all_goals (simp_wf; omega)

/-- Function `collides` of `collition.c`. -/
def collides (COLLISION_RADIUS : Dbl) (game : t_game) (new_x new_y : Dbl) : Int :=
  let c : t_collision := ⟨Dbl.fin 0, 0, 0, 0, 0, 0, 0⟩
  let c := init_collision COLLISION_RADIUS c new_x new_y
  let c := { c with i := c.min_i - 1 }
  collides_rows game new_x new_y c

/-- Function `init_step` of `raycasting_bonus.c`, the difference and the product rounded. -/
def init_step (pos : Dbl) (map : Int) (deltadist raydir : Dbl) : t_vec2 :=
  if raydir < Dbl.fin 0 then
    ⟨Dbl.fin (-1), Dbl.fmul (Dbl.fsub pos (Dbl.ofInt map)) deltadist⟩
  else
    ⟨Dbl.fin 1, Dbl.fmul (Dbl.fsub (Dbl.fadd (Dbl.ofInt map) (Dbl.fin 1)) pos) deltadist⟩

/-- Function `update_ray_position` of `raycasting_bonus.c`, the sums rounded. -/
def update_ray_position (ray : raycasting_bonus.t_ray) : raycasting_bonus.t_ray :=
  if ray.sidedist.x < ray.sidedist.y then
    let ray := { ray with
      sidedist := ⟨Dbl.fadd ray.sidedist.x ray.deltadist.x, ray.sidedist.y⟩ }
    let ray := { ray with map_x := Dbl.toInt (Dbl.fadd (Dbl.ofInt ray.map_x) ray.step.x) }
    { ray with side := 0 }
  else
    let ray := { ray with
      sidedist := ⟨ray.sidedist.x, Dbl.fadd ray.sidedist.y ray.deltadist.y⟩ }
    let ray := { ray with map_y := Dbl.toInt (Dbl.fadd (Dbl.ofInt ray.map_y) ray.step.y) }
    { ray with side := 1 }

/-- Function `dda_loop` of `raycasting_bonus.c`; the first argument bounds the number of
iterations. -/
def dda_loop (check_door_collision : raycasting_bonus.t_app → raycasting_bonus.t_ray → Bool)
    (app : raycasting_bonus.t_app) : Nat → raycasting_bonus.t_ray → Option raycasting_bonus.t_ray
  | 0, _ => none
  | fuel + 1, ray =>
    let ray := update_ray_position ray
    let ray := { ray with hit_tile := safe_get_tile app.game ray.map_x ray.map_y }
    if ray.hit_tile = some '1' then some ray
    else if (ray.hit_tile = some '2' ∨ ray.hit_tile = some '3')
        ∧ check_door_collision app ray = true then some ray
    else dda_loop check_door_collision app fuel ray

/-- Function `do_dda` of `raycasting_bonus.c`, the difference and the quotient of the
perpendicular distance rounded; `fuel` bounds the iterations of `dda_loop`. -/
def do_dda (check_door_collision : raycasting_bonus.t_app → raycasting_bonus.t_ray → Bool)
    (fuel : Nat) (app : raycasting_bonus.t_app) (ray : raycasting_bonus.t_ray) :
    Option raycasting_bonus.t_ray :=
  let steps := init_step app.camera.pos.x ray.map_x ray.deltadist.x ray.raydir.x
  let ray := { ray with step := ⟨steps.x, ray.step.y⟩ }
  let ray := { ray with sidedist := ⟨steps.y, ray.sidedist.y⟩ }
  let steps := init_step app.camera.pos.y ray.map_y ray.deltadist.y ray.raydir.y
  let ray := { ray with step := ⟨ray.step.x, steps.x⟩ }
  let ray := { ray with sidedist := ⟨ray.sidedist.x, steps.y⟩ }
  match dda_loop check_door_collision app fuel ray with
  | none => none
  | some ray =>
    if ray.side = 0 then
      some { ray with
        perpwalldist := Dbl.fdiv (Dbl.fsub ray.sidedist.x ray.deltadist.x) ray.raydir_mod }
    else
      some { ray with
        perpwalldist := Dbl.fdiv (Dbl.fsub ray.sidedist.y ray.deltadist.y) ray.raydir_mod }

/-- Function `update_camera_movement` of `camera.c`, every product and every sum rounded. -/
def update_camera_movement (COLLISION_RADIUS : Dbl) (mlx_is_key_down : keys_t → Bool)
    (app : camera.t_app) (delta_time : Dbl) : camera.t_app :=
  let new_x := app.camera.pos.i
  let new_y := app.camera.pos.j
  let speed := Dbl.fmul app.camera.move_speed delta_time
  let speed :=
    if mlx_is_key_down keys_t.MLX_KEY_LEFT_SHIFT then Dbl.fmul speed (Dbl.ofInt 2) else speed
  let new_x := Dbl.fadd new_x (Dbl.fmul (Dbl.fmul
    (Dbl.ofInt (bool_to_int (mlx_is_key_down keys_t.MLX_KEY_W)
      - bool_to_int (mlx_is_key_down keys_t.MLX_KEY_S))) app.camera.dir.i) speed)
  let new_y := Dbl.fadd new_y (Dbl.fmul (Dbl.fmul
    (Dbl.ofInt (bool_to_int (mlx_is_key_down keys_t.MLX_KEY_W)
      - bool_to_int (mlx_is_key_down keys_t.MLX_KEY_S))) app.camera.dir.j) speed)
  let new_x := Dbl.fadd new_x (Dbl.fmul (Dbl.fmul
    (Dbl.ofInt (bool_to_int (mlx_is_key_down keys_t.MLX_KEY_A)
      - bool_to_int (mlx_is_key_down keys_t.MLX_KEY_D))) app.camera.dir.j) speed)
  let new_y := Dbl.fadd new_y (Dbl.fmul (Dbl.fmul
    (Dbl.ofInt (bool_to_int (mlx_is_key_down keys_t.MLX_KEY_D)
      - bool_to_int (mlx_is_key_down keys_t.MLX_KEY_A))) app.camera.dir.i) speed)
  if collides COLLISION_RADIUS app.game new_x new_y = 0 then
    { app with camera := { app.camera with
        pos := { app.camera.pos with
          i := new_x
          j := new_y } } }
  else app

end binary64

/-! ## Quantities the statements speak of -/

/-- The length of the longest row of the map. -/
def max_row_len (g : t_game) : Int := ((g.map.map List.length).foldr max 0 : Nat)

/-- The ray that `raycasting_bonus.do_dda` hands to `dda_loop`: the step and the initial
side distance of both axes set from `init_step`. -/
def raycasting_bonus.do_dda_start (app : raycasting_bonus.t_app) (ray : raycasting_bonus.t_ray) :
    raycasting_bonus.t_ray :=
  { ray with
    step := ⟨(raycasting_bonus.init_step app.camera.pos.x ray.map_x ray.deltadist.x
        ray.raydir.x).x,
      (raycasting_bonus.init_step app.camera.pos.y ray.map_y ray.deltadist.y ray.raydir.y).x⟩
    sidedist := ⟨(raycasting_bonus.init_step app.camera.pos.x ray.map_x ray.deltadist.x
        ray.raydir.x).y,
      (raycasting_bonus.init_step app.camera.pos.y ray.map_y ray.deltadist.y ray.raydir.y).y⟩ }

/-- The last statement of `raycasting_bonus.do_dda`: the perpendicular distance taken on
the axis of the hit. -/
def raycasting_bonus.do_dda_finish (ray : raycasting_bonus.t_ray) : raycasting_bonus.t_ray :=
  if ray.side = 0 then
    { ray with perpwalldist := (ray.sidedist.x - ray.deltadist.x) / ray.raydir_mod }
  else
    { ray with perpwalldist := (ray.sidedist.y - ray.deltadist.y) / ray.raydir_mod }

/-- The camera-plane offset `2 * x / WIDTH - 1` of screen column `x`. -/
def camx (WIDTH x : Int) : ℚ := ((2 * x : Int) : ℚ) / (WIDTH : ℚ) - 1

/-- A camera with finite facing `(dx, dy)` and plane `(px, py)`, both multiplied by `k`. -/
def scaled_camera (pos : t_vec2) (dx dy px py k : ℚ) : raycasting_bonus.t_camera :=
  ⟨pos, ⟨Dbl.fin (k * dx), Dbl.fin (k * dy)⟩, ⟨Dbl.fin (k * px), Dbl.fin (k * py)⟩⟩

/-- The clamp of `v` onto the interval `[lo, lo + 1]`. -/
def clampq (v : ℚ) (lo : Int) : ℚ := max (lo : ℚ) (min v ((lo : ℚ) + 1))

/-- The candidate position `(new_x, new_y)` that `camera.update_camera_movement` hands to
`collides`: the old position plus the displacement of the frame. -/
def camera.candidate (mlx_is_key_down : keys_t → Bool) (app : camera.t_app) (delta_time : Dbl) :
    Dbl × Dbl :=
  let new_x := app.camera.pos.i
  let new_y := app.camera.pos.j
  let speed := app.camera.move_speed * delta_time
  let speed := if mlx_is_key_down keys_t.MLX_KEY_LEFT_SHIFT then speed * Dbl.ofInt 2 else speed
  let new_x := new_x + Dbl.ofInt (bool_to_int (mlx_is_key_down keys_t.MLX_KEY_W)
      - bool_to_int (mlx_is_key_down keys_t.MLX_KEY_S)) * app.camera.dir.i * speed
  let new_y := new_y + Dbl.ofInt (bool_to_int (mlx_is_key_down keys_t.MLX_KEY_W)
      - bool_to_int (mlx_is_key_down keys_t.MLX_KEY_S)) * app.camera.dir.j * speed
  let new_x := new_x + Dbl.ofInt (bool_to_int (mlx_is_key_down keys_t.MLX_KEY_A)
      - bool_to_int (mlx_is_key_down keys_t.MLX_KEY_D)) * app.camera.dir.j * speed
  let new_y := new_y + Dbl.ofInt (bool_to_int (mlx_is_key_down keys_t.MLX_KEY_D)
      - bool_to_int (mlx_is_key_down keys_t.MLX_KEY_A)) * app.camera.dir.i * speed
  (new_x, new_y)

/-- The delta distance of one axis as `init_ray` leaves it when the quotient does not
overflow: `+inf` for a zero component of the ray direction, a non-negative double of at most
`2 ^ 900` otherwise. -/
def binary64.delta_ok (raydir deltadist : Dbl) : Prop :=
  ∃ q : ℚ, raydir = Dbl.fin q ∧
    ((q = 0 ∧ deltadist = Dbl.pinf) ∨
      (q ≠ 0 ∧ ∃ b : ℚ, deltadist = Dbl.fin b ∧ 0 ≤ b ∧ b ≤ 2 ^ 900 ∧ Dbl.r64 b = b))

/-- The state of one axis in `binary64.dda_loop` after fewer than `A` advances: either the
delta distance and the side distance are both `+inf`, or the delta distance is a
non-negative double of at most `2 ^ 900` and the side distance is finite, non-negative and
at most `A * 2 ^ 900`. -/
def binary64.axis_ok (deltadist sidedist : Dbl) (A : Int) : Prop :=
  (deltadist = Dbl.pinf ∧ sidedist = Dbl.pinf) ∨
    ∃ b a : ℚ, deltadist = Dbl.fin b ∧ sidedist = Dbl.fin a ∧ 0 ≤ b ∧ b ≤ 2 ^ 900 ∧
      Dbl.r64 b = b ∧ 0 ≤ a ∧ a ≤ (A : ℚ) * 2 ^ 900

/-- The state of the axis on which `binary64.dda_loop` stops: the side distance is finite
and not below the finite, non-negative delta distance. -/
def binary64.axis_hit (deltadist sidedist : Dbl) : Prop :=
  ∃ b a : ℚ, deltadist = Dbl.fin b ∧ sidedist = Dbl.fin a ∧ 0 ≤ b ∧ b ≤ a ∧ a ≤ 2 ^ 1000

/-- The candidate position that `binary64.update_camera_movement` hands to `collides`: the
old position plus the displacement of the frame, every product and every sum rounded. -/
def binary64.candidate (mlx_is_key_down : keys_t → Bool) (app : camera.t_app)
    (delta_time : Dbl) : Dbl × Dbl :=
  let new_x := app.camera.pos.i
  let new_y := app.camera.pos.j
  let speed := Dbl.fmul app.camera.move_speed delta_time
  let speed :=
    if mlx_is_key_down keys_t.MLX_KEY_LEFT_SHIFT then Dbl.fmul speed (Dbl.ofInt 2) else speed
  let new_x := Dbl.fadd new_x (Dbl.fmul (Dbl.fmul
    (Dbl.ofInt (bool_to_int (mlx_is_key_down keys_t.MLX_KEY_W)
      - bool_to_int (mlx_is_key_down keys_t.MLX_KEY_S))) app.camera.dir.i) speed)
  let new_y := Dbl.fadd new_y (Dbl.fmul (Dbl.fmul
    (Dbl.ofInt (bool_to_int (mlx_is_key_down keys_t.MLX_KEY_W)
      - bool_to_int (mlx_is_key_down keys_t.MLX_KEY_S))) app.camera.dir.j) speed)
  let new_x := Dbl.fadd new_x (Dbl.fmul (Dbl.fmul
    (Dbl.ofInt (bool_to_int (mlx_is_key_down keys_t.MLX_KEY_A)
      - bool_to_int (mlx_is_key_down keys_t.MLX_KEY_D))) app.camera.dir.j) speed)
  let new_y := Dbl.fadd new_y (Dbl.fmul (Dbl.fmul
    (Dbl.ofInt (bool_to_int (mlx_is_key_down keys_t.MLX_KEY_D)
      - bool_to_int (mlx_is_key_down keys_t.MLX_KEY_A))) app.camera.dir.i) speed)
  (new_x, new_y)

/-- The speed of the frame in `camera.update_camera_movement`: `move_speed * delta_time`,
doubled when the fast-move key is held. -/
def camera.frame_speed (mlx_is_key_down : keys_t → Bool) (app : camera.t_app)
    (delta_time : Dbl) : Dbl :=
  if mlx_is_key_down keys_t.MLX_KEY_LEFT_SHIFT then
    app.camera.move_speed * delta_time * Dbl.ofInt 2
  else app.camera.move_speed * delta_time

/-- The segment from `(x0, y0)` to `(x1, y1)` has a point in the closed unit square of a
cell that `safe_get_tile` reports as a wall. -/
def segment_meets_wall (g : t_game) (x0 y0 x1 y1 : ℚ) : Prop :=
  ∃ (t : ℚ) (j i : Int), 0 ≤ t ∧ t ≤ 1 ∧ safe_get_tile g j i = some '1' ∧
    (j : ℚ) ≤ x0 + t * (x1 - x0) ∧ x0 + t * (x1 - x0) ≤ (j : ℚ) + 1 ∧
    (i : ℚ) ≤ y0 + t * (y1 - y0) ∧ y0 + t * (y1 - y0) ≤ (i : ℚ) + 1

/-- The view-shift delta of a frame, `(zpos - HEIGHT / 2) * delta_time * 100`, for a finite
`delta_time` `t`. -/
def view_shift_delta (HEIGHT zpos : Int) (t : ℚ) : ℚ :=
  ((zpos - Int.tdiv HEIGHT 2 : Int) : ℚ) * t * 100

/-- The fields of a ray of `raycasting.c` that `init_ray` and the first statements of
`do_dda` assign: the cell, the ray direction and its modulus, the delta distances, the
steps and the side distances.  The fields `s` and `k` of the vectors, which `raycasting.c`
never touches, are left out. -/
def raycasting.ray_core (r : raycasting.t_ray) :
    (Int × Int) × (Dbl × Dbl × Dbl) × (Dbl × Dbl) × (Dbl × Dbl) × (Dbl × Dbl) :=
  ((r.map_x, r.map_y), (r.raydir.i, r.raydir.j, r.raydir_mod), (r.deltadist.i, r.deltadist.j),
    (r.step.i, r.step.j), (r.sidedist.i, r.sidedist.j))

/-- The results of a cast of `raycasting.c`: the fields of `ray_core` after the cast, the
hit side and the perpendicular wall distance. -/
def raycasting.ray_result (r : raycasting.t_ray) :
    ((Int × Int) × (Dbl × Dbl × Dbl) × (Dbl × Dbl) × (Dbl × Dbl) × (Dbl × Dbl)) × Int × Dbl :=
  (raycasting.ray_core r, r.side, r.perpwalldist)

/-- One pass through the body of the loop of `raycasting_bonus.dda_loop`, up to its tests:
`update_ray_position`, then the tile of the new cell stored in `hit_tile`. -/
def raycasting_bonus.dda_advance (app : raycasting_bonus.t_app) (ray : raycasting_bonus.t_ray) :
    raycasting_bonus.t_ray :=
  let ray := raycasting_bonus.update_ray_position ray
  { ray with hit_tile := safe_get_tile app.game ray.map_x ray.map_y }

/-- The condition under which `raycasting_bonus.dda_loop` reaches one of its two `break`s:
the tile is `'1'`, or it is a door tile and `check_door_collision` answers true. -/
def raycasting_bonus.dda_stops (check_door_collision : raycasting_bonus.t_app →
    raycasting_bonus.t_ray → Bool) (app : raycasting_bonus.t_app)
    (ray : raycasting_bonus.t_ray) : Prop :=
  ray.hit_tile = some '1' ∨
    ((ray.hit_tile = some '2' ∨ ray.hit_tile = some '3') ∧ check_door_collision app ray = true)

instance (check_door_collision : raycasting_bonus.t_app → raycasting_bonus.t_ray → Bool)
    (app : raycasting_bonus.t_app) (ray : raycasting_bonus.t_ray) :
    Decidable (raycasting_bonus.dda_stops check_door_collision app ray) :=
  inferInstanceAs (Decidable (_ ∨ _))

/-- The direct 2 x 2 rotation-matrix application that the specification describes, written
from its words for comparison with `plane_rotation`: the vector `(i, j)` of `p` turned by
the angle `alpha`, the scalar and `k` components left as they are. -/
def rotation_matrix_2x2 (cos sin : Dbl → Dbl) (p : t_quaternion) (alpha : Dbl) : t_quaternion :=
  ⟨p.s, p.i * cos alpha - p.j * sin alpha, p.i * sin alpha + p.j * cos alpha, p.k⟩

/-- The scale `r` that `background_bonus.draw_ceiling` computes for row `y`. -/
def background_bonus.ceiling_scale (HEIGHT : Int) (app : background_bonus.t_app) (y : Int) :
    Dbl :=
  Dbl.fdiv (Dbl.ofInt HEIGHT) (Dbl.fmul (Dbl.fin 2)
    (Dbl.fsub (Dbl.fsub (Dbl.ofInt (Int.tdiv HEIGHT 2)) app.cam.view_z) (Dbl.ofInt y)))

/-- The record `d` that `background_bonus.draw_ceiling` fills for column `x` of row `y`. -/
def background_bonus.ceiling_cell (calculate_grid_coordinates : t_vec2 → background_bonus.t_col)
    (HEIGHT : Int) (app : background_bonus.t_app) (y : Int) (cam_x_table : Int → Dbl)
    (x : Int) : background_bonus.t_ceiling :=
  let r := background_bonus.ceiling_scale HEIGHT app y
  let c := cam_x_table x
  let wrd : t_vec2 :=
    ⟨Dbl.fadd app.cam.pos.x (Dbl.fmul r (Dbl.fadd app.cam.dir.x (Dbl.fmul app.cam.plane.x c))),
      Dbl.fadd app.cam.pos.y (Dbl.fmul r (Dbl.fadd app.cam.dir.y (Dbl.fmul app.cam.plane.y c)))⟩
  let frac : t_vec2 :=
    ⟨Dbl.fsub wrd.x (Dbl.ofInt (Dbl.toInt wrd.x)), Dbl.fsub wrd.y (Dbl.ofInt (Dbl.toInt wrd.y))⟩
  ⟨x, y, wrd, frac, calculate_grid_coordinates wrd⟩

/-- The edge test as the specification words it, the logical OR of the four boundary
predicates, for comparison with the bitmask of `background_bonus.handle_edge_case`; the
bounds are the `float` literals `0.005f` and `0.995f` of the source. -/
def background_bonus.near_edge (frac : t_vec2) : Prop :=
  frac.x < Dbl.rnd32 (5 / 1000) ∨ frac.x > Dbl.rnd32 (995 / 1000) ∨
    frac.y < Dbl.rnd32 (5 / 1000) ∨ frac.y > Dbl.rnd32 (995 / 1000)

instance (frac : t_vec2) : Decidable (background_bonus.near_edge frac) :=
  inferInstanceAs (Decidable (_ ∨ _))

/-- The distance `max_dist` of `background_bonus.handle_light_panel`: the larger of
`fabs(dx - 0.5)` and `fabs(dy - 0.5)`, each difference rounded to binary64. -/
def background_bonus.panel_dist (d : background_bonus.t_ceiling) : Dbl :=
  Dbl.fmax (Dbl.fabs (Dbl.fsub d.col.dx (Dbl.fin (1 / 2))))
    (Dbl.fabs (Dbl.fsub d.col.dy (Dbl.fin (1 / 2))))

/-- The blend factor `i = 1.0 - (max_dist - 0.3338) * 10.0` of
`background_bonus.handle_light_panel`, every operation rounded to binary64. -/
def background_bonus.panel_blend (d : background_bonus.t_ceiling) : Dbl :=
  Dbl.fsub (Dbl.fin 1)
    (Dbl.fmul (Dbl.fsub (background_bonus.panel_dist d) (Dbl.rnd (3338 / 10000))) (Dbl.fin 10))

/-- The scale `r` that `background_bonus.handle_light_panel` passes to `fog`. -/
def background_bonus.panel_scale (HEIGHT : Int) (a : background_bonus.t_app)
    (d : background_bonus.t_ceiling) : Dbl :=
  Dbl.fdiv (Dbl.ofInt HEIGHT) (Dbl.fmul (Dbl.fin 2)
    (Dbl.fmax
      (Dbl.fsub (Dbl.fsub (Dbl.ofInt (Int.tdiv HEIGHT 2)) a.cam.view_z) (Dbl.ofInt d.y))
      (Dbl.rnd (1 / 100))))

/-- The fields of a ray of `raycasting_bonus.c` that correspond to `raycasting.ray_core`:
the cell, the ray direction and its modulus, the delta distances, the steps and the side
distances. -/
def raycasting_bonus.ray_core (r : raycasting_bonus.t_ray) :
    (Int × Int) × (Dbl × Dbl × Dbl) × (Dbl × Dbl) × (Dbl × Dbl) × (Dbl × Dbl) :=
  ((r.map_x, r.map_y), (r.raydir.x, r.raydir.y, r.raydir_mod), (r.deltadist.x, r.deltadist.y),
    (r.step.x, r.step.y), (r.sidedist.x, r.sidedist.y))

/-- The results of a cast of `raycasting_bonus.c`, laid out as `raycasting.ray_result`:
the fields of `ray_core` after the cast, the hit side and the perpendicular wall distance. -/
def raycasting_bonus.ray_result (r : raycasting_bonus.t_ray) :
    ((Int × Int) × (Dbl × Dbl × Dbl) × (Dbl × Dbl) × (Dbl × Dbl) × (Dbl × Dbl)) × Int × Dbl :=
  (raycasting_bonus.ray_core r, r.side, r.perpwalldist)

/-- The number of advances a ray with steps `sx`, `sy` can make from cell `(x, y)` while
it stays inside the box `[0, cols) x [0, rows)`, plus one. -/
def togo (cols rows sx sy x y : Int) : Int :=
  (if sx = 1 then cols - x else x + 1) + (if sy = 1 then rows - y else y + 1) - 1

/-! ## Sample inputs -/

/-- A square root that is exact on the squares of rationals: the root of the numerator
over the root of the denominator. -/
def sqrt_exact : Dbl → Dbl
  | Dbl.fin q => if q < 0 then Dbl.nan else Dbl.fin ((Nat.sqrt q.num.toNat : ℚ) / (Nat.sqrt q.den : ℚ))
  | Dbl.pinf => Dbl.pinf
  | _ => Dbl.nan

/-- An `n` x `n` map of open cells. -/
def open_game (n : Nat) : t_game := ⟨List.replicate n (List.replicate n '0'), n⟩

/-- A 5 x 5 map of open cells. -/
def open5 : t_game := open_game 5

/-- A camera at `(0.5, 0.5)` facing `(3, 4)`, with plane `0.66 * (-4, 3)`. -/
def cam34 : raycasting_bonus.t_camera :=
  ⟨⟨Dbl.fin (1 / 2), Dbl.fin (1 / 2)⟩, ⟨Dbl.fin 3, Dbl.fin 4⟩,
    ⟨Dbl.fin (-66 / 25), Dbl.fin (99 / 50)⟩⟩

/-- The camera of the 5 x 5 scenario: at `(2.5, 2.5)`, facing `(1, 0)`, plane `(0, 0.66)`. -/
def cam5 : raycasting_bonus.t_camera :=
  ⟨⟨Dbl.fin (5 / 2), Dbl.fin (5 / 2)⟩, ⟨Dbl.fin 1, Dbl.fin 0⟩, ⟨Dbl.fin 0, Dbl.fin (33 / 50)⟩⟩

/-- A ray record before `init_ray`: nothing meaningful in it. -/
def blank_ray : raycasting_bonus.t_ray :=
  ⟨⟨Dbl.nan, Dbl.nan⟩, 0, 0, Dbl.nan, ⟨Dbl.nan, Dbl.nan⟩, ⟨Dbl.nan, Dbl.nan⟩,
    ⟨Dbl.nan, Dbl.nan⟩, 0, none, Dbl.nan⟩

/-- A door test that never reports a door as solid. -/
def no_door : raycasting_bonus.t_app → raycasting_bonus.t_ray → Bool := fun _ _ => false

/-- A 3 x 3 map with a single wall, in cell `(1, 1)`. -/
def pillar_game : t_game := ⟨[['0', '0', '0'], ['0', '1', '0'], ['0', '0', '0']], 3⟩

/-- The libm `cos` at an angle whose cosine is `3/5` (a stand-in exact at that angle). -/
def cos_sample : Dbl → Dbl := fun _ => Dbl.fin (3 / 5)

/-- The libm `sin` at the same angle, of sine `4/5`. -/
def sin_sample : Dbl → Dbl := fun _ => Dbl.fin (4 / 5)

/-- A key-state snapshot with the forward key `W` alone held. -/
def keys_w : keys_t → Bool := fun k => decide (k = keys_t.MLX_KEY_W)

/-- A key-state snapshot with the strafe key `A` alone held. -/
def keys_a : keys_t → Bool := fun k => decide (k = keys_t.MLX_KEY_A)

/-- A key-state snapshot with the strafe key `D` alone held. -/
def keys_d : keys_t → Bool := fun k => decide (k = keys_t.MLX_KEY_D)

/-- A 3 x 7 map, open but for a wall in column 2 of the middle row. -/
def corridor_game : t_game :=
  ⟨[['0', '0', '0', '0', '0', '0', '0'], ['0', '0', '1', '0', '0', '0', '0'],
    ['0', '0', '0', '0', '0', '0', '0']], 3⟩

/-- A camera of `camera.c` in the corridor map at `(0.5, 1.5)`, facing `(1, 0)`, with
`move_speed` 4. -/
def corridor_app : camera.t_app :=
  ⟨⟨⟨Dbl.fin 0, Dbl.fin (1 / 2), Dbl.fin (3 / 2), Dbl.fin 0⟩,
    ⟨Dbl.fin 0, Dbl.fin 1, Dbl.fin 0, Dbl.fin 0⟩,
    ⟨Dbl.fin 0, Dbl.fin 0, Dbl.fin (33 / 50), Dbl.fin 0⟩, Dbl.fin 0, Dbl.fin 4⟩, corridor_game⟩

/-- A camera of `camera.c` with finite facing `(1, 0)` and plane `(0, 0.66)`, view shift 0,
on the 5 x 5 open map. -/
def level_app : camera.t_app :=
  ⟨⟨⟨Dbl.fin 0, Dbl.fin (5 / 2), Dbl.fin (5 / 2), Dbl.fin 0⟩,
    ⟨Dbl.fin 0, Dbl.fin 1, Dbl.fin 0, Dbl.fin 0⟩,
    ⟨Dbl.fin 0, Dbl.fin 0, Dbl.fin (33 / 50), Dbl.fin 0⟩, Dbl.fin 0, Dbl.fin 4⟩, open5⟩

/-- An attenuation function that ignores its arguments. -/
def fog_sample : Int × Int × Int → Dbl → Dbl → Dbl → Nat := fun _ _ _ _ => 0

/-- A stand-in for `calculate_grid_coordinates`: cell `(0, 0)`, centre of the cell. -/
def grid_sample : t_vec2 → background_bonus.t_col :=
  fun _ => ⟨0, 0, Dbl.fin (1 / 2), Dbl.fin (1 / 2)⟩

/-- A state of `background_bonus.c`: camera at `(2.5, 2.5)` facing `(1, 0)`, view shift 0. -/
def level_background : background_bonus.t_app :=
  ⟨⟨⟨Dbl.fin (5 / 2), Dbl.fin (5 / 2)⟩, ⟨Dbl.fin 1, Dbl.fin 0⟩, ⟨Dbl.fin 0, Dbl.fin (33 / 50)⟩,
    Dbl.fin 0⟩, (100, 100, 100), (50, 50, 50)⟩

/-- A state of `raycasting.c`: camera at `(2.5, 2.5)` facing `(1, 0)`, plane `(0, 0.66)`, on
the 5 x 5 open map. -/
def cast_app : raycasting.t_app :=
  ⟨⟨⟨Dbl.fin 0, Dbl.fin (5 / 2), Dbl.fin (5 / 2), Dbl.fin 0⟩,
    ⟨Dbl.fin 0, Dbl.fin 1, Dbl.fin 0, Dbl.fin 0⟩,
    ⟨Dbl.fin 0, Dbl.fin 0, Dbl.fin (33 / 50), Dbl.fin 0⟩⟩, open5⟩

/-- A ray record of `raycasting.c` before `init_ray`, holding `NaN` and zeros. -/
def stale_ray_nan : raycasting.t_ray :=
  ⟨⟨Dbl.nan, Dbl.nan, Dbl.nan, Dbl.nan⟩, 0, 0, Dbl.nan, ⟨Dbl.nan, Dbl.nan, Dbl.nan, Dbl.nan⟩,
    ⟨Dbl.nan, Dbl.nan, Dbl.nan, Dbl.nan⟩, ⟨Dbl.nan, Dbl.nan, Dbl.nan, Dbl.nan⟩, 0, Dbl.nan⟩

/-- A ray record of `raycasting.c` left over from another cast: cell `(4, 1)`, side 1 and
finite numbers in every field. -/
def stale_ray_used : raycasting.t_ray :=
  ⟨⟨Dbl.fin 7, Dbl.fin (-1), Dbl.fin 2, Dbl.fin 7⟩, 4, 1, Dbl.fin 3,
    ⟨Dbl.fin 7, Dbl.fin 3, Dbl.fin 1, Dbl.fin 7⟩, ⟨Dbl.fin 7, Dbl.fin (-1), Dbl.fin 1, Dbl.fin 7⟩,
    ⟨Dbl.fin 7, Dbl.fin 9, Dbl.fin 8, Dbl.fin 7⟩, 1, Dbl.fin 6⟩

/-- A camera of `raycasting_bonus.c` at `(-0.5, -0.5)`, facing `(1, 0)`, plane `(0, 0.66)`. -/
def cam_neg : raycasting_bonus.t_camera :=
  ⟨⟨Dbl.fin (-1 / 2), Dbl.fin (-1 / 2)⟩, ⟨Dbl.fin 1, Dbl.fin 0⟩, ⟨Dbl.fin 0, Dbl.fin (33 / 50)⟩⟩

/-- A camera of `raycasting.c` at `(-0.5, -0.5)`, facing `(1, 0)`, plane `(0, 0.66)`. -/
def cast_cam_neg : raycasting.t_camera :=
  ⟨⟨Dbl.fin 0, Dbl.fin (-1 / 2), Dbl.fin (-1 / 2), Dbl.fin 0⟩,
    ⟨Dbl.fin 0, Dbl.fin 1, Dbl.fin 0, Dbl.fin 0⟩,
    ⟨Dbl.fin 0, Dbl.fin 0, Dbl.fin (33 / 50), Dbl.fin 0⟩⟩

/-- A ray of `raycasting_bonus.c` in cell `(1, 1)` whose two side distances are equal (a ray
through a grid corner): steps `(1, 1)`, delta distances `(2, 2)`, side distances `(1, 1)`. -/
def corner_ray : raycasting_bonus.t_ray :=
  ⟨⟨Dbl.fin 1, Dbl.fin 1⟩, 1, 1, Dbl.fin 2, ⟨Dbl.fin 2, Dbl.fin 2⟩, ⟨Dbl.fin 1, Dbl.fin 1⟩,
    ⟨Dbl.fin 1, Dbl.fin 1⟩, 0, none, Dbl.nan⟩

/-- The ray `corner_ray` as a record of `raycasting.c`. -/
def cast_corner_ray : raycasting.t_ray :=
  ⟨⟨Dbl.nan, Dbl.fin 1, Dbl.fin 1, Dbl.nan⟩, 1, 1, Dbl.fin 2,
    ⟨Dbl.nan, Dbl.fin 2, Dbl.fin 2, Dbl.nan⟩, ⟨Dbl.nan, Dbl.fin 1, Dbl.fin 1, Dbl.nan⟩,
    ⟨Dbl.nan, Dbl.fin 1, Dbl.fin 1, Dbl.nan⟩, 0, Dbl.nan⟩

/-- A ray of `raycasting_bonus.c` that starts in the wall cell `(1, 1)` of `pillar_game` and
runs along `+x`: steps `(1, 1)`, delta distances `(1, +inf)`, side distances `(0.5, +inf)`. -/
def wall_start_ray : raycasting_bonus.t_ray :=
  ⟨⟨Dbl.fin 1, Dbl.fin 0⟩, 1, 1, Dbl.fin 1, ⟨Dbl.fin 1, Dbl.pinf⟩, ⟨Dbl.fin 1, Dbl.fin 1⟩,
    ⟨Dbl.fin (1 / 2), Dbl.pinf⟩, 0, none, Dbl.nan⟩

/-- A state of `raycasting_bonus.c` on `pillar_game`, the camera at `(1.5, 1.5)` inside the
wall cell, facing `(1, 0)`. -/
def pillar_app : raycasting_bonus.t_app :=
  ⟨⟨⟨Dbl.fin (3 / 2), Dbl.fin (3 / 2)⟩, ⟨Dbl.fin 1, Dbl.fin 0⟩, ⟨Dbl.fin 0, Dbl.fin (33 / 50)⟩⟩,
    pillar_game⟩

/-- A stand-in for the libm `cos`, a table that agrees with the double-angle identities:
the angle 2 is twice the angle 1, whose cosine is `3/5` and whose sine is `4/5`. -/
def cos_pyth : Dbl → Dbl
  | Dbl.fin q =>
    if q = 1 ∨ q = -1 then Dbl.fin (3 / 5)
    else if q = 2 ∨ q = -2 then Dbl.fin (-7 / 25) else Dbl.fin 1
  | _ => Dbl.nan

/-- The stand-in for the libm `sin` that goes with `cos_pyth`. -/
def sin_pyth : Dbl → Dbl
  | Dbl.fin q =>
    if q = 1 then Dbl.fin (4 / 5)
    else if q = -1 then Dbl.fin (-4 / 5)
    else if q = 2 then Dbl.fin (24 / 25)
    else if q = -2 then Dbl.fin (-24 / 25) else Dbl.fin 0
  | _ => Dbl.nan

/-- An attenuation function that returns the first channel of the colour. -/
def fog_channel : Int × Int × Int → Dbl → Dbl → Dbl → Nat := fun c _ _ _ => c.1.toNat

/-- A state of `background_bonus.c`: camera at `(1 + 1068373119 / 2 ^ 30, 2.5)` facing
`(1, 0)`, plane `(0, 0.5)`, view shift 0; the ceiling point one unit ahead has the offset
`frac.x = 1068373119 / 2 ^ 30 = 0.99500000383...`, a double between the decimal `0.995` and
the `float` literal `0.995f`. -/
def edge_background : background_bonus.t_app :=
  ⟨⟨⟨Dbl.fin (2142114943 / 2 ^ 30), Dbl.fin (5 / 2)⟩, ⟨Dbl.fin 1, Dbl.fin 0⟩,
    ⟨Dbl.fin 0, Dbl.fin (1 / 2)⟩, Dbl.fin 0⟩, (100, 100, 100), (50, 50, 50)⟩

/-- A table of camera-plane abscissas: 0 for every column but column 1, where it is 1. -/
def edge_cam_table : Int → Dbl := fun x => if x = 1 then Dbl.fin 1 else Dbl.fin 0

/-- A ceiling record whose cell offsets are `(0.5 + 0.3338, 0.5)`, the first a double: the
point lies on the inner boundary of the blend band of a light panel, at distance `0.3338`
(the `double` literal) from the centre of the cell `(0, 0)`. -/
def band_cell : background_bonus.t_ceiling :=
  ⟨3, 7, ⟨Dbl.fin (7 / 2), Dbl.fin (5 / 2)⟩, ⟨Dbl.fin (1 / 2), Dbl.fin (1 / 2)⟩,
    ⟨0, 0, Dbl.fin (7510202738603039 / 2 ^ 53), Dbl.fin (1 / 2)⟩⟩

/-- A camera of `camera.c` in the corridor map at `(1.5, 1.5)` whose facing vector `(2, 0)`
has length 2 and whose `move_speed` is the double `2 ^ 1023`: one frame forward overflows
the abscissa of the candidate. -/
def runaway_app : camera.t_app :=
  ⟨⟨⟨Dbl.fin 0, Dbl.fin (3 / 2), Dbl.fin (3 / 2), Dbl.fin 0⟩,
    ⟨Dbl.fin 0, Dbl.fin 2, Dbl.fin 0, Dbl.fin 0⟩,
    ⟨Dbl.fin 0, Dbl.fin 0, Dbl.fin (33 / 50), Dbl.fin 0⟩, Dbl.fin 0, Dbl.fin (2 ^ 1023)⟩,
    corridor_game⟩

/-- A camera of `raycasting_bonus.c` at `(2 ^ -60, 0.5)`, off the grid lines, facing
`(-1, 0)`, with the plane `(0, 0.66)`. -/
def cam_near_line : raycasting_bonus.t_camera :=
  ⟨⟨Dbl.fin (1 / 2 ^ 60), Dbl.fin (1 / 2)⟩, ⟨Dbl.fin (-1), Dbl.fin 0⟩,
    ⟨Dbl.fin 0, Dbl.fin (33 / 50)⟩⟩

/-- A door test that reports every door as solid. -/
def all_doors : raycasting_bonus.t_app → raycasting_bonus.t_ray → Bool := fun _ _ => true

/-- A map with rows of different lengths. -/
def ragged_game : t_game := ⟨[['1', '0', '1'], ['1']], 2⟩

/-! ## Arithmetic of finite doubles -/

namespace Dbl

@[simp] theorem fin_add_fin (a b : ℚ) : fin a + fin b = fin (a + b) := rfl
@[simp] theorem fin_sub_fin (a b : ℚ) : fin a - fin b = fin (a - b) := by
  show add (fin a) (neg (fin b)) = _
  simp [add, neg, sub_eq_add_neg]
@[simp] theorem fin_mul_fin (a b : ℚ) : fin a * fin b = fin (a * b) := rfl
@[simp] theorem neg_fin (a : ℚ) : -fin a = fin (-a) := rfl
@[simp] theorem fabs_fin (a : ℚ) : fabs (fin a) = fin |a| := rfl
@[simp] theorem fabs_pinf : fabs pinf = pinf := rfl
@[simp] theorem ofInt_eq (n : Int) : ofInt n = fin (n : ℚ) := rfl
@[simp] theorem pow2_fin (a : ℚ) : pow2 (fin a) = fin (a * a) := rfl
@[simp] theorem fin_lt_fin (a b : ℚ) : (fin a < fin b) ↔ a < b := by
  show lt (fin a) (fin b) = true ↔ _
  simp [lt]
@[simp] theorem fin_lt_pinf (a : ℚ) : (fin a < pinf) ↔ True := by
  show lt (fin a) pinf = true ↔ _
  simp [lt]
@[simp] theorem not_pinf_lt (d : Dbl) : (pinf < d) ↔ False := by
  show lt pinf d = true ↔ _
  cases d <;> simp [lt]
@[simp] theorem not_nan_lt (d : Dbl) : (nan < d) ↔ False := by
  show lt nan d = true ↔ _
  cases d <;> simp [lt]
@[simp] theorem not_lt_nan (d : Dbl) : (d < nan) ↔ False := by
  show lt d nan = true ↔ _
  cases d <;> simp [lt]
theorem fin_div_fin (a b : ℚ) (hb : b ≠ 0) : fin a / fin b = fin (a / b) := by
  show div (fin a) (fin b) = _
  simp [div, hb]
theorem fin_div_zero (a : ℚ) (ha : 0 < a) : fin a / fin 0 = pinf := by
  show div (fin a) (fin 0) = _
  simp [div, ha, ha.ne.symm]
theorem fin_mul_pinf (a : ℚ) (ha : 0 < a) : fin a * pinf = pinf := by
  show mul (fin a) pinf = _
  simp [mul, inf_times, ha, ha.ne.symm]
@[simp] theorem pinf_add_fin (a : ℚ) : pinf + fin a = pinf := rfl
@[simp] theorem toInt_int (n : Int) : toInt (fin (n : ℚ)) = n := by
  simp only [toInt]
  split <;> simp
theorem toInt_fin_nonneg (a : ℚ) (ha : 0 ≤ a) : toInt (fin a) = ⌊a⌋ := by
  simp [toInt, ha]

end Dbl

/-! ## Rounding to binary64 -/

namespace Dbl

theorem round_even_sub_le (n : ℚ) : |(round_even n : ℚ) - n| ≤ 1 / 2 := by
  have h1 := Int.floor_le n
  have h2 := Int.lt_floor_add_one n
  unfold round_even
  split_ifs with a b c
  · rw [abs_le]; constructor <;> linarith
  · push_cast; rw [abs_le]; constructor <;> linarith
  · rw [abs_le]; constructor <;> linarith
  · push_cast; rw [abs_le]; constructor <;> linarith

theorem round_even_eq_of_abs_lt (n : ℚ) (m : Int) (h : |n - m| < 1 / 2) : round_even n = m := by
  have h' := abs_lt.1 h
  unfold round_even
  by_cases hm : (m : ℚ) ≤ n
  · have hf : ⌊n⌋ = m := by
      rw [Int.floor_eq_iff]; constructor <;> linarith
    rw [hf, if_pos (by linarith)]
  · have hf : ⌊n⌋ = m - 1 := by
      rw [Int.floor_eq_iff]; push_cast; constructor <;> linarith
    rw [hf]
    push_cast
    rw [if_neg (by linarith), if_pos (by linarith)]
    ring

theorem round_even_intCast (z : Int) : round_even (z : ℚ) = z :=
  round_even_eq_of_abs_lt _ z (by simp)

/-- A tie goes to the even neighbour. -/
theorem round_even_tie (n : ℚ) (m : Int) (h : n = (m : ℚ) + 1 / 2) :
    round_even n = if m % 2 = 0 then m else m + 1 := by
  have hf : ⌊n⌋ = m := by
    rw [Int.floor_eq_iff]; constructor <;> linarith
  unfold round_even
  rw [hf, if_neg (by linarith), if_neg (by linarith)]

theorem round_even_ge_of_int_le (n : ℚ) (z : Int) (h : (z : ℚ) ≤ n) : z ≤ round_even n := by
  have hf : z ≤ ⌊n⌋ := Int.le_floor.2 h
  unfold round_even
  split_ifs <;> omega

theorem round_even_le_of_le_int (n : ℚ) (z : Int) (h : n ≤ (z : ℚ)) : round_even n ≤ z := by
  have h1 := Int.floor_le n
  by_cases hz : n = z
  · rw [hz, round_even_intCast]
  · have hlt : n < z := lt_of_le_of_ne h hz
    have hf : ⌊n⌋ < z := by
      rw [Int.floor_lt]; exact hlt
    unfold round_even
    split_ifs <;> omega

theorem round_even_mono {a b : ℚ} (h : a ≤ b) : round_even a ≤ round_even b := by
  have ha := round_even_sub_le a
  have hb := round_even_sub_le b
  rw [abs_le] at ha hb
  by_contra hc
  push_neg at hc
  -- round_even b < round_even a, so round_even b + 1 ≤ round_even a
  have h1 : (round_even b : ℚ) + 1 ≤ round_even a := by exact_mod_cast hc
  -- then a ≥ ra - 1/2 ≥ rb + 1/2 ≥ b, so a = b
  have hab : a = b := by linarith
  rw [hab] at hc
  exact lt_irrefl _ hc

theorem round_even_neg (n : ℚ) : round_even (-n) = -round_even n := by
  by_cases hi : ((⌊n⌋ : Int) : ℚ) = n
  · rw [← hi, ← Int.cast_neg, round_even_intCast, round_even_intCast]
  · have h1 := Int.floor_le n
    have h2 := Int.lt_floor_add_one n
    have h3 : ((⌊n⌋ : Int) : ℚ) < n := lt_of_le_of_ne h1 hi
    have hf : ⌊-n⌋ = -⌊n⌋ - 1 := by
      rw [Int.floor_eq_iff]; push_cast; constructor <;> linarith
    unfold round_even
    rw [hf]
    push_cast
    split_ifs <;> first | omega | (exfalso; linarith)

theorem ulp_pos (p : Nat) (emin : Int) (a : ℚ) : 0 < ulp p emin a :=
  zpow_pos (by norm_num) _

theorem log_two_eq (a : ℚ) (e : Int) (h1 : (2 : ℚ) ^ e ≤ a) (h2 : a < (2 : ℚ) ^ (e + 1)) :
    Int.log 2 a = e := by
  have h0 : 0 < a := lt_of_lt_of_le (zpow_pos (by norm_num) _) h1
  have a1 : e ≤ Int.log 2 a := (Int.zpow_le_iff_le_log (by norm_num) h0).1 (by exact_mod_cast h1)
  have a2 : Int.log 2 a < e + 1 :=
    (Int.lt_zpow_iff_log_lt (by norm_num) h0).1 (by exact_mod_cast h2)
  omega

theorem ulp_eq (p : Nat) (emin : Int) (a : ℚ) (e : Int) (he : emin ≤ e)
    (h1 : (2 : ℚ) ^ e ≤ a) (h2 : a < (2 : ℚ) ^ (e + 1)) :
    ulp p emin a = (2 : ℚ) ^ (e - ((p : Int) - 1)) := by
  unfold ulp
  rw [log_two_eq a e h1 h2, max_eq_left he]

theorem ulp_eq_small (p : Nat) (emin : Int) (a : ℚ) (h0 : 0 < a) (h : a < (2 : ℚ) ^ emin) :
    ulp p emin a = (2 : ℚ) ^ (emin - ((p : Int) - 1)) := by
  unfold ulp
  have : Int.log 2 a < emin := (Int.lt_zpow_iff_log_lt (by norm_num) h0).1 (by exact_mod_cast h)
  rw [max_eq_right this.le]

theorem round_mag_zero (p : Nat) (emin : Int) : round_mag p emin 0 = 0 := by
  unfold round_mag
  rw [zero_div]
  have : round_even 0 = 0 := by
    have := round_even_intCast 0
    simpa using this
  rw [this]; simp

theorem round_mag_sub_le (p : Nat) (emin : Int) (a : ℚ) :
    |round_mag p emin a - a| ≤ ulp p emin a / 2 := by
  have hu := ulp_pos p emin a
  have h := round_even_sub_le (a / ulp p emin a)
  have e : round_mag p emin a - a
      = ((round_even (a / ulp p emin a) : ℚ) - a / ulp p emin a) * ulp p emin a := by
    unfold round_mag
    field_simp
  rw [e, abs_mul, abs_of_pos hu]
  calc |(round_even (a / ulp p emin a) : ℚ) - a / ulp p emin a| * ulp p emin a
      ≤ 1 / 2 * ulp p emin a := mul_le_mul_of_nonneg_right h hu.le
    _ = ulp p emin a / 2 := by ring

theorem ulp_le (p : Nat) (emin : Int) (a : ℚ) (h0 : 0 ≤ a) :
    ulp p emin a ≤ a * (2 : ℚ) ^ (-((p : Int) - 1)) + (2 : ℚ) ^ (emin - ((p : Int) - 1))
      ∨ a = 0 := by
  rcases eq_or_lt_of_le h0 with h | h
  · right; exact h.symm
  left
  unfold ulp
  have hp : (0 : ℚ) < (2 : ℚ) ^ (-((p : Int) - 1)) := zpow_pos (by norm_num) _
  have hq : (0 : ℚ) < (2 : ℚ) ^ (emin - ((p : Int) - 1)) := zpow_pos (by norm_num) _
  rcases le_total (Int.log 2 a) emin with hl | hl
  · rw [max_eq_right hl]
    have : 0 ≤ a * (2 : ℚ) ^ (-((p : Int) - 1)) := mul_nonneg h0 hp.le
    linarith
  · rw [max_eq_left hl]
    have h1 : (2 : ℚ) ^ (Int.log 2 a) ≤ a := by
      have := Int.zpow_log_le_self (b := 2) (by norm_num) h
      exact_mod_cast this
    have e : (2 : ℚ) ^ (Int.log 2 a - ((p : Int) - 1))
        = (2 : ℚ) ^ (Int.log 2 a) * (2 : ℚ) ^ (-((p : Int) - 1)) := by
      rw [← zpow_add₀ (by norm_num : (2 : ℚ) ≠ 0)]
      congr 1
    rw [e]
    have := mul_le_mul_of_nonneg_right h1 hp.le
    linarith

theorem round_mag_nonneg (p : Nat) (emin : Int) (a : ℚ) (h0 : 0 ≤ a) :
    0 ≤ round_mag p emin a := by
  unfold round_mag
  have hu := ulp_pos p emin a
  have : (0 : Int) ≤ round_even (a / ulp p emin a) :=
    round_even_ge_of_int_le _ 0 (by simpa using div_nonneg h0 hu.le)
  exact mul_nonneg (by exact_mod_cast this) hu.le

/-- A multiple `m * 2 ^ e` of a power of two with `m < 2 ^ p` and `e` not below the least
exponent of the format is representable: rounding returns it. -/
theorem round_mag_repr (p : Nat) (emin : Int) (m : Nat) (e : Int) (hm : m < 2 ^ p)
    (he : emin - ((p : Int) - 1) ≤ e) :
    round_mag p emin ((m : ℚ) * (2 : ℚ) ^ e) = (m : ℚ) * (2 : ℚ) ^ e := by
  rcases Nat.eq_zero_or_pos m with h0 | h0
  · subst h0; simp [round_mag_zero]
  have ha : (0 : ℚ) < (m : ℚ) * (2 : ℚ) ^ e :=
    mul_pos (by exact_mod_cast h0) (zpow_pos (by norm_num) _)
  -- the exponent of the ulp is at most e
  have hlog : Int.log 2 ((m : ℚ) * (2 : ℚ) ^ e) < (p : Int) + e := by
    rw [← Int.lt_zpow_iff_log_lt (by norm_num) ha]
    have : ((2 : ℕ) : ℚ) ^ ((p : Int) + e) = (2 : ℚ) ^ p * (2 : ℚ) ^ e := by
      rw [zpow_add₀ (by norm_num), zpow_natCast]; norm_num
    rw [this]
    apply mul_lt_mul_of_pos_right _ (zpow_pos (by norm_num) _)
    exact_mod_cast hm
  set L := max (Int.log 2 ((m : ℚ) * (2 : ℚ) ^ e)) emin with hL
  have hLe : L - ((p : Int) - 1) ≤ e := by
    rcases le_total (Int.log 2 ((m : ℚ) * (2 : ℚ) ^ e)) emin with h | h
    · rw [hL, max_eq_right h]; exact he
    · rw [hL, max_eq_left h]; omega
  obtain ⟨d, hd⟩ : ∃ d : Nat, e = L - ((p : Int) - 1) + d := ⟨(e - (L - ((p : Int) - 1))).toNat, by omega⟩
  have hu : ulp p emin ((m : ℚ) * (2 : ℚ) ^ e) = (2 : ℚ) ^ (L - ((p : Int) - 1)) := rfl
  have hdiv : (m : ℚ) * (2 : ℚ) ^ e / (2 : ℚ) ^ (L - ((p : Int) - 1))
      = (((m * 2 ^ d : Nat) : Int) : ℚ) := by
    rw [hd, zpow_add₀ (by norm_num), zpow_natCast]
    field_simp
    ring
  unfold round_mag
  rw [hu, hdiv, round_even_intCast, ← hdiv]
  field_simp

theorem round_mag_two_zpow (p : Nat) (emin : Int) (hp : 0 < p) (k : Int)
    (hk : emin - ((p : Int) - 1) ≤ k) :
    round_mag p emin ((2 : ℚ) ^ k) = (2 : ℚ) ^ k := by
  have := round_mag_repr p emin 1 k (Nat.one_lt_two_pow (by omega)) hk
  simpa using this

theorem round_mag_mono (p : Nat) (emin : Int) (hp : 0 < p) (a b : ℚ) (h0 : 0 ≤ a)
    (hab : a ≤ b) : round_mag p emin a ≤ round_mag p emin b := by
  rcases eq_or_lt_of_le h0 with h | ha
  · rw [← h, round_mag_zero]; exact round_mag_nonneg p emin b (h0.trans hab)
  have hb : 0 < b := lt_of_lt_of_le ha hab
  have hlog : Int.log 2 a ≤ Int.log 2 b := Int.log_mono_right ha hab
  set ea := max (Int.log 2 a) emin with hea
  set eb := max (Int.log 2 b) emin with heb
  have hua : ulp p emin a = (2 : ℚ) ^ (ea - ((p : Int) - 1)) := rfl
  have hub : ulp p emin b = (2 : ℚ) ^ (eb - ((p : Int) - 1)) := rfl
  have hle : ea ≤ eb := max_le_max hlog le_rfl
  rcases eq_or_lt_of_le hle with he | he
  · -- same unit
    unfold round_mag
    rw [hua, hub, he]
    have hu : (0 : ℚ) < (2 : ℚ) ^ (eb - ((p : Int) - 1)) := zpow_pos (by norm_num) _
    apply mul_le_mul_of_nonneg_right _ hu.le
    have : round_even (a / (2 : ℚ) ^ (eb - ((p : Int) - 1)))
        ≤ round_even (b / (2 : ℚ) ^ (eb - ((p : Int) - 1))) :=
      round_even_mono (div_le_div_of_nonneg_right hab hu.le)
    exact_mod_cast this
  · -- a is below 2 ^ (ea + 1) ≤ 2 ^ eb ≤ b
    have hebl : eb = Int.log 2 b := by
      rw [heb]
      apply max_eq_left
      by_contra hc
      push_neg at hc
      have : eb = emin := by rw [heb]; exact max_eq_right hc.le
      have : emin ≤ ea := le_max_right _ _
      omega
    have h2b : (2 : ℚ) ^ eb ≤ b := by
      rw [hebl]
      have := Int.zpow_log_le_self (b := 2) (by norm_num) hb
      exact_mod_cast this
    have h2a : a < (2 : ℚ) ^ (ea + 1) := by
      have h1 : a < ((2 : ℕ) : ℚ) ^ (Int.log 2 a + 1) := Int.lt_zpow_succ_log_self (by norm_num) a
      have h2 : (2 : ℚ) ^ (Int.log 2 a + 1) ≤ (2 : ℚ) ^ (ea + 1) :=
        zpow_le_zpow_right₀ (by norm_num) (by have := le_max_left (Int.log 2 a) emin; omega)
      have h1' : a < (2 : ℚ) ^ (Int.log 2 a + 1) := by exact_mod_cast h1
      linarith
    have hA : round_mag p emin a ≤ (2 : ℚ) ^ (ea + 1) := by
      unfold round_mag
      rw [hua]
      have hu : (0 : ℚ) < (2 : ℚ) ^ (ea - ((p : Int) - 1)) := zpow_pos (by norm_num) _
      have hq : a / (2 : ℚ) ^ (ea - ((p : Int) - 1)) ≤ (((2 ^ p : Nat) : Int) : ℚ) := by
        rw [div_le_iff₀ hu]
        have : ((((2 ^ p : Nat) : Int) : ℚ)) * (2 : ℚ) ^ (ea - ((p : Int) - 1))
            = (2 : ℚ) ^ (ea + 1) := by
          push_cast
          rw [← zpow_natCast, ← zpow_add₀ (by norm_num)]
          congr 1; ring
        rw [this]; exact h2a.le
      have := round_even_le_of_le_int _ _ hq
      have h3 : (round_even (a / (2 : ℚ) ^ (ea - ((p : Int) - 1))) : ℚ)
          ≤ (((2 ^ p : Nat) : Int) : ℚ) := by exact_mod_cast this
      calc (round_even (a / (2 : ℚ) ^ (ea - ((p : Int) - 1))) : ℚ)
            * (2 : ℚ) ^ (ea - ((p : Int) - 1))
          ≤ (((2 ^ p : Nat) : Int) : ℚ) * (2 : ℚ) ^ (ea - ((p : Int) - 1)) :=
            mul_le_mul_of_nonneg_right h3 hu.le
        _ = (2 : ℚ) ^ (ea + 1) := by
          push_cast
          rw [← zpow_natCast, ← zpow_add₀ (by norm_num)]
          congr 1; ring
    have hB : (2 : ℚ) ^ eb ≤ round_mag p emin b := by
      unfold round_mag
      rw [hub]
      have hu : (0 : ℚ) < (2 : ℚ) ^ (eb - ((p : Int) - 1)) := zpow_pos (by norm_num) _
      have hq : (((2 ^ (p - 1) : Nat) : Int) : ℚ) ≤ b / (2 : ℚ) ^ (eb - ((p : Int) - 1)) := by
        rw [le_div_iff₀ hu]
        have : ((((2 ^ (p - 1) : Nat) : Int) : ℚ)) * (2 : ℚ) ^ (eb - ((p : Int) - 1))
            = (2 : ℚ) ^ eb := by
          push_cast
          rw [← zpow_natCast, ← zpow_add₀ (by norm_num)]
          congr 1
          have : ((p - 1 : Nat) : Int) = (p : Int) - 1 := by omega
          rw [this]; ring
        rw [this]; exact h2b
      have := round_even_ge_of_int_le _ _ hq
      have h3 : (((2 ^ (p - 1) : Nat) : Int) : ℚ)
          ≤ (round_even (b / (2 : ℚ) ^ (eb - ((p : Int) - 1))) : ℚ) := by exact_mod_cast this
      calc (2 : ℚ) ^ eb
          = (((2 ^ (p - 1) : Nat) : Int) : ℚ) * (2 : ℚ) ^ (eb - ((p : Int) - 1)) := by
            push_cast
            rw [← zpow_natCast, ← zpow_add₀ (by norm_num)]
            congr 1
            have : ((p - 1 : Nat) : Int) = (p : Int) - 1 := by omega
            rw [this]; ring
        _ ≤ _ := mul_le_mul_of_nonneg_right h3 hu.le
    have h4 : (2 : ℚ) ^ (ea + 1) ≤ (2 : ℚ) ^ eb :=
      zpow_le_zpow_right₀ (by norm_num) (by omega)
    linarith

theorem round_val_nonneg (p : Nat) (emin : Int) (q : ℚ) (h : 0 ≤ q) :
    0 ≤ round_val p emin q := by
  unfold round_val
  rw [if_pos h]
  exact round_mag_nonneg p emin q h

theorem round_val_nonpos (p : Nat) (emin : Int) (q : ℚ) (h : q ≤ 0) :
    round_val p emin q ≤ 0 := by
  unfold round_val
  split_ifs with h0
  · have : q = 0 := le_antisymm h h0
    rw [this, round_mag_zero]
  · have := round_mag_nonneg p emin (-q) (by linarith)
    linarith

theorem round_val_zero (p : Nat) (emin : Int) : round_val p emin 0 = 0 := by
  unfold round_val
  rw [if_pos le_rfl, round_mag_zero]

theorem round_val_neg (p : Nat) (emin : Int) (q : ℚ) :
    round_val p emin (-q) = -round_val p emin q := by
  unfold round_val
  rcases lt_trichotomy q 0 with h | h | h
  · rw [if_pos (by linarith), if_neg (by linarith)]; simp
  · subst h; simp [round_mag_zero]
  · rw [if_neg (by linarith), if_pos h.le]; simp

theorem round_val_mono (p : Nat) (emin : Int) (hp : 0 < p) {a b : ℚ} (h : a ≤ b) :
    round_val p emin a ≤ round_val p emin b := by
  rcases le_total 0 a with ha | ha
  · have hb : 0 ≤ b := ha.trans h
    unfold round_val
    rw [if_pos ha, if_pos hb]
    exact round_mag_mono p emin hp a b ha h
  · rcases le_total 0 b with hb | hb
    · exact (round_val_nonpos p emin a ha).trans (round_val_nonneg p emin b hb)
    · have h1 := round_mag_mono p emin hp (-b) (-a) (by linarith) (by linarith)
      have ea : round_val p emin a = -round_mag p emin (-a) := by
        have := round_val_neg p emin (-a)
        rw [neg_neg] at this
        rw [this]
        unfold round_val
        rw [if_pos (by linarith)]
      have eb : round_val p emin b = -round_mag p emin (-b) := by
        have := round_val_neg p emin (-b)
        rw [neg_neg] at this
        rw [this]
        unfold round_val
        rw [if_pos (by linarith)]
      rw [ea, eb]
      linarith

/-- The rounding error is at most half a unit in the last place: a relative `2 ^ (-p)`
in the normal range, an absolute `2 ^ (emin - p)` below it. -/
theorem round_val_sub_le (p : Nat) (emin : Int) (q : ℚ) :
    |round_val p emin q - q| ≤ |q| * (2 : ℚ) ^ (-(p : Int)) + (2 : ℚ) ^ (emin - (p : Int)) := by
  have key : ∀ a : ℚ, 0 ≤ a →
      |round_mag p emin a - a| ≤ a * (2 : ℚ) ^ (-(p : Int)) + (2 : ℚ) ^ (emin - (p : Int)) := by
    intro a ha
    have hq : (0 : ℚ) < (2 : ℚ) ^ (emin - (p : Int)) := zpow_pos (by norm_num) _
    have hp' : (0 : ℚ) < (2 : ℚ) ^ (-(p : Int)) := zpow_pos (by norm_num) _
    rcases ulp_le p emin a ha with h | h
    · have h1 := round_mag_sub_le p emin a
      have e1 : (2 : ℚ) ^ (-((p : Int) - 1)) = 2 * (2 : ℚ) ^ (-(p : Int)) := by
        have : -((p : Int) - 1) = 1 + -(p : Int) := by ring
        rw [this, zpow_add₀ (by norm_num)]; norm_num
      have e2 : (2 : ℚ) ^ (emin - ((p : Int) - 1)) = 2 * (2 : ℚ) ^ (emin - (p : Int)) := by
        have : emin - ((p : Int) - 1) = 1 + (emin - (p : Int)) := by ring
        rw [this, zpow_add₀ (by norm_num)]; norm_num
      rw [e1, e2] at h
      linarith
    · subst h
      rw [round_mag_zero]; simp
      exact hq.le
  rcases le_total 0 q with h | h
  · unfold round_val
    rw [if_pos h, abs_of_nonneg h]
    exact key q h
  · have e : round_val p emin q = -round_mag p emin (-q) := by
      have := round_val_neg p emin (-q)
      rw [neg_neg] at this
      rw [this]
      unfold round_val
      rw [if_pos (by linarith)]
    rw [e, abs_of_nonpos h]
    have := key (-q) (by linarith)
    have e2 : -round_mag p emin (-q) - q = -(round_mag p emin (-q) - -q) := by ring
    rw [e2, abs_neg]
    exact this

/-- An integer multiple `m * 2 ^ e` of a power of two with `|m| < 2 ^ p` and `e` not below
the least exponent of the format is representable: rounding returns it. -/
theorem round_val_repr (p : Nat) (emin : Int) (m : Int) (e : Int) (hm : |m| < 2 ^ p)
    (he : emin - ((p : Int) - 1) ≤ e) :
    round_val p emin ((m : ℚ) * (2 : ℚ) ^ e) = (m : ℚ) * (2 : ℚ) ^ e := by
  have h2 : (0 : ℚ) < (2 : ℚ) ^ e := zpow_pos (by norm_num) _
  rcases le_total 0 m with h | h
  · have hm' : m.toNat < 2 ^ p := by
      have := abs_of_nonneg h
      rw [this] at hm
      have : ((m.toNat : Int)) = m := Int.toNat_of_nonneg h
      have h3 : ((m.toNat : Nat) : Int) < ((2 ^ p : Nat) : Int) := by rw [this]; exact_mod_cast hm
      exact_mod_cast h3
    have := round_mag_repr p emin m.toNat e hm' he
    have hc : ((m.toNat : Nat) : ℚ) = (m : ℚ) := by
      have : ((m.toNat : Int)) = m := Int.toNat_of_nonneg h
      exact_mod_cast congrArg (fun z : Int => (z : ℚ)) this
    rw [hc] at this
    unfold round_val
    rw [if_pos (mul_nonneg (by exact_mod_cast h) h2.le)]
    exact this
  · have hm' : (-m).toNat < 2 ^ p := by
      have := abs_of_nonpos h
      rw [this] at hm
      have : (((-m).toNat : Int)) = -m := Int.toNat_of_nonneg (by omega)
      have h3 : (((-m).toNat : Nat) : Int) < ((2 ^ p : Nat) : Int) := by
        rw [this]; exact_mod_cast hm
      exact_mod_cast h3
    have := round_mag_repr p emin (-m).toNat e hm' he
    have hc : (((-m).toNat : Nat) : ℚ) = -(m : ℚ) := by
      have h4 : (((-m).toNat : Int)) = -m := Int.toNat_of_nonneg (by omega)
      have h5 : ((((-m).toNat : Int)) : ℚ) = ((-m : Int) : ℚ) := by rw [h4]
      push_cast at h5
      exact h5
    rw [hc] at this
    have e1 : (m : ℚ) * (2 : ℚ) ^ e = -(-(m : ℚ) * (2 : ℚ) ^ e) := by ring
    rw [e1, round_val_neg]
    unfold round_val
    rw [if_pos (mul_nonneg (by simpa using (show (m : ℚ) ≤ 0 by exact_mod_cast h)) h2.le)]
    rw [this]

/-- Evaluation of a rounding: between `2 ^ e` and `2 ^ (e + 1)`, with `e` in the normal
range, `q` rounds to `m * 2 ^ (e - (p - 1))` when `m` is the integer at distance below
`1/2` from `q / 2 ^ (e - (p - 1))`. -/
theorem round_val_eq_of_near (p : Nat) (emin : Int) (q : ℚ) (e m : Int) (he : emin ≤ e)
    (h1 : (2 : ℚ) ^ e ≤ |q|) (h2 : |q| < (2 : ℚ) ^ (e + 1))
    (hm : |q / (2 : ℚ) ^ (e - ((p : Int) - 1)) - m| < 1 / 2) :
    round_val p emin q = (m : ℚ) * (2 : ℚ) ^ (e - ((p : Int) - 1)) := by
  have hu : (0 : ℚ) < (2 : ℚ) ^ (e - ((p : Int) - 1)) := zpow_pos (by norm_num) _
  rcases le_total 0 q with h | h
  · rw [abs_of_nonneg h] at h1 h2
    unfold round_val round_mag
    rw [if_pos h, ulp_eq p emin q e he h1 h2, round_even_eq_of_abs_lt _ m hm]
  · rw [abs_of_nonpos h] at h1 h2
    have e1 : q = -(-q) := by ring
    rw [e1, round_val_neg]
    unfold round_val round_mag
    rw [if_pos (by linarith), ulp_eq p emin (-q) e he h1 h2,
      round_even_eq_of_abs_lt _ (-m) (by
        have : -q / (2 : ℚ) ^ (e - ((p : Int) - 1)) - ((-m : Int) : ℚ)
            = -(q / (2 : ℚ) ^ (e - ((p : Int) - 1)) - m) := by push_cast; ring
        rw [this, abs_neg]; exact hm)]
    push_cast; ring

theorem r64_zero : r64 0 = 0 := round_val_zero 53 (-1022)

theorem r64_neg (q : ℚ) : r64 (-q) = -r64 q := round_val_neg 53 (-1022) q

theorem r64_mono {a b : ℚ} (h : a ≤ b) : r64 a ≤ r64 b :=
  round_val_mono 53 (-1022) (by norm_num) h

theorem r64_nonneg (q : ℚ) (h : 0 ≤ q) : 0 ≤ r64 q := round_val_nonneg 53 (-1022) q h

theorem r64_nonpos (q : ℚ) (h : q ≤ 0) : r64 q ≤ 0 := round_val_nonpos 53 (-1022) q h

/-- The error of a rounding to binary64: at most `|q| / 2 ^ 53 + 1 / 2 ^ 1075`. -/
theorem r64_sub_le (q : ℚ) : |r64 q - q| ≤ |q| / 2 ^ 53 + 1 / 2 ^ 1075 := by
  have h := round_val_sub_le 53 (-1022) q
  have e1 : (2 : ℚ) ^ (-((53 : Nat) : Int)) = 1 / 2 ^ 53 := by
    rw [zpow_neg, zpow_natCast]; norm_num
  have e2 : (2 : ℚ) ^ ((-1022 : Int) - ((53 : Nat) : Int)) = 1 / 2 ^ 1075 := by
    have : (-1022 : Int) - ((53 : Nat) : Int) = -((1075 : Nat) : Int) := by norm_num
    rw [this, zpow_neg, zpow_natCast]; norm_num
  rw [e1, e2] at h
  unfold r64
  linarith

/-- An integer multiple `m * 2 ^ e` with `|m| < 2 ^ 53` and `e ≥ -1074` is a double. -/
theorem r64_repr (m e : Int) (hm : |m| < 2 ^ 53) (he : -1074 ≤ e) :
    r64 ((m : ℚ) * (2 : ℚ) ^ e) = (m : ℚ) * (2 : ℚ) ^ e :=
  round_val_repr 53 (-1022) m e hm (by norm_num; omega)

theorem r64_int (z : Int) (h : |z| < 2 ^ 53) : r64 (z : ℚ) = z := by
  have := r64_repr z 0 h (by norm_num)
  simpa using this

/-- A multiple of `1 / 2 ^ k` with numerator below `2 ^ 53` in magnitude is a double. -/
theorem r64_dyadic (m : Int) (k : Nat) (hm : |m| < 2 ^ 53) (hk : k ≤ 1074) :
    r64 ((m : ℚ) / 2 ^ k) = (m : ℚ) / 2 ^ k := by
  have := r64_repr m (-(k : Int)) hm (by omega)
  rw [zpow_neg, zpow_natCast] at this
  rw [div_eq_mul_inv]
  exact this

theorem r64_eq_of_near (q : ℚ) (e m : Int) (he : -1022 ≤ e)
    (h1 : (2 : ℚ) ^ e ≤ |q|) (h2 : |q| < (2 : ℚ) ^ (e + 1))
    (hm : |q / (2 : ℚ) ^ (e - 52) - m| < 1 / 2) :
    r64 q = (m : ℚ) * (2 : ℚ) ^ (e - 52) := by
  have := round_val_eq_of_near 53 (-1022) q e m he h1 h2 (by
    have : e - (((53 : Nat) : Int) - 1) = e - 52 := by norm_num
    rw [this]; exact hm)
  have e2 : e - (((53 : Nat) : Int) - 1) = e - 52 := by norm_num
  rw [e2] at this
  exact this

theorem r64_abs_le_two_pow (q : ℚ) (k : Nat) (hk : k ≤ 1023) (h : |q| ≤ 2 ^ k) :
    |r64 q| ≤ 2 ^ k := by
  have hr : r64 ((2 : ℚ) ^ k) = 2 ^ k := by
    have := r64_repr 1 (k : Int) (by norm_num) (by omega)
    simpa using this
  have h' := abs_le.1 h
  rw [abs_le]
  constructor
  · have := r64_mono h'.1
    rw [r64_neg, hr] at this
    exact this
  · have := r64_mono h'.2
    rw [hr] at this
    exact this

/-- Below the overflow threshold, rounding to binary64 returns the nearest double. -/
theorem rnd_eq_fin (q : ℚ) (h : |q| ≤ 2 ^ 1023) : rnd q = fin (r64 q) := by
  have h1 := r64_abs_le_two_pow q 1023 le_rfl h
  unfold rnd round_to
  rw [if_neg]
  · rfl
  · push_neg
    have e : (2 : ℚ) ^ ((1023 : Int) + 1) = 2 ^ 1024 := by
      have : (1023 : Int) + 1 = ((1024 : Nat) : Int) := by norm_num
      rw [this, zpow_natCast]
    rw [e]
    have : (2 : ℚ) ^ 1023 < 2 ^ 1024 := by
      apply pow_lt_pow_right₀ (by norm_num) (by norm_num)
    exact lt_of_le_of_lt h1 this

theorem rnd_zero : rnd 0 = fin 0 := by
  rw [rnd_eq_fin 0 (by simp), r64_zero]

theorem round_mag_le_two_zpow (p : Nat) (emin : Int) (hp : 0 < p) (a : ℚ) (k : Int)
    (hk : emin - ((p : Int) - 1) ≤ k) (h0 : 0 ≤ a) (h : a ≤ (2 : ℚ) ^ k) :
    round_mag p emin a ≤ (2 : ℚ) ^ k := by
  have := round_mag_mono p emin hp a _ h0 h
  rwa [round_mag_two_zpow p emin hp k hk] at this

theorem two_zpow_le_round_mag (p : Nat) (emin : Int) (hp : 0 < p) (a : ℚ) (k : Int)
    (hk : emin - ((p : Int) - 1) ≤ k) (h : (2 : ℚ) ^ k ≤ a) :
    (2 : ℚ) ^ k ≤ round_mag p emin a := by
  have := round_mag_mono p emin hp _ a (zpow_pos (by norm_num) _).le h
  rwa [round_mag_two_zpow p emin hp k hk] at this

/-- A rounded magnitude between `2 ^ k` and `2 ^ (k + 1)` is a multiple of
`2 ^ (k - (p - 1))`. -/
theorem round_mag_grid (p : Nat) (emin : Int) (hp : 0 < p) (a : ℚ) (h0 : 0 ≤ a) (k : Int)
    (hk : emin ≤ k) (h1 : (2 : ℚ) ^ k ≤ round_mag p emin a)
    (h2 : round_mag p emin a < (2 : ℚ) ^ (k + 1)) :
    ∃ n : Int, round_mag p emin a = (n : ℚ) * (2 : ℚ) ^ (k - ((p : Int) - 1)) := by
  have hpk : emin - ((p : Int) - 1) ≤ k := by omega
  have ha : 0 < a := by
    rcases eq_or_lt_of_le h0 with h | h
    · rw [← h, round_mag_zero] at h1
      exact absurd h1 (not_le.2 (zpow_pos (by norm_num) _))
    · exact h
  set e := max (Int.log 2 a) emin with he
  have hu : ulp p emin a = (2 : ℚ) ^ (e - ((p : Int) - 1)) := rfl
  rcases lt_trichotomy e k with hlt | heq | hgt
  · -- a < 2 ^ (e + 1) ≤ 2 ^ k, so the rounded value is 2 ^ k
    have h3 : a < (2 : ℚ) ^ (e + 1) := by
      have h1' : a < ((2 : ℕ) : ℚ) ^ (Int.log 2 a + 1) := Int.lt_zpow_succ_log_self (by norm_num) a
      have h2' : (2 : ℚ) ^ (Int.log 2 a + 1) ≤ (2 : ℚ) ^ (e + 1) :=
        zpow_le_zpow_right₀ (by norm_num) (by have := le_max_left (Int.log 2 a) emin; omega)
      have h1'' : a < (2 : ℚ) ^ (Int.log 2 a + 1) := by exact_mod_cast h1'
      linarith
    have h4 : (2 : ℚ) ^ (e + 1) ≤ (2 : ℚ) ^ k := zpow_le_zpow_right₀ (by norm_num) (by omega)
    have h5 := round_mag_le_two_zpow p emin hp a k hpk h0 (by linarith)
    refine ⟨((2 ^ (p - 1) : Nat) : Int), ?_⟩
    have h6 : round_mag p emin a = (2 : ℚ) ^ k := le_antisymm h5 h1
    rw [h6]
    push_cast
    rw [← zpow_natCast, ← zpow_add₀ (by norm_num)]
    congr 1
    have : ((p - 1 : Nat) : Int) = (p : Int) - 1 := by omega
    rw [this]; ring
  · exact ⟨round_even (a / ulp p emin a), by unfold round_mag; rw [hu, heq]⟩
  · exfalso
    have hel : e = Int.log 2 a := by
      rw [he]
      apply max_eq_left
      by_contra hc
      push_neg at hc
      have : e = emin := by rw [he]; exact max_eq_right hc.le
      omega
    have h3 : (2 : ℚ) ^ e ≤ a := by
      rw [hel]
      have := Int.zpow_log_le_self (b := 2) (by norm_num) ha
      exact_mod_cast this
    have h4 := two_zpow_le_round_mag p emin hp a e (by omega) h3
    have h5 : (2 : ℚ) ^ (k + 1) ≤ (2 : ℚ) ^ e := zpow_le_zpow_right₀ (by norm_num) (by omega)
    linarith

theorem r64_eq_round_mag (q : ℚ) (h : 0 ≤ q) : r64 q = round_mag 53 (-1022) q := by
  unfold r64 round_val
  rw [if_pos h]

theorem r64_abs (q : ℚ) : |r64 q| = r64 |q| := by
  rcases le_total 0 q with h | h
  · rw [abs_of_nonneg h, abs_of_nonneg (r64_nonneg q h)]
  · rw [abs_of_nonpos h, abs_of_nonpos (r64_nonpos q h), r64_neg]

/-- A double with magnitude between `2 ^ k` and `2 ^ (k + 1)` is a multiple of
`2 ^ (k - 52)`. -/
theorem r64_grid (q : ℚ) (k : Int) (hk : -1022 ≤ k) (h1 : (2 : ℚ) ^ k ≤ |r64 q|)
    (h2 : |r64 q| < (2 : ℚ) ^ (k + 1)) :
    ∃ n : Int, |r64 q| = (n : ℚ) * (2 : ℚ) ^ (k - 52) := by
  rw [r64_abs, r64_eq_round_mag _ (abs_nonneg q)] at h1 h2 ⊢
  obtain ⟨n, hn⟩ := round_mag_grid 53 (-1022) (by norm_num) |q| (abs_nonneg q) k hk h1 h2
  refine ⟨n, ?_⟩
  rw [hn]
  norm_num

theorem r64_two_pow_le (q : ℚ) (k : Int) (hk : -1074 ≤ k) (h : (2 : ℚ) ^ k ≤ q) :
    (2 : ℚ) ^ k ≤ r64 q := by
  have := r64_mono h
  have e := r64_repr 1 k (by norm_num) hk
  simp only [Int.cast_one, one_mul] at e
  rwa [e] at this

theorem r64_le_two_pow (q : ℚ) (k : Int) (hk : -1074 ≤ k) (h : q ≤ (2 : ℚ) ^ k) :
    r64 q ≤ (2 : ℚ) ^ k := by
  have := r64_mono h
  have e := r64_repr 1 k (by norm_num) hk
  simp only [Int.cast_one, one_mul] at e
  rwa [e] at this

theorem r64_le_int (q : ℚ) (z : Int) (hz : |z| < 2 ^ 53) (h : q ≤ (z : ℚ)) : r64 q ≤ (z : ℚ) := by
  have := r64_mono h
  rwa [r64_int z hz] at this

theorem int_le_r64 (q : ℚ) (z : Int) (hz : |z| < 2 ^ 53) (h : (z : ℚ) ≤ q) : (z : ℚ) ≤ r64 q := by
  have := r64_mono h
  rwa [r64_int z hz] at this

theorem rndd_fin (q : ℚ) (h : |q| ≤ 2 ^ 1023) : rndd (fin q) = fin (r64 q) :=
  rnd_eq_fin q h

theorem fadd_fin (a b : ℚ) (h : |a + b| ≤ 2 ^ 1023) :
    fadd (fin a) (fin b) = fin (r64 (a + b)) := rnd_eq_fin _ h

theorem fsub_fin (a b : ℚ) (h : |a - b| ≤ 2 ^ 1023) :
    fsub (fin a) (fin b) = fin (r64 (a - b)) := by
  have : fsub (fin a) (fin b) = rnd (a + -b) := rfl
  rw [this, ← sub_eq_add_neg]
  exact rnd_eq_fin _ h

theorem fmul_fin (a b : ℚ) (h : |a * b| ≤ 2 ^ 1023) :
    fmul (fin a) (fin b) = fin (r64 (a * b)) := rnd_eq_fin _ h

theorem fdiv_fin (a b : ℚ) (hb : b ≠ 0) (h : |a / b| ≤ 2 ^ 1023) :
    fdiv (fin a) (fin b) = fin (r64 (a / b)) := by
  have : fdiv (fin a) (fin b) = rndd (if b = 0 then
      (if a = 0 then nan else if 0 < a then pinf else ninf) else fin (a / b)) := rfl
  rw [this, if_neg hb]
  exact rnd_eq_fin _ h

/-- A bound on the magnitude that keeps clear of the overflow threshold. -/
theorem le_two_pow_1023 (q : ℚ) (k : Nat) (hk : k ≤ 1023) (h : |q| ≤ 2 ^ k) :
    |q| ≤ 2 ^ 1023 :=
  le_trans h (pow_le_pow_right₀ (by norm_num) hk)

end Dbl

/-! ## Grid accessor -/

theorem arr_read_some {α : Type} (a : List α) (i : Int) (h0 : 0 ≤ i) (h1 : i < (a.length : Int)) :
    ∃ v, arr_read a i = some v ∧ a[i.toNat]? = some v := by
  have hlt : i.toNat < a.length := by omega
  refine ⟨a[i.toNat], ?_, ?_⟩
  · simp [arr_read, h0, List.getElem?_eq_getElem hlt]
  · simp [List.getElem?_eq_getElem hlt]

/-- C1: on a well-formed game `safe_get_tile` returns the wall code when the row or the
column is out of range, returns the stored character otherwise, and never reads outside
the map or a row. -/
theorem safe_get_tile_spec (g : t_game) (x y : Int) (hwf : g.wf) :
    (y < 0 ∨ g.map_height ≤ y → safe_get_tile g x y = some '1') ∧
    (0 ≤ y → y < g.map_height →
      ∃ row, g.map[y.toNat]? = some row ∧
        (x < 0 ∨ (row.length : Int) ≤ x → safe_get_tile g x y = some '1') ∧
        (0 ≤ x → x < (row.length : Int) →
          ∃ c, row[x.toNat]? = some c ∧ safe_get_tile g x y = some c)) ∧
    safe_get_tile g x y ≠ none := by
  unfold t_game.wf at hwf
  refine ⟨?_, ?_, ?_⟩
  · intro h
    simp only [safe_get_tile, ge_iff_le]
    rw [if_pos h]
  · intro h0 h1
    obtain ⟨row, hr, hr2⟩ := arr_read_some g.map y h0 (by omega)
    refine ⟨row, hr2, ?_, ?_⟩
    · intro hx
      have hy : ¬ (y < 0 ∨ y ≥ g.map_height) := by omega
      simp only [safe_get_tile, if_neg hy, hr, ft_strlen, ge_iff_le]
      rw [if_pos hx]
    · intro hx0 hx1
      obtain ⟨c, hc, hc2⟩ := arr_read_some row x hx0 hx1
      have hy : ¬ (y < 0 ∨ y ≥ g.map_height) := by omega
      have hx : ¬ (x < 0 ∨ (row.length : Int) ≤ x) := by omega
      refine ⟨c, hc2, ?_⟩
      simp only [safe_get_tile, if_neg hy, hr, ft_strlen, ge_iff_le]
      rw [if_neg hx, hc]
  · by_cases hy : y < 0 ∨ y ≥ g.map_height
    · simp [safe_get_tile, hy]
    · obtain ⟨row, hr, -⟩ := arr_read_some g.map y (by omega) (by omega)
      by_cases hx : x < 0 ∨ (row.length : Int) ≤ x
      · simp only [safe_get_tile, if_neg hy, hr, ft_strlen, ge_iff_le]
        rw [if_pos hx]; simp
      · obtain ⟨c, hc, -⟩ := arr_read_some row x (by omega) (by omega)
        simp only [safe_get_tile, if_neg hy, hr, ft_strlen, ge_iff_le]
        rw [if_neg hx, hc]; simp

/-- C1 at a ragged two-row map, column 2 of the short row. -/
theorem safe_get_tile_spec_witness :
    ragged_game.wf ∧
    (((1 : Int) < 0 ∨ ragged_game.map_height ≤ 1 → safe_get_tile ragged_game 2 1 = some '1') ∧
    ((0 : Int) ≤ 1 → 1 < ragged_game.map_height →
      ∃ row, ragged_game.map[(1 : Int).toNat]? = some row ∧
        ((2 : Int) < 0 ∨ (row.length : Int) ≤ 2 → safe_get_tile ragged_game 2 1 = some '1') ∧
        ((0 : Int) ≤ 2 → 2 < (row.length : Int) →
          ∃ c, row[(2 : Int).toNat]? = some c ∧ safe_get_tile ragged_game 2 1 = some c)) ∧
    safe_get_tile ragged_game 2 1 ≠ none) :=
  ⟨by decide, safe_get_tile_spec ragged_game 2 1 (by decide)⟩


theorem le_max_row_len (g : t_game) (row : List Char) (h : row ∈ g.map) :
    (row.length : Int) ≤ max_row_len g := by
  unfold max_row_len
  have : ∀ (l : List (List Char)), row ∈ l → row.length ≤ (l.map List.length).foldr max 0 := by
    intro l
    induction l with
    | nil => intro h; simp at h
    | cons a t ih =>
      intro h
      simp only [List.map_cons, List.foldr_cons]
      rcases List.mem_cons.1 h with h | h
      · subst h; exact le_max_left _ _
      · exact le_trans (ih h) (le_max_right _ _)
  exact_mod_cast this g.map h

/-- A cell that `safe_get_tile` does not report as a wall lies inside the map. -/
theorem safe_get_tile_ne_wall (g : t_game) (x y : Int) (hwf : g.wf)
    (h : safe_get_tile g x y ≠ some '1') :
    0 ≤ y ∧ y < g.map_height ∧ 0 ≤ x ∧ x < max_row_len g := by
  unfold t_game.wf at hwf
  by_cases hy : y < 0 ∨ y ≥ g.map_height
  · simp [safe_get_tile, hy] at h
  · obtain ⟨row, hr, hr2⟩ := arr_read_some g.map y (by omega) (by omega)
    by_cases hx : x < 0 ∨ (row.length : Int) ≤ x
    · exfalso; apply h
      simp only [safe_get_tile, if_neg hy, hr, ft_strlen, ge_iff_le]
      rw [if_pos hx]
    · have hmem : row ∈ g.map := List.getElem?_mem hr2
      have := le_max_row_len g row hmem
      omega

namespace raycasting_bonus

/-- One call of `update_ray_position` moves the cell by one step on exactly one axis. -/
theorem update_ray_position_cell (ray : t_ray) (sx sy : Int)
    (hx : ray.step.x = Dbl.fin (sx : ℚ)) (hy : ray.step.y = Dbl.fin (sy : ℚ)) :
    (update_ray_position ray).step = ray.step ∧
    (((update_ray_position ray).map_x = ray.map_x + sx ∧
        (update_ray_position ray).map_y = ray.map_y) ∨
      ((update_ray_position ray).map_x = ray.map_x ∧
        (update_ray_position ray).map_y = ray.map_y + sy)) := by
  unfold update_ray_position
  split
  · refine ⟨rfl, Or.inl ⟨?_, rfl⟩⟩
    simp only [hx, Dbl.ofInt_eq, Dbl.fin_add_fin]
    rw [← Int.cast_add, Dbl.toInt_int]
  · refine ⟨rfl, Or.inr ⟨rfl, ?_⟩⟩
    simp only [hy, Dbl.ofInt_eq, Dbl.fin_add_fin]
    rw [← Int.cast_add, Dbl.toInt_int]

theorem dda_loop_in_box (door : t_app → t_ray → Bool) (app : t_app) (hwf : app.game.wf)
    (sx sy : Int) (hsx : sx = 1 ∨ sx = -1) (hsy : sy = 1 ∨ sy = -1) :
    ∀ (n : Nat) (ray : t_ray),
      ray.step.x = Dbl.fin (sx : ℚ) → ray.step.y = Dbl.fin (sy : ℚ) →
      0 ≤ ray.map_x → ray.map_x < max_row_len app.game →
      0 ≤ ray.map_y → ray.map_y < app.game.map_height →
      togo (max_row_len app.game) app.game.map_height sx sy ray.map_x ray.map_y ≤ n →
      ∃ r, dda_loop door app n ray = some r ∧
        -1 ≤ r.map_x ∧ r.map_x ≤ max_row_len app.game ∧
        -1 ≤ r.map_y ∧ r.map_y ≤ app.game.map_height := by
  intro n
  induction n with
  | zero =>
    intro ray _ _ h1 h2 h3 h4 h5
    exfalso
    unfold togo at h5
    rcases hsx with rfl | rfl <;> rcases hsy with rfl | rfl <;> simp at h5 <;> omega
  | succ n ih =>
    intro ray hx hy h1 h2 h3 h4 h5
    obtain ⟨hst, hcell⟩ := update_ray_position_cell ray sx sy hx hy
    simp only [dda_loop]
    split_ifs with hw hd
    · refine ⟨_, rfl, ?_⟩
      simp only
      rcases hcell with ⟨e1, e2⟩ | ⟨e1, e2⟩ <;> rw [e1, e2] <;>
        rcases hsx with rfl | rfl <;> rcases hsy with rfl | rfl <;> omega
    · refine ⟨_, rfl, ?_⟩
      simp only
      rcases hcell with ⟨e1, e2⟩ | ⟨e1, e2⟩ <;> rw [e1, e2] <;>
        rcases hsx with rfl | rfl <;> rcases hsy with rfl | rfl <;> omega
    · have hin := safe_get_tile_ne_wall app.game _ _ hwf hw
      apply ih
      · show (update_ray_position ray).step.x = _
        rw [hst]; exact hx
      · show (update_ray_position ray).step.y = _
        rw [hst]; exact hy
      · exact hin.2.2.1
      · exact hin.2.2.2
      · exact hin.1
      · exact hin.2.1
      · show togo _ _ sx sy (update_ray_position ray).map_x (update_ray_position ray).map_y ≤ _
        unfold togo at h5 ⊢
        rcases hcell with ⟨e1, e2⟩ | ⟨e1, e2⟩ <;> rw [e1, e2] <;>
          rcases hsx with rfl | rfl <;> rcases hsy with rfl | rfl <;> simp at h5 ⊢ <;> omega

end raycasting_bonus

theorem togo_le (cols rows sx sy x y : Int) (hsx : sx = 1 ∨ sx = -1) (hsy : sy = 1 ∨ sy = -1)
    (h1 : 0 ≤ x) (h2 : x < cols) (h3 : 0 ≤ y) (h4 : y < rows) :
    togo cols rows sx sy x y ≤ rows + cols - 1 := by
  unfold togo
  rcases hsx with rfl | rfl <;> rcases hsy with rfl | rfl <;> simp <;> omega

namespace raycasting_bonus

theorem init_step_x (pos : Dbl) (map : Int) (dd rd : Dbl) :
    ∃ s : Int, (s = 1 ∨ s = -1) ∧ (init_step pos map dd rd).x = Dbl.fin (s : ℚ) := by
  unfold init_step
  split
  · exact ⟨-1, Or.inr rfl, by simp⟩
  · exact ⟨1, Or.inl rfl, by simp⟩

/-- From a start cell inside the box, `do_dda` returns within `rows + cols - 1` iterations
and stops on a cell of the box widened by one. -/
theorem do_dda_in_box (door : t_app → t_ray → Bool) (app : t_app) (hwf : app.game.wf)
    (fuel : Nat) (hfuel : app.game.map_height + max_row_len app.game - 1 ≤ fuel)
    (ray : t_ray)
    (h1 : 0 ≤ ray.map_x) (h2 : ray.map_x < max_row_len app.game)
    (h3 : 0 ≤ ray.map_y) (h4 : ray.map_y < app.game.map_height) :
    ∃ r, do_dda door fuel app ray = some r ∧
      -1 ≤ r.map_x ∧ r.map_x ≤ max_row_len app.game ∧
      -1 ≤ r.map_y ∧ r.map_y ≤ app.game.map_height := by
  obtain ⟨sx, hsx, ex⟩ := init_step_x app.camera.pos.x ray.map_x ray.deltadist.x ray.raydir.x
  obtain ⟨sy, hsy, ey⟩ := init_step_x app.camera.pos.y ray.map_y ray.deltadist.y ray.raydir.y
  have hle := togo_le (max_row_len app.game) app.game.map_height sx sy ray.map_x ray.map_y
    hsx hsy h1 h2 h3 h4
  obtain ⟨r, hr, hb⟩ := dda_loop_in_box door app hwf sx sy hsx hsy fuel
    { ray with
      step := ⟨(init_step app.camera.pos.x ray.map_x ray.deltadist.x ray.raydir.x).x,
        (init_step app.camera.pos.y ray.map_y ray.deltadist.y ray.raydir.y).x⟩,
      sidedist := ⟨(init_step app.camera.pos.x ray.map_x ray.deltadist.x ray.raydir.x).y,
        (init_step app.camera.pos.y ray.map_y ray.deltadist.y ray.raydir.y).y⟩ }
    ex ey h1 h2 h3 h4 (le_trans hle hfuel)
  simp only [do_dda]
  rw [hr]
  simp only
  split_ifs
  · exact ⟨_, rfl, hb⟩
  · exact ⟨_, rfl, hb⟩

end raycasting_bonus

namespace raycasting

theorem dda_loop_in_box0 (app : t_app) (hwf : app.game.wf)
    (sx sy : Int) (hsx : sx = 1 ∨ sx = -1) (hsy : sy = 1 ∨ sy = -1) :
    ∀ (n : Nat) (ray : t_ray),
      ray.step.i = Dbl.fin (sx : ℚ) → ray.step.j = Dbl.fin (sy : ℚ) →
      0 ≤ ray.map_x → ray.map_x < max_row_len app.game →
      0 ≤ ray.map_y → ray.map_y < app.game.map_height →
      togo (max_row_len app.game) app.game.map_height sx sy ray.map_x ray.map_y ≤ n →
      ∃ r, dda_loop app n ray = some r ∧
        -1 ≤ r.map_x ∧ r.map_x ≤ max_row_len app.game ∧
        -1 ≤ r.map_y ∧ r.map_y ≤ app.game.map_height := by
  intro n
  induction n with
  | zero =>
    intro ray _ _ h1 h2 h3 h4 h5
    exfalso
    unfold togo at h5
    rcases hsx with rfl | rfl <;> rcases hsy with rfl | rfl <;> simp at h5 <;> omega
  | succ n ih =>
    intro ray hx hy h1 h2 h3 h4 h5
    have ex : Dbl.toInt (Dbl.ofInt ray.map_x + ray.step.i) = ray.map_x + sx := by
      simp only [hx, Dbl.ofInt_eq, Dbl.fin_add_fin]
      rw [← Int.cast_add, Dbl.toInt_int]
    have ey : Dbl.toInt (Dbl.ofInt ray.map_y + ray.step.j) = ray.map_y + sy := by
      simp only [hy, Dbl.ofInt_eq, Dbl.fin_add_fin]
      rw [← Int.cast_add, Dbl.toInt_int]
    simp only [dda_loop]
    by_cases hlt : ray.sidedist.i < ray.sidedist.j
    · simp only [if_pos hlt, ex]
      split_ifs with hw
      · refine ⟨_, rfl, ?_⟩
        simp only
        rcases hsx with rfl | rfl <;> omega
      · have hin := safe_get_tile_ne_wall app.game _ _ hwf hw
        refine ih _ hx hy hin.2.2.1 hin.2.2.2 hin.1 hin.2.1 ?_
        simp only
        unfold togo at h5 ⊢
        rcases hsx with rfl | rfl <;> rcases hsy with rfl | rfl <;> simp at h5 ⊢ <;> omega
    · simp only [if_neg hlt, ey]
      split_ifs with hw
      · refine ⟨_, rfl, ?_⟩
        simp only
        rcases hsy with rfl | rfl <;> omega
      · have hin := safe_get_tile_ne_wall app.game _ _ hwf hw
        refine ih _ hx hy hin.2.2.1 hin.2.2.2 hin.1 hin.2.1 ?_
        simp only
        unfold togo at h5 ⊢
        rcases hsx with rfl | rfl <;> rcases hsy with rfl | rfl <;> simp at h5 ⊢ <;> omega

theorem init_step_i (pos : Dbl) (map : Int) (dd rd : Dbl) :
    ∃ s : Int, (s = 1 ∨ s = -1) ∧ (init_step pos map dd rd).i = Dbl.fin (s : ℚ) := by
  unfold init_step
  split
  · exact ⟨-1, Or.inr rfl, by simp⟩
  · exact ⟨1, Or.inl rfl, by simp⟩

theorem do_dda_in_box0 (app : t_app) (hwf : app.game.wf)
    (fuel : Nat) (hfuel : app.game.map_height + max_row_len app.game - 1 ≤ fuel)
    (ray : t_ray)
    (h1 : 0 ≤ ray.map_x) (h2 : ray.map_x < max_row_len app.game)
    (h3 : 0 ≤ ray.map_y) (h4 : ray.map_y < app.game.map_height) :
    ∃ r, do_dda fuel app ray = some r ∧
      -1 ≤ r.map_x ∧ r.map_x ≤ max_row_len app.game ∧
      -1 ≤ r.map_y ∧ r.map_y ≤ app.game.map_height := by
  obtain ⟨sx, hsx, ex⟩ := init_step_i app.camera.pos.i ray.map_x ray.deltadist.i ray.raydir.i
  obtain ⟨sy, hsy, ey⟩ := init_step_i app.camera.pos.j ray.map_y ray.deltadist.j ray.raydir.j
  have hle := togo_le (max_row_len app.game) app.game.map_height sx sy ray.map_x ray.map_y
    hsx hsy h1 h2 h3 h4
  obtain ⟨r, hr, hb⟩ := dda_loop_in_box0 app hwf sx sy hsx hsy fuel
    { ray with
      step := { ray.step with
        i := (init_step app.camera.pos.i ray.map_x ray.deltadist.i ray.raydir.i).i,
        j := (init_step app.camera.pos.j ray.map_y ray.deltadist.j ray.raydir.j).i },
      sidedist := { ray.sidedist with
        i := (init_step app.camera.pos.i ray.map_x ray.deltadist.i ray.raydir.i).j,
        j := (init_step app.camera.pos.j ray.map_y ray.deltadist.j ray.raydir.j).j } }
    ex ey h1 h2 h3 h4 (le_trans hle hfuel)
  simp only [do_dda]
  rw [hr]
  simp only
  split_ifs
  · exact ⟨_, rfl, hb⟩
  · exact ⟨_, rfl, hb⟩

end raycasting

/-- C2: on a well-formed map with `rows` rows and longest row `cols`, from every camera
whose starting cell lies in `[0, cols) x [0, rows)`, for every ray direction and every door
test, the loop of `do_dda` terminates within `rows + cols - 1` iterations and stops on a
cell with column in `[-1, cols]` and row in `[-1, rows]`; this holds for `raycasting_bonus.c`
and for `raycasting.c`. -/
theorem dda_loop_terminates_in_box (g : t_game) (hwf : g.wf) (fuel : Nat)
    (hfuel : g.map_height + max_row_len g - 1 ≤ fuel) :
    (∀ (sqrt : Dbl → Dbl) (WIDTH : Int)
        (door : raycasting_bonus.t_app → raycasting_bonus.t_ray → Bool)
        (cam : raycasting_bonus.t_camera) (x : Int) (ray : raycasting_bonus.t_ray),
      0 ≤ Dbl.toInt cam.pos.x → Dbl.toInt cam.pos.x < max_row_len g →
      0 ≤ Dbl.toInt cam.pos.y → Dbl.toInt cam.pos.y < g.map_height →
      ∃ r, raycasting_bonus.do_dda door fuel ⟨cam, g⟩
          (raycasting_bonus.init_ray sqrt WIDTH ⟨cam, g⟩ x ray) = some r ∧
        -1 ≤ r.map_x ∧ r.map_x ≤ max_row_len g ∧ -1 ≤ r.map_y ∧ r.map_y ≤ g.map_height) ∧
    (∀ (sqrt : Dbl → Dbl) (WIDTH : Int) (cam : raycasting.t_camera) (x : Int)
        (ray : raycasting.t_ray),
      0 ≤ Dbl.toInt cam.pos.i → Dbl.toInt cam.pos.i < max_row_len g →
      0 ≤ Dbl.toInt cam.pos.j → Dbl.toInt cam.pos.j < g.map_height →
      ∃ r, raycasting.do_dda fuel ⟨cam, g⟩
          (raycasting.init_ray sqrt WIDTH ⟨cam, g⟩ x ray) = some r ∧
        -1 ≤ r.map_x ∧ r.map_x ≤ max_row_len g ∧ -1 ≤ r.map_y ∧ r.map_y ≤ g.map_height) := by
  constructor
  · intro sqrt W door cam x ray h1 h2 h3 h4
    exact raycasting_bonus.do_dda_in_box door ⟨cam, g⟩ hwf fuel hfuel _ h1 h2 h3 h4
  · intro sqrt W cam x ray h1 h2 h3 h4
    exact raycasting.do_dda_in_box0 ⟨cam, g⟩ hwf fuel hfuel _ h1 h2 h3 h4

theorem toInt_five_halves : Dbl.toInt (Dbl.fin (5 / 2)) = 2 := by
  rw [Dbl.toInt_fin_nonneg _ (by norm_num)]
  norm_num

/-- C2 at the 5 x 5 open map, camera at its centre, fuel 9. -/
theorem dda_loop_terminates_in_box_witness :
    open5.wf ∧ open5.map_height + max_row_len open5 - 1 ≤ ((9 : Nat) : Int) ∧
    ∃ r, raycasting_bonus.do_dda no_door 9 ⟨cam5, open5⟩
        (raycasting_bonus.init_ray sqrt_exact 2 ⟨cam5, open5⟩ 1 blank_ray) = some r ∧
      -1 ≤ r.map_x ∧ r.map_x ≤ max_row_len open5 ∧ -1 ≤ r.map_y ∧
      r.map_y ≤ open5.map_height :=
  ⟨by decide, by decide,
    (dda_loop_terminates_in_box open5 (by decide) 9 (by decide)).1 sqrt_exact 2 no_door cam5 1
      blank_ray (by simp [cam5, toInt_five_halves]) (by simp [cam5, toInt_five_halves]; decide)
      (by simp [cam5, toInt_five_halves]) (by simp [cam5, toInt_five_halves]; decide)⟩

namespace raycasting_bonus

/-- What a run of `dda_loop` that returns `r` from `ray` has done when both side distances
are finite: `a` advances in x and `b` in y, the side distances grown by as many delta
distances, the last grid line crossed not after the next one on either axis, and a stop
on a wall or on a door reported solid. -/
theorem dda_loop_trace (door : t_app → t_ray → Bool) (app : t_app) (sx sy : Int) (dx dy : ℚ)
    (hdx : 0 ≤ dx) (hdy : 0 ≤ dy) :
    ∀ (n : Nat) (ray r : t_ray) (tx ty : ℚ),
      ray.step = ⟨Dbl.fin sx, Dbl.fin sy⟩ → ray.deltadist = ⟨Dbl.fin dx, Dbl.fin dy⟩ →
      ray.sidedist = ⟨Dbl.fin tx, Dbl.fin ty⟩ →
      tx - dx ≤ ty → ty - dy ≤ tx →
      dda_loop door app n ray = some r →
      ∃ a b : Nat, 1 ≤ a + b ∧ a + b ≤ n ∧
        r.map_x = ray.map_x + a * sx ∧ r.map_y = ray.map_y + b * sy ∧
        r.sidedist = ⟨Dbl.fin (tx + a * dx), Dbl.fin (ty + b * dy)⟩ ∧
        tx + a * dx - dx ≤ ty + b * dy ∧ ty + b * dy - dy ≤ tx + a * dx ∧
        r.deltadist = ray.deltadist ∧ r.step = ray.step ∧ r.raydir = ray.raydir ∧
        r.raydir_mod = ray.raydir_mod ∧
        (r.side = 0 ∧ 1 ≤ a ∨ r.side = 1 ∧ 1 ≤ b) ∧
        r.hit_tile = safe_get_tile app.game r.map_x r.map_y ∧
        (r.hit_tile = some '1' ∨
          (r.hit_tile = some '2' ∨ r.hit_tile = some '3') ∧ door app r = true) := by
  intro n
  induction n with
  | zero => intro ray r tx ty _ _ _ _ _ h; simp [dda_loop] at h
  | succ n ih =>
    intro ray r tx ty hst hdd hsd h1 h2 h
    obtain ⟨hstep, hcell⟩ := update_ray_position_cell ray sx sy (by rw [hst]) (by rw [hst])
    by_cases hlt : tx < ty
    · -- an advance in x
      have hu : update_ray_position ray =
          { ray with sidedist := ⟨Dbl.fin (tx + dx), Dbl.fin ty⟩,
                     map_x := Dbl.toInt (Dbl.ofInt ray.map_x + ray.step.x), side := 0 } := by
        simp [update_ray_position, hsd, hdd, hlt]
      have hmx : Dbl.toInt (Dbl.ofInt ray.map_x + ray.step.x) = ray.map_x + sx := by
        rw [hst]; simp only [Dbl.ofInt_eq, Dbl.fin_add_fin]
        rw [← Int.cast_add, Dbl.toInt_int]
      rw [hmx] at hu
      simp only [dda_loop, hu] at h
      split_ifs at h with hw hd
      · cases h
        refine ⟨1, 0, by omega, by omega, by simp, by simp, by simp, by simp; linarith,
          by simp; linarith, rfl, rfl, rfl, rfl, Or.inl ⟨rfl, le_refl _⟩, rfl, Or.inl hw⟩
      · cases h
        refine ⟨1, 0, by omega, by omega, by simp, by simp, by simp, by simp; linarith,
          by simp; linarith, rfl, rfl, rfl, rfl, Or.inl ⟨rfl, le_refl _⟩, rfl, Or.inr hd⟩
      · obtain ⟨a, b, ha, hb, e1, e2, e3, e4, e5, e6, e7, e8, e9, e10, e11, e12⟩ :=
          ih _ r (tx + dx) ty (by exact hst) (by exact hdd) (by rfl) (by linarith) (by linarith) h
        refine ⟨a + 1, b, by omega, by omega, ?_, e2, ?_, ?_, ?_, e6, e7, e8, e9, ?_, e11, e12⟩
        · rw [e1]; push_cast; ring
        · rw [e3]; push_cast; ring_nf
        · push_cast; linarith
        · push_cast; linarith
        · rcases e10 with ⟨s, q⟩ | ⟨s, q⟩
          · exact Or.inl ⟨s, by omega⟩
          · exact Or.inr ⟨s, q⟩
    · -- an advance in y
      have hu : update_ray_position ray =
          { ray with sidedist := ⟨Dbl.fin tx, Dbl.fin (ty + dy)⟩,
                     map_y := Dbl.toInt (Dbl.ofInt ray.map_y + ray.step.y), side := 1 } := by
        simp [update_ray_position, hsd, hdd, hlt]
      have hmy : Dbl.toInt (Dbl.ofInt ray.map_y + ray.step.y) = ray.map_y + sy := by
        rw [hst]; simp only [Dbl.ofInt_eq, Dbl.fin_add_fin]
        rw [← Int.cast_add, Dbl.toInt_int]
      rw [hmy] at hu
      simp only [dda_loop, hu] at h
      have hle : ty ≤ tx := not_lt.1 hlt
      split_ifs at h with hw hd
      · cases h
        refine ⟨0, 1, by omega, by omega, by simp, by simp, by simp, by simp; linarith,
          by simp; linarith, rfl, rfl, rfl, rfl, Or.inr ⟨rfl, le_refl _⟩, rfl, Or.inl hw⟩
      · cases h
        refine ⟨0, 1, by omega, by omega, by simp, by simp, by simp, by simp; linarith,
          by simp; linarith, rfl, rfl, rfl, rfl, Or.inr ⟨rfl, le_refl _⟩, rfl, Or.inr hd⟩
      · obtain ⟨a, b, ha, hb, e1, e2, e3, e4, e5, e6, e7, e8, e9, e10, e11, e12⟩ :=
          ih _ r tx (ty + dy) (by exact hst) (by exact hdd) (by rfl) (by linarith) (by linarith) h
        refine ⟨a, b + 1, by omega, by omega, e1, ?_, ?_, ?_, ?_, e6, e7, e8, e9, ?_, e11, e12⟩
        · rw [e2]; push_cast; ring
        · rw [e3]; push_cast; ring_nf
        · push_cast; linarith
        · push_cast; linarith
        · rcases e10 with ⟨s, q⟩ | ⟨s, q⟩
          · exact Or.inl ⟨s, q⟩
          · exact Or.inr ⟨s, by omega⟩

end raycasting_bonus

theorem sqrt_exact_sq (n : Nat) : sqrt_exact (Dbl.fin ((n * n : Nat) : ℚ)) = Dbl.fin (n : ℚ) := by
  have h : ¬ (((n * n : Nat) : ℚ) < 0) := by
    push_neg; exact_mod_cast Nat.zero_le _
  simp only [sqrt_exact, if_neg h, Rat.num_natCast, Rat.den_natCast, Int.toNat_ofNat]
  rw [Nat.sqrt_eq]
  simp

theorem safe_get_tile_open (n : Nat) (x y : Int) (hx0 : 0 ≤ x) (hx : x < n) (hy0 : 0 ≤ y)
    (hy : y < n) : safe_get_tile (open_game n) x y = some '0' := by
  have h1 : ¬ (y < 0 ∨ y ≥ (open_game n).map_height) := by
    simp only [open_game]; omega
  have hyn : y.toNat < n := by omega
  have hxn : x.toNat < n := by omega
  have hr : arr_read (open_game n).map y = some (List.replicate n '0') := by
    simp [arr_read, open_game, hy0, List.getElem?_replicate, hyn]
  have h2 : ¬ (x < 0 ∨ x ≥ ft_strlen (List.replicate n '0')) := by
    simp only [ft_strlen, List.length_replicate]; omega
  simp only [safe_get_tile, if_neg h1, hr, if_neg h2]
  simp [arr_read, hx0, List.getElem?_replicate, hxn]

theorem init_ray_cam34 (n : Nat) :
    raycasting_bonus.init_ray sqrt_exact 2 ⟨cam34, open_game n⟩ 1 blank_ray =
      { blank_ray with
        raydir := ⟨Dbl.fin 3, Dbl.fin 4⟩
        map_x := 0
        map_y := 0
        raydir_mod := Dbl.fin 5
        deltadist := ⟨Dbl.fin (5 / 3), Dbl.fin (5 / 4)⟩ } := by
  have h25 : sqrt_exact (Dbl.fin 25) = Dbl.fin 5 := by
    have := sqrt_exact_sq 5
    norm_num at this
    exact this
  have ht : Dbl.toInt (Dbl.fin (1 / 2)) = 0 := by
    rw [Dbl.toInt_fin_nonneg _ (by norm_num)]; norm_num
  simp only [raycasting_bonus.init_ray, cam34, Dbl.ofInt_eq, ht]
  rw [Dbl.fin_div_fin _ _ (by norm_num)]
  norm_num
  rw [h25, Dbl.fin_div_fin _ _ (by norm_num), Dbl.fin_div_fin _ _ (by norm_num)]
  norm_num [abs_of_pos]

theorem max_row_len_open (n : Nat) : max_row_len (open_game n) = n := by
  have h : ∀ k : Nat, ((List.replicate k (List.replicate n '0')).map List.length).foldr max 0
      = if k = 0 then 0 else n := by
    intro k
    induction k with
    | zero => simp
    | succ k ih =>
      simp only [List.replicate_succ, List.map_cons, List.foldr_cons, ih, List.length_replicate]
      rw [if_neg (Nat.succ_ne_zero k)]
      split_ifs <;> simp
  simp only [max_row_len, open_game, h]
  split_ifs with h0
  · simp [h0]
  · rfl

namespace raycasting_bonus

/-- Function `do_dda` is `dda_loop` run from `do_dda_start`, followed by `do_dda_finish`. -/
theorem do_dda_eq (door : t_app → t_ray → Bool) (fuel : Nat) (app : t_app) (ray : t_ray) :
    do_dda door fuel app ray =
      (dda_loop door app fuel (do_dda_start app ray)).map do_dda_finish := by
  simp only [do_dda, do_dda_start]
  cases dda_loop door app fuel _ with
  | none => rfl
  | some r => simp only [Option.map_some', do_dda_finish]; split_ifs <;> rfl

end raycasting_bonus

theorem do_dda_start_cam34 (n : Nat) :
    raycasting_bonus.do_dda_start ⟨cam34, open_game n⟩
        (raycasting_bonus.init_ray sqrt_exact 2 ⟨cam34, open_game n⟩ 1 blank_ray) =
      { blank_ray with
        raydir := ⟨Dbl.fin 3, Dbl.fin 4⟩
        map_x := 0
        map_y := 0
        raydir_mod := Dbl.fin 5
        deltadist := ⟨Dbl.fin (5 / 3), Dbl.fin (5 / 4)⟩
        step := ⟨Dbl.fin 1, Dbl.fin 1⟩
        sidedist := ⟨Dbl.fin (5 / 6), Dbl.fin (5 / 8)⟩ } := by
  rw [init_ray_cam34]
  simp only [raycasting_bonus.do_dda_start, raycasting_bonus.init_step, cam34, Dbl.ofInt_eq]
  norm_num

/-- C3, refuted: no constant `c` bounds the number of iterations of `dda_loop` by the
diagonal of the map plus `c`.  On the open map of side `4 c + 8`, the ray from `(0.5, 0.5)`
along `(3, 4)` has not stopped after `7 c + 12` iterations, although
`(7 c + 12 - c) ^ 2` is at least `rows ^ 2 + cols ^ 2`. -/
theorem dda_advances_exceed_diagonal :
    ¬ ∃ c : Nat, ∀ (sqrt : Dbl → Dbl) (WIDTH : Int)
        (door : raycasting_bonus.t_app → raycasting_bonus.t_ray → Bool)
        (app : raycasting_bonus.t_app) (x : Int) (ray : raycasting_bonus.t_ray) (fuel : Nat),
      app.game.wf →
      0 ≤ Dbl.toInt app.camera.pos.x → Dbl.toInt app.camera.pos.x < max_row_len app.game →
      0 ≤ Dbl.toInt app.camera.pos.y → Dbl.toInt app.camera.pos.y < app.game.map_height →
      c ≤ fuel →
      app.game.map_height ^ 2 + max_row_len app.game ^ 2 ≤ ((fuel : Int) - c) ^ 2 →
      ∃ r, raycasting_bonus.do_dda door fuel app
        (raycasting_bonus.init_ray sqrt WIDTH app x ray) = some r := by
  rintro ⟨c, h⟩
  have ht : Dbl.toInt (Dbl.fin (1 / 2)) = 0 := by
    rw [Dbl.toInt_fin_nonneg _ (by norm_num)]; norm_num
  obtain ⟨r, hr⟩ := h sqrt_exact 2 no_door ⟨cam34, open_game (4 * c + 8)⟩ 1 blank_ray
    (7 * c + 12)
    (by simp [t_game.wf, open_game])
    (by show (0 : Int) ≤ Dbl.toInt (Dbl.fin (1 / 2)); rw [ht])
    (by show Dbl.toInt (Dbl.fin (1 / 2)) < max_row_len (open_game (4 * c + 8))
        rw [ht, max_row_len_open]; omega)
    (by show (0 : Int) ≤ Dbl.toInt (Dbl.fin (1 / 2)); rw [ht])
    (by show Dbl.toInt (Dbl.fin (1 / 2)) < ((4 * c + 8 : Nat) : Int)
        rw [ht]; omega)
    (by omega)
    (by show (((4 * c + 8 : Nat) : Int)) ^ 2 + max_row_len (open_game (4 * c + 8)) ^ 2 ≤ _
        rw [max_row_len_open]; push_cast; nlinarith)
  rw [raycasting_bonus.do_dda_eq, do_dda_start_cam34] at hr
  cases hl : raycasting_bonus.dda_loop no_door ⟨cam34, open_game (4 * c + 8)⟩ (7 * c + 12)
      { blank_ray with
        raydir := ⟨Dbl.fin 3, Dbl.fin 4⟩
        map_x := 0
        map_y := 0
        raydir_mod := Dbl.fin 5
        deltadist := ⟨Dbl.fin (5 / 3), Dbl.fin (5 / 4)⟩
        step := ⟨Dbl.fin 1, Dbl.fin 1⟩
        sidedist := ⟨Dbl.fin (5 / 6), Dbl.fin (5 / 8)⟩ } with
  | none => rw [hl] at hr; simp at hr
  | some r1 =>
    obtain ⟨a, b, -, hab, e1, e2, -, i1, i2, -, -, -, -, -, e11, e12⟩ :=
      raycasting_bonus.dda_loop_trace no_door ⟨cam34, open_game (4 * c + 8)⟩ 1 1 (5 / 3) (5 / 4)
        (by norm_num) (by norm_num) _ _ r1 (5 / 6) (5 / 8) (by simp) (by rfl) (by rfl)
        (by norm_num) (by norm_num) hl
    simp [no_door] at e12
    rw [e12] at e11
    simp only at e1 e2 e11
    have hout : ¬ ((a : Int) < (4 * c + 8 : Nat) ∧ (b : Int) < (4 * c + 8 : Nat)) := by
      rintro ⟨ha, hb⟩
      have := safe_get_tile_open (4 * c + 8) r1.map_x r1.map_y (by omega) (by omega) (by omega)
        (by omega)
      rw [this] at e11
      simp at e11
    have hab2 : (a : ℚ) + b ≤ 7 * c + 12 := by exact_mod_cast hab
    by_cases ha : (a : Int) < (4 * c + 8 : Nat)
    · have hb : (4 * (c : ℚ) + 8) ≤ b := by
        have : ¬ ((b : Int) < (4 * c + 8 : Nat)) := fun hb => hout ⟨ha, hb⟩
        have h2 : ((4 * c + 8 : Nat) : Int) ≤ b := by omega
        exact_mod_cast h2
      linarith
    · have ha2 : (4 * (c : ℚ) + 8) ≤ a := by
        have h2 : ((4 * c + 8 : Nat) : Int) ≤ a := by omega
        exact_mod_cast h2
      linarith

/-- C3, amended: on a well-formed map with `rows` rows and longest row `cols`, from every
camera whose starting cell lies in `[0, cols) x [0, rows)`, the number `n` of iterations
(one cell advance each) after which `dda_loop` stops, that is the least bound under which
`do_dda` returns, is at most `rows + cols - 1`. -/
theorem dda_advances_le_rows_add_cols (sqrt : Dbl → Dbl) (WIDTH : Int)
    (door : raycasting_bonus.t_app → raycasting_bonus.t_ray → Bool)
    (app : raycasting_bonus.t_app) (x : Int) (ray : raycasting_bonus.t_ray)
    (hwf : app.game.wf)
    (h1 : 0 ≤ Dbl.toInt app.camera.pos.x)
    (h2 : Dbl.toInt app.camera.pos.x < max_row_len app.game)
    (h3 : 0 ≤ Dbl.toInt app.camera.pos.y)
    (h4 : Dbl.toInt app.camera.pos.y < app.game.map_height) :
    ∃ (n : Nat) (r : raycasting_bonus.t_ray),
      (n : Int) ≤ app.game.map_height + max_row_len app.game - 1 ∧
      raycasting_bonus.do_dda door n app (raycasting_bonus.init_ray sqrt WIDTH app x ray)
        = some r ∧
      ∀ m : Nat, m < n →
        raycasting_bonus.do_dda door m app (raycasting_bonus.init_ray sqrt WIDTH app x ray)
          = none := by
  obtain ⟨r0, hr0, -⟩ := raycasting_bonus.do_dda_in_box door app hwf
    (app.game.map_height + max_row_len app.game - 1).toNat (by omega)
    (raycasting_bonus.init_ray sqrt WIDTH app x ray) h1 h2 h3 h4
  have hex : ∃ n, (raycasting_bonus.do_dda door n app
      (raycasting_bonus.init_ray sqrt WIDTH app x ray)).isSome = true :=
    ⟨_, by rw [hr0]; rfl⟩
  obtain ⟨r, hr⟩ := Option.isSome_iff_exists.1 (Nat.find_spec hex)
  refine ⟨Nat.find hex, r, ?_, hr, ?_⟩
  · have hle := Nat.find_min' hex (by rw [hr0]; rfl)
    omega
  · intro m hm
    have hnot := Nat.find_min hex hm
    cases hd : raycasting_bonus.do_dda door m app
        (raycasting_bonus.init_ray sqrt WIDTH app x ray) with
    | none => rfl
    | some v => rw [hd] at hnot; exact absurd rfl hnot

/-- C3 amended, at the 5 x 5 open map with the camera at its centre. -/
theorem dda_advances_le_rows_add_cols_witness :
    open5.wf ∧
    ∃ (n : Nat) (r : raycasting_bonus.t_ray),
      (n : Int) ≤ open5.map_height + max_row_len open5 - 1 ∧
      raycasting_bonus.do_dda no_door n ⟨cam5, open5⟩
        (raycasting_bonus.init_ray sqrt_exact 2 ⟨cam5, open5⟩ 1 blank_ray) = some r ∧
      ∀ m : Nat, m < n →
        raycasting_bonus.do_dda no_door m ⟨cam5, open5⟩
          (raycasting_bonus.init_ray sqrt_exact 2 ⟨cam5, open5⟩ 1 blank_ray) = none :=
  ⟨by decide,
    dda_advances_le_rows_add_cols sqrt_exact 2 no_door ⟨cam5, open5⟩ 1 blank_ray (by decide)
      (by show (0 : Int) ≤ Dbl.toInt (Dbl.fin (5 / 2)); rw [toInt_five_halves]; decide)
      (by show Dbl.toInt (Dbl.fin (5 / 2)) < max_row_len open5
          rw [toInt_five_halves]; decide)
      (by show (0 : Int) ≤ Dbl.toInt (Dbl.fin (5 / 2)); rw [toInt_five_halves]; decide)
      (by show Dbl.toInt (Dbl.fin (5 / 2)) < (5 : Int)
          rw [toInt_five_halves]; decide)⟩

namespace raycasting_bonus

end raycasting_bonus

namespace Dbl

end Dbl

namespace raycasting_bonus

end raycasting_bonus

namespace raycasting_bonus

theorem init_ray_fin (sqrt : Dbl → Dbl) (WIDTH : Int) (hW : WIDTH ≠ 0) (g : t_game)
    (pos : t_vec2) (dx dy px py k : ℚ) (x : Int) (ray : t_ray) :
    init_ray sqrt WIDTH ⟨scaled_camera pos dx dy px py k, g⟩ x ray =
      { ray with
        raydir := ⟨Dbl.fin (k * (dx + px * camx WIDTH x)), Dbl.fin (k * (dy + py * camx WIDTH x))⟩
        map_x := Dbl.toInt pos.x
        map_y := Dbl.toInt pos.y
        raydir_mod := sqrt (Dbl.fin (k * (dx + px * camx WIDTH x) * (k * (dx + px * camx WIDTH x))
          + k * (dy + py * camx WIDTH x) * (k * (dy + py * camx WIDTH x))))
        deltadist := ⟨Dbl.fabs (sqrt (Dbl.fin (k * (dx + px * camx WIDTH x)
              * (k * (dx + px * camx WIDTH x))
            + k * (dy + py * camx WIDTH x) * (k * (dy + py * camx WIDTH x))))
            / Dbl.fin (k * (dx + px * camx WIDTH x))),
          Dbl.fabs (sqrt (Dbl.fin (k * (dx + px * camx WIDTH x) * (k * (dx + px * camx WIDTH x))
            + k * (dy + py * camx WIDTH x) * (k * (dy + py * camx WIDTH x))))
            / Dbl.fin (k * (dy + py * camx WIDTH x)))⟩ } := by
  have hW2 : (WIDTH : ℚ) ≠ 0 := by exact_mod_cast hW
  have hc : Dbl.ofInt (2 * x) / Dbl.ofInt WIDTH - Dbl.fin 1 = Dbl.fin (camx WIDTH x) := by
    simp only [Dbl.ofInt_eq, Dbl.fin_div_fin _ _ hW2, Dbl.fin_sub_fin, camx]
  have e1 : k * dx + k * px * camx WIDTH x = k * (dx + px * camx WIDTH x) := by ring
  have e2 : k * dy + k * py * camx WIDTH x = k * (dy + py * camx WIDTH x) := by ring
  simp only [init_ray, scaled_camera, hc, Dbl.fin_mul_fin, Dbl.fin_add_fin, Dbl.pow2_fin, e1, e2]

end raycasting_bonus

theorem Dbl.toInt_add_one_sub_pos (a : ℚ) : 0 < ((Dbl.toInt (Dbl.fin a) : Int) : ℚ) + 1 - a := by
  simp only [Dbl.toInt]
  split_ifs with h
  · have := Int.lt_floor_add_one a
    linarith
  · have := Int.le_ceil a
    linarith

namespace raycasting_bonus

/-- A ray whose side distance in y is `+inf` walks along x: if the next `k` cells are open
floor and the one after is a wall, `dda_loop` stops on that wall after `k + 1` advances. -/
theorem dda_loop_walk_x (door : t_app → t_ray → Bool) (app : t_app) (dx : ℚ) (sx : Int) :
    ∀ (k fuel : Nat) (ray : t_ray) (tx : ℚ),
      ray.step.x = Dbl.fin sx → ray.deltadist.x = Dbl.fin dx →
      ray.sidedist = ⟨Dbl.fin tx, Dbl.pinf⟩ →
      (∀ j : Nat, 1 ≤ j → j ≤ k →
        safe_get_tile app.game (ray.map_x + j * sx) ray.map_y ≠ some '1' ∧
        safe_get_tile app.game (ray.map_x + j * sx) ray.map_y ≠ some '2' ∧
        safe_get_tile app.game (ray.map_x + j * sx) ray.map_y ≠ some '3') →
      safe_get_tile app.game (ray.map_x + (k + 1 : Nat) * sx) ray.map_y = some '1' →
      k + 1 ≤ fuel →
      dda_loop door app fuel ray = some { ray with
        sidedist := ⟨Dbl.fin (tx + (k + 1 : Nat) * dx), Dbl.pinf⟩
        map_x := ray.map_x + (k + 1 : Nat) * sx
        side := 0
        hit_tile := some '1' } := by
  intro k
  induction k with
  | zero =>
    intro fuel ray tx hst hdd hsd _ hwall hfuel
    obtain ⟨f, rfl⟩ : ∃ f, fuel = f + 1 := ⟨fuel - 1, by omega⟩
    have hmx : Dbl.toInt (Dbl.fin (ray.map_x : ℚ) + ray.step.x) = ray.map_x + sx := by
      rw [hst]; simp only [Dbl.fin_add_fin]
      rw [← Int.cast_add, Dbl.toInt_int]
    have hu : update_ray_position ray =
        { ray with sidedist := ⟨Dbl.fin (tx + dx), Dbl.pinf⟩, map_x := ray.map_x + sx,
                   side := 0 } := by
      simp [update_ray_position, hsd, hdd, hmx]
    simp only [Nat.zero_add, Nat.cast_one, one_mul] at hwall ⊢
    simp only [dda_loop, hu, hwall, if_true]
  | succ k ih =>
    intro fuel ray tx hst hdd hsd hopen hwall hfuel
    obtain ⟨f, rfl⟩ : ∃ f, fuel = f + 1 := ⟨fuel - 1, by omega⟩
    have hmx : Dbl.toInt (Dbl.fin (ray.map_x : ℚ) + ray.step.x) = ray.map_x + sx := by
      rw [hst]; simp only [Dbl.fin_add_fin]
      rw [← Int.cast_add, Dbl.toInt_int]
    have hu : update_ray_position ray =
        { ray with sidedist := ⟨Dbl.fin (tx + dx), Dbl.pinf⟩, map_x := ray.map_x + sx,
                   side := 0 } := by
      simp [update_ray_position, hsd, hdd, hmx]
    have h1 := hopen 1 (le_refl _) (by omega)
    simp only [Nat.cast_one, one_mul] at h1
    have key := ih f
      { ray with
        sidedist := ⟨Dbl.fin (tx + dx), Dbl.pinf⟩
        map_x := ray.map_x + sx
        side := 0
        hit_tile := safe_get_tile app.game (ray.map_x + sx) ray.map_y }
      (tx + dx) hst hdd rfl
      (by
        intro j hj1 hjk
        have := hopen (j + 1) (by omega) (by omega)
        have e : ray.map_x + sx + (j : Int) * sx = ray.map_x + ((j + 1 : Nat) : Int) * sx := by
          push_cast; ring
        simp only [e]
        exact this)
      (by
        have e : ray.map_x + sx + ((k + 1 : Nat) : Int) * sx
            = ray.map_x + ((k + 1 + 1 : Nat) : Int) * sx := by
          push_cast; ring
        simp only [e]
        exact hwall)
      (by omega)
    simp only [dda_loop, hu, if_neg h1.1]
    rw [if_neg (by simp [h1.2.1, h1.2.2]), key]
    have e1 : ray.map_x + sx + ((k + 1 : Nat) : Int) * sx
        = ray.map_x + ((k + 1 + 1 : Nat) : Int) * sx := by
      push_cast; ring
    have e2 : tx + dx + ((k + 1 : Nat) : ℚ) * dx = tx + ((k + 1 + 1 : Nat) : ℚ) * dx := by
      push_cast; ring
    simp only [e1, e2]

end raycasting_bonus

/-- The ray handed to `dda_loop` for the centre column of a camera facing `(d, 0)` with
`d > 0`: unit delta distance in x, infinite side distance in y. -/
theorem do_dda_start_along_x (sqrt : Dbl → Dbl) (WIDTH : Int) (hW : WIDTH ≠ 0) (g : t_game)
    (px py plx ply d : ℚ) (hd : 0 < d) (x : Int) (ray : raycasting_bonus.t_ray)
    (hx : 2 * x = WIDTH) (hs : sqrt (Dbl.fin (d * d)) = Dbl.fin d) :
    raycasting_bonus.do_dda_start
        ⟨⟨⟨Dbl.fin px, Dbl.fin py⟩, ⟨Dbl.fin d, Dbl.fin 0⟩, ⟨Dbl.fin plx, Dbl.fin ply⟩⟩, g⟩
        (raycasting_bonus.init_ray sqrt WIDTH
          ⟨⟨⟨Dbl.fin px, Dbl.fin py⟩, ⟨Dbl.fin d, Dbl.fin 0⟩, ⟨Dbl.fin plx, Dbl.fin ply⟩⟩, g⟩
          x ray) =
      { ray with
        raydir := ⟨Dbl.fin d, Dbl.fin 0⟩
        map_x := Dbl.toInt (Dbl.fin px)
        map_y := Dbl.toInt (Dbl.fin py)
        raydir_mod := Dbl.fin d
        deltadist := ⟨Dbl.fin 1, Dbl.pinf⟩
        step := ⟨Dbl.fin 1, Dbl.fin 1⟩
        sidedist := ⟨Dbl.fin ((Dbl.toInt (Dbl.fin px) : ℚ) + 1 - px), Dbl.pinf⟩ } := by
  have hW2 : (WIDTH : ℚ) ≠ 0 := by exact_mod_cast hW
  have hcam : camx WIDTH x = 0 := by
    simp only [camx, hx]
    rw [div_self hW2]; ring
  have h1 : (⟨⟨Dbl.fin px, Dbl.fin py⟩, ⟨Dbl.fin d, Dbl.fin 0⟩, ⟨Dbl.fin plx, Dbl.fin ply⟩⟩ :
      raycasting_bonus.t_camera) = scaled_camera ⟨Dbl.fin px, Dbl.fin py⟩ d 0 plx ply 1 := by
    simp [scaled_camera]
  have hd1 : Dbl.fin d / Dbl.fin d = Dbl.fin 1 := by
    rw [Dbl.fin_div_fin _ _ hd.ne.symm, div_self hd.ne.symm]
  have hd0 : Dbl.fin d / Dbl.fin 0 = Dbl.pinf := Dbl.fin_div_zero d hd
  have hy : Dbl.fin ((Dbl.toInt (Dbl.fin py) : ℚ) + 1 - py) * Dbl.pinf = Dbl.pinf :=
    Dbl.fin_mul_pinf _ (Dbl.toInt_add_one_sub_pos py)
  have hn : ¬ (d < 0) := not_lt.2 hd.le
  rw [h1, raycasting_bonus.init_ray_fin sqrt WIDTH hW]
  simp only [hcam, mul_zero, add_zero, one_mul, mul_one, zero_mul, hs, hd1, hd0,
    raycasting_bonus.do_dda_start, raycasting_bonus.init_step, scaled_camera, Dbl.fin_lt_fin,
    lt_irrefl, if_false, hn, Dbl.ofInt_eq, Dbl.fin_add_fin, Dbl.fin_sub_fin, Dbl.fin_mul_fin,
    Dbl.fabs_fin, Dbl.fabs_pinf, abs_one, hy]

/-- The centre-column ray of a camera at `(px, py)` facing `(d, 0)`, `d > 0`, in a row that
is open floor up to a wall in column `c`: the hit is on that wall, side 0, at perpendicular
distance `(c - px) / d`. -/
theorem do_dda_along_x (d : ℚ) (hd : 0 < d) (sqrt : Dbl → Dbl) (WIDTH : Int) (hW : WIDTH ≠ 0)
    (door : raycasting_bonus.t_app → raycasting_bonus.t_ray → Bool) (g : t_game)
    (px py plx ply : ℚ) (x : Int) (ray : raycasting_bonus.t_ray) (c : Int) (fuel : Nat)
    (hx : 2 * x = WIDTH) (hs : sqrt (Dbl.fin (d * d)) = Dbl.fin d)
    (hc : Dbl.toInt (Dbl.fin px) < c)
    (hopen : ∀ j : Int, Dbl.toInt (Dbl.fin px) < j → j < c →
      safe_get_tile g j (Dbl.toInt (Dbl.fin py)) ≠ some '1' ∧
      safe_get_tile g j (Dbl.toInt (Dbl.fin py)) ≠ some '2' ∧
      safe_get_tile g j (Dbl.toInt (Dbl.fin py)) ≠ some '3')
    (hwall : safe_get_tile g c (Dbl.toInt (Dbl.fin py)) = some '1')
    (hfuel : c - Dbl.toInt (Dbl.fin px) ≤ fuel) :
    ∃ r, raycasting_bonus.do_dda door fuel
        ⟨⟨⟨Dbl.fin px, Dbl.fin py⟩, ⟨Dbl.fin d, Dbl.fin 0⟩, ⟨Dbl.fin plx, Dbl.fin ply⟩⟩, g⟩
        (raycasting_bonus.init_ray sqrt WIDTH
          ⟨⟨⟨Dbl.fin px, Dbl.fin py⟩, ⟨Dbl.fin d, Dbl.fin 0⟩, ⟨Dbl.fin plx, Dbl.fin ply⟩⟩, g⟩
          x ray) = some r ∧
      r.map_x = c ∧ r.map_y = Dbl.toInt (Dbl.fin py) ∧ r.side = 0 ∧ r.hit_tile = some '1' ∧
      r.perpwalldist = Dbl.fin (((c : ℚ) - px) / d) := by
  obtain ⟨k, hk⟩ : ∃ k : Nat, (k : Int) = c - Dbl.toInt (Dbl.fin px) - 1 :=
    ⟨(c - Dbl.toInt (Dbl.fin px) - 1).toNat, by omega⟩
  have hwalk := raycasting_bonus.dda_loop_walk_x door
    ⟨⟨⟨Dbl.fin px, Dbl.fin py⟩, ⟨Dbl.fin d, Dbl.fin 0⟩, ⟨Dbl.fin plx, Dbl.fin ply⟩⟩, g⟩ 1 1 k fuel
    { ray with
      raydir := ⟨Dbl.fin d, Dbl.fin 0⟩
      map_x := Dbl.toInt (Dbl.fin px)
      map_y := Dbl.toInt (Dbl.fin py)
      raydir_mod := Dbl.fin d
      deltadist := ⟨Dbl.fin 1, Dbl.pinf⟩
      step := ⟨Dbl.fin 1, Dbl.fin 1⟩
      sidedist := ⟨Dbl.fin ((Dbl.toInt (Dbl.fin px) : ℚ) + 1 - px), Dbl.pinf⟩ }
    ((Dbl.toInt (Dbl.fin px) : ℚ) + 1 - px) (by simp) rfl rfl
    (by
      intro j hj1 hjk
      simp only [mul_one]
      exact hopen _ (by omega) (by omega))
    (by
      have e : Dbl.toInt (Dbl.fin px) + ((k + 1 : Nat) : Int) * 1 = c := by push_cast; omega
      simp only [e]
      exact hwall)
    (by omega)
  rw [raycasting_bonus.do_dda_eq, do_dda_start_along_x sqrt WIDTH hW g px py plx ply d hd x ray hx hs,
    hwalk]
  have e : Dbl.toInt (Dbl.fin px) + ((k + 1 : Nat) : Int) * 1 = c := by push_cast; omega
  have e2 : ((k + 1 : Nat) : ℚ) = (c : ℚ) - (Dbl.toInt (Dbl.fin px) : ℚ) := by
    have : ((k + 1 : Nat) : Int) = c - Dbl.toInt (Dbl.fin px) := by push_cast; omega
    exact_mod_cast this
  refine ⟨_, rfl, ?_⟩
  simp only [raycasting_bonus.do_dda_finish, if_true, e, Dbl.fin_sub_fin, e2,
    Dbl.fin_div_fin _ _ hd.ne.symm, true_and]
  congr 1
  ring

/-- C5: for the centre column of a camera at `(px, py)` facing `(1, 0)`, when the cells of
the camera row between the starting cell and column `c` are open floor and cell `c` is a
wall, `init_ray` and `do_dda` stop on that wall with hit side 0, the row unchanged and a
perpendicular distance of exactly `c - px`. -/
theorem perpwalldist_along_x (sqrt : Dbl → Dbl) (WIDTH : Int) (hW : WIDTH ≠ 0)
    (door : raycasting_bonus.t_app → raycasting_bonus.t_ray → Bool) (g : t_game)
    (px py plx ply : ℚ) (x : Int) (ray : raycasting_bonus.t_ray) (c : Int) (fuel : Nat)
    (hx : 2 * x = WIDTH) (hs : sqrt (Dbl.fin 1) = Dbl.fin 1)
    (hc : Dbl.toInt (Dbl.fin px) < c)
    (hopen : ∀ j : Int, Dbl.toInt (Dbl.fin px) < j → j < c →
      safe_get_tile g j (Dbl.toInt (Dbl.fin py)) ≠ some '1' ∧
      safe_get_tile g j (Dbl.toInt (Dbl.fin py)) ≠ some '2' ∧
      safe_get_tile g j (Dbl.toInt (Dbl.fin py)) ≠ some '3')
    (hwall : safe_get_tile g c (Dbl.toInt (Dbl.fin py)) = some '1')
    (hfuel : c - Dbl.toInt (Dbl.fin px) ≤ fuel) :
    ∃ r, raycasting_bonus.do_dda door fuel
        ⟨⟨⟨Dbl.fin px, Dbl.fin py⟩, ⟨Dbl.fin 1, Dbl.fin 0⟩, ⟨Dbl.fin plx, Dbl.fin ply⟩⟩, g⟩
        (raycasting_bonus.init_ray sqrt WIDTH
          ⟨⟨⟨Dbl.fin px, Dbl.fin py⟩, ⟨Dbl.fin 1, Dbl.fin 0⟩, ⟨Dbl.fin plx, Dbl.fin ply⟩⟩, g⟩
          x ray) = some r ∧
      r.map_x = c ∧ r.map_y = Dbl.toInt (Dbl.fin py) ∧ r.side = 0 ∧ r.hit_tile = some '1' ∧
      r.perpwalldist = Dbl.fin ((c : ℚ) - px) := by
  have h := do_dda_along_x 1 one_pos sqrt WIDTH hW door g px py plx ply x ray c fuel hx
    (by simpa using hs) hc hopen hwall hfuel
  simpa using h

/-- C5 at the 5 x 5 open map: camera at `(2.5, 2.5)` facing `(1, 0)` with plane
`(0, 0.66)`, centre column; the ray stops on the synthesized east wall, column 5, row 2,
hit side 0, at perpendicular distance 2.5. -/
theorem perpwalldist_along_x_witness :
    ∃ r, raycasting_bonus.do_dda no_door 3 ⟨cam5, open5⟩
        (raycasting_bonus.init_ray sqrt_exact 2 ⟨cam5, open5⟩ 1 blank_ray) = some r ∧
      r.map_x = 5 ∧ r.map_y = 2 ∧ r.side = 0 ∧ r.hit_tile = some '1' ∧
      r.perpwalldist = Dbl.fin (5 / 2) := by
  have h := perpwalldist_along_x sqrt_exact 2 (by decide) no_door open5 (5 / 2) (5 / 2) 0
    (33 / 50) 1 blank_ray 5 3 (by decide)
    (by have := sqrt_exact_sq 1; simpa using this)
    (by rw [toInt_five_halves]; decide)
    (by
      intro j h1 h2
      rw [toInt_five_halves] at h1 ⊢
      have hj : safe_get_tile open5 j 2 = some '0' :=
        safe_get_tile_open 5 j 2 (by omega) (by omega) (by decide) (by decide)
      rw [hj]
      decide)
    (by rw [toInt_five_halves]; decide)
    (by rw [toInt_five_halves]; decide)
  rw [toInt_five_halves] at h
  norm_num at h
  exact h

theorem sqrt_exact_one : sqrt_exact (Dbl.fin 1) = Dbl.fin 1 := by
  have := sqrt_exact_sq 1
  simpa using this

theorem sqrt_exact_four : sqrt_exact (Dbl.fin (2 * 2)) = Dbl.fin 2 := by
  have := sqrt_exact_sq 2
  norm_num at this ⊢
  exact this

theorem open5_row_two (j : Int) (h1 : Dbl.toInt (Dbl.fin (5 / 2)) < j) (h2 : j < 5) :
    safe_get_tile open5 j (Dbl.toInt (Dbl.fin (5 / 2))) ≠ some '1' ∧
    safe_get_tile open5 j (Dbl.toInt (Dbl.fin (5 / 2))) ≠ some '2' ∧
    safe_get_tile open5 j (Dbl.toInt (Dbl.fin (5 / 2))) ≠ some '3' := by
  rw [toInt_five_halves] at h1 ⊢
  have hj : safe_get_tile open5 j 2 = some '0' :=
    safe_get_tile_open 5 j 2 (by omega) (by omega) (by decide) (by decide)
  rw [hj]
  decide

theorem camx_centre : camx 2 1 = 0 := by
  norm_num [camx]

namespace raycasting_bonus

/-- With an infinite side distance in x and a finite one in y, every advance of `dda_loop`
is in y: the column is kept and the hit side is 1. -/
theorem dda_loop_only_y (door : t_app → t_ray → Bool) (app : t_app) (dy : ℚ) :
    ∀ (n : Nat) (ray r : t_ray) (ty : ℚ),
      ray.sidedist = ⟨Dbl.pinf, Dbl.fin ty⟩ → ray.deltadist.y = Dbl.fin dy →
      dda_loop door app n ray = some r →
      r.map_x = ray.map_x ∧ r.side = 1 ∧ r.sidedist.x = Dbl.pinf := by
  intro n
  induction n with
  | zero => intro ray r ty _ _ h; simp [dda_loop] at h
  | succ n ih =>
    intro ray r ty hsd hdd h
    have hu : update_ray_position ray =
        { ray with
          sidedist := ⟨Dbl.pinf, Dbl.fin (ty + dy)⟩
          map_y := Dbl.toInt (Dbl.ofInt ray.map_y + ray.step.y)
          side := 1 } := by
      simp [update_ray_position, hsd, hdd]
    simp only [dda_loop, hu] at h
    split_ifs at h
    · cases h; exact ⟨rfl, rfl, rfl⟩
    · cases h; exact ⟨rfl, rfl, rfl⟩
    · have key := ih _ r (ty + dy) (by rfl) (by exact hdd) h
      exact key

/-- With an infinite side distance in y and a finite one in x, every advance of `dda_loop`
is in x: the row is kept and the hit side is 0. -/
theorem dda_loop_only_x (door : t_app → t_ray → Bool) (app : t_app) (dx : ℚ) :
    ∀ (n : Nat) (ray r : t_ray) (tx : ℚ),
      ray.sidedist = ⟨Dbl.fin tx, Dbl.pinf⟩ → ray.deltadist.x = Dbl.fin dx →
      dda_loop door app n ray = some r →
      r.map_y = ray.map_y ∧ r.side = 0 ∧ r.sidedist.y = Dbl.pinf := by
  intro n
  induction n with
  | zero => intro ray r tx _ _ h; simp [dda_loop] at h
  | succ n ih =>
    intro ray r tx hsd hdd h
    have hu : update_ray_position ray =
        { ray with
          sidedist := ⟨Dbl.fin (tx + dx), Dbl.pinf⟩
          map_x := Dbl.toInt (Dbl.ofInt ray.map_x + ray.step.x)
          side := 0 } := by
      simp [update_ray_position, hsd, hdd]
    simp only [dda_loop, hu] at h
    split_ifs at h
    · cases h; exact ⟨rfl, rfl, rfl⟩
    · cases h; exact ⟨rfl, rfl, rfl⟩
    · have key := ih _ r (tx + dx) (by rfl) (by exact hdd) h
      exact key

/-- The side distance `init_step` returns is finite when the delta distance is. -/
theorem init_step_fin (p : ℚ) (mp : Int) (d : ℚ) (rd : Dbl) :
    ∃ t, (init_step (Dbl.fin p) mp (Dbl.fin d) rd).y = Dbl.fin t := by
  unfold init_step
  split
  · exact ⟨(p - mp) * d, by simp⟩
  · exact ⟨(mp + 1 - p) * d, by simp⟩

/-- The side distance `init_step` returns from the truncated position is infinite when the
delta distance is and the direction component is zero. -/
theorem init_step_pinf (p : ℚ) :
    (init_step (Dbl.fin p) (Dbl.toInt (Dbl.fin p)) Dbl.pinf (Dbl.fin 0)).y = Dbl.pinf := by
  have h : ¬ (Dbl.fin 0 < Dbl.fin 0) := by simp
  simp only [init_step, if_neg h, Dbl.ofInt_eq, Dbl.fin_add_fin, Dbl.fin_sub_fin]
  exact Dbl.fin_mul_pinf _ (Dbl.toInt_add_one_sub_pos p)

end raycasting_bonus

namespace raycasting_bonus

theorem do_dda_finish_cell (r : t_ray) :
    (do_dda_finish r).map_x = r.map_x ∧ (do_dda_finish r).map_y = r.map_y ∧
    (do_dda_finish r).side = r.side := by
  unfold do_dda_finish
  split_ifs <;> exact ⟨rfl, rfl, rfl⟩

end raycasting_bonus

/-- C6: for a camera at a finite position and a ray whose modulus is finite and positive,
(1) if the x component of the direction is exactly zero and the y component is not, the
delta distance in x is `+inf`, and every result of `do_dda` has the starting column and
hit side 1; (2) symmetrically for a zero y component: delta distance `+inf` in y, starting
row kept, hit side 0; (3) from a starting cell inside a well-formed map `do_dda` does
return, within `rows + cols - 1` iterations. -/
theorem zero_component_never_advances (sqrt : Dbl → Dbl) (WIDTH : Int)
    (door : raycasting_bonus.t_app → raycasting_bonus.t_ray → Bool) (g : t_game)
    (px py : ℚ) (dir plane : t_vec2) (x : Int) (ray : raycasting_bonus.t_ray) (m : ℚ)
    (hmod : (raycasting_bonus.init_ray sqrt WIDTH ⟨⟨⟨Dbl.fin px, Dbl.fin py⟩, dir, plane⟩, g⟩
      x ray).raydir_mod = Dbl.fin m)
    (hm : 0 < m) :
    (∀ ry : ℚ, ry ≠ 0 →
      (raycasting_bonus.init_ray sqrt WIDTH ⟨⟨⟨Dbl.fin px, Dbl.fin py⟩, dir, plane⟩, g⟩
        x ray).raydir = ⟨Dbl.fin 0, Dbl.fin ry⟩ →
      (raycasting_bonus.init_ray sqrt WIDTH ⟨⟨⟨Dbl.fin px, Dbl.fin py⟩, dir, plane⟩, g⟩
        x ray).deltadist.x = Dbl.pinf ∧
      ∀ (fuel : Nat) (r : raycasting_bonus.t_ray),
        raycasting_bonus.do_dda door fuel ⟨⟨⟨Dbl.fin px, Dbl.fin py⟩, dir, plane⟩, g⟩
          (raycasting_bonus.init_ray sqrt WIDTH ⟨⟨⟨Dbl.fin px, Dbl.fin py⟩, dir, plane⟩, g⟩
            x ray) = some r →
        r.map_x = Dbl.toInt (Dbl.fin px) ∧ r.side = 1) ∧
    (∀ rx : ℚ, rx ≠ 0 →
      (raycasting_bonus.init_ray sqrt WIDTH ⟨⟨⟨Dbl.fin px, Dbl.fin py⟩, dir, plane⟩, g⟩
        x ray).raydir = ⟨Dbl.fin rx, Dbl.fin 0⟩ →
      (raycasting_bonus.init_ray sqrt WIDTH ⟨⟨⟨Dbl.fin px, Dbl.fin py⟩, dir, plane⟩, g⟩
        x ray).deltadist.y = Dbl.pinf ∧
      ∀ (fuel : Nat) (r : raycasting_bonus.t_ray),
        raycasting_bonus.do_dda door fuel ⟨⟨⟨Dbl.fin px, Dbl.fin py⟩, dir, plane⟩, g⟩
          (raycasting_bonus.init_ray sqrt WIDTH ⟨⟨⟨Dbl.fin px, Dbl.fin py⟩, dir, plane⟩, g⟩
            x ray) = some r →
        r.map_y = Dbl.toInt (Dbl.fin py) ∧ r.side = 0) ∧
    (g.wf → 0 ≤ Dbl.toInt (Dbl.fin px) → Dbl.toInt (Dbl.fin px) < max_row_len g →
      0 ≤ Dbl.toInt (Dbl.fin py) → Dbl.toInt (Dbl.fin py) < g.map_height →
      ∀ fuel : Nat, g.map_height + max_row_len g - 1 ≤ fuel →
      ∃ r, raycasting_bonus.do_dda door fuel ⟨⟨⟨Dbl.fin px, Dbl.fin py⟩, dir, plane⟩, g⟩
        (raycasting_bonus.init_ray sqrt WIDTH ⟨⟨⟨Dbl.fin px, Dbl.fin py⟩, dir, plane⟩, g⟩
          x ray) = some r) := by
  have hdx : (raycasting_bonus.init_ray sqrt WIDTH ⟨⟨⟨Dbl.fin px, Dbl.fin py⟩, dir, plane⟩, g⟩
      x ray).deltadist.x = Dbl.fabs ((raycasting_bonus.init_ray sqrt WIDTH
        ⟨⟨⟨Dbl.fin px, Dbl.fin py⟩, dir, plane⟩, g⟩ x ray).raydir_mod /
        (raycasting_bonus.init_ray sqrt WIDTH
          ⟨⟨⟨Dbl.fin px, Dbl.fin py⟩, dir, plane⟩, g⟩ x ray).raydir.x) := rfl
  have hdy : (raycasting_bonus.init_ray sqrt WIDTH ⟨⟨⟨Dbl.fin px, Dbl.fin py⟩, dir, plane⟩, g⟩
      x ray).deltadist.y = Dbl.fabs ((raycasting_bonus.init_ray sqrt WIDTH
        ⟨⟨⟨Dbl.fin px, Dbl.fin py⟩, dir, plane⟩, g⟩ x ray).raydir_mod /
        (raycasting_bonus.init_ray sqrt WIDTH
          ⟨⟨⟨Dbl.fin px, Dbl.fin py⟩, dir, plane⟩, g⟩ x ray).raydir.y) := rfl
  have hmx : (raycasting_bonus.init_ray sqrt WIDTH ⟨⟨⟨Dbl.fin px, Dbl.fin py⟩, dir, plane⟩, g⟩
      x ray).map_x = Dbl.toInt (Dbl.fin px) := rfl
  have hmy : (raycasting_bonus.init_ray sqrt WIDTH ⟨⟨⟨Dbl.fin px, Dbl.fin py⟩, dir, plane⟩, g⟩
      x ray).map_y = Dbl.toInt (Dbl.fin py) := rfl
  rw [hmod] at hdx hdy
  generalize raycasting_bonus.init_ray sqrt WIDTH ⟨⟨⟨Dbl.fin px, Dbl.fin py⟩, dir, plane⟩, g⟩
      x ray = R at hmod hdx hdy hmx hmy ⊢
  refine ⟨?_, ?_, ?_⟩
  · intro ry hry hrd
    rw [hrd] at hdx hdy
    simp only [Dbl.fin_div_zero m hm, Dbl.fabs_pinf] at hdx
    simp only [Dbl.fin_div_fin m ry hry, Dbl.fabs_fin] at hdy
    refine ⟨hdx, ?_⟩
    intro fuel r hr
    rw [raycasting_bonus.do_dda_eq] at hr
    cases hl : raycasting_bonus.dda_loop door ⟨⟨⟨Dbl.fin px, Dbl.fin py⟩, dir, plane⟩, g⟩ fuel
        (raycasting_bonus.do_dda_start ⟨⟨⟨Dbl.fin px, Dbl.fin py⟩, dir, plane⟩, g⟩ R) with
    | none => rw [hl] at hr; simp at hr
    | some r1 =>
      rw [hl] at hr
      simp only [Option.map_some', Option.some.injEq] at hr
      obtain ⟨t, ht⟩ := raycasting_bonus.init_step_fin py R.map_y |m / ry| (Dbl.fin ry)
      have hsd : (raycasting_bonus.do_dda_start ⟨⟨⟨Dbl.fin px, Dbl.fin py⟩, dir, plane⟩, g⟩
          R).sidedist = ⟨Dbl.pinf, Dbl.fin t⟩ := by
        simp only [raycasting_bonus.do_dda_start, hdx, hdy, ht, hmx, hrd,
          raycasting_bonus.init_step_pinf]
      have key := raycasting_bonus.dda_loop_only_y door _ |m / ry| fuel _ r1 t hsd
        (by exact hdy) hl
      have hf := raycasting_bonus.do_dda_finish_cell r1
      rw [← hr, hf.1, hf.2.2, key.1, key.2.1]
      exact ⟨hmx, rfl⟩
  · intro rx hrx hrd
    rw [hrd] at hdx hdy
    simp only [Dbl.fin_div_zero m hm, Dbl.fabs_pinf] at hdy
    simp only [Dbl.fin_div_fin m rx hrx, Dbl.fabs_fin] at hdx
    refine ⟨hdy, ?_⟩
    intro fuel r hr
    rw [raycasting_bonus.do_dda_eq] at hr
    cases hl : raycasting_bonus.dda_loop door ⟨⟨⟨Dbl.fin px, Dbl.fin py⟩, dir, plane⟩, g⟩ fuel
        (raycasting_bonus.do_dda_start ⟨⟨⟨Dbl.fin px, Dbl.fin py⟩, dir, plane⟩, g⟩ R) with
    | none => rw [hl] at hr; simp at hr
    | some r1 =>
      rw [hl] at hr
      simp only [Option.map_some', Option.some.injEq] at hr
      obtain ⟨t, ht⟩ := raycasting_bonus.init_step_fin px R.map_x |m / rx| (Dbl.fin rx)
      have hsd : (raycasting_bonus.do_dda_start ⟨⟨⟨Dbl.fin px, Dbl.fin py⟩, dir, plane⟩, g⟩
          R).sidedist = ⟨Dbl.fin t, Dbl.pinf⟩ := by
        simp only [raycasting_bonus.do_dda_start, hdx, hdy, ht, hmy, hrd,
          raycasting_bonus.init_step_pinf]
      have key := raycasting_bonus.dda_loop_only_x door _ |m / rx| fuel _ r1 t hsd
        (by exact hdx) hl
      have hf := raycasting_bonus.do_dda_finish_cell r1
      rw [← hr, hf.2.1, hf.2.2, key.1, key.2.1]
      exact ⟨hmy, rfl⟩
  · intro hwf h1 h2 h3 h4 fuel hfuel
    obtain ⟨r, hr, -⟩ := raycasting_bonus.do_dda_in_box door
      ⟨⟨⟨Dbl.fin px, Dbl.fin py⟩, dir, plane⟩, g⟩ hwf fuel hfuel R (by rw [hmx]; exact h1)
      (by rw [hmx]; exact h2) (by rw [hmy]; exact h3) (by rw [hmy]; exact h4)
    exact ⟨r, hr⟩

theorem init_ray_cam5 :
    raycasting_bonus.init_ray sqrt_exact 2 ⟨cam5, open5⟩ 1 blank_ray =
      { blank_ray with
        raydir := ⟨Dbl.fin 1, Dbl.fin 0⟩
        map_x := 2
        map_y := 2
        raydir_mod := Dbl.fin 1
        deltadist := ⟨Dbl.fin 1, Dbl.pinf⟩ } := by
  have h1 : cam5 = scaled_camera ⟨Dbl.fin (5 / 2), Dbl.fin (5 / 2)⟩ 1 0 0 (33 / 50) 1 := by
    simp [cam5, scaled_camera]
  rw [h1, raycasting_bonus.init_ray_fin sqrt_exact 2 (by decide)]
  simp only [camx_centre, toInt_five_halves]
  norm_num
  rw [sqrt_exact_one, Dbl.fin_div_fin _ _ one_ne_zero, Dbl.fin_div_zero 1 one_pos]
  norm_num

/-- C6 at the 5 x 5 scenario: the centre ray has direction `(1, 0)`; it returns on row 2,
the starting row, with hit side 0. -/
theorem zero_component_never_advances_witness :
    ∃ r, raycasting_bonus.do_dda no_door 9 ⟨cam5, open5⟩
        (raycasting_bonus.init_ray sqrt_exact 2 ⟨cam5, open5⟩ 1 blank_ray) = some r ∧
      r.map_y = 2 ∧ r.side = 0 ∧
      (raycasting_bonus.init_ray sqrt_exact 2 ⟨cam5, open5⟩ 1 blank_ray).deltadist.y
        = Dbl.pinf := by
  have T := zero_component_never_advances sqrt_exact 2 no_door open5 (5 / 2) (5 / 2)
    ⟨Dbl.fin 1, Dbl.fin 0⟩ ⟨Dbl.fin 0, Dbl.fin (33 / 50)⟩ 1 blank_ray 1
    (by
      show (raycasting_bonus.init_ray sqrt_exact 2 ⟨cam5, open5⟩ 1 blank_ray).raydir_mod = _
      rw [init_ray_cam5])
    one_pos
  obtain ⟨r, hr⟩ := T.2.2 (by decide) (by rw [toInt_five_halves]; decide)
    (by rw [toInt_five_halves]; decide) (by rw [toInt_five_halves]; decide)
    (by rw [toInt_five_halves]; decide) 9 (by decide)
  have h2 := T.2.1 1 one_ne_zero
    (by
      show (raycasting_bonus.init_ray sqrt_exact 2 ⟨cam5, open5⟩ 1 blank_ray).raydir = _
      rw [init_ray_cam5])
  have h3 := h2.2 9 r hr
  rw [toInt_five_halves] at h3
  exact ⟨r, hr, h3.1, h3.2, h2.1⟩

/-- The closest coordinate `check_cell_collision` selects is the clamp onto the cell. -/
theorem closest_eq_clampq (x : ℚ) (j : Int) :
    (if Dbl.fin x < Dbl.ofInt j then Dbl.ofInt j
      else if Dbl.fin x > Dbl.ofInt (j + 1) then Dbl.ofInt (j + 1) else Dbl.fin x)
      = Dbl.fin (clampq x j) := by
  simp only [Dbl.ofInt_eq, gt_iff_lt, Dbl.fin_lt_fin, clampq, Int.cast_add, Int.cast_one]
  split_ifs with h1 h2
  · congr 1
    rw [max_eq_left]
    exact le_trans (min_le_left _ _) h1.le
  · congr 1
    rw [min_eq_right h2.le, max_eq_right]
    linarith
  · congr 1
    push_neg at h1 h2
    rw [min_eq_left h2, max_eq_right h1]

/-- On finite inputs `check_cell_collision` compares the squared distance from the
candidate to its clamp onto the cell with the squared radius. -/
theorem check_cell_collision_fin (x y r : ℚ) (c : t_collision) (hr : c.r = Dbl.fin r) :
    check_cell_collision (Dbl.fin x) (Dbl.fin y) c = 1 ↔
      (x - clampq x c.j) ^ 2 + (y - clampq y c.i) ^ 2 < r ^ 2 := by
  simp only [check_cell_collision, closest_eq_clampq, hr, Dbl.fin_sub_fin, Dbl.fin_mul_fin,
    Dbl.fin_add_fin, Dbl.fin_lt_fin]
  split_ifs with h
  · simp only [true_iff]
    nlinarith [h]
  · simp only [zero_ne_one, false_iff]
    intro h2; apply h
    nlinarith [h2]

theorem collides_row_iff (g : t_game) (X Y : Dbl) :
    ∀ (n : Nat) (c : t_collision), (c.max_j - c.j).toNat = n →
      (collides_row g X Y c = true ↔
        ∃ j, c.j < j ∧ j ≤ c.max_j ∧ safe_get_tile g j c.i = some '1' ∧
          check_cell_collision X Y { c with j := j } = 1) := by
  intro n
  induction n using Nat.strong_induction_on with
  | _ n ih =>
    intro c hn
    rw [collides_row]
    by_cases hle : c.j + 1 ≤ c.max_j
    · have hrec := ih ((c.max_j - (c.j + 1)).toNat) (by omega) { c with j := c.j + 1 } rfl
      simp only [if_pos hle]
      constructor
      · intro h
        by_cases ht : safe_get_tile g (c.j + 1) c.i = some '1'
        · by_cases hc : check_cell_collision X Y { c with j := c.j + 1 } = 1
          · exact ⟨c.j + 1, by omega, hle, ht, hc⟩
          · rw [if_pos ht, if_neg hc] at h
            obtain ⟨j, h1, h2, h3, h4⟩ := hrec.1 h
            exact ⟨j, by simp only at h1; omega, h2, h3, h4⟩
        · rw [if_neg ht] at h
          obtain ⟨j, h1, h2, h3, h4⟩ := hrec.1 h
          exact ⟨j, by simp only at h1; omega, h2, h3, h4⟩
      · rintro ⟨j, h1, h2, h3, h4⟩
        by_cases hj : j = c.j + 1
        · subst hj
          rw [if_pos h3, if_pos h4]
        · have hr := hrec.2 ⟨j, by simp only; omega, h2, h3, h4⟩
          split_ifs <;> first | rfl | exact hr
    · simp only [if_neg hle]
      constructor
      · intro h; cases h
      · rintro ⟨j, h1, h2, -, -⟩
        omega

theorem collides_rows_iff (g : t_game) (X Y : Dbl) :
    ∀ (n : Nat) (c : t_collision), (c.max_i - c.i).toNat = n →
      (collides_rows g X Y c = 0 ∨ collides_rows g X Y c = 1) ∧
      (collides_rows g X Y c = 1 ↔
        ∃ i j, c.i < i ∧ i ≤ c.max_i ∧ c.min_j ≤ j ∧ j ≤ c.max_j ∧
          safe_get_tile g j i = some '1' ∧
          check_cell_collision X Y { c with i := i, j := j } = 1) := by
  intro n
  induction n using Nat.strong_induction_on with
  | _ n ih =>
    intro c hn
    rw [collides_rows]
    by_cases hle : c.i + 1 ≤ c.max_i
    · have hrec := ih ((c.max_i - (c.i + 1)).toNat) (by omega)
        { c with i := c.i + 1, j := c.min_j - 1 } rfl
      have hrow := collides_row_iff g X Y _ { c with i := c.i + 1, j := c.min_j - 1 } rfl
      simp only [if_pos hle]
      by_cases hf : collides_row g X Y { c with i := c.i + 1, j := c.min_j - 1 } = true
      · simp only [if_pos hf, true_iff, true_and, or_true]
        obtain ⟨j, h1, h2, h3, h4⟩ := hrow.1 hf
        exact ⟨c.i + 1, j, by omega, hle, by simp only at h1; omega, h2, h3, h4⟩
      · simp only [if_neg hf]
        refine ⟨hrec.1, ?_⟩
        rw [hrec.2]
        constructor
        · rintro ⟨i, j, h1, h2, h3, h4, h5, h6⟩
          exact ⟨i, j, by simp only at h1; omega, h2, h3, h4, h5, h6⟩
        · rintro ⟨i, j, h1, h2, h3, h4, h5, h6⟩
          by_cases hi : i = c.i + 1
          · subst hi
            exfalso; apply hf
            exact hrow.2 ⟨j, by simp only; omega, h4, h5, h6⟩
          · exact ⟨i, j, by simp only; omega, h2, h3, h4, h5, h6⟩
    · rw [if_neg hle]
      refine ⟨Or.inl rfl, ?_⟩
      constructor
      · intro h; simp at h
      · rintro ⟨i, j, h1, h2, -⟩
        omega

/-- What `collides` computes on finite inputs: it returns 0 or 1, and 1 exactly when a cell
`(j, i)` of the scanned range `[floor(y - r), ceil(y + r)] x [floor(x - r), ceil(x + r)]`
is a wall whose clamp of the candidate is at squared distance below `r ^ 2`. -/
theorem collides_iff (g : t_game) (x y r : ℚ) :
    (collides (Dbl.fin r) g (Dbl.fin x) (Dbl.fin y) = 0 ∨
      collides (Dbl.fin r) g (Dbl.fin x) (Dbl.fin y) = 1) ∧
    (collides (Dbl.fin r) g (Dbl.fin x) (Dbl.fin y) = 1 ↔
      ∃ i j : Int, ⌊y - r⌋ ≤ i ∧ i ≤ ⌈y + r⌉ ∧ ⌊x - r⌋ ≤ j ∧ j ≤ ⌈x + r⌉ ∧
        safe_get_tile g j i = some '1' ∧
        (x - clampq x j) ^ 2 + (y - clampq y i) ^ 2 < r ^ 2) := by
  have key : collides (Dbl.fin r) g (Dbl.fin x) (Dbl.fin y) =
      collides_rows g (Dbl.fin x) (Dbl.fin y)
        ⟨Dbl.fin r, ⌊y - r⌋, ⌈y + r⌉, ⌊x - r⌋, ⌈x + r⌉, ⌊y - r⌋ - 1, 0⟩ := by
    simp only [collides, init_collision, Dbl.fin_sub_fin, Dbl.fin_add_fin, Dbl.floor, Dbl.ceil,
      Dbl.toInt_int]
  have h := collides_rows_iff g (Dbl.fin x) (Dbl.fin y) _
    ⟨Dbl.fin r, ⌊y - r⌋, ⌈y + r⌉, ⌊x - r⌋, ⌈x + r⌉, ⌊y - r⌋ - 1, 0⟩ rfl
  rw [key]
  refine ⟨h.1, ?_⟩
  rw [h.2]
  constructor
  · rintro ⟨i, j, h1, h2, h3, h4, h5, h6⟩
    refine ⟨i, j, by simp only at h1; omega, h2, h3, h4, h5, ?_⟩
    exact (check_cell_collision_fin x y r
      ⟨Dbl.fin r, ⌊y - r⌋, ⌈y + r⌉, ⌊x - r⌋, ⌈x + r⌉, i, j⟩ rfl).1 h6
  · rintro ⟨i, j, h1, h2, h3, h4, h5, h6⟩
    refine ⟨i, j, by simp only; omega, h2, h3, h4, h5, ?_⟩
    exact (check_cell_collision_fin x y r
      ⟨Dbl.fin r, ⌊y - r⌋, ⌈y + r⌉, ⌊x - r⌋, ⌈x + r⌉, i, j⟩ rfl).2 h6

theorem clampq_mem (v : ℚ) (lo : Int) : (lo : ℚ) ≤ clampq v lo ∧ clampq v lo ≤ (lo : ℚ) + 1 := by
  unfold clampq
  exact ⟨le_max_left _ _, max_le (by linarith) (min_le_right _ _)⟩

theorem clampq_self (v : ℚ) (lo : Int) (h1 : (lo : ℚ) ≤ v) (h2 : v ≤ (lo : ℚ) + 1) :
    clampq v lo = v := by
  unfold clampq
  rw [min_eq_left h2, max_eq_right h1]

/-- The clamp is the point of `[lo, lo + 1]` nearest to `v`. -/
theorem clampq_nearest (v p : ℚ) (lo : Int) (h1 : (lo : ℚ) ≤ p) (h2 : p ≤ (lo : ℚ) + 1) :
    (v - clampq v lo) ^ 2 ≤ (v - p) ^ 2 := by
  unfold clampq
  rcases le_total v (lo : ℚ) with h | h
  · rw [min_eq_left (by linarith), max_eq_left h]
    nlinarith
  · rcases le_total v ((lo : ℚ) + 1) with h' | h'
    · rw [min_eq_left h', max_eq_right h]
      nlinarith [sq_nonneg (v - p)]
    · rw [min_eq_right h', max_eq_right (by linarith)]
      nlinarith

/-- A cell whose clamp of `v` is closer than `r` lies in `[floor(v - r), ceil(v + r)]`. -/
theorem near_cell_in_range (v r d : ℚ) (lo : Int) (hr : 0 ≤ r) (hd : 0 ≤ d)
    (h : (v - clampq v lo) ^ 2 + d < r ^ 2) : ⌊v - r⌋ ≤ lo ∧ lo ≤ ⌈v + r⌉ := by
  have hab : |v - clampq v lo| < r := abs_lt_of_sq_lt_sq (by linarith) hr
  obtain ⟨h1, h2⟩ := abs_lt.1 hab
  obtain ⟨c1, c2⟩ := clampq_mem v lo
  constructor
  · have : ((⌊v - r⌋ : Int) : ℚ) < ((lo + 1 : Int) : ℚ) := by
      push_cast
      have := Int.floor_le (v - r)
      linarith
    have := Int.cast_lt.1 this
    omega
  · have : ((lo : Int) : ℚ) ≤ ((⌈v + r⌉ : Int) : ℚ) := by
      have := Int.le_ceil (v + r)
      linarith
    exact Int.cast_le.1 this

/-- C10: when no cell with row in `[floor(y - r), ceil(y + r)]` and column in
`[floor(x - r), ceil(x + r)]` is a wall for `safe_get_tile`, `collides` returns 0. -/
theorem collides_no_wall (g : t_game) (x y r : ℚ)
    (h : ∀ i j : Int, ⌊y - r⌋ ≤ i → i ≤ ⌈y + r⌉ → ⌊x - r⌋ ≤ j → j ≤ ⌈x + r⌉ →
      safe_get_tile g j i ≠ some '1') :
    collides (Dbl.fin r) g (Dbl.fin x) (Dbl.fin y) = 0 := by
  obtain ⟨h01, hiff⟩ := collides_iff g x y r
  rcases h01 with h0 | h1
  · exact h0
  · exfalso
    obtain ⟨i, j, h1, h2, h3, h4, h5, -⟩ := hiff.1 h1
    exact h i j h1 h2 h3 h4 h5

/-- C10 at its scenario: candidate `(5, 5)`, radius `0.3`, on the open 9 x 9 map, whose
nearest walls are the out-of-bounds cells. -/
theorem collides_no_wall_witness :
    collides (Dbl.fin (3 / 10)) (open_game 9) (Dbl.fin 5) (Dbl.fin 5) = 0 :=
  collides_no_wall (open_game 9) 5 5 (3 / 10)
    (by
      have h1 : ⌊(5 : ℚ) - 3 / 10⌋ = 4 := by norm_num [Int.floor_eq_iff]
      have h2 : ⌈(5 : ℚ) + 3 / 10⌉ = 6 := by norm_num [Int.ceil_eq_iff]
      intro i j hi1 hi2 hj1 hj2
      rw [h1] at hi1 hj1
      rw [h2] at hi2 hj2
      rw [safe_get_tile_open 9 j i (by omega) (by omega) (by omega) (by omega)]
      decide)

/-! ## Mirror symmetry of the cell test -/

/-- The clamp of the mirror image of `v` across the centre of `[lo, lo + 1]` is the mirror
image of the clamp of `v`. -/
theorem clampq_reflect (v : ℚ) (lo : Int) :
    clampq (2 * (lo : ℚ) + 1 - v) lo = 2 * (lo : ℚ) + 1 - clampq v lo := by
  unfold clampq
  rcases le_total v (lo : ℚ) with h | h
  · rw [min_eq_right (by linarith), max_eq_right (by linarith), min_eq_left (by linarith),
      max_eq_left h]
    ring
  · rcases le_total v ((lo : ℚ) + 1) with h2 | h2
    · rw [min_eq_left (by linarith), max_eq_right (by linarith), min_eq_left h2,
        max_eq_right h]
    · rw [min_eq_left (by linarith), max_eq_left (by linarith), min_eq_right h2,
        max_eq_right (by linarith)]
      ring

/-- The value of `check_cell_collision` on a finite candidate: the comparison of the squared
distance to the clamp with `c.r * c.r`, whatever double `c.r` is. -/
theorem check_cell_collision_eq (x y : ℚ) (c : t_collision) :
    check_cell_collision (Dbl.fin x) (Dbl.fin y) c =
      if Dbl.fin ((x - clampq x c.j) * (x - clampq x c.j)
        + (y - clampq y c.i) * (y - clampq y c.i)) < c.r * c.r then 1 else 0 := by
  simp only [check_cell_collision, closest_eq_clampq, Dbl.fin_sub_fin, Dbl.fin_mul_fin,
    Dbl.fin_add_fin]

/-- C11: for every cell `(j, i)`, every radius (any double) and every finite candidate
`(x, y)`, `check_cell_collision` returns the same value for `(x, y)`, for its mirror image
`(2j + 1 - x, y)` across the vertical centre line of the cell and for its mirror image
`(x, 2i + 1 - y)` across the horizontal one. -/
theorem check_cell_collision_reflect (x y : ℚ) (c : t_collision) :
    check_cell_collision (Dbl.fin (2 * (c.j : ℚ) + 1 - x)) (Dbl.fin y) c
      = check_cell_collision (Dbl.fin x) (Dbl.fin y) c ∧
    check_cell_collision (Dbl.fin x) (Dbl.fin (2 * (c.i : ℚ) + 1 - y)) c
      = check_cell_collision (Dbl.fin x) (Dbl.fin y) c := by
  constructor
  · rw [check_cell_collision_eq, check_cell_collision_eq, clampq_reflect]
    have e : (2 * (c.j : ℚ) + 1 - x - (2 * (c.j : ℚ) + 1 - clampq x c.j))
        * (2 * (c.j : ℚ) + 1 - x - (2 * (c.j : ℚ) + 1 - clampq x c.j))
        = (x - clampq x c.j) * (x - clampq x c.j) := by ring
    rw [e]
  · rw [check_cell_collision_eq, check_cell_collision_eq, clampq_reflect]
    have e : (2 * (c.i : ℚ) + 1 - y - (2 * (c.i : ℚ) + 1 - clampq y c.i))
        * (2 * (c.i : ℚ) + 1 - y - (2 * (c.i : ℚ) + 1 - clampq y c.i))
        = (y - clampq y c.i) * (y - clampq y c.i) := by ring
    rw [e]

/-! ## Rotation primitive -/

/-- What `plane_rotation` returns on finite inputs when the axis has modulus `m ≠ 0` and the
half angle has cosine `c` and sine `s`: the product `q p q*` for the rotor
`q = (c, s u, s v, s w)`, `(u, v, w)` the axis divided by `m`. -/
theorem plane_rotation_fin (sqrt cos sin : Dbl → Dbl) (ps pi pj pk ai aj ak c s m : ℚ)
    (a0 alpha : Dbl)
    (hcos : cos (alpha / Dbl.ofInt 2) = Dbl.fin c) (hsin : sin (alpha / Dbl.ofInt 2) = Dbl.fin s)
    (hsqrt : sqrt (Dbl.fin (ai * ai + aj * aj + ak * ak)) = Dbl.fin m) (hm : m ≠ 0) :
    plane_rotation sqrt cos sin ⟨Dbl.fin ps, Dbl.fin pi, Dbl.fin pj, Dbl.fin pk⟩
        ⟨a0, Dbl.fin ai, Dbl.fin aj, Dbl.fin ak⟩ alpha =
      quaternion_product
        ⟨Dbl.fin c, Dbl.fin (s * (ai / m)), Dbl.fin (s * (aj / m)), Dbl.fin (s * (ak / m))⟩
        (quaternion_product ⟨Dbl.fin ps, Dbl.fin pi, Dbl.fin pj, Dbl.fin pk⟩
          ⟨Dbl.fin c, Dbl.fin (-(s * (ai / m))), Dbl.fin (-(s * (aj / m))),
            Dbl.fin (-(s * (ak / m)))⟩) := by
  simp only [plane_rotation, Dbl.fin_mul_fin, Dbl.fin_add_fin, hsqrt, hcos, hsin,
    Dbl.fin_div_fin _ _ hm, conjugate, Dbl.neg_fin]

/-- The product of two quaternions with finite components, component by component. -/
theorem quaternion_product_fin (a b c d e f g h : ℚ) :
    quaternion_product ⟨Dbl.fin a, Dbl.fin b, Dbl.fin c, Dbl.fin d⟩
        ⟨Dbl.fin e, Dbl.fin f, Dbl.fin g, Dbl.fin h⟩ =
      ⟨Dbl.fin (a * e - b * f - c * g - d * h), Dbl.fin (a * f + b * e + c * h - d * g),
        Dbl.fin (a * g - b * h + c * e + d * f), Dbl.fin (a * h + b * g - c * f + d * e)⟩ := by
  simp only [quaternion_product, Dbl.fin_mul_fin, Dbl.fin_add_fin, Dbl.fin_sub_fin]

/-- The rotor of `plane_rotation` preserves the squared norm. -/
theorem rotor_norm (ps pi pj pk c s u v w : ℚ) (hcs : c * c + s * s = 1)
    (huvw : u * u + v * v + w * w = 1) :
    ∃ rs ri rj rk : ℚ,
      quaternion_product ⟨Dbl.fin c, Dbl.fin (s * u), Dbl.fin (s * v), Dbl.fin (s * w)⟩
        (quaternion_product ⟨Dbl.fin ps, Dbl.fin pi, Dbl.fin pj, Dbl.fin pk⟩
          ⟨Dbl.fin c, Dbl.fin (-(s * u)), Dbl.fin (-(s * v)), Dbl.fin (-(s * w))⟩) =
        ⟨Dbl.fin rs, Dbl.fin ri, Dbl.fin rj, Dbl.fin rk⟩ ∧
      rs ^ 2 + ri ^ 2 + rj ^ 2 + rk ^ 2 = ps ^ 2 + pi ^ 2 + pj ^ 2 + pk ^ 2 := by
  rw [quaternion_product_fin, quaternion_product_fin]
  refine ⟨_, _, _, _, rfl, ?_⟩
  have hq : c ^ 2 + (s * u) ^ 2 + (s * v) ^ 2 + (s * w) ^ 2 = 1 := by
    have : c ^ 2 + (s * u) ^ 2 + (s * v) ^ 2 + (s * w) ^ 2
        = c * c + s * s * (u * u + v * v + w * w) := by ring
    rw [this, huvw, mul_one, hcs]
  have key : ∀ N : ℚ, N = c ^ 2 + (s * u) ^ 2 + (s * v) ^ 2 + (s * w) ^ 2 →
      (c * (ps * c - pi * -(s * u) - pj * -(s * v) - pk * -(s * w))
          - s * u * (ps * -(s * u) + pi * c + pj * -(s * w) - pk * -(s * v))
          - s * v * (ps * -(s * v) - pi * -(s * w) + pj * c + pk * -(s * u))
          - s * w * (ps * -(s * w) + pi * -(s * v) - pj * -(s * u) + pk * c)) ^ 2
        + (c * (ps * -(s * u) + pi * c + pj * -(s * w) - pk * -(s * v))
          + s * u * (ps * c - pi * -(s * u) - pj * -(s * v) - pk * -(s * w))
          + s * v * (ps * -(s * w) + pi * -(s * v) - pj * -(s * u) + pk * c)
          - s * w * (ps * -(s * v) - pi * -(s * w) + pj * c + pk * -(s * u))) ^ 2
        + (c * (ps * -(s * v) - pi * -(s * w) + pj * c + pk * -(s * u))
          - s * u * (ps * -(s * w) + pi * -(s * v) - pj * -(s * u) + pk * c)
          + s * v * (ps * c - pi * -(s * u) - pj * -(s * v) - pk * -(s * w))
          + s * w * (ps * -(s * u) + pi * c + pj * -(s * w) - pk * -(s * v))) ^ 2
        + (c * (ps * -(s * w) + pi * -(s * v) - pj * -(s * u) + pk * c)
          + s * u * (ps * -(s * v) - pi * -(s * w) + pj * c + pk * -(s * u))
          - s * v * (ps * -(s * u) + pi * c + pj * -(s * w) - pk * -(s * v))
          + s * w * (ps * c - pi * -(s * u) - pj * -(s * v) - pk * -(s * w))) ^ 2
        = N ^ 2 * (ps ^ 2 + pi ^ 2 + pj ^ 2 + pk ^ 2) := by
    intro N hN
    rw [hN]
    ring
  rw [key 1 hq.symm]
  ring

/-- C12: for every quaternion `p` with finite components, every axis whose imaginary part
is finite and non-zero, and every angle (cosine `c` and sine `s` of the half angle, with
`c^2 + s^2 = 1`, and the square root exact at the axis), `plane_rotation` returns a
quaternion of the same norm `s^2 + i^2 + j^2 + k^2` as `p`. -/
theorem plane_rotation_preserves_norm (sqrt cos sin : Dbl → Dbl)
    (ps pi pj pk ai aj ak c s m : ℚ) (a0 alpha : Dbl)
    (hcos : cos (alpha / Dbl.ofInt 2) = Dbl.fin c) (hsin : sin (alpha / Dbl.ofInt 2) = Dbl.fin s)
    (hcs : c * c + s * s = 1)
    (hsqrt : sqrt (Dbl.fin (ai * ai + aj * aj + ak * ak)) = Dbl.fin m)
    (hmm : m * m = ai * ai + aj * aj + ak * ak)
    (hax : ai ≠ 0 ∨ aj ≠ 0 ∨ ak ≠ 0) :
    ∃ rs ri rj rk : ℚ,
      plane_rotation sqrt cos sin ⟨Dbl.fin ps, Dbl.fin pi, Dbl.fin pj, Dbl.fin pk⟩
        ⟨a0, Dbl.fin ai, Dbl.fin aj, Dbl.fin ak⟩ alpha =
        ⟨Dbl.fin rs, Dbl.fin ri, Dbl.fin rj, Dbl.fin rk⟩ ∧
      rs ^ 2 + ri ^ 2 + rj ^ 2 + rk ^ 2 = ps ^ 2 + pi ^ 2 + pj ^ 2 + pk ^ 2 := by
  have hm : m ≠ 0 := by
    rintro rfl
    have h0 : ai * ai + aj * aj + ak * ak = 0 := by rw [← hmm]; ring
    have h1 : ai = 0 := by nlinarith [mul_self_nonneg ai, mul_self_nonneg aj, mul_self_nonneg ak]
    have h2 : aj = 0 := by nlinarith [mul_self_nonneg ai, mul_self_nonneg aj, mul_self_nonneg ak]
    have h3 : ak = 0 := by nlinarith [mul_self_nonneg ai, mul_self_nonneg aj, mul_self_nonneg ak]
    rcases hax with h | h | h
    · exact h h1
    · exact h h2
    · exact h h3
  have huvw : ai / m * (ai / m) + aj / m * (aj / m) + ak / m * (ak / m) = 1 := by
    field_simp
    rw [← hmm]
  rw [plane_rotation_fin sqrt cos sin ps pi pj pk ai aj ak c s m a0 alpha hcos hsin hsqrt hm]
  exact rotor_norm ps pi pj pk c s (ai / m) (aj / m) (ak / m) hcs huvw

/-- C12 at the vector `(1, 0)` lifted to `(0, 1, 0, 0)`, the axis `(0, 0, 2)` and a half
angle of cosine `3/5` and sine `4/5`. -/
theorem plane_rotation_preserves_norm_witness :
    ∃ rs ri rj rk : ℚ,
      plane_rotation sqrt_exact cos_sample sin_sample
        ⟨Dbl.fin 0, Dbl.fin 1, Dbl.fin 0, Dbl.fin 0⟩
        ⟨Dbl.fin 0, Dbl.fin 0, Dbl.fin 0, Dbl.fin 2⟩ (Dbl.fin 1) =
        ⟨Dbl.fin rs, Dbl.fin ri, Dbl.fin rj, Dbl.fin rk⟩ ∧
      rs ^ 2 + ri ^ 2 + rj ^ 2 + rk ^ 2 = (0 : ℚ) ^ 2 + 1 ^ 2 + 0 ^ 2 + 0 ^ 2 :=
  plane_rotation_preserves_norm sqrt_exact cos_sample sin_sample 0 1 0 0 0 0 2 (3 / 5) (4 / 5) 2
    (Dbl.fin 0) (Dbl.fin 1) rfl rfl (by norm_num)
    (by
      have h := sqrt_exact_four
      norm_num at h ⊢
      exact h)
    (by norm_num) (by norm_num)

namespace camera

/-- Function `update_camera_movement` commits the candidate when `collides` returns 0 there
and returns the state untouched otherwise. -/
theorem update_camera_movement_eq (R : Dbl) (keys : keys_t → Bool) (app : t_app) (dt : Dbl) :
    update_camera_movement R keys app dt =
      if collides R app.game (candidate keys app dt).1 (candidate keys app dt).2 = 0 then
        { app with camera := { app.camera with
            pos := { app.camera.pos with
              i := (candidate keys app dt).1
              j := (candidate keys app dt).2 } } }
      else app := rfl

end camera

/-- C13: `update_camera_movement` leaves the position either at the candidate, and then
`collides` returns 0 at the candidate, or exactly at the old position (all components),
never at a mix of the two; it does not touch the map; hence a position at which `collides`
returns 0 before the update is followed by one at which it returns 0. -/
theorem update_camera_movement_all_or_nothing (R : Dbl) (keys : keys_t → Bool)
    (app : camera.t_app) (dt : Dbl) :
    (((camera.update_camera_movement R keys app dt).camera.pos.i = (camera.candidate keys app dt).1
        ∧ (camera.update_camera_movement R keys app dt).camera.pos.j
          = (camera.candidate keys app dt).2
        ∧ collides R app.game (camera.candidate keys app dt).1 (camera.candidate keys app dt).2
          = 0)
      ∨ (camera.update_camera_movement R keys app dt).camera.pos = app.camera.pos) ∧
    (camera.update_camera_movement R keys app dt).game = app.game ∧
    (collides R app.game app.camera.pos.i app.camera.pos.j = 0 →
      collides R (camera.update_camera_movement R keys app dt).game
        (camera.update_camera_movement R keys app dt).camera.pos.i
        (camera.update_camera_movement R keys app dt).camera.pos.j = 0) := by
  rw [camera.update_camera_movement_eq]
  by_cases h : collides R app.game (camera.candidate keys app dt).1
      (camera.candidate keys app dt).2 = 0
  · rw [if_pos h]
    exact ⟨Or.inl ⟨rfl, rfl, h⟩, rfl, fun _ => h⟩
  · rw [if_neg h]
    exact ⟨Or.inr rfl, rfl, fun h0 => h0⟩

/-! ## Camera movement and walls -/

/-- For a radius `r ≥ 0`, `collides` returns 1 exactly when some cell of the whole grid is a
wall whose clamp of the candidate is at squared distance below `r ^ 2`. -/
theorem collides_iff_any_cell (g : t_game) (x y r : ℚ) (hr : 0 ≤ r) :
    collides (Dbl.fin r) g (Dbl.fin x) (Dbl.fin y) = 1 ↔
      ∃ i j : Int, safe_get_tile g j i = some '1' ∧
        (x - clampq x j) ^ 2 + (y - clampq y i) ^ 2 < r ^ 2 := by
  rw [(collides_iff g x y r).2]
  constructor
  · rintro ⟨i, j, -, -, -, -, h5, h6⟩
    exact ⟨i, j, h5, h6⟩
  · rintro ⟨i, j, h5, h6⟩
    have hx := near_cell_in_range x r ((y - clampq y i) ^ 2) j hr (sq_nonneg _) h6
    have hy := near_cell_in_range y r ((x - clampq x j) ^ 2) i hr (sq_nonneg _) (by linarith)
    exact ⟨i, j, hy.1, hy.2, hx.1, hx.2, h5, h6⟩

/-- When no cell of the scanned range is a wall, `collides` returns 0. -/
theorem collides_zero_of_range_open (g : t_game) (x y r : ℚ)
    (h : ∀ i j : Int, ⌊y - r⌋ ≤ i → i ≤ ⌈y + r⌉ → ⌊x - r⌋ ≤ j → j ≤ ⌈x + r⌉ →
      safe_get_tile g j i ≠ some '1') :
    collides (Dbl.fin r) g (Dbl.fin x) (Dbl.fin y) = 0 := by
  obtain ⟨h01, hiff⟩ := collides_iff g x y r
  rcases h01 with h0 | h1
  · exact h0
  · exfalso
    obtain ⟨i, j, h1, h2, h3, h4, h5, -⟩ := hiff.1 h1
    exact h i j h1 h2 h3 h4 h5

/-- Where `collides` returns 0 for a radius `r ≥ 0`, every point of every wall cell is at
distance at least `r` from the candidate. -/
theorem no_wall_within_radius (g : t_game) (x y r : ℚ) (hr : 0 ≤ r)
    (h : collides (Dbl.fin r) g (Dbl.fin x) (Dbl.fin y) = 0) (j i : Int)
    (hw : safe_get_tile g j i = some '1') (p q : ℚ)
    (hp1 : (j : ℚ) ≤ p) (hp2 : p ≤ (j : ℚ) + 1) (hq1 : (i : ℚ) ≤ q) (hq2 : q ≤ (i : ℚ) + 1) :
    r ^ 2 ≤ (x - p) ^ 2 + (y - q) ^ 2 := by
  by_contra hlt
  push_neg at hlt
  have hc : collides (Dbl.fin r) g (Dbl.fin x) (Dbl.fin y) = 1 := by
    rw [collides_iff_any_cell g x y r hr]
    refine ⟨i, j, hw, lt_of_le_of_lt ?_ hlt⟩
    exact add_le_add (clampq_nearest x p j hp1 hp2) (clampq_nearest y q i hq1 hq2)
  rw [h] at hc
  exact absurd hc (by decide)

/-- Two candidates at which `collides` returns 0 and that are less than `2 r` apart are
joined by a segment that meets no wall cell. -/
theorem segment_clear (g : t_game) (x0 y0 x1 y1 r : ℚ) (hr : 0 ≤ r)
    (h0 : collides (Dbl.fin r) g (Dbl.fin x0) (Dbl.fin y0) = 0)
    (h1 : collides (Dbl.fin r) g (Dbl.fin x1) (Dbl.fin y1) = 0)
    (hshort : (x1 - x0) ^ 2 + (y1 - y0) ^ 2 < 4 * r ^ 2) :
    ¬ segment_meets_wall g x0 y0 x1 y1 := by
  rintro ⟨t, j, i, ht0, ht1, hw, hp1, hp2, hq1, hq2⟩
  have hL : 0 ≤ (x1 - x0) ^ 2 + (y1 - y0) ^ 2 := by positivity
  rcases le_total t (1 / 2) with ht | ht
  · have hd := no_wall_within_radius g x0 y0 r hr h0 j i hw _ _ hp1 hp2 hq1 hq2
    have e : (x0 - (x0 + t * (x1 - x0))) ^ 2 + (y0 - (y0 + t * (y1 - y0))) ^ 2
        = t ^ 2 * ((x1 - x0) ^ 2 + (y1 - y0) ^ 2) := by ring
    rw [e] at hd
    have ht2 : t ^ 2 ≤ 1 / 4 := by nlinarith
    have : t ^ 2 * ((x1 - x0) ^ 2 + (y1 - y0) ^ 2) ≤ 1 / 4 * ((x1 - x0) ^ 2 + (y1 - y0) ^ 2) :=
      mul_le_mul_of_nonneg_right ht2 hL
    linarith
  · have hd := no_wall_within_radius g x1 y1 r hr h1 j i hw _ _ hp1 hp2 hq1 hq2
    have e : (x1 - (x0 + t * (x1 - x0))) ^ 2 + (y1 - (y0 + t * (y1 - y0))) ^ 2
        = (1 - t) ^ 2 * ((x1 - x0) ^ 2 + (y1 - y0) ^ 2) := by ring
    rw [e] at hd
    have ht2 : (1 - t) ^ 2 ≤ 1 / 4 := by nlinarith
    have : (1 - t) ^ 2 * ((x1 - x0) ^ 2 + (y1 - y0) ^ 2)
        ≤ 1 / 4 * ((x1 - x0) ^ 2 + (y1 - y0) ^ 2) :=
      mul_le_mul_of_nonneg_right ht2 hL
    linarith

/-- The candidate of the corridor camera with `W` held, for a finite `delta_time`. -/
theorem candidate_corridor (d : ℚ) :
    camera.candidate keys_w corridor_app (Dbl.fin d) = (Dbl.fin (1 / 2 + 4 * d), Dbl.fin (3 / 2)) := by
  have hW : keys_w keys_t.MLX_KEY_W = true := by decide
  have hS : keys_w keys_t.MLX_KEY_S = false := by decide
  have hA : keys_w keys_t.MLX_KEY_A = false := by decide
  have hD : keys_w keys_t.MLX_KEY_D = false := by decide
  have hT : keys_w keys_t.MLX_KEY_LEFT_SHIFT = false := by decide
  simp only [camera.candidate, hW, hS, hA, hD, hT, corridor_app, bool_to_int, Dbl.ofInt_eq,
    Dbl.fin_mul_fin, Dbl.fin_add_fin]
  norm_num

/-- In the corridor map `collides` returns 0 at `(x, 1.5)` for the radius `0.2` when the
columns scanned are among the open ones. -/
theorem collides_corridor (x : ℚ) (lo hi : Int) (h1 : ⌊x - 1 / 5⌋ = lo) (h2 : ⌈x + 1 / 5⌉ = hi)
    (hlo : 3 ≤ lo ∨ hi ≤ 1) (hlo0 : 0 ≤ lo) (hhi : hi ≤ 6) :
    collides (Dbl.fin (1 / 5)) corridor_game (Dbl.fin x) (Dbl.fin (3 / 2)) = 0 := by
  apply collides_zero_of_range_open
  have e1 : ⌊(3 / 2 : ℚ) - 1 / 5⌋ = 1 := by norm_num [Int.floor_eq_iff]
  have e2 : ⌈(3 / 2 : ℚ) + 1 / 5⌉ = 2 := by norm_num [Int.ceil_eq_iff]
  intro i j hi1 hi2 hj1 hj2
  rw [e1] at hi1
  rw [e2] at hi2
  rw [h1] at hj1
  rw [h2] at hj2
  have hj : 0 ≤ j ∧ j ≤ 6 ∧ j ≠ 2 := by omega
  obtain ⟨a, b, c⟩ := hj
  interval_cases i <;> interval_cases j <;> first | decide | exact absurd rfl c

theorem collides_corridor_start :
    collides (Dbl.fin (1 / 5)) corridor_game (Dbl.fin (1 / 2)) (Dbl.fin (3 / 2)) = 0 :=
  collides_corridor (1 / 2) 0 1 (by norm_num [Int.floor_eq_iff]) (by norm_num [Int.ceil_eq_iff])
    (Or.inr (le_refl _)) (by decide) (by decide)

/-- C13 at the corridor map: camera at `(0.5, 1.5)` with `W` held, `delta_time` 1/20,
radius 0.2; `collides` returns 0 before the update and after it. -/
theorem update_camera_movement_all_or_nothing_witness :
    collides (Dbl.fin (1 / 5)) corridor_game (Dbl.fin (1 / 2)) (Dbl.fin (3 / 2)) = 0 ∧
    collides (Dbl.fin (1 / 5))
      (camera.update_camera_movement (Dbl.fin (1 / 5)) keys_w corridor_app (Dbl.fin (1 / 20))).game
      (camera.update_camera_movement (Dbl.fin (1 / 5)) keys_w corridor_app
        (Dbl.fin (1 / 20))).camera.pos.i
      (camera.update_camera_movement (Dbl.fin (1 / 5)) keys_w corridor_app
        (Dbl.fin (1 / 20))).camera.pos.j = 0 :=
  ⟨collides_corridor_start,
    (update_camera_movement_all_or_nothing (Dbl.fin (1 / 5)) keys_w corridor_app
      (Dbl.fin (1 / 20))).2.2 collides_corridor_start⟩

/-- The update of the corridor camera with `W` held commits the candidate when the columns
scanned around it are open. -/
theorem update_corridor (d : ℚ) (lo hi : Int) (h1 : ⌊1 / 2 + 4 * d - 1 / 5⌋ = lo)
    (h2 : ⌈1 / 2 + 4 * d + 1 / 5⌉ = hi) (hlo : 3 ≤ lo ∨ hi ≤ 1) (hlo0 : 0 ≤ lo) (hhi : hi ≤ 6) :
    (camera.update_camera_movement (Dbl.fin (1 / 5)) keys_w corridor_app (Dbl.fin d)).camera.pos
      = ⟨Dbl.fin 0, Dbl.fin (1 / 2 + 4 * d), Dbl.fin (3 / 2), Dbl.fin 0⟩ := by
  have hc := collides_corridor (1 / 2 + 4 * d) lo hi h1 h2 hlo hlo0 hhi
  rw [camera.update_camera_movement_eq, candidate_corridor]
  have hg : corridor_app.game = corridor_game := rfl
  rw [hg, if_pos hc]
  rfl

/-- C14, refuted: in the corridor map, radius 0.2, the camera at `(0.5, 1.5)` (where
`collides` returns 0) facing `(1, 0)` with `move_speed` 4, `W` held and `delta_time` 1 is
moved to `(4.5, 1.5)`; the segment between the two positions crosses the wall cell
`(2, 1)`, at `(2.5, 1.5)`. -/
theorem camera_crosses_wall :
    collides (Dbl.fin (1 / 5)) corridor_game (Dbl.fin (1 / 2)) (Dbl.fin (3 / 2)) = 0 ∧
    (camera.update_camera_movement (Dbl.fin (1 / 5)) keys_w corridor_app (Dbl.fin 1)).camera.pos
      = ⟨Dbl.fin 0, Dbl.fin (9 / 2), Dbl.fin (3 / 2), Dbl.fin 0⟩ ∧
    segment_meets_wall corridor_game (1 / 2) (3 / 2) (9 / 2) (3 / 2) := by
  refine ⟨collides_corridor_start, ?_, ?_⟩
  · have h := update_corridor 1 4 5 (by norm_num [Int.floor_eq_iff])
      (by norm_num [Int.ceil_eq_iff]) (Or.inl (by decide)) (by decide) (by decide)
    norm_num at h ⊢
    exact h
  · refine ⟨1 / 2, 2, 1, by norm_num, by norm_num, by decide, ?_, ?_, ?_, ?_⟩ <;> norm_num

/-- C14, amended: for a radius `r ≥ 0` and a camera at a finite position where `collides`
returns 0, the position `update_camera_movement` leaves is again one where `collides`
returns 0, and when it is less than `2 r` away from the old one the straight segment
between the two meets no wall cell. -/
theorem short_move_meets_no_wall (r px py nx ny : ℚ) (keys : keys_t → Bool)
    (app : camera.t_app) (dt : Dbl) (hr : 0 ≤ r)
    (hpx : app.camera.pos.i = Dbl.fin px) (hpy : app.camera.pos.j = Dbl.fin py)
    (h0 : collides (Dbl.fin r) app.game (Dbl.fin px) (Dbl.fin py) = 0)
    (hnx : (camera.update_camera_movement (Dbl.fin r) keys app dt).camera.pos.i = Dbl.fin nx)
    (hny : (camera.update_camera_movement (Dbl.fin r) keys app dt).camera.pos.j = Dbl.fin ny) :
    collides (Dbl.fin r) app.game (Dbl.fin nx) (Dbl.fin ny) = 0 ∧
    ((nx - px) ^ 2 + (ny - py) ^ 2 < 4 * r ^ 2 → ¬ segment_meets_wall app.game px py nx ny) := by
  have h1 : collides (Dbl.fin r) app.game (Dbl.fin nx) (Dbl.fin ny) = 0 := by
    rw [camera.update_camera_movement_eq] at hnx hny
    by_cases hc : collides (Dbl.fin r) app.game (camera.candidate keys app dt).1
        (camera.candidate keys app dt).2 = 0
    · rw [if_pos hc] at hnx hny
      simp only at hnx hny
      rw [← hnx, ← hny]
      exact hc
    · rw [if_neg hc] at hnx hny
      rw [← hnx, ← hny, hpx, hpy]
      exact h0
  exact ⟨h1, fun hshort => segment_clear app.game px py nx ny r hr h0 h1 hshort⟩

/-- C14 amended, at the corridor map: `delta_time` 1/20 moves the camera from `(0.5, 1.5)`
to `(0.7, 1.5)`, less than twice the radius 0.2 away. -/
theorem short_move_meets_no_wall_witness :
    collides (Dbl.fin (1 / 5)) corridor_game (Dbl.fin (7 / 10)) (Dbl.fin (3 / 2)) = 0 ∧
    ¬ segment_meets_wall corridor_game (1 / 2) (3 / 2) (7 / 10) (3 / 2) := by
  have hpos := update_corridor (1 / 20) 0 1 (by norm_num [Int.floor_eq_iff])
    (by norm_num [Int.ceil_eq_iff]) (Or.inr (le_refl _)) (by decide) (by decide)
  have T := short_move_meets_no_wall (1 / 5) (1 / 2) (3 / 2) (7 / 10) (3 / 2) keys_w corridor_app
    (Dbl.fin (1 / 20)) (by norm_num) rfl rfl collides_corridor_start
    (by rw [hpos]; norm_num) (by rw [hpos])
  exact ⟨T.1, T.2 (by norm_num)⟩

/-! ## Camera rotation -/

namespace Dbl

@[simp] theorem mul_nan (a : Dbl) : a * nan = nan := by
  show mul a nan = nan
  cases a <;> rfl
@[simp] theorem nan_mul (a : Dbl) : nan * a = nan := by
  show mul nan a = nan
  cases a <;> rfl
@[simp] theorem add_nan (a : Dbl) : a + nan = nan := by
  show add a nan = nan
  cases a <;> rfl
@[simp] theorem nan_add (a : Dbl) : nan + a = nan := by
  show add nan a = nan
  cases a <;> rfl
@[simp] theorem sub_nan (a : Dbl) : a - nan = nan := by
  show add a (neg nan) = nan
  cases a <;> rfl
@[simp] theorem nan_sub (a : Dbl) : nan - a = nan := by
  show add nan (neg a) = nan
  cases a <;> rfl
@[simp] theorem neg_nan : -nan = nan := rfl
@[simp] theorem fin_le_fin (a b : ℚ) : (fin a ≤ fin b) ↔ a ≤ b := by
  show le (fin a) (fin b) = true ↔ _
  simp [le]
theorem zero_div_zero : fin 0 / fin 0 = nan := by
  show div (fin 0) (fin 0) = nan
  simp [div]

end Dbl

/-- With a zero axis (and the square root of 0 equal to 0) `plane_rotation` divides 0 by 0:
every component of its result is `NaN`, whatever the vector and the angle. -/
theorem plane_rotation_zero_axis (sqrt cos sin : Dbl → Dbl) (p : t_quaternion) (alpha : Dbl)
    (hsqrt : sqrt (Dbl.fin 0) = Dbl.fin 0) :
    plane_rotation sqrt cos sin p ⟨Dbl.ofInt 0, Dbl.ofInt 0, Dbl.ofInt 0, Dbl.ofInt 0⟩ alpha
      = ⟨Dbl.nan, Dbl.nan, Dbl.nan, Dbl.nan⟩ := by
  simp only [plane_rotation, Dbl.ofInt_eq, Int.cast_zero, Dbl.fin_mul_fin, Dbl.fin_add_fin,
    mul_zero, add_zero, hsqrt, Dbl.zero_div_zero, Dbl.mul_nan, conjugate, Dbl.neg_nan,
    quaternion_product, Dbl.nan_mul, Dbl.add_nan, Dbl.nan_add, Dbl.sub_nan, Dbl.nan_sub]

namespace camera

theorem update_camera_rotation_dir (sqrt cos sin : Dbl → Dbl) (WIDTH HEIGHT xpos zpos : Int)
    (app : t_app) (dt : Dbl) :
    (update_camera_rotation sqrt cos sin WIDTH HEIGHT xpos zpos app dt).camera.dir =
      plane_rotation sqrt cos sin app.camera.dir
        ⟨Dbl.ofInt 0, Dbl.ofInt 0, Dbl.ofInt 0, Dbl.ofInt xpos⟩
        (Dbl.ofInt (xpos - Int.tdiv WIDTH 2) * dt / Dbl.ofInt 20) ∧
    (update_camera_rotation sqrt cos sin WIDTH HEIGHT xpos zpos app dt).camera.plane =
      plane_rotation sqrt cos sin app.camera.plane
        ⟨Dbl.ofInt 0, Dbl.ofInt 0, Dbl.ofInt 0, Dbl.ofInt xpos⟩
        (Dbl.ofInt (xpos - Int.tdiv WIDTH 2) * dt / Dbl.ofInt 20) := by
  unfold update_camera_rotation
  simp only
  split_ifs <;> exact ⟨rfl, rfl⟩

/-- The view shift `update_camera_rotation` leaves, for a finite view shift `v` and a
finite `delta_time` `t`. -/
theorem update_camera_rotation_view_z (sqrt cos sin : Dbl → Dbl)
    (WIDTH HEIGHT xpos zpos : Int) (app : t_app) (v t : ℚ)
    (hv : app.camera.view_z = Dbl.fin v) :
    (update_camera_rotation sqrt cos sin WIDTH HEIGHT xpos zpos app (Dbl.fin t)).camera.view_z =
      if (HEIGHT : ℚ) ≤ |v| ∧ 0 < v * view_shift_delta HEIGHT zpos t then Dbl.fin v
      else Dbl.fin (v + view_shift_delta HEIGHT zpos t) := by
  unfold update_camera_rotation
  simp only [hv, Dbl.ofInt_eq, Dbl.fin_mul_fin, Dbl.fabs_fin, ge_iff_le, gt_iff_lt,
    Dbl.fin_le_fin, Dbl.fin_lt_fin, Int.cast_zero, Int.cast_ofNat, view_shift_delta]
  split_ifs with h1
  · rfl
  · rfl

end camera

/-- C15, failing input: with the pointer at `xpos = 0` (and the square root of 0 equal to 0)
`update_camera_rotation` rotates about the axis `(0, 0, 0)`; `plane_rotation` divides by
the axis magnitude 0 and every component of the facing and plane vectors becomes `NaN`,
whatever they were and whatever `delta_time` is. -/
theorem rotation_at_xpos_zero (sqrt cos sin : Dbl → Dbl) (WIDTH HEIGHT zpos : Int)
    (app : camera.t_app) (dt : Dbl) (hsqrt : sqrt (Dbl.fin 0) = Dbl.fin 0) :
    (camera.update_camera_rotation sqrt cos sin WIDTH HEIGHT 0 zpos app dt).camera.dir
      = ⟨Dbl.nan, Dbl.nan, Dbl.nan, Dbl.nan⟩ ∧
    (camera.update_camera_rotation sqrt cos sin WIDTH HEIGHT 0 zpos app dt).camera.plane
      = ⟨Dbl.nan, Dbl.nan, Dbl.nan, Dbl.nan⟩ := by
  obtain ⟨h1, h2⟩ := camera.update_camera_rotation_dir sqrt cos sin WIDTH HEIGHT 0 zpos app dt
  rw [h1, h2]
  exact ⟨plane_rotation_zero_axis sqrt cos sin _ _ hsqrt,
    plane_rotation_zero_axis sqrt cos sin _ _ hsqrt⟩

theorem sqrt_exact_zero : sqrt_exact (Dbl.fin 0) = Dbl.fin 0 := by
  have := sqrt_exact_sq 0
  simpa using this

/-- C15 at the camera facing `(1, 0)` with plane `(0, 0.66)`, screen 200 x 100, pointer at
`(0, 50)`, `delta_time` 1/60. -/
theorem rotation_at_xpos_zero_witness :
    (camera.update_camera_rotation sqrt_exact cos_sample sin_sample 200 100 0 50 level_app
        (Dbl.fin (1 / 60))).camera.dir = ⟨Dbl.nan, Dbl.nan, Dbl.nan, Dbl.nan⟩ ∧
    (camera.update_camera_rotation sqrt_exact cos_sample sin_sample 200 100 0 50 level_app
        (Dbl.fin (1 / 60))).camera.plane = ⟨Dbl.nan, Dbl.nan, Dbl.nan, Dbl.nan⟩ :=
  rotation_at_xpos_zero sqrt_exact cos_sample sin_sample 200 100 50 level_app (Dbl.fin (1 / 60))
    sqrt_exact_zero

/-- C16, refuted: with `HEIGHT = 100`, a view shift of 0 and the pointer at `zpos = 150`,
one update with `delta_time` 1 leaves the view shift at 10000, beyond `HEIGHT`. -/
theorem view_z_overshoots :
    Dbl.fabs level_app.camera.view_z ≤ Dbl.ofInt 100 ∧
    (camera.update_camera_rotation sqrt_exact cos_sample sin_sample 200 100 100 150 level_app
        (Dbl.fin 1)).camera.view_z = Dbl.fin 10000 ∧
    ¬ (Dbl.fabs (camera.update_camera_rotation sqrt_exact cos_sample sin_sample 200 100 100 150
        level_app (Dbl.fin 1)).camera.view_z ≤ Dbl.ofInt 100) := by
  have h := camera.update_camera_rotation_view_z sqrt_exact cos_sample sin_sample 200 100 100 150
    level_app 0 1 rfl
  have hd : view_shift_delta 100 150 1 = 10000 := by
    have : Int.tdiv 100 2 = 50 := by decide
    simp only [view_shift_delta, this]
    norm_num
  rw [hd] at h
  norm_num at h
  refine ⟨?_, h, ?_⟩
  · show Dbl.fabs (Dbl.fin 0) ≤ Dbl.ofInt 100
    simp
  · rw [h]
    simp only [Dbl.fabs_fin, Dbl.ofInt_eq, Dbl.fin_le_fin]
    norm_num

/-- C16, amended: for a finite view shift `v` and a finite `delta_time`, with
`d = (zpos - HEIGHT / 2) * delta_time * 100`, the view shift `v2` left by
`update_camera_rotation` satisfies `|v2| ≤ HEIGHT + |d|` when `|v| ≤ HEIGHT`, and is `v`
itself when `|v| ≥ HEIGHT` and `d` points away from zero (`v * d > 0`). -/
theorem view_z_bounded_by_one_step (sqrt cos sin : Dbl → Dbl) (WIDTH HEIGHT xpos zpos : Int)
    (app : camera.t_app) (v t : ℚ) (hv : app.camera.view_z = Dbl.fin v) :
    ∃ v2 : ℚ,
      (camera.update_camera_rotation sqrt cos sin WIDTH HEIGHT xpos zpos app
        (Dbl.fin t)).camera.view_z = Dbl.fin v2 ∧
      (|v| ≤ (HEIGHT : ℚ) → |v2| ≤ (HEIGHT : ℚ) + |view_shift_delta HEIGHT zpos t|) ∧
      ((HEIGHT : ℚ) ≤ |v| → 0 < v * view_shift_delta HEIGHT zpos t → v2 = v) := by
  rw [camera.update_camera_rotation_view_z sqrt cos sin WIDTH HEIGHT xpos zpos app v t hv]
  by_cases h : (HEIGHT : ℚ) ≤ |v| ∧ 0 < v * view_shift_delta HEIGHT zpos t
  · rw [if_pos h]
    refine ⟨v, rfl, ?_, fun _ _ => rfl⟩
    intro hle
    have := abs_nonneg (view_shift_delta HEIGHT zpos t)
    linarith
  · rw [if_neg h]
    refine ⟨v + view_shift_delta HEIGHT zpos t, rfl, ?_, fun h1 h2 => absurd ⟨h1, h2⟩ h⟩
    intro hle
    have := abs_add v (view_shift_delta HEIGHT zpos t)
    linarith

/-- C16 amended, at `HEIGHT = 100`, view shift 0, pointer at `zpos = 150`, `delta_time` 1. -/
theorem view_z_bounded_by_one_step_witness :
    ∃ v2 : ℚ,
      (camera.update_camera_rotation sqrt_exact cos_sample sin_sample 200 100 100 150 level_app
        (Dbl.fin 1)).camera.view_z = Dbl.fin v2 ∧
      (|(0 : ℚ)| ≤ ((100 : Int) : ℚ) →
        |v2| ≤ ((100 : Int) : ℚ) + |view_shift_delta 100 150 1|) ∧
      (((100 : Int) : ℚ) ≤ |(0 : ℚ)| → 0 < (0 : ℚ) * view_shift_delta 100 150 1 → v2 = 0) :=
  view_z_bounded_by_one_step sqrt_exact cos_sample sin_sample 200 100 100 150 level_app 0 1 rfl

/-- C17: for a finite view shift `v` (also beyond `HEIGHT`) and a finite `delta_time`, with
`d = (zpos - HEIGHT / 2) * delta_time * 100`: `update_camera_rotation` sets the view shift
to `v + d` whenever `v * d ≤ 0`, and more generally unless `|v| ≥ HEIGHT` and `v * d > 0`,
in which case it leaves `v`. -/
theorem view_z_update_rule (sqrt cos sin : Dbl → Dbl) (WIDTH HEIGHT xpos zpos : Int)
    (app : camera.t_app) (v t : ℚ) (hv : app.camera.view_z = Dbl.fin v) :
    (v * view_shift_delta HEIGHT zpos t ≤ 0 →
      (camera.update_camera_rotation sqrt cos sin WIDTH HEIGHT xpos zpos app
        (Dbl.fin t)).camera.view_z = Dbl.fin (v + view_shift_delta HEIGHT zpos t)) ∧
    (¬ ((HEIGHT : ℚ) ≤ |v| ∧ 0 < v * view_shift_delta HEIGHT zpos t) →
      (camera.update_camera_rotation sqrt cos sin WIDTH HEIGHT xpos zpos app
        (Dbl.fin t)).camera.view_z = Dbl.fin (v + view_shift_delta HEIGHT zpos t)) ∧
    ((HEIGHT : ℚ) ≤ |v| ∧ 0 < v * view_shift_delta HEIGHT zpos t →
      (camera.update_camera_rotation sqrt cos sin WIDTH HEIGHT xpos zpos app
        (Dbl.fin t)).camera.view_z = Dbl.fin v) := by
  rw [camera.update_camera_rotation_view_z sqrt cos sin WIDTH HEIGHT xpos zpos app v t hv]
  refine ⟨?_, ?_, ?_⟩
  · intro h
    rw [if_neg (fun hc => absurd hc.2 (not_lt.2 h))]
  · intro h
    rw [if_neg h]
  · intro h
    rw [if_pos h]

/-- C17 at `HEIGHT = 100`, a view shift of 150 (beyond `HEIGHT`), the pointer at
`zpos = 40` and `delta_time` 1/100: the delta is `-10`, back toward zero, and the view
shift becomes 140. -/
theorem view_z_update_rule_witness :
    (camera.update_camera_rotation sqrt_exact cos_sample sin_sample 200 100 100 40
      { level_app with camera := { level_app.camera with view_z := Dbl.fin 150 } }
      (Dbl.fin (1 / 100))).camera.view_z = Dbl.fin 140 := by
  have hd : view_shift_delta 100 40 (1 / 100) = -10 := by
    have : Int.tdiv 100 2 = 50 := by decide
    simp only [view_shift_delta, this]
    norm_num
  have T := (view_z_update_rule sqrt_exact cos_sample sin_sample 200 100 100 40
    { level_app with camera := { level_app.camera with view_z := Dbl.fin 150 } }
    150 (1 / 100) rfl).1 (by rw [hd]; norm_num)
  rw [hd] at T
  norm_num at T
  exact T

/-! ## Independence of the cast from the previous ray record -/

namespace raycasting

theorem dda_loop_congr (app : t_app) : ∀ (fuel : Nat) (r1 r2 : t_ray),
    ray_core r1 = ray_core r2 →
    (dda_loop app fuel r1).map (fun r => (ray_core r, r.side)) =
      (dda_loop app fuel r2).map (fun r => (ray_core r, r.side)) := by
  intro fuel
  induction fuel with
  | zero => intro r1 r2 _; rfl
  | succ n ih =>
    intro r1 r2 h
    simp only [ray_core, Prod.mk.injEq] at h
    obtain ⟨⟨hx, hy⟩, ⟨hri, hrj, hm⟩, ⟨hdi, hdj⟩, ⟨hsi, hsj⟩, ⟨hci, hcj⟩⟩ := h
    simp only [dda_loop]
    rw [hci, hcj, hdi, hdj, hx, hy, hsi, hsj]
    by_cases hlt : r2.sidedist.i < r2.sidedist.j
    · simp only [if_pos hlt]
      by_cases hw : safe_get_tile app.game (Dbl.toInt (Dbl.ofInt r2.map_x + r2.step.i))
          r2.map_y = some '1'
      · simp only [if_pos hw, Option.map_some', ray_core, hy, hri, hrj, hm, hdi, hdj, hsi, hsj,
          hcj]
      · simp only [if_neg hw]
        apply ih
        simp only [ray_core, hy, hri, hrj, hm, hdi, hdj, hsi, hsj, hcj]
    · simp only [if_neg hlt]
      by_cases hw : safe_get_tile app.game r2.map_x
          (Dbl.toInt (Dbl.ofInt r2.map_y + r2.step.j)) = some '1'
      · simp only [if_pos hw, Option.map_some', ray_core, hx, hri, hrj, hm, hdi, hdj, hsi, hsj,
          hci]
      · simp only [if_neg hw]
        apply ih
        simp only [ray_core, hx, hri, hrj, hm, hdi, hdj, hsi, hsj, hci]

theorem do_dda_congr (app : t_app) (fuel : Nat) (r1 r2 : t_ray)
    (hx : r1.map_x = r2.map_x) (hy : r1.map_y = r2.map_y)
    (hri : r1.raydir.i = r2.raydir.i) (hrj : r1.raydir.j = r2.raydir.j)
    (hm : r1.raydir_mod = r2.raydir_mod)
    (hdi : r1.deltadist.i = r2.deltadist.i) (hdj : r1.deltadist.j = r2.deltadist.j) :
    (do_dda fuel app r1).map ray_result = (do_dda fuel app r2).map ray_result := by
  have key := dda_loop_congr app fuel
    { r1 with
      step := { r1.step with
        i := (init_step app.camera.pos.i r1.map_x r1.deltadist.i r1.raydir.i).i,
        j := (init_step app.camera.pos.j r1.map_y r1.deltadist.j r1.raydir.j).i },
      sidedist := { r1.sidedist with
        i := (init_step app.camera.pos.i r1.map_x r1.deltadist.i r1.raydir.i).j,
        j := (init_step app.camera.pos.j r1.map_y r1.deltadist.j r1.raydir.j).j } }
    { r2 with
      step := { r2.step with
        i := (init_step app.camera.pos.i r2.map_x r2.deltadist.i r2.raydir.i).i,
        j := (init_step app.camera.pos.j r2.map_y r2.deltadist.j r2.raydir.j).i },
      sidedist := { r2.sidedist with
        i := (init_step app.camera.pos.i r2.map_x r2.deltadist.i r2.raydir.i).j,
        j := (init_step app.camera.pos.j r2.map_y r2.deltadist.j r2.raydir.j).j } }
    (by simp only [ray_core, hx, hy, hri, hrj, hm, hdi, hdj])
  simp only [do_dda]
  cases e1 : dda_loop app fuel { r1 with
      step := { r1.step with
        i := (init_step app.camera.pos.i r1.map_x r1.deltadist.i r1.raydir.i).i,
        j := (init_step app.camera.pos.j r1.map_y r1.deltadist.j r1.raydir.j).i },
      sidedist := { r1.sidedist with
        i := (init_step app.camera.pos.i r1.map_x r1.deltadist.i r1.raydir.i).j,
        j := (init_step app.camera.pos.j r1.map_y r1.deltadist.j r1.raydir.j).j } } with
  | none =>
    rw [e1] at key
    cases e2 : dda_loop app fuel { r2 with
      step := { r2.step with
        i := (init_step app.camera.pos.i r2.map_x r2.deltadist.i r2.raydir.i).i,
        j := (init_step app.camera.pos.j r2.map_y r2.deltadist.j r2.raydir.j).i },
      sidedist := { r2.sidedist with
        i := (init_step app.camera.pos.i r2.map_x r2.deltadist.i r2.raydir.i).j,
        j := (init_step app.camera.pos.j r2.map_y r2.deltadist.j r2.raydir.j).j } } with
    | none => rfl
    | some b => rw [e2] at key; simp at key
  | some a =>
    rw [e1] at key
    cases e2 : dda_loop app fuel { r2 with
      step := { r2.step with
        i := (init_step app.camera.pos.i r2.map_x r2.deltadist.i r2.raydir.i).i,
        j := (init_step app.camera.pos.j r2.map_y r2.deltadist.j r2.raydir.j).i },
      sidedist := { r2.sidedist with
        i := (init_step app.camera.pos.i r2.map_x r2.deltadist.i r2.raydir.i).j,
        j := (init_step app.camera.pos.j r2.map_y r2.deltadist.j r2.raydir.j).j } } with
    | none => rw [e2] at key; simp at key
    | some b =>
      rw [e2] at key
      simp only [Option.map_some', Option.some.injEq, Prod.mk.injEq] at key
      obtain ⟨hc, hs⟩ := key
      have hc2 := hc
      simp only [ray_core, Prod.mk.injEq] at hc2
      obtain ⟨_, ⟨_, _, hm2⟩, ⟨hdi2, hdj2⟩, _, ⟨hci2, hcj2⟩⟩ := hc2
      simp only [hs]
      split_ifs
      · simp only [Option.map_some', ray_result, Option.some.injEq, Prod.mk.injEq]
        refine ⟨?_, trivial, by rw [hci2, hdi2, hm2]⟩
        simpa only [ray_core] using hc
      · simp only [Option.map_some', ray_result, Option.some.injEq, Prod.mk.injEq]
        refine ⟨?_, trivial, by rw [hcj2, hdj2, hm2]⟩
        simpa only [ray_core] using hc

end raycasting

/-- C19: a cast of `raycasting.c` depends only on the grid, the camera (position, facing,
plane) and the screen column.  For every previous content `ray1`, `ray2` of the ray record,
`init_ray` followed by `do_dda` gives the same outcome: either the loop has not stopped
within the iteration bound on both runs, or both runs return with the same cell, ray
direction, steps, side distances, delta distances, hit side and perpendicular distance.
On a well-formed map, with the camera cell inside it and `rows + cols - 1` iterations
allowed, both runs do return.  The two functions return the ray alone: the grid and the
camera are read, not written. -/
theorem cast_independent_of_previous_ray (sqrt : Dbl → Dbl) (WIDTH : Int)
    (app : raycasting.t_app) (x : Int) (fuel : Nat) (ray1 ray2 : raycasting.t_ray) :
    (raycasting.do_dda fuel app (raycasting.init_ray sqrt WIDTH app x ray1)).map
        raycasting.ray_result =
      (raycasting.do_dda fuel app (raycasting.init_ray sqrt WIDTH app x ray2)).map
        raycasting.ray_result ∧
    (app.game.wf → app.game.map_height + max_row_len app.game - 1 ≤ fuel →
      0 ≤ Dbl.toInt app.camera.pos.i → Dbl.toInt app.camera.pos.i < max_row_len app.game →
      0 ≤ Dbl.toInt app.camera.pos.j → Dbl.toInt app.camera.pos.j < app.game.map_height →
      ∃ r1 r2,
        raycasting.do_dda fuel app (raycasting.init_ray sqrt WIDTH app x ray1) = some r1 ∧
        raycasting.do_dda fuel app (raycasting.init_ray sqrt WIDTH app x ray2) = some r2 ∧
        raycasting.ray_result r1 = raycasting.ray_result r2) := by
  have key : (raycasting.do_dda fuel app (raycasting.init_ray sqrt WIDTH app x ray1)).map
        raycasting.ray_result =
      (raycasting.do_dda fuel app (raycasting.init_ray sqrt WIDTH app x ray2)).map
        raycasting.ray_result := by
    apply raycasting.do_dda_congr <;> simp only [raycasting.init_ray]
  refine ⟨key, ?_⟩
  intro hwf hfuel h1 h2 h3 h4
  obtain ⟨r1, e1, _⟩ := raycasting.do_dda_in_box0 app hwf fuel hfuel
    (raycasting.init_ray sqrt WIDTH app x ray1) h1 h2 h3 h4
  obtain ⟨r2, e2, _⟩ := raycasting.do_dda_in_box0 app hwf fuel hfuel
    (raycasting.init_ray sqrt WIDTH app x ray2) h1 h2 h3 h4
  rw [e1, e2] at key
  exact ⟨r1, r2, e1, e2, by simpa using key⟩

/-- C19 on the 5 x 5 open map, camera at its centre, screen column 1 of 2, nine iterations
allowed: the cast from a record of `NaN` and the cast from a used record both return, with
the same results. -/
theorem cast_independent_of_previous_ray_witness :
    ∃ r1 r2,
      raycasting.do_dda 9 cast_app (raycasting.init_ray sqrt_exact 2 cast_app 1 stale_ray_nan)
        = some r1 ∧
      raycasting.do_dda 9 cast_app (raycasting.init_ray sqrt_exact 2 cast_app 1 stale_ray_used)
        = some r2 ∧
      raycasting.ray_result r1 = raycasting.ray_result r2 :=
  (cast_independent_of_previous_ray sqrt_exact 2 cast_app 1 9 stale_ray_nan stale_ray_used).2
    (by decide) (by decide)
    (by simp [cast_app, toInt_five_halves]) (by simp [cast_app, toInt_five_halves]; decide)
    (by simp [cast_app, toInt_five_halves]) (by simp [cast_app, toInt_five_halves]; decide)

/-! ## Strafing -/

/-- C20, as the code has it: with only the strafe keys in play (`W` and `S` released) and
finite position `(px, py)`, facing `(di, dj)` and frame speed `sp` (`move_speed *
delta_time`, doubled when the fast-move key is held), the candidate that
`update_camera_movement` hands to `collides` is the position plus `sp * (dj, -di)` when
`A` alone is held and the position plus `sp * (-dj, di)` when `D` alone is held: the two
displacements are those of the function's comment exchanged. -/
theorem strafe_candidate_swapped (keys : keys_t → Bool) (app : camera.t_app) (dt : Dbl)
    (px py di dj sp : ℚ)
    (hpi : app.camera.pos.i = Dbl.fin px) (hpj : app.camera.pos.j = Dbl.fin py)
    (hdi : app.camera.dir.i = Dbl.fin di) (hdj : app.camera.dir.j = Dbl.fin dj)
    (hsp : camera.frame_speed keys app dt = Dbl.fin sp)
    (hW : keys keys_t.MLX_KEY_W = false) (hS : keys keys_t.MLX_KEY_S = false) :
    (keys keys_t.MLX_KEY_A = true → keys keys_t.MLX_KEY_D = false →
      camera.candidate keys app dt = (Dbl.fin (px + sp * dj), Dbl.fin (py + sp * (-di)))) ∧
    (keys keys_t.MLX_KEY_D = true → keys keys_t.MLX_KEY_A = false →
      camera.candidate keys app dt = (Dbl.fin (px + sp * (-dj)), Dbl.fin (py + sp * di))) := by
  have hc : camera.candidate keys app dt =
      (app.camera.pos.i
          + Dbl.ofInt (bool_to_int (keys keys_t.MLX_KEY_W) - bool_to_int (keys keys_t.MLX_KEY_S))
            * app.camera.dir.i * camera.frame_speed keys app dt
          + Dbl.ofInt (bool_to_int (keys keys_t.MLX_KEY_A) - bool_to_int (keys keys_t.MLX_KEY_D))
            * app.camera.dir.j * camera.frame_speed keys app dt,
        app.camera.pos.j
          + Dbl.ofInt (bool_to_int (keys keys_t.MLX_KEY_W) - bool_to_int (keys keys_t.MLX_KEY_S))
            * app.camera.dir.j * camera.frame_speed keys app dt
          + Dbl.ofInt (bool_to_int (keys keys_t.MLX_KEY_D) - bool_to_int (keys keys_t.MLX_KEY_A))
            * app.camera.dir.i * camera.frame_speed keys app dt) := by
    unfold camera.candidate camera.frame_speed
    by_cases hT : keys keys_t.MLX_KEY_LEFT_SHIFT = true
    · simp only [hT, if_true]
    · simp only [hT]
  rw [hc, hsp, hpi, hpj, hdi, hdj, hW, hS]
  constructor
  · intro hA hD
    rw [hA, hD]
    simp only [bool_to_int, Dbl.ofInt_eq, Dbl.fin_mul_fin, Dbl.fin_add_fin, if_true,
      Bool.false_eq_true, if_false, Prod.mk.injEq, Dbl.fin.injEq]
    constructor <;> (push_cast; ring)
  · intro hD hA
    rw [hA, hD]
    simp only [bool_to_int, Dbl.ofInt_eq, Dbl.fin_mul_fin, Dbl.fin_add_fin, if_true,
      Bool.false_eq_true, if_false, Prod.mk.injEq, Dbl.fin.injEq]
    constructor <;> (push_cast; ring)

/-- C20 in the corridor map: camera at `(0.5, 1.5)` facing `(1, 0)`, `move_speed` 4,
`delta_time` 1, `A` alone held: the candidate is `(0.5, -2.5)`, the position plus
`4 * (0, -1)`. -/
theorem strafe_candidate_swapped_witness :
    camera.candidate keys_a corridor_app (Dbl.fin 1) = (Dbl.fin (1 / 2), Dbl.fin (-5 / 2)) := by
  have hT : keys_a keys_t.MLX_KEY_LEFT_SHIFT = false := by decide
  have hsp : camera.frame_speed keys_a corridor_app (Dbl.fin 1) = Dbl.fin 4 := by
    simp only [camera.frame_speed, hT, corridor_app, Dbl.fin_mul_fin]
    norm_num
  have T := (strafe_candidate_swapped keys_a corridor_app (Dbl.fin 1) (1 / 2) (3 / 2) 1 0 4
    rfl rfl rfl rfl hsp (by decide) (by decide)).1 (by decide) (by decide)
  have e1 : (1 / 2 : ℚ) + 4 * 0 = 1 / 2 := by norm_num
  have e2 : (3 / 2 : ℚ) + 4 * (-1) = -5 / 2 := by norm_num
  rw [e1, e2] at T
  exact T

/-! ## Initial cell -/

theorem Dbl.toInt_fin (a : ℚ) : Dbl.toInt (Dbl.fin a) = if 0 ≤ a then ⌊a⌋ else ⌈a⌉ := rfl

theorem toInt_neg_half : Dbl.toInt (Dbl.fin (-1 / 2)) = 0 := by
  rw [Dbl.toInt_fin, if_neg (by norm_num)]
  norm_num [Int.ceil_eq_iff]

theorem ceil_eq_floor_add_one (q : ℚ) (h : ((⌊q⌋ : Int) : ℚ) ≠ q) : ⌈q⌉ = ⌊q⌋ + 1 := by
  rw [Int.ceil_eq_iff]
  have h1 := Int.floor_le q
  have h2 := Int.lt_floor_add_one q
  push_cast
  refine ⟨?_, h2.le⟩
  have : ((⌊q⌋ : Int) : ℚ) < q := lt_of_le_of_ne h1 h
  linarith

theorem toInt_in_int_range (q : ℚ) (h : |q| < 2 ^ 31) :
    -(2 : Int) ^ 31 ≤ Dbl.toInt (Dbl.fin q) ∧ Dbl.toInt (Dbl.fin q) < (2 : Int) ^ 31 := by
  rw [Dbl.toInt_fin]
  have h1 := abs_lt.1 h
  split_ifs with h0
  · constructor
    · have : (0 : Int) ≤ ⌊q⌋ := Int.floor_nonneg.2 h0
      omega
    · rw [Int.floor_lt]
      push_cast
      exact h1.2
  · constructor
    · rw [Int.le_ceil_iff]
      push_cast
      linarith [h1.1]
    · have : ⌈q⌉ ≤ 0 := Int.ceil_le.2 (by push_cast; linarith)
      omega

/-- C21, refuted: for the camera at `(-0.5, -0.5)` both `init_ray` set the initial cell to
`(0, 0)`, the position truncated toward zero, while the floor of `-0.5` is `-1`. -/
theorem init_ray_cell_not_floor :
    cam_neg.pos = ⟨Dbl.fin (-1 / 2), Dbl.fin (-1 / 2)⟩ ∧
    (raycasting_bonus.init_ray sqrt_exact 2 ⟨cam_neg, open5⟩ 1 blank_ray).map_x = 0 ∧
    (raycasting_bonus.init_ray sqrt_exact 2 ⟨cam_neg, open5⟩ 1 blank_ray).map_y = 0 ∧
    (raycasting.init_ray sqrt_exact 2 ⟨cast_cam_neg, open5⟩ 1 stale_ray_nan).map_x = 0 ∧
    (raycasting.init_ray sqrt_exact 2 ⟨cast_cam_neg, open5⟩ 1 stale_ray_nan).map_y = 0 ∧
    ⌊(-1 / 2 : ℚ)⌋ = -1 := by
  refine ⟨rfl, ?_, ?_, ?_, ?_, by norm_num [Int.floor_eq_iff]⟩
  · simp only [raycasting_bonus.init_ray, cam_neg, toInt_neg_half]
  · simp only [raycasting_bonus.init_ray, cam_neg, toInt_neg_half]
  · simp only [raycasting.init_ray, cast_cam_neg, toInt_neg_half]
  · simp only [raycasting.init_ray, cast_cam_neg, toInt_neg_half]

/-- C21, amended: for every finite camera position `(px, py)` within the range of `int`
(`|px|, |py| < 2 ^ 31`, outside of which the cast is undefined), both `init_ray` set the
initial cell to the position truncated toward zero on each axis.  The cell is the floor of
the position on every axis whose coordinate is non-negative or an integer; on an axis
whose coordinate is negative and not an integer it is the ceiling, one above the floor.
The cell is again within the range of `int`. -/
theorem init_ray_cell_truncates (sqrt : Dbl → Dbl) (WIDTH : Int) (g : t_game) (px py : ℚ)
    (dir plane : t_vec2) (qs qk : Dbl) (qdir qplane : t_quaternion) (x : Int)
    (ray : raycasting_bonus.t_ray) (ray0 : raycasting.t_ray)
    (hx : |px| < 2 ^ 31) (hy : |py| < 2 ^ 31) :
    ((raycasting_bonus.init_ray sqrt WIDTH ⟨⟨⟨Dbl.fin px, Dbl.fin py⟩, dir, plane⟩, g⟩ x
        ray).map_x = (if 0 ≤ px then ⌊px⌋ else ⌈px⌉) ∧
      (raycasting_bonus.init_ray sqrt WIDTH ⟨⟨⟨Dbl.fin px, Dbl.fin py⟩, dir, plane⟩, g⟩ x
        ray).map_y = (if 0 ≤ py then ⌊py⌋ else ⌈py⌉) ∧
      (raycasting.init_ray sqrt WIDTH ⟨⟨⟨qs, Dbl.fin px, Dbl.fin py, qk⟩, qdir, qplane⟩, g⟩ x
        ray0).map_x = (if 0 ≤ px then ⌊px⌋ else ⌈px⌉) ∧
      (raycasting.init_ray sqrt WIDTH ⟨⟨⟨qs, Dbl.fin px, Dbl.fin py, qk⟩, qdir, qplane⟩, g⟩ x
        ray0).map_y = (if 0 ≤ py then ⌊py⌋ else ⌈py⌉)) ∧
    ((0 ≤ px ∨ ((⌊px⌋ : Int) : ℚ) = px) →
      (raycasting_bonus.init_ray sqrt WIDTH ⟨⟨⟨Dbl.fin px, Dbl.fin py⟩, dir, plane⟩, g⟩ x
        ray).map_x = ⌊px⌋ ∧
      (raycasting.init_ray sqrt WIDTH ⟨⟨⟨qs, Dbl.fin px, Dbl.fin py, qk⟩, qdir, qplane⟩, g⟩ x
        ray0).map_x = ⌊px⌋) ∧
    ((0 ≤ py ∨ ((⌊py⌋ : Int) : ℚ) = py) →
      (raycasting_bonus.init_ray sqrt WIDTH ⟨⟨⟨Dbl.fin px, Dbl.fin py⟩, dir, plane⟩, g⟩ x
        ray).map_y = ⌊py⌋ ∧
      (raycasting.init_ray sqrt WIDTH ⟨⟨⟨qs, Dbl.fin px, Dbl.fin py, qk⟩, qdir, qplane⟩, g⟩ x
        ray0).map_y = ⌊py⌋) ∧
    (px < 0 → ((⌊px⌋ : Int) : ℚ) ≠ px →
      (raycasting_bonus.init_ray sqrt WIDTH ⟨⟨⟨Dbl.fin px, Dbl.fin py⟩, dir, plane⟩, g⟩ x
        ray).map_x = ⌈px⌉ ∧
      (raycasting.init_ray sqrt WIDTH ⟨⟨⟨qs, Dbl.fin px, Dbl.fin py, qk⟩, qdir, qplane⟩, g⟩ x
        ray0).map_x = ⌈px⌉ ∧ ⌈px⌉ = ⌊px⌋ + 1) ∧
    (py < 0 → ((⌊py⌋ : Int) : ℚ) ≠ py →
      (raycasting_bonus.init_ray sqrt WIDTH ⟨⟨⟨Dbl.fin px, Dbl.fin py⟩, dir, plane⟩, g⟩ x
        ray).map_y = ⌈py⌉ ∧
      (raycasting.init_ray sqrt WIDTH ⟨⟨⟨qs, Dbl.fin px, Dbl.fin py, qk⟩, qdir, qplane⟩, g⟩ x
        ray0).map_y = ⌈py⌉ ∧ ⌈py⌉ = ⌊py⌋ + 1) ∧
    (-(2 : Int) ^ 31 ≤ (raycasting_bonus.init_ray sqrt WIDTH
        ⟨⟨⟨Dbl.fin px, Dbl.fin py⟩, dir, plane⟩, g⟩ x ray).map_x ∧
      (raycasting_bonus.init_ray sqrt WIDTH ⟨⟨⟨Dbl.fin px, Dbl.fin py⟩, dir, plane⟩, g⟩ x
        ray).map_x < (2 : Int) ^ 31 ∧
      -(2 : Int) ^ 31 ≤ (raycasting_bonus.init_ray sqrt WIDTH
        ⟨⟨⟨Dbl.fin px, Dbl.fin py⟩, dir, plane⟩, g⟩ x ray).map_y ∧
      (raycasting_bonus.init_ray sqrt WIDTH ⟨⟨⟨Dbl.fin px, Dbl.fin py⟩, dir, plane⟩, g⟩ x
        ray).map_y < (2 : Int) ^ 31) := by
  have key : ∀ q : ℚ, (0 ≤ q ∨ ((⌊q⌋ : Int) : ℚ) = q) →
      (if 0 ≤ q then ⌊q⌋ else ⌈q⌉) = ⌊q⌋ := by
    intro q hq
    rcases hq with h | h
    · rw [if_pos h]
    · split_ifs
      · rfl
      · rw [← h, Int.ceil_intCast, Int.floor_intCast]
  have bx : (raycasting_bonus.init_ray sqrt WIDTH ⟨⟨⟨Dbl.fin px, Dbl.fin py⟩, dir, plane⟩, g⟩ x
      ray).map_x = Dbl.toInt (Dbl.fin px) := rfl
  have by0 : (raycasting_bonus.init_ray sqrt WIDTH ⟨⟨⟨Dbl.fin px, Dbl.fin py⟩, dir, plane⟩, g⟩ x
      ray).map_y = Dbl.toInt (Dbl.fin py) := rfl
  have cx : (raycasting.init_ray sqrt WIDTH ⟨⟨⟨qs, Dbl.fin px, Dbl.fin py, qk⟩, qdir, qplane⟩, g⟩
      x ray0).map_x = Dbl.toInt (Dbl.fin px) := rfl
  have cy : (raycasting.init_ray sqrt WIDTH ⟨⟨⟨qs, Dbl.fin px, Dbl.fin py, qk⟩, qdir, qplane⟩, g⟩
      x ray0).map_y = Dbl.toInt (Dbl.fin py) := rfl
  rw [bx, by0, cx, cy]
  refine ⟨⟨rfl, rfl, rfl, rfl⟩, ?_, ?_, ?_, ?_, ?_⟩
  · intro h; exact ⟨key px h, key px h⟩
  · intro h; exact ⟨key py h, key py h⟩
  · intro h0 h1
    rw [Dbl.toInt_fin, if_neg (not_le.2 h0)]
    exact ⟨rfl, rfl, ceil_eq_floor_add_one px h1⟩
  · intro h0 h1
    rw [Dbl.toInt_fin, if_neg (not_le.2 h0)]
    exact ⟨rfl, rfl, ceil_eq_floor_add_one py h1⟩
  · exact ⟨(toInt_in_int_range px hx).1, (toInt_in_int_range px hx).2,
      (toInt_in_int_range py hy).1, (toInt_in_int_range py hy).2⟩

/-- C21 amended, at the camera `(-1.5, 2.5)`: the initial cell is `(-1, 2)`, the ceiling of
`-1.5` and the floor of `2.5`. -/
theorem init_ray_cell_truncates_witness :
    ((raycasting_bonus.init_ray sqrt_exact 2
        ⟨⟨⟨Dbl.fin (-3 / 2), Dbl.fin (5 / 2)⟩, cam5.dir, cam5.plane⟩, open5⟩ 1 blank_ray).map_x
      = ⌈(-3 / 2 : ℚ)⌉ ∧
    (raycasting.init_ray sqrt_exact 2
        ⟨⟨⟨Dbl.fin 0, Dbl.fin (-3 / 2), Dbl.fin (5 / 2), Dbl.fin 0⟩, cast_app.camera.dir,
          cast_app.camera.plane⟩, open5⟩ 1 stale_ray_nan).map_x = ⌈(-3 / 2 : ℚ)⌉ ∧
    ⌈(-3 / 2 : ℚ)⌉ = ⌊(-3 / 2 : ℚ)⌋ + 1) ∧
    ((raycasting_bonus.init_ray sqrt_exact 2
        ⟨⟨⟨Dbl.fin (-3 / 2), Dbl.fin (5 / 2)⟩, cam5.dir, cam5.plane⟩, open5⟩ 1 blank_ray).map_y
      = ⌊(5 / 2 : ℚ)⌋ ∧
    (raycasting.init_ray sqrt_exact 2
        ⟨⟨⟨Dbl.fin 0, Dbl.fin (-3 / 2), Dbl.fin (5 / 2), Dbl.fin 0⟩, cast_app.camera.dir,
          cast_app.camera.plane⟩, open5⟩ 1 stale_ray_nan).map_y = ⌊(5 / 2 : ℚ)⌋) ∧
    ⌈(-3 / 2 : ℚ)⌉ = -1 ∧ ⌊(5 / 2 : ℚ)⌋ = 2 :=
  ⟨(init_ray_cell_truncates sqrt_exact 2 open5 (-3 / 2) (5 / 2) cam5.dir cam5.plane (Dbl.fin 0)
      (Dbl.fin 0) cast_app.camera.dir cast_app.camera.plane 1 blank_ray stale_ray_nan
      (by norm_num [abs_lt]) (by norm_num [abs_lt])).2.2.2.1 (by norm_num)
      (by norm_num [Int.floor_eq_iff]),
    (init_ray_cell_truncates sqrt_exact 2 open5 (-3 / 2) (5 / 2) cam5.dir cam5.plane (Dbl.fin 0)
      (Dbl.fin 0) cast_app.camera.dir cast_app.camera.plane 1 blank_ray stale_ray_nan
      (by norm_num [abs_lt]) (by norm_num [abs_lt])).2.2.1 (Or.inl (by norm_num)),
    by norm_num [Int.ceil_eq_iff], by norm_num [Int.floor_eq_iff]⟩

/-! ## Step and initial side distance -/

/-- C22, refuted: with the delta distance `+inf` and the position on the grid line the side
distance is measured from, `init_step` returns `0 * inf = NaN`, which is not non-negative:
position 1 in cell 0 with a zero direction component (branch `+1`), and position 2 in cell
2 with a negative one (branch `-1`). -/
theorem init_step_sidedist_nan :
    (((0 : Int) : ℚ) ≤ 1 ∧ (1 : ℚ) ≤ ((0 : Int) : ℚ) + 1 ∧ Dbl.fin 0 ≤ Dbl.pinf) ∧
    raycasting_bonus.init_step (Dbl.fin 1) 0 Dbl.pinf (Dbl.fin 0) = ⟨Dbl.fin 1, Dbl.nan⟩ ∧
    raycasting_bonus.init_step (Dbl.fin 2) 2 Dbl.pinf (Dbl.fin (-1)) = ⟨Dbl.fin (-1), Dbl.nan⟩ ∧
    (raycasting.init_step (Dbl.fin 1) 0 Dbl.pinf (Dbl.fin 0)).j = Dbl.nan ∧
    (raycasting.init_step (Dbl.fin 2) 2 Dbl.pinf (Dbl.fin (-1))).j = Dbl.nan ∧
    ¬ (Dbl.fin 0 ≤ Dbl.nan) := by
  have e1 : (Dbl.ofInt 0 + Dbl.fin 1 - Dbl.fin 1) * Dbl.pinf = Dbl.nan := by
    simp only [Dbl.ofInt_eq, Dbl.fin_add_fin, Dbl.fin_sub_fin]
    norm_num
    rfl
  have e2 : (Dbl.fin 2 - Dbl.ofInt 2) * Dbl.pinf = Dbl.nan := by
    simp only [Dbl.ofInt_eq, Dbl.fin_sub_fin]
    norm_num
    rfl
  have h0 : ¬ (Dbl.fin 0 < Dbl.fin 0) := by simp
  have h1 : Dbl.fin (-1) < Dbl.fin 0 := by simp
  refine ⟨⟨by norm_num, by norm_num, by decide⟩, ?_, ?_, ?_, ?_, by decide⟩
  · simp only [raycasting_bonus.init_step, if_neg h0, e1]
  · simp only [raycasting_bonus.init_step, if_pos h1, e2]
  · simp only [raycasting.init_step, if_neg h0, e1]
  · simp only [raycasting.init_step, if_pos h1, e2]

/-- C22, amended: both `init_step` return step `-1` and side distance `(pos - cell) * delta`
when the direction component is negative, and step `+1` and side distance
`(cell + 1 - pos) * delta` otherwise (a zero component takes the `+1` branch); for a finite
position `p` with `cell ≤ p ≤ cell + 1` and a finite `delta ≥ 0` the side distance is finite
and non-negative, and for `delta = +inf` it is `+inf` when `p` lies strictly between the two
grid lines. -/
theorem init_step_branches (pos : Dbl) (map : Int) (deltadist raydir : Dbl) (p d : ℚ)
    (h1 : (map : ℚ) ≤ p) (h2 : p ≤ (map : ℚ) + 1) (hd : 0 ≤ d) :
    (raydir < Dbl.fin 0 →
      raycasting_bonus.init_step pos map deltadist raydir
        = ⟨Dbl.fin (-1), (pos - Dbl.ofInt map) * deltadist⟩ ∧
      (raycasting.init_step pos map deltadist raydir).i = Dbl.fin (-1) ∧
      (raycasting.init_step pos map deltadist raydir).j = (pos - Dbl.ofInt map) * deltadist) ∧
    (¬ raydir < Dbl.fin 0 →
      raycasting_bonus.init_step pos map deltadist raydir
        = ⟨Dbl.fin 1, ((Dbl.ofInt map + Dbl.fin 1) - pos) * deltadist⟩ ∧
      (raycasting.init_step pos map deltadist raydir).i = Dbl.fin 1 ∧
      (raycasting.init_step pos map deltadist raydir).j
        = ((Dbl.ofInt map + Dbl.fin 1) - pos) * deltadist) ∧
    ((raycasting_bonus.init_step pos map deltadist (Dbl.fin 0)).x = Dbl.fin 1 ∧
      (raycasting.init_step pos map deltadist (Dbl.fin 0)).i = Dbl.fin 1) ∧
    (∃ t : ℚ, 0 ≤ t ∧
      (raycasting_bonus.init_step (Dbl.fin p) map (Dbl.fin d) raydir).y = Dbl.fin t ∧
      (raycasting.init_step (Dbl.fin p) map (Dbl.fin d) raydir).j = Dbl.fin t) ∧
    ((map : ℚ) < p → p < (map : ℚ) + 1 →
      (raycasting_bonus.init_step (Dbl.fin p) map Dbl.pinf raydir).y = Dbl.pinf ∧
      (raycasting.init_step (Dbl.fin p) map Dbl.pinf raydir).j = Dbl.pinf) := by
  have h0 : ¬ (Dbl.fin 0 < Dbl.fin 0) := by simp
  refine ⟨?_, ?_, ?_, ?_, ?_⟩
  · intro h
    simp only [raycasting_bonus.init_step, raycasting.init_step, if_pos h, and_self]
  · intro h
    simp only [raycasting_bonus.init_step, raycasting.init_step, if_neg h, and_self]
  · simp only [raycasting_bonus.init_step, raycasting.init_step, if_neg h0, and_self]
  · by_cases h : raydir < Dbl.fin 0
    · refine ⟨(p - map) * d, mul_nonneg (by linarith only [h1]) hd, ?_, ?_⟩
      · simp only [raycasting_bonus.init_step, if_pos h, Dbl.ofInt_eq, Dbl.fin_sub_fin,
          Dbl.fin_mul_fin]
      · simp only [raycasting.init_step, if_pos h, Dbl.ofInt_eq, Dbl.fin_sub_fin,
          Dbl.fin_mul_fin]
    · refine ⟨((map : ℚ) + 1 - p) * d, mul_nonneg (by linarith only [h2]) hd, ?_, ?_⟩
      · simp only [raycasting_bonus.init_step, if_neg h, Dbl.ofInt_eq, Dbl.fin_add_fin,
          Dbl.fin_sub_fin, Dbl.fin_mul_fin]
      · simp only [raycasting.init_step, if_neg h, Dbl.ofInt_eq, Dbl.fin_add_fin,
          Dbl.fin_sub_fin, Dbl.fin_mul_fin]
  · intro h3 h4
    by_cases h : raydir < Dbl.fin 0
    · have e : (Dbl.fin p - Dbl.ofInt map) * Dbl.pinf = Dbl.pinf := by
        simp only [Dbl.ofInt_eq, Dbl.fin_sub_fin]
        exact Dbl.fin_mul_pinf _ (by linarith only [h3])
      simp only [raycasting_bonus.init_step, raycasting.init_step, if_pos h, e, and_self]
    · have e : ((Dbl.ofInt map + Dbl.fin 1) - Dbl.fin p) * Dbl.pinf = Dbl.pinf := by
        simp only [Dbl.ofInt_eq, Dbl.fin_add_fin, Dbl.fin_sub_fin]
        exact Dbl.fin_mul_pinf _ (by linarith only [h4])
      simp only [raycasting_bonus.init_step, raycasting.init_step, if_neg h, e, and_self]

/-- C22 at position 2.5 in cell 2 with delta distance 2 and a direction component `-1`:
step `-1`, side distance `(2.5 - 2) * 2 = 1`. -/
theorem init_step_branches_witness :
    raycasting_bonus.init_step (Dbl.fin (5 / 2)) 2 (Dbl.fin 2) (Dbl.fin (-1))
      = ⟨Dbl.fin (-1), (Dbl.fin (5 / 2) - Dbl.ofInt 2) * Dbl.fin 2⟩ ∧
    (raycasting.init_step (Dbl.fin (5 / 2)) 2 (Dbl.fin 2) (Dbl.fin (-1))).i = Dbl.fin (-1) ∧
    (raycasting.init_step (Dbl.fin (5 / 2)) 2 (Dbl.fin 2) (Dbl.fin (-1))).j
      = (Dbl.fin (5 / 2) - Dbl.ofInt 2) * Dbl.fin 2 :=
  (init_step_branches (Dbl.fin (5 / 2)) 2 (Dbl.fin 2) (Dbl.fin (-1)) (5 / 2) 2
    (by norm_num) (by norm_num) (by norm_num)).1 (by simp)

/-! ## Tie-breaking of the DDA step -/

theorem Dbl.lt_irrefl_dbl (d : Dbl) : ¬ (d < d) := by
  cases d with
  | fin q => simp
  | pinf => simp
  | ninf => decide
  | nan => simp

/-- C29: `update_ray_position` advances the x axis (and records side 0) exactly when
`sidedist.x < sidedist.y`; otherwise, in particular whenever the two side distances are
equal, it advances the y axis, leaves the x cell and side distance as they were and
records side 1.  The loop of `raycasting.c` does the same in each iteration. -/
theorem dda_tie_advances_y (ray : raycasting_bonus.t_ray) (app : raycasting.t_app)
    (ray0 : raycasting.t_ray) (n : Nat) :
    (ray.sidedist.x < ray.sidedist.y →
      raycasting_bonus.update_ray_position ray = { ray with
        sidedist := ⟨ray.sidedist.x + ray.deltadist.x, ray.sidedist.y⟩
        map_x := Dbl.toInt (Dbl.ofInt ray.map_x + ray.step.x)
        side := 0 }) ∧
    (¬ ray.sidedist.x < ray.sidedist.y →
      raycasting_bonus.update_ray_position ray = { ray with
        sidedist := ⟨ray.sidedist.x, ray.sidedist.y + ray.deltadist.y⟩
        map_y := Dbl.toInt (Dbl.ofInt ray.map_y + ray.step.y)
        side := 1 }) ∧
    (ray.sidedist.x = ray.sidedist.y →
      raycasting_bonus.update_ray_position ray = { ray with
        sidedist := ⟨ray.sidedist.x, ray.sidedist.y + ray.deltadist.y⟩
        map_y := Dbl.toInt (Dbl.ofInt ray.map_y + ray.step.y)
        side := 1 }) ∧
    (ray0.sidedist.i < ray0.sidedist.j →
      raycasting.dda_loop app (n + 1) ray0 =
        if safe_get_tile app.game (Dbl.toInt (Dbl.ofInt ray0.map_x + ray0.step.i)) ray0.map_y
            = some '1' then
          some { ray0 with
            sidedist := { ray0.sidedist with i := ray0.sidedist.i + ray0.deltadist.i }
            map_x := Dbl.toInt (Dbl.ofInt ray0.map_x + ray0.step.i)
            side := 0 }
        else raycasting.dda_loop app n { ray0 with
            sidedist := { ray0.sidedist with i := ray0.sidedist.i + ray0.deltadist.i }
            map_x := Dbl.toInt (Dbl.ofInt ray0.map_x + ray0.step.i)
            side := 0 }) ∧
    ((¬ ray0.sidedist.i < ray0.sidedist.j ∨ ray0.sidedist.i = ray0.sidedist.j) →
      raycasting.dda_loop app (n + 1) ray0 =
        if safe_get_tile app.game ray0.map_x (Dbl.toInt (Dbl.ofInt ray0.map_y + ray0.step.j))
            = some '1' then
          some { ray0 with
            sidedist := { ray0.sidedist with j := ray0.sidedist.j + ray0.deltadist.j }
            map_y := Dbl.toInt (Dbl.ofInt ray0.map_y + ray0.step.j)
            side := 1 }
        else raycasting.dda_loop app n { ray0 with
            sidedist := { ray0.sidedist with j := ray0.sidedist.j + ray0.deltadist.j }
            map_y := Dbl.toInt (Dbl.ofInt ray0.map_y + ray0.step.j)
            side := 1 }) := by
  refine ⟨?_, ?_, ?_, ?_, ?_⟩
  · intro h
    simp only [raycasting_bonus.update_ray_position, if_pos h]
  · intro h
    simp only [raycasting_bonus.update_ray_position, if_neg h]
  · intro h
    have hn : ¬ ray.sidedist.x < ray.sidedist.y := by
      rw [h]
      exact Dbl.lt_irrefl_dbl _
    simp only [raycasting_bonus.update_ray_position, if_neg hn]
  · intro h
    simp only [raycasting.dda_loop, if_pos h]
  · intro h
    have hn : ¬ ray0.sidedist.i < ray0.sidedist.j := by
      rcases h with h | h
      · exact h
      · rw [h]
        exact Dbl.lt_irrefl_dbl _
    simp only [raycasting.dda_loop, if_neg hn]

/-- C29 on a ray in cell `(1, 1)` with both side distances equal to 1: the y axis is
advanced, to cell `(1, 2)`, the x side distance stays 1 and the side is 1. -/
theorem dda_tie_advances_y_witness :
    corner_ray.sidedist.x = corner_ray.sidedist.y ∧
    raycasting_bonus.update_ray_position corner_ray = { corner_ray with
      sidedist := ⟨Dbl.fin 1, Dbl.fin 3⟩
      map_y := 2
      side := 1 } := by
  have T := (dda_tie_advances_y corner_ray cast_app cast_corner_ray 0).2.2.1 rfl
  have e : Dbl.toInt (Dbl.ofInt corner_ray.map_y + corner_ray.step.y) = 2 := by
    simp only [corner_ray, Dbl.ofInt_eq, Dbl.fin_add_fin]
    have : ((1 : Int) : ℚ) + 1 = ((2 : Int) : ℚ) := by norm_num
    rw [this, Dbl.toInt_int]
  have e2 : corner_ray.sidedist.y + corner_ray.deltadist.y = Dbl.fin 3 := by
    simp only [corner_ray, Dbl.fin_add_fin]
    norm_num
  rw [e, e2] at T
  exact ⟨rfl, T⟩

/-! ## Completeness of the scan window -/

/-- On a well-formed map the cells `safe_get_tile` reports as walls are the cells outside
the map and the cells of the map that hold `'1'`. -/
theorem safe_get_tile_wall_iff (g : t_game) (hwf : g.wf) (j i : Int) :
    safe_get_tile g j i = some '1' ↔
      (i < 0 ∨ g.map_height ≤ i ∨
        ∃ row, arr_read g.map i = some row ∧
          (j < 0 ∨ ft_strlen row ≤ j ∨ arr_read row j = some '1')) := by
  unfold t_game.wf at hwf
  by_cases hy : i < 0 ∨ i ≥ g.map_height
  · simp only [safe_get_tile, if_pos hy, true_iff]
    rcases hy with h | h
    · exact Or.inl h
    · exact Or.inr (Or.inl h)
  · obtain ⟨row, hr, -⟩ := arr_read_some g.map i (by omega) (by omega)
    simp only [safe_get_tile, if_neg hy, hr, ge_iff_le]
    by_cases hx : j < 0 ∨ ft_strlen row ≤ j
    · rw [if_pos hx]
      simp only [true_iff]
      refine Or.inr (Or.inr ⟨row, rfl, ?_⟩)
      rcases hx with h | h
      · exact Or.inl h
      · exact Or.inr (Or.inl h)
    · rw [if_neg hx]
      constructor
      · intro h
        exact Or.inr (Or.inr ⟨row, rfl, Or.inr (Or.inr h)⟩)
      · rintro (h | h | ⟨row2, h2, h3⟩)
        · omega
        · omega
        · cases h2
          rcases h3 with h | h | h
          · omega
          · omega
          · exact h

/-- A candidate inside the closed square of a wall cell collides, for a positive radius. -/
theorem collides_at_wall_cell (g : t_game) (x y r : ℚ) (hr : 0 < r)
    (hw : safe_get_tile g ⌊x⌋ ⌊y⌋ = some '1') :
    collides (Dbl.fin r) g (Dbl.fin x) (Dbl.fin y) = 1 := by
  rw [collides_iff_any_cell g x y r hr.le]
  refine ⟨⌊y⌋, ⌊x⌋, hw, ?_⟩
  rw [clampq_self x _ (Int.floor_le x) (Int.lt_floor_add_one x).le,
    clampq_self y _ (Int.floor_le y) (Int.lt_floor_add_one y).le]
  have : 0 < r ^ 2 := by positivity
  simpa using this

/-! ## A candidate above the map -/

/-- The candidate of the corridor camera with `A` held and `delta_time` 1. -/
theorem candidate_corridor_a :
    camera.candidate keys_a corridor_app (Dbl.fin 1) = (Dbl.fin (1 / 2), Dbl.fin (-5 / 2)) := by
  have hW : keys_a keys_t.MLX_KEY_W = false := by decide
  have hS : keys_a keys_t.MLX_KEY_S = false := by decide
  have hA : keys_a keys_t.MLX_KEY_A = true := by decide
  have hD : keys_a keys_t.MLX_KEY_D = false := by decide
  have hT : keys_a keys_t.MLX_KEY_LEFT_SHIFT = false := by decide
  simp only [camera.candidate, hW, hS, hA, hD, hT, corridor_app, bool_to_int, Dbl.ofInt_eq,
    Dbl.fin_mul_fin, Dbl.fin_add_fin]
  norm_num

/-! ## First solid cell -/

namespace raycasting_bonus

/-- One iteration of `dda_loop`: it returns the advanced ray when the advanced ray meets a
`break`, and goes on from the advanced ray otherwise. -/
theorem dda_loop_succ (door : t_app → t_ray → Bool) (app : t_app) (n : Nat) (ray : t_ray) :
    dda_loop door app (n + 1) ray =
      if dda_stops door app (dda_advance app ray) then some (dda_advance app ray)
      else dda_loop door app n (dda_advance app ray) := by
  simp only [dda_loop, dda_advance, dda_stops]
  split_ifs <;> first | rfl | (exfalso; tauto)

theorem dda_loop_iff_first_stop (door : t_app → t_ray → Bool) (app : t_app) :
    ∀ (n : Nat) (ray r : t_ray),
      dda_loop door app n ray = some r ↔
        ∃ k : Nat, 1 ≤ k ∧ k ≤ n ∧ r = (dda_advance app)^[k] ray ∧ dda_stops door app r ∧
          ∀ m : Nat, 1 ≤ m → m < k → ¬ dda_stops door app ((dda_advance app)^[m] ray) := by
  intro n
  induction n with
  | zero =>
    intro ray r
    simp only [dda_loop]
    constructor
    · intro h
      cases h
    · rintro ⟨k, h1, h2, -⟩
      omega
  | succ n ih =>
    intro ray r
    rw [dda_loop_succ]
    by_cases hs : dda_stops door app (dda_advance app ray)
    · rw [if_pos hs]
      constructor
      · intro h
        cases h
        exact ⟨1, le_refl _, by omega, rfl, hs, fun m h1 h2 => by omega⟩
      · rintro ⟨k, h1, h2, h3, h4, h5⟩
        have hk : k = 1 := by
          by_contra hk
          exact h5 1 (le_refl _) (by omega) hs
        subst hk
        rw [h3]
        rfl
    · rw [if_neg hs, ih]
      constructor
      · rintro ⟨k, h1, h2, h3, h4, h5⟩
        refine ⟨k + 1, by omega, by omega, ?_, h4, ?_⟩
        · rw [Function.iterate_succ_apply]
          exact h3
        · intro m hm1 hm2
          rcases Nat.eq_or_lt_of_le hm1 with e | e
          · rw [← e]
            exact hs
          · obtain ⟨m2, rfl⟩ : ∃ m2, m = m2 + 1 := ⟨m - 1, by omega⟩
            rw [Function.iterate_succ_apply]
            exact h5 m2 (by omega) (by omega)
      · rintro ⟨k, h1, h2, h3, h4, h5⟩
        have hk : k ≠ 1 := by
          intro hk
          subst hk
          rw [h3] at h4
          exact hs h4
        obtain ⟨k2, rfl⟩ : ∃ k2, k = k2 + 1 := ⟨k - 1, by omega⟩
        refine ⟨k2, by omega, by omega, ?_, h4, ?_⟩
        · rw [h3, Function.iterate_succ_apply]
        · intro m hm1 hm2
          have := h5 (m + 1) (by omega) (by omega)
          rw [Function.iterate_succ_apply] at this
          exact this

theorem dda_advance_step (app : t_app) (ray : t_ray) (sx sy : Int)
    (hst : ray.step = ⟨Dbl.fin sx, Dbl.fin sy⟩) :
    (dda_advance app ray).step = ray.step ∧
    (((dda_advance app ray).map_x = ray.map_x + sx ∧ (dda_advance app ray).map_y = ray.map_y) ∨
      ((dda_advance app ray).map_x = ray.map_x ∧
        (dda_advance app ray).map_y = ray.map_y + sy)) ∧
    (dda_advance app ray).hit_tile
      = safe_get_tile app.game (dda_advance app ray).map_x (dda_advance app ray).map_y := by
  have h := update_ray_position_cell ray sx sy (by rw [hst]) (by rw [hst])
  exact ⟨h.1, h.2, rfl⟩

theorem dda_advance_iterate_cell (app : t_app) (sx sy : Int) :
    ∀ (k : Nat) (ray : t_ray), ray.step = ⟨Dbl.fin sx, Dbl.fin sy⟩ →
      ∃ a b : Nat, a + b = k ∧ ((dda_advance app)^[k] ray).step = ray.step ∧
        ((dda_advance app)^[k] ray).map_x = ray.map_x + a * sx ∧
        ((dda_advance app)^[k] ray).map_y = ray.map_y + b * sy := by
  intro k
  induction k with
  | zero =>
    intro ray _
    exact ⟨0, 0, rfl, rfl, by simp, by simp⟩
  | succ k ih =>
    intro ray hst
    obtain ⟨a, b, hab, h1, h2, h3⟩ := ih ray hst
    obtain ⟨e1, e2, -⟩ := dda_advance_step app ((dda_advance app)^[k] ray) sx sy
      (by rw [h1, hst])
    rw [Function.iterate_succ_apply']
    rcases e2 with ⟨e2, e3⟩ | ⟨e2, e3⟩
    · refine ⟨a + 1, b, by omega, by rw [e1, h1], ?_, by rw [e3, h3]⟩
      rw [e2, h2]
      push_cast
      ring
    · refine ⟨a, b + 1, by omega, by rw [e1, h1], by rw [e2, h2], ?_⟩
      rw [e3, h3]
      push_cast
      ring

end raycasting_bonus

/-- C30: `raycasting_bonus.dda_loop` returns `r` exactly when `r` is the ray after `k ≥ 1`
advances (within the iteration bound), the tile stored by the `k`-th advance meets one of
the two `break`s, and no earlier advance did.  The returned `hit_tile` is `safe_get_tile`
at the returned cell, and is `'1'` or a door tile (`'2'`/`'3'`) for which
`check_door_collision` answered true.  The starting cell is never tested: with steps `±1`
the returned cell differs from it.  On a well-formed map, from a cell inside the map, the
loop returns within `rows + cols - 1` iterations. -/
theorem dda_loop_first_solid (door : raycasting_bonus.t_app → raycasting_bonus.t_ray → Bool)
    (app : raycasting_bonus.t_app) (n : Nat) (ray r : raycasting_bonus.t_ray) :
    (raycasting_bonus.dda_loop door app n ray = some r ↔
      ∃ k : Nat, 1 ≤ k ∧ k ≤ n ∧ r = (raycasting_bonus.dda_advance app)^[k] ray ∧
        raycasting_bonus.dda_stops door app r ∧
        ∀ m : Nat, 1 ≤ m → m < k →
          ¬ raycasting_bonus.dda_stops door app ((raycasting_bonus.dda_advance app)^[m] ray)) ∧
    (raycasting_bonus.dda_loop door app n ray = some r →
      r.hit_tile = safe_get_tile app.game r.map_x r.map_y ∧
      (r.hit_tile = some '1' ∨
        ((r.hit_tile = some '2' ∨ r.hit_tile = some '3') ∧ door app r = true))) ∧
    (∀ sx sy : Int, (sx = 1 ∨ sx = -1) → (sy = 1 ∨ sy = -1) →
      ray.step = ⟨Dbl.fin sx, Dbl.fin sy⟩ →
      (raycasting_bonus.dda_loop door app n ray = some r →
        (r.map_x ≠ ray.map_x ∨ r.map_y ≠ ray.map_y)) ∧
      (app.game.wf → 0 ≤ ray.map_x → ray.map_x < max_row_len app.game →
        0 ≤ ray.map_y → ray.map_y < app.game.map_height →
        app.game.map_height + max_row_len app.game - 1 ≤ n →
        ∃ r2, raycasting_bonus.dda_loop door app n ray = some r2)) := by
  have hiff := raycasting_bonus.dda_loop_iff_first_stop door app n ray r
  refine ⟨hiff, ?_, ?_⟩
  · intro h
    obtain ⟨k, h1, h2, h3, h4, -⟩ := hiff.1 h
    refine ⟨?_, h4⟩
    obtain ⟨k2, rfl⟩ : ∃ k2, k = k2 + 1 := ⟨k - 1, by omega⟩
    rw [Function.iterate_succ_apply'] at h3
    rw [h3]
    rfl
  · intro sx sy hsx hsy hst
    constructor
    · intro h
      obtain ⟨k, h1, h2, h3, h4, -⟩ := hiff.1 h
      obtain ⟨a, b, hab, e1, e2, e3⟩ :=
        raycasting_bonus.dda_advance_iterate_cell app sx sy k ray hst
      rw [← h3] at e2 e3
      by_cases ha : a = 0
      · right
        rw [e3]
        have hb : 1 ≤ (b : Int) := by omega
        rcases hsy with rfl | rfl <;> nlinarith
      · left
        rw [e2]
        have ha2 : 1 ≤ (a : Int) := by omega
        rcases hsx with rfl | rfl <;> nlinarith
    · intro hwf h1 h2 h3 h4 hn
      have hle := togo_le (max_row_len app.game) app.game.map_height sx sy ray.map_x ray.map_y
        hsx hsy h1 h2 h3 h4
      obtain ⟨r2, hr2, -⟩ := raycasting_bonus.dda_loop_in_box door app hwf sx sy hsx hsy n ray
        (by rw [hst]) (by rw [hst]) h1 h2 h3 h4 (le_trans hle hn)
      exact ⟨r2, hr2⟩

/-- C30 on the 3 x 3 map with a wall in cell `(1, 1)`: a ray that starts inside the wall
cell and runs along `+x` is not stopped there; it crosses the open cell `(2, 1)` and stops
on cell `(3, 1)`, outside the map, which `safe_get_tile` reports as `'1'`. -/
theorem dda_loop_first_solid_witness :
    safe_get_tile pillar_app.game wall_start_ray.map_x wall_start_ray.map_y = some '1' ∧
    raycasting_bonus.dda_loop no_door pillar_app 2 wall_start_ray = some { wall_start_ray with
      sidedist := ⟨Dbl.fin (5 / 2), Dbl.pinf⟩
      map_x := 3
      side := 0
      hit_tile := some '1' } ∧
    ((3 : Int) ≠ wall_start_ray.map_x ∨ (1 : Int) ≠ wall_start_ray.map_y) := by
  have hw := raycasting_bonus.dda_loop_walk_x no_door pillar_app 1 1 1 2 wall_start_ray (1 / 2)
    rfl rfl rfl
    (by
      intro j h1 h2
      have : j = 1 := by omega
      subst this
      decide)
    (by decide) (by omega)
  have e1 : wall_start_ray.map_x + ((1 + 1 : Nat) : Int) * 1 = 3 := by decide
  have e2 : (1 / 2 : ℚ) + ((1 + 1 : Nat) : ℚ) * 1 = 5 / 2 := by norm_num
  rw [e1, e2] at hw
  have T := ((dda_loop_first_solid no_door pillar_app 2 wall_start_ray _).2.2 1 1 (Or.inl rfl)
    (Or.inl rfl) rfl).1 hw
  exact ⟨by decide, hw, T⟩

/-! ## Closed form of the perpendicular distance -/

namespace raycasting_bonus

theorem dda_advance_side (app : t_app) (ray : t_ray) :
    (dda_advance app ray).side = 0 ∨ (dda_advance app ray).side = 1 := by
  by_cases hlt : ray.sidedist.x < ray.sidedist.y
  · left
    simp only [dda_advance, update_ray_position, if_pos hlt]
  · right
    simp only [dda_advance, update_ray_position, if_neg hlt]

/-- What one advance does to the x axis of a ray whose x step, delta distance and side
distance are finite, whatever the y axis holds. -/
theorem dda_advance_x (app : t_app) (ray : t_ray) (sx : Int) (dx tx : ℚ)
    (h1 : ray.step.x = Dbl.fin sx) (h2 : ray.deltadist.x = Dbl.fin dx)
    (h3 : ray.sidedist.x = Dbl.fin tx) :
    (dda_advance app ray).step = ray.step ∧ (dda_advance app ray).deltadist = ray.deltadist ∧
    (dda_advance app ray).raydir_mod = ray.raydir_mod ∧
    (((dda_advance app ray).sidedist.x = Dbl.fin (tx + dx) ∧
        (dda_advance app ray).map_x = ray.map_x + sx ∧ (dda_advance app ray).side = 0) ∨
      ((dda_advance app ray).sidedist.x = Dbl.fin tx ∧
        (dda_advance app ray).map_x = ray.map_x ∧ (dda_advance app ray).side = 1)) := by
  have ex : Dbl.toInt (Dbl.ofInt ray.map_x + ray.step.x) = ray.map_x + sx := by
    simp only [h1, Dbl.ofInt_eq, Dbl.fin_add_fin]
    rw [← Int.cast_add, Dbl.toInt_int]
  by_cases hlt : ray.sidedist.x < ray.sidedist.y
  · have hadv : dda_advance app ray = { ray with
        sidedist := ⟨Dbl.fin (tx + dx), ray.sidedist.y⟩
        map_x := ray.map_x + sx
        side := 0
        hit_tile := safe_get_tile app.game (ray.map_x + sx) ray.map_y } := by
      have hu : update_ray_position ray = { ray with
          sidedist := ⟨ray.sidedist.x + ray.deltadist.x, ray.sidedist.y⟩
          map_x := Dbl.toInt (Dbl.ofInt ray.map_x + ray.step.x)
          side := 0 } := by
        simp only [update_ray_position, if_pos hlt]
      simp only [dda_advance, hu, ex, h2, h3, Dbl.fin_add_fin]
    rw [hadv]
    exact ⟨rfl, rfl, rfl, Or.inl ⟨rfl, rfl, rfl⟩⟩
  · have hadv : dda_advance app ray = { ray with
        sidedist := ⟨ray.sidedist.x, ray.sidedist.y + ray.deltadist.y⟩
        map_y := Dbl.toInt (Dbl.ofInt ray.map_y + ray.step.y)
        side := 1
        hit_tile := safe_get_tile app.game ray.map_x
          (Dbl.toInt (Dbl.ofInt ray.map_y + ray.step.y)) } := by
      simp only [dda_advance, update_ray_position, if_neg hlt]
    rw [hadv]
    exact ⟨rfl, rfl, rfl, Or.inr ⟨h3, rfl, rfl⟩⟩

/-- What one advance does to the y axis of a ray whose y step, delta distance and side
distance are finite, whatever the x axis holds. -/
theorem dda_advance_y (app : t_app) (ray : t_ray) (sy : Int) (dy ty : ℚ)
    (h1 : ray.step.y = Dbl.fin sy) (h2 : ray.deltadist.y = Dbl.fin dy)
    (h3 : ray.sidedist.y = Dbl.fin ty) :
    (dda_advance app ray).step = ray.step ∧ (dda_advance app ray).deltadist = ray.deltadist ∧
    (dda_advance app ray).raydir_mod = ray.raydir_mod ∧
    (((dda_advance app ray).sidedist.y = Dbl.fin (ty + dy) ∧
        (dda_advance app ray).map_y = ray.map_y + sy ∧ (dda_advance app ray).side = 1) ∨
      ((dda_advance app ray).sidedist.y = Dbl.fin ty ∧
        (dda_advance app ray).map_y = ray.map_y ∧ (dda_advance app ray).side = 0)) := by
  have ey : Dbl.toInt (Dbl.ofInt ray.map_y + ray.step.y) = ray.map_y + sy := by
    simp only [h1, Dbl.ofInt_eq, Dbl.fin_add_fin]
    rw [← Int.cast_add, Dbl.toInt_int]
  by_cases hlt : ray.sidedist.x < ray.sidedist.y
  · have hadv : dda_advance app ray = { ray with
        sidedist := ⟨ray.sidedist.x + ray.deltadist.x, ray.sidedist.y⟩
        map_x := Dbl.toInt (Dbl.ofInt ray.map_x + ray.step.x)
        side := 0
        hit_tile := safe_get_tile app.game (Dbl.toInt (Dbl.ofInt ray.map_x + ray.step.x))
          ray.map_y } := by
      simp only [dda_advance, update_ray_position, if_pos hlt]
    rw [hadv]
    exact ⟨rfl, rfl, rfl, Or.inr ⟨h3, rfl, rfl⟩⟩
  · have hadv : dda_advance app ray = { ray with
        sidedist := ⟨ray.sidedist.x, Dbl.fin (ty + dy)⟩
        map_y := ray.map_y + sy
        side := 1
        hit_tile := safe_get_tile app.game ray.map_x (ray.map_y + sy) } := by
      have hu : update_ray_position ray = { ray with
          sidedist := ⟨ray.sidedist.x, ray.sidedist.y + ray.deltadist.y⟩
          map_y := Dbl.toInt (Dbl.ofInt ray.map_y + ray.step.y)
          side := 1 } := by
        simp only [update_ray_position, if_neg hlt]
      simp only [dda_advance, hu, ey, h2, h3, Dbl.fin_add_fin]
    rw [hadv]
    exact ⟨rfl, rfl, rfl, Or.inl ⟨rfl, rfl, rfl⟩⟩

/-- After any number of advances the x side distance is the initial one plus one delta
distance per advance made on x, and the x cell has moved by as many steps. -/
theorem dda_advance_iterate_x (app : t_app) (sx : Int) (dx tx : ℚ) (ray : t_ray)
    (h1 : ray.step.x = Dbl.fin sx) (h2 : ray.deltadist.x = Dbl.fin dx)
    (h3 : ray.sidedist.x = Dbl.fin tx) :
    ∀ k : Nat, ∃ a : Nat,
      ((dda_advance app)^[k] ray).step = ray.step ∧
      ((dda_advance app)^[k] ray).deltadist = ray.deltadist ∧
      ((dda_advance app)^[k] ray).raydir_mod = ray.raydir_mod ∧
      ((dda_advance app)^[k] ray).sidedist.x = Dbl.fin (tx + a * dx) ∧
      ((dda_advance app)^[k] ray).map_x = ray.map_x + a * sx ∧
      (1 ≤ k → ((dda_advance app)^[k] ray).side = 0 → 1 ≤ a) := by
  intro k
  induction k with
  | zero => exact ⟨0, rfl, rfl, rfl, by simpa using h3, by simp, fun h => by omega⟩
  | succ k ih =>
    obtain ⟨a, e1, e2, e3, e4, e5, -⟩ := ih
    obtain ⟨f1, f2, f3, f4⟩ := dda_advance_x app ((dda_advance app)^[k] ray) sx dx (tx + a * dx)
      (by rw [e1, h1]) (by rw [e2, h2]) e4
    rw [Function.iterate_succ_apply']
    rcases f4 with ⟨g1, g2, g3⟩ | ⟨g1, g2, g3⟩
    · refine ⟨a + 1, by rw [f1, e1], by rw [f2, e2], by rw [f3, e3], ?_, ?_, fun _ _ => by omega⟩
      · rw [g1]
        push_cast
        ring_nf
      · rw [g2, e5]
        push_cast
        ring
    · refine ⟨a, by rw [f1, e1], by rw [f2, e2], by rw [f3, e3], g1, by rw [g2, e5], ?_⟩
      intro _ h
      rw [g3] at h
      exact absurd h (by decide)

/-- After any number of advances the y side distance is the initial one plus one delta
distance per advance made on y, and the y cell has moved by as many steps. -/
theorem dda_advance_iterate_y (app : t_app) (sy : Int) (dy ty : ℚ) (ray : t_ray)
    (h1 : ray.step.y = Dbl.fin sy) (h2 : ray.deltadist.y = Dbl.fin dy)
    (h3 : ray.sidedist.y = Dbl.fin ty) :
    ∀ k : Nat, ∃ b : Nat,
      ((dda_advance app)^[k] ray).step = ray.step ∧
      ((dda_advance app)^[k] ray).deltadist = ray.deltadist ∧
      ((dda_advance app)^[k] ray).raydir_mod = ray.raydir_mod ∧
      ((dda_advance app)^[k] ray).sidedist.y = Dbl.fin (ty + b * dy) ∧
      ((dda_advance app)^[k] ray).map_y = ray.map_y + b * sy ∧
      (1 ≤ k → ((dda_advance app)^[k] ray).side = 1 → 1 ≤ b) := by
  intro k
  induction k with
  | zero => exact ⟨0, rfl, rfl, rfl, by simpa using h3, by simp, fun h => by omega⟩
  | succ k ih =>
    obtain ⟨b, e1, e2, e3, e4, e5, -⟩ := ih
    obtain ⟨f1, f2, f3, f4⟩ := dda_advance_y app ((dda_advance app)^[k] ray) sy dy (ty + b * dy)
      (by rw [e1, h1]) (by rw [e2, h2]) e4
    rw [Function.iterate_succ_apply']
    rcases f4 with ⟨g1, g2, g3⟩ | ⟨g1, g2, g3⟩
    · refine ⟨b + 1, by rw [f1, e1], by rw [f2, e2], by rw [f3, e3], ?_, ?_, fun _ _ => by omega⟩
      · rw [g1]
        push_cast
        ring_nf
      · rw [g2, e5]
        push_cast
        ring
    · refine ⟨b, by rw [f1, e1], by rw [f2, e2], by rw [f3, e3], g1, by rw [g2, e5], ?_⟩
      intro _ h
      rw [g3] at h
      exact absurd h (by decide)

theorem init_step_eval (p : ℚ) (c : Int) (d rd : ℚ) :
    init_step (Dbl.fin p) c (Dbl.fin d) (Dbl.fin rd) =
      ⟨Dbl.fin (((if rd < 0 then -1 else 1 : Int) : Int) : ℚ),
        Dbl.fin (if rd < 0 then (p - c) * d else ((c : ℚ) + 1 - p) * d)⟩ := by
  by_cases h : rd < 0
  · have h2 : Dbl.fin rd < Dbl.fin 0 := by simpa using h
    simp only [init_step, if_pos h2, if_pos h, Dbl.ofInt_eq, Dbl.fin_sub_fin, Dbl.fin_mul_fin]
    norm_num
  · have h2 : ¬ Dbl.fin rd < Dbl.fin 0 := by simpa using h
    simp only [init_step, if_neg h2, if_neg h, Dbl.ofInt_eq, Dbl.fin_add_fin, Dbl.fin_sub_fin,
      Dbl.fin_mul_fin]
    norm_num

/-- The perpendicular distance of a hit on x after `a ≥ 1` advances on x. -/
theorem perp_algebra (m rd p : ℚ) (c : Int) (a : Nat) (hm : 0 < m) (hrd : rd ≠ 0) :
    ((if rd < 0 then (p - c) * |m / rd| else ((c : ℚ) + 1 - p) * |m / rd|) + a * |m / rd|
        - |m / rd|) / m =
      ((if rd < 0 then (((c + a * (if rd < 0 then -1 else 1 : Int) : Int) : ℚ)) + 1
        else ((c + a * (if rd < 0 then -1 else 1 : Int) : Int) : ℚ)) - p) / rd := by
  by_cases h : rd < 0
  · have e : |m / rd| = -(m / rd) := abs_of_neg (div_neg_of_pos_of_neg hm h)
    simp only [if_pos h, e]
    push_cast
    field_simp
    ring
  · have hpos : 0 < rd := lt_of_le_of_ne (not_lt.mp h) (Ne.symm hrd)
    have e : |m / rd| = m / rd := abs_of_pos (div_pos hm hpos)
    simp only [if_neg h, e]
    push_cast
    field_simp
    ring

theorem do_dda_finish_eval (r : t_ray) :
    (do_dda_finish r).sidedist = r.sidedist ∧ (do_dda_finish r).step = r.step ∧
    (r.side = 0 →
      (do_dda_finish r).perpwalldist = (r.sidedist.x - r.deltadist.x) / r.raydir_mod) ∧
    (r.side ≠ 0 →
      (do_dda_finish r).perpwalldist = (r.sidedist.y - r.deltadist.y) / r.raydir_mod) := by
  unfold do_dda_finish
  by_cases h : r.side = 0
  · rw [if_pos h]
    exact ⟨rfl, rfl, fun _ => rfl, fun h2 => absurd h h2⟩
  · rw [if_neg h]
    exact ⟨rfl, rfl, fun h2 => absurd h2 h, fun _ => rfl⟩

/-- The closed form of the perpendicular distance for a hit on the x axis. -/
theorem do_dda_closed_form_x (door : t_app → t_ray → Bool) (app : t_app) (R0 : t_ray)
    (px m rx : ℚ) (hpos : app.camera.pos.x = Dbl.fin px) (hrx : R0.raydir.x = Dbl.fin rx)
    (hmod : R0.raydir_mod = Dbl.fin m) (hd : R0.deltadist.x = Dbl.fin |m / rx|)
    (hm : 0 < m) (hr0 : rx ≠ 0) (fuel : Nat) (r : t_ray)
    (hret : do_dda door fuel app R0 = some r) (hside : r.side = 0) :
    ∃ a : Nat, 1 ≤ a ∧
      r.step.x = Dbl.fin (((if rx < 0 then -1 else 1 : Int) : Int) : ℚ) ∧
      r.map_x = R0.map_x + a * (if rx < 0 then -1 else 1) ∧
      r.sidedist.x = (do_dda_start app R0).sidedist.x + Dbl.fin (a * |m / rx|) ∧
      r.perpwalldist
        = Dbl.fin (((if rx < 0 then (r.map_x : ℚ) + 1 else (r.map_x : ℚ)) - px) / rx) := by
  rw [do_dda_eq] at hret
  obtain ⟨r1, hl, hf⟩ := Option.map_eq_some'.1 hret
  obtain ⟨k, hk1, hk2, hk3, -, -⟩ := (dda_loop_iff_first_stop door app fuel _ r1).1 hl
  have e : init_step app.camera.pos.x R0.map_x R0.deltadist.x R0.raydir.x =
      ⟨Dbl.fin (((if rx < 0 then -1 else 1 : Int) : Int) : ℚ),
        Dbl.fin (if rx < 0 then (px - R0.map_x) * |m / rx|
          else ((R0.map_x : ℚ) + 1 - px) * |m / rx|)⟩ := by
    rw [hpos, hd, hrx]
    exact init_step_eval px R0.map_x |m / rx| rx
  have hs1 : (do_dda_start app R0).step.x
      = Dbl.fin (((if rx < 0 then -1 else 1 : Int) : Int) : ℚ) := by
    show (init_step app.camera.pos.x R0.map_x R0.deltadist.x R0.raydir.x).x = _
    rw [e]
  have hs2 : (do_dda_start app R0).deltadist.x = Dbl.fin |m / rx| := hd
  have hs3 : (do_dda_start app R0).sidedist.x
      = Dbl.fin (if rx < 0 then (px - R0.map_x) * |m / rx|
          else ((R0.map_x : ℚ) + 1 - px) * |m / rx|) := by
    show (init_step app.camera.pos.x R0.map_x R0.deltadist.x R0.raydir.x).y = _
    rw [e]
  obtain ⟨a, e1, e2, e3, e4, e5, e6⟩ :=
    dda_advance_iterate_x app _ _ _ (do_dda_start app R0) hs1 hs2 hs3 k
  rw [← hk3] at e1 e2 e3 e4 e5 e6
  obtain ⟨f1, f2, f3, -⟩ := do_dda_finish_eval r1
  obtain ⟨c1, -, c3⟩ := do_dda_finish_cell r1
  rw [hf] at f1 f2 f3 c1 c3
  have hs : r1.side = 0 := by rw [← c3]; exact hside
  have hmx : r.map_x = R0.map_x + a * (if rx < 0 then -1 else 1) := by
    rw [c1, e5]
    rfl
  refine ⟨a, e6 hk1 hs, ?_, hmx, ?_, ?_⟩
  · rw [f2, e1]
    exact hs1
  · rw [f1, e4, hs3, Dbl.fin_add_fin]
  · have hdd : r1.deltadist.x = Dbl.fin |m / rx| := by rw [e2]; exact hs2
    have hmm : r1.raydir_mod = Dbl.fin m := by rw [e3]; exact hmod
    rw [f3 hs, e4, hdd, hmm, Dbl.fin_sub_fin, Dbl.fin_div_fin _ _ hm.ne.symm, hmx]
    congr 1
    exact perp_algebra m rx px R0.map_x a hm hr0

/-- The closed form of the perpendicular distance for a hit on the y axis. -/
theorem do_dda_closed_form_y (door : t_app → t_ray → Bool) (app : t_app) (R0 : t_ray)
    (py m ry : ℚ) (hpos : app.camera.pos.y = Dbl.fin py) (hry : R0.raydir.y = Dbl.fin ry)
    (hmod : R0.raydir_mod = Dbl.fin m) (hd : R0.deltadist.y = Dbl.fin |m / ry|)
    (hm : 0 < m) (hr0 : ry ≠ 0) (fuel : Nat) (r : t_ray)
    (hret : do_dda door fuel app R0 = some r) (hside : r.side = 1) :
    ∃ b : Nat, 1 ≤ b ∧
      r.step.y = Dbl.fin (((if ry < 0 then -1 else 1 : Int) : Int) : ℚ) ∧
      r.map_y = R0.map_y + b * (if ry < 0 then -1 else 1) ∧
      r.sidedist.y = (do_dda_start app R0).sidedist.y + Dbl.fin (b * |m / ry|) ∧
      r.perpwalldist
        = Dbl.fin (((if ry < 0 then (r.map_y : ℚ) + 1 else (r.map_y : ℚ)) - py) / ry) := by
  rw [do_dda_eq] at hret
  obtain ⟨r1, hl, hf⟩ := Option.map_eq_some'.1 hret
  obtain ⟨k, hk1, hk2, hk3, -, -⟩ := (dda_loop_iff_first_stop door app fuel _ r1).1 hl
  have e : init_step app.camera.pos.y R0.map_y R0.deltadist.y R0.raydir.y =
      ⟨Dbl.fin (((if ry < 0 then -1 else 1 : Int) : Int) : ℚ),
        Dbl.fin (if ry < 0 then (py - R0.map_y) * |m / ry|
          else ((R0.map_y : ℚ) + 1 - py) * |m / ry|)⟩ := by
    rw [hpos, hd, hry]
    exact init_step_eval py R0.map_y |m / ry| ry
  have hs1 : (do_dda_start app R0).step.y
      = Dbl.fin (((if ry < 0 then -1 else 1 : Int) : Int) : ℚ) := by
    show (init_step app.camera.pos.y R0.map_y R0.deltadist.y R0.raydir.y).x = _
    rw [e]
  have hs2 : (do_dda_start app R0).deltadist.y = Dbl.fin |m / ry| := hd
  have hs3 : (do_dda_start app R0).sidedist.y
      = Dbl.fin (if ry < 0 then (py - R0.map_y) * |m / ry|
          else ((R0.map_y : ℚ) + 1 - py) * |m / ry|) := by
    show (init_step app.camera.pos.y R0.map_y R0.deltadist.y R0.raydir.y).y = _
    rw [e]
  obtain ⟨b, e1, e2, e3, e4, e5, e6⟩ :=
    dda_advance_iterate_y app _ _ _ (do_dda_start app R0) hs1 hs2 hs3 k
  rw [← hk3] at e1 e2 e3 e4 e5 e6
  obtain ⟨f1, f2, -, f4⟩ := do_dda_finish_eval r1
  obtain ⟨-, c2, c3⟩ := do_dda_finish_cell r1
  rw [hf] at f1 f2 f4 c2 c3
  have hs : r1.side = 1 := by rw [← c3]; exact hside
  have hs0 : r1.side ≠ 0 := by rw [hs]; decide
  have hmy : r.map_y = R0.map_y + b * (if ry < 0 then -1 else 1) := by
    rw [c2, e5]
    rfl
  refine ⟨b, e6 hk1 hs, ?_, hmy, ?_, ?_⟩
  · rw [f2, e1]
    exact hs1
  · rw [f1, e4, hs3, Dbl.fin_add_fin]
  · have hdd : r1.deltadist.y = Dbl.fin |m / ry| := by rw [e2]; exact hs2
    have hmm : r1.raydir_mod = Dbl.fin m := by rw [e3]; exact hmod
    rw [f4 hs0, e4, hdd, hmm, Dbl.fin_sub_fin, Dbl.fin_div_fin _ _ hm.ne.symm, hmy]
    congr 1
    exact perp_algebra m ry py R0.map_y b hm hr0

theorem do_dda_side (door : t_app → t_ray → Bool) (app : t_app) (R0 : t_ray) (fuel : Nat)
    (r : t_ray) (hret : do_dda door fuel app R0 = some r) : r.side = 0 ∨ r.side = 1 := by
  rw [do_dda_eq] at hret
  obtain ⟨r1, hl, hf⟩ := Option.map_eq_some'.1 hret
  obtain ⟨k, hk1, hk2, hk3, -, -⟩ := (dda_loop_iff_first_stop door app fuel _ r1).1 hl
  obtain ⟨k2, rfl⟩ : ∃ k2, k = k2 + 1 := ⟨k - 1, by omega⟩
  rw [Function.iterate_succ_apply'] at hk3
  rw [← hf, (do_dda_finish_cell r1).2.2, hk3]
  exact dda_advance_side app _

end raycasting_bonus

/-- C23: for a camera at a finite position `(px, py)` and a ray of finite direction
`(rx, ry)` and finite modulus `m > 0` (as left by `init_ray`), every result `r` of
`raycasting_bonus.do_dda` has side 0 or 1; when the hit is on x (side 0) and `rx ≠ 0`,
`a ≥ 1` advances were made on x, the side distance on x is the initial one plus
`a * |m / rx|`, and the perpendicular distance `(sidedist.x - deltadist.x) / raydir_mod` is
`(b - px) / rx`, where `b` is the hit cell index `map_x` when the step is `+1` and
`map_x + 1` when the step is `-1`; likewise on y.  On a well-formed map with the camera
cell inside it, `do_dda` returns within `rows + cols - 1` iterations. -/
theorem perpwalldist_closed_form (sqrt : Dbl → Dbl) (WIDTH : Int)
    (door : raycasting_bonus.t_app → raycasting_bonus.t_ray → Bool) (g : t_game)
    (cam : raycasting_bonus.t_camera) (px py : ℚ) (hpos : cam.pos = ⟨Dbl.fin px, Dbl.fin py⟩)
    (x : Int) (ray : raycasting_bonus.t_ray) (m rx ry : ℚ)
    (hmod : (raycasting_bonus.init_ray sqrt WIDTH ⟨cam, g⟩ x ray).raydir_mod = Dbl.fin m)
    (hm : 0 < m)
    (hdir : (raycasting_bonus.init_ray sqrt WIDTH ⟨cam, g⟩ x ray).raydir
      = ⟨Dbl.fin rx, Dbl.fin ry⟩) :
    (∀ (fuel : Nat) (r : raycasting_bonus.t_ray),
      raycasting_bonus.do_dda door fuel ⟨cam, g⟩
        (raycasting_bonus.init_ray sqrt WIDTH ⟨cam, g⟩ x ray) = some r →
      (r.side = 0 ∨ r.side = 1) ∧
      (r.side = 0 → rx ≠ 0 →
        ∃ a : Nat, 1 ≤ a ∧
          r.step.x = Dbl.fin (((if rx < 0 then -1 else 1 : Int) : Int) : ℚ) ∧
          r.map_x = Dbl.toInt (Dbl.fin px) + a * (if rx < 0 then -1 else 1) ∧
          r.sidedist.x = (raycasting_bonus.do_dda_start ⟨cam, g⟩
            (raycasting_bonus.init_ray sqrt WIDTH ⟨cam, g⟩ x ray)).sidedist.x
              + Dbl.fin (a * |m / rx|) ∧
          r.perpwalldist
            = Dbl.fin (((if rx < 0 then (r.map_x : ℚ) + 1 else (r.map_x : ℚ)) - px) / rx)) ∧
      (r.side = 1 → ry ≠ 0 →
        ∃ b : Nat, 1 ≤ b ∧
          r.step.y = Dbl.fin (((if ry < 0 then -1 else 1 : Int) : Int) : ℚ) ∧
          r.map_y = Dbl.toInt (Dbl.fin py) + b * (if ry < 0 then -1 else 1) ∧
          r.sidedist.y = (raycasting_bonus.do_dda_start ⟨cam, g⟩
            (raycasting_bonus.init_ray sqrt WIDTH ⟨cam, g⟩ x ray)).sidedist.y
              + Dbl.fin (b * |m / ry|) ∧
          r.perpwalldist
            = Dbl.fin (((if ry < 0 then (r.map_y : ℚ) + 1 else (r.map_y : ℚ)) - py) / ry))) ∧
    (g.wf → 0 ≤ Dbl.toInt (Dbl.fin px) → Dbl.toInt (Dbl.fin px) < max_row_len g →
      0 ≤ Dbl.toInt (Dbl.fin py) → Dbl.toInt (Dbl.fin py) < g.map_height →
      ∀ fuel : Nat, g.map_height + max_row_len g - 1 ≤ fuel →
      ∃ r, raycasting_bonus.do_dda door fuel ⟨cam, g⟩
        (raycasting_bonus.init_ray sqrt WIDTH ⟨cam, g⟩ x ray) = some r) := by
  have hcx : (raycasting_bonus.init_ray sqrt WIDTH ⟨cam, g⟩ x ray).map_x
      = Dbl.toInt (Dbl.fin px) := by
    show Dbl.toInt cam.pos.x = _
    rw [hpos]
  have hcy : (raycasting_bonus.init_ray sqrt WIDTH ⟨cam, g⟩ x ray).map_y
      = Dbl.toInt (Dbl.fin py) := by
    show Dbl.toInt cam.pos.y = _
    rw [hpos]
  have hdx : (raycasting_bonus.init_ray sqrt WIDTH ⟨cam, g⟩ x ray).deltadist.x
      = Dbl.fabs ((raycasting_bonus.init_ray sqrt WIDTH ⟨cam, g⟩ x ray).raydir_mod
        / (raycasting_bonus.init_ray sqrt WIDTH ⟨cam, g⟩ x ray).raydir.x) := rfl
  have hdy : (raycasting_bonus.init_ray sqrt WIDTH ⟨cam, g⟩ x ray).deltadist.y
      = Dbl.fabs ((raycasting_bonus.init_ray sqrt WIDTH ⟨cam, g⟩ x ray).raydir_mod
        / (raycasting_bonus.init_ray sqrt WIDTH ⟨cam, g⟩ x ray).raydir.y) := rfl
  rw [hmod, hdir] at hdx hdy
  constructor
  · intro fuel r hret
    refine ⟨raycasting_bonus.do_dda_side door _ _ fuel r hret, ?_, ?_⟩
    · intro hs hr0
      have hd : (raycasting_bonus.init_ray sqrt WIDTH ⟨cam, g⟩ x ray).deltadist.x
          = Dbl.fin |m / rx| := by
        rw [hdx, Dbl.fin_div_fin _ _ hr0, Dbl.fabs_fin]
      have T := raycasting_bonus.do_dda_closed_form_x door ⟨cam, g⟩ _ px m rx
        (by rw [hpos]) (by rw [hdir]) hmod hd hm hr0 fuel r hret hs
      rw [hcx] at T
      exact T
    · intro hs hr0
      have hd : (raycasting_bonus.init_ray sqrt WIDTH ⟨cam, g⟩ x ray).deltadist.y
          = Dbl.fin |m / ry| := by
        rw [hdy, Dbl.fin_div_fin _ _ hr0, Dbl.fabs_fin]
      have T := raycasting_bonus.do_dda_closed_form_y door ⟨cam, g⟩ _ py m ry
        (by rw [hpos]) (by rw [hdir]) hmod hd hm hr0 fuel r hret hs
      rw [hcy] at T
      exact T
  · intro hwf h1 h2 h3 h4 fuel hfuel
    obtain ⟨r, hr, -⟩ := raycasting_bonus.do_dda_in_box door ⟨cam, g⟩ hwf fuel hfuel
      (raycasting_bonus.init_ray sqrt WIDTH ⟨cam, g⟩ x ray)
      (by rw [hcx]; exact h1) (by rw [hcx]; exact h2) (by rw [hcy]; exact h3)
      (by rw [hcy]; exact h4)
    exact ⟨r, hr⟩

/-- C23 at the 5 x 5 scenario: camera at `(2.5, 2.5)` facing `(1, 0)`, centre column; the
hit is on x, on cell 5 with step `+1`, and the perpendicular distance is `(5 - 2.5) / 1`. -/
theorem perpwalldist_closed_form_witness :
    ∃ r, raycasting_bonus.do_dda no_door 3 ⟨cam5, open5⟩
        (raycasting_bonus.init_ray sqrt_exact 2 ⟨cam5, open5⟩ 1 blank_ray) = some r ∧
      r.side = 0 ∧ r.map_x = 5 ∧ r.step.x = Dbl.fin 1 ∧
      r.perpwalldist = Dbl.fin (((5 : ℚ) - 5 / 2) / 1) := by
  obtain ⟨r, hr, hx, -, hs, -, -⟩ := do_dda_along_x 1 one_pos sqrt_exact 2 (by decide) no_door
    open5 (5 / 2) (5 / 2) 0 (33 / 50) 1 blank_ray 5 3 (by decide)
    (by simpa using sqrt_exact_one)
    (by rw [toInt_five_halves]; decide) open5_row_two
    (by rw [toInt_five_halves]; decide) (by rw [toInt_five_halves]; decide)
  have hr2 : raycasting_bonus.do_dda no_door 3 ⟨cam5, open5⟩
      (raycasting_bonus.init_ray sqrt_exact 2 ⟨cam5, open5⟩ 1 blank_ray) = some r := hr
  obtain ⟨a, -, hst, -, -, hp⟩ := ((perpwalldist_closed_form sqrt_exact 2 no_door open5 cam5
    (5 / 2) (5 / 2) rfl 1 blank_ray 1 1 0 (by rw [init_ray_cam5]) one_pos
    (by rw [init_ray_cam5])).1 3 r hr2).2.1 hs one_ne_zero
  have hn : ¬ ((1 : ℚ) < 0) := by norm_num
  rw [if_neg hn] at hst hp
  rw [hx] at hp
  refine ⟨r, hr2, hs, hx, ?_, ?_⟩
  · rw [hst]
    norm_num
  · rw [hp]
    norm_num

/-! ## Rotation about the k axis -/

/-- The value of `plane_rotation` about an axis `(0, 0, a)`, `a ≠ 0`, in terms of the cosine
`c` and sine `s` of the half angle; `t` is `a / |a|`, the sign of `a`. -/
theorem plane_rotation_k_axis (sqrt cos sin : Dbl → Dbl) (ps x y pk a c s t : ℚ)
    (a0 alpha : Dbl)
    (hcos : cos (alpha / Dbl.ofInt 2) = Dbl.fin c) (hsin : sin (alpha / Dbl.ofInt 2) = Dbl.fin s)
    (hcs : c * c + s * s = 1) (hsqrt : sqrt (Dbl.fin (a * a)) = Dbl.fin |a|) (ha : a ≠ 0)
    (ht : a / |a| = t) (htt : t * t = 1) :
    plane_rotation sqrt cos sin ⟨Dbl.fin ps, Dbl.fin x, Dbl.fin y, Dbl.fin pk⟩
        ⟨a0, Dbl.fin 0, Dbl.fin 0, Dbl.fin a⟩ alpha =
      ⟨Dbl.fin ps, Dbl.fin (x * (c * c - s * s) - y * (t * (2 * c * s))),
        Dbl.fin (x * (t * (2 * c * s)) + y * (c * c - s * s)), Dbl.fin pk⟩ := by
  have hs2 : sqrt (Dbl.fin (0 * 0 + 0 * 0 + a * a)) = Dbl.fin |a| := by
    have e : (0 : ℚ) * 0 + 0 * 0 + a * a = a * a := by ring
    rw [e]
    exact hsqrt
  rw [plane_rotation_fin sqrt cos sin ps x y pk 0 0 a c s |a| a0 alpha hcos hsin hs2
    (abs_ne_zero.mpr ha), quaternion_product_fin, quaternion_product_fin, ht]
  simp only [t_quaternion.mk.injEq, Dbl.fin.injEq, zero_div, mul_zero, neg_zero, sub_zero,
    add_zero, zero_mul, zero_add]
  refine ⟨?_, ?_, ?_, ?_⟩
  · linear_combination ps * hcs + (ps * s * s) * htt
  · linear_combination (-(x * s * s)) * htt
  · linear_combination (-(y * s * s)) * htt
  · linear_combination pk * hcs + (pk * s * s) * htt

/-- C24: `plane_rotation` about the k axis is the plain 2 x 2 rotation of the
specification.  For every finite `p = (ps, x, y, pk)`, every axis `(_, 0, 0, a)` and every
angle `alpha` (with the cosine `c` and the sine `s` of `alpha / 2`, `c^2 + s^2 = 1`, the
double-angle values for `cos` and `sin` at `alpha` and `-alpha`, and the square root exact at
`a^2`): for `a > 0` the result is `rotation_matrix_2x2` at `alpha`, that is
`(ps, x cos alpha - y sin alpha, x sin alpha + y cos alpha, pk)`, and for `a < 0` it is
`rotation_matrix_2x2` at `-alpha`; the scalar and the `k` component are left fixed. -/
theorem plane_rotation_is_rotation_matrix (sqrt cos sin : Dbl → Dbl) (ps x y pk a c s : ℚ)
    (a0 alpha : Dbl)
    (hcos : cos (alpha / Dbl.ofInt 2) = Dbl.fin c) (hsin : sin (alpha / Dbl.ofInt 2) = Dbl.fin s)
    (hcs : c * c + s * s = 1)
    (hC : cos alpha = Dbl.fin (c * c - s * s)) (hS : sin alpha = Dbl.fin (2 * c * s))
    (hCn : cos (-alpha) = Dbl.fin (c * c - s * s))
    (hSn : sin (-alpha) = Dbl.fin (-(2 * c * s)))
    (hsqrt : sqrt (Dbl.fin (a * a)) = Dbl.fin |a|) :
    (0 < a →
      plane_rotation sqrt cos sin ⟨Dbl.fin ps, Dbl.fin x, Dbl.fin y, Dbl.fin pk⟩
          ⟨a0, Dbl.fin 0, Dbl.fin 0, Dbl.fin a⟩ alpha
        = rotation_matrix_2x2 cos sin ⟨Dbl.fin ps, Dbl.fin x, Dbl.fin y, Dbl.fin pk⟩ alpha ∧
      plane_rotation sqrt cos sin ⟨Dbl.fin ps, Dbl.fin x, Dbl.fin y, Dbl.fin pk⟩
          ⟨a0, Dbl.fin 0, Dbl.fin 0, Dbl.fin a⟩ alpha
        = ⟨Dbl.fin ps, Dbl.fin (x * (c * c - s * s) - y * (2 * c * s)),
            Dbl.fin (x * (2 * c * s) + y * (c * c - s * s)), Dbl.fin pk⟩) ∧
    (a < 0 →
      plane_rotation sqrt cos sin ⟨Dbl.fin ps, Dbl.fin x, Dbl.fin y, Dbl.fin pk⟩
          ⟨a0, Dbl.fin 0, Dbl.fin 0, Dbl.fin a⟩ alpha
        = rotation_matrix_2x2 cos sin ⟨Dbl.fin ps, Dbl.fin x, Dbl.fin y, Dbl.fin pk⟩ (-alpha) ∧
      plane_rotation sqrt cos sin ⟨Dbl.fin ps, Dbl.fin x, Dbl.fin y, Dbl.fin pk⟩
          ⟨a0, Dbl.fin 0, Dbl.fin 0, Dbl.fin a⟩ alpha
        = ⟨Dbl.fin ps, Dbl.fin (x * (c * c - s * s) + y * (2 * c * s)),
            Dbl.fin (-(x * (2 * c * s)) + y * (c * c - s * s)), Dbl.fin pk⟩) := by
  constructor
  · intro ha
    have ht : a / |a| = 1 := by rw [abs_of_pos ha, div_self ha.ne.symm]
    have key := plane_rotation_k_axis sqrt cos sin ps x y pk a c s 1 a0 alpha hcos hsin hcs
      hsqrt ha.ne.symm ht (by norm_num)
    rw [key]
    simp only [rotation_matrix_2x2, hC, hS, Dbl.fin_mul_fin, Dbl.fin_sub_fin, Dbl.fin_add_fin,
      one_mul, and_self]
  · intro ha
    have ht : a / |a| = -1 := by
      rw [abs_of_neg ha, div_neg, div_self ha.ne]
    have key := plane_rotation_k_axis sqrt cos sin ps x y pk a c s (-1) a0 alpha hcos hsin hcs
      hsqrt ha.ne ht (by norm_num)
    rw [key]
    simp only [rotation_matrix_2x2, hCn, hSn, Dbl.fin_mul_fin, Dbl.fin_sub_fin, Dbl.fin_add_fin,
      t_quaternion.mk.injEq, Dbl.fin.injEq, true_and, and_true]
    refine ⟨⟨?_, ?_⟩, ?_, ?_⟩ <;> ring

theorem sqrt_exact_nine : sqrt_exact (Dbl.fin (3 * 3)) = Dbl.fin |3| := by
  have h := sqrt_exact_sq 3
  norm_num at h ⊢
  exact h

/-- C24 for the facing `(1, 0)`, the axis `(0, 0, 3)` and the angle 2 of the table
`cos_pyth`, `sin_pyth` (cosine `-7/25`, sine `24/25`): the result is
`(0, -7/25, 24/25, 0)`. -/
theorem plane_rotation_is_rotation_matrix_witness :
    plane_rotation sqrt_exact cos_pyth sin_pyth ⟨Dbl.fin 0, Dbl.fin 1, Dbl.fin 0, Dbl.fin 0⟩
        ⟨Dbl.fin 0, Dbl.fin 0, Dbl.fin 0, Dbl.fin 3⟩ (Dbl.fin 2)
      = rotation_matrix_2x2 cos_pyth sin_pyth ⟨Dbl.fin 0, Dbl.fin 1, Dbl.fin 0, Dbl.fin 0⟩
        (Dbl.fin 2) ∧
    plane_rotation sqrt_exact cos_pyth sin_pyth ⟨Dbl.fin 0, Dbl.fin 1, Dbl.fin 0, Dbl.fin 0⟩
        ⟨Dbl.fin 0, Dbl.fin 0, Dbl.fin 0, Dbl.fin 3⟩ (Dbl.fin 2)
      = ⟨Dbl.fin 0, Dbl.fin (-7 / 25), Dbl.fin (24 / 25), Dbl.fin 0⟩ := by
  have e : Dbl.fin 2 / Dbl.ofInt 2 = Dbl.fin 1 := by
    rw [Dbl.ofInt_eq, Dbl.fin_div_fin _ _ (by norm_num)]
    norm_num
  have T := (plane_rotation_is_rotation_matrix sqrt_exact cos_pyth sin_pyth 0 1 0 0 3 (3 / 5)
    (4 / 5) (Dbl.fin 0) (Dbl.fin 2)
    (by rw [e]; simp [cos_pyth]) (by rw [e]; simp [sin_pyth]) (by norm_num)
    (by simp [cos_pyth]; norm_num) (by simp [sin_pyth]; norm_num)
    (by simp [cos_pyth]; norm_num) (by simp [sin_pyth]; norm_num)
    sqrt_exact_nine).1 (by norm_num)
  refine ⟨T.1, ?_⟩
  rw [T.2]
  norm_num

/-! ## The bonus ray tracer against the base one -/

/-- The loops of the two ray tracers run in step as long as the door test stops on no door
tile: from rays that agree on the fields of `ray_core`, both fail to stop within the bound
or both return, with the same `ray_core` and side. -/
theorem dda_loop_refines (door : raycasting_bonus.t_app → raycasting_bonus.t_ray → Bool)
    (app : raycasting_bonus.t_app) (app0 : raycasting.t_app) (hg : app.game = app0.game)
    (hdoor : ∀ r : raycasting_bonus.t_ray,
      (r.hit_tile = some '2' ∨ r.hit_tile = some '3') →
      r.hit_tile = safe_get_tile app.game r.map_x r.map_y → door app r = false) :
    ∀ (n : Nat) (rb : raycasting_bonus.t_ray) (r0 : raycasting.t_ray),
      raycasting_bonus.ray_core rb = raycasting.ray_core r0 →
      (raycasting_bonus.dda_loop door app n rb).map
          (fun r => (raycasting_bonus.ray_core r, r.side)) =
        (raycasting.dda_loop app0 n r0).map (fun r => (raycasting.ray_core r, r.side)) := by
  intro n
  induction n with
  | zero => intro rb r0 _; rfl
  | succ n ih =>
    intro rb r0 h
    simp only [raycasting_bonus.ray_core, raycasting.ray_core, Prod.mk.injEq] at h
    obtain ⟨⟨hx, hy⟩, ⟨hri, hrj, hm⟩, ⟨hdi, hdj⟩, ⟨hsi, hsj⟩, ⟨hci, hcj⟩⟩ := h
    have hstop : ∀ r : raycasting_bonus.t_ray,
        r.hit_tile = safe_get_tile app.game r.map_x r.map_y →
        (raycasting_bonus.dda_stops door app r ↔
          safe_get_tile app0.game r.map_x r.map_y = some '1') := by
      intro r hr
      unfold raycasting_bonus.dda_stops
      constructor
      · rintro (h1 | ⟨h2, h3⟩)
        · rw [← hg, ← hr]
          exact h1
        · rw [hdoor r h2 hr] at h3
          exact absurd h3 (by decide)
      · intro h1
        left
        rw [hr, hg]
        exact h1
    rw [raycasting_bonus.dda_loop_succ]
    simp only [raycasting.dda_loop]
    by_cases hlt : rb.sidedist.x < rb.sidedist.y
    · have hlt0 : r0.sidedist.i < r0.sidedist.j := by rw [← hci, ← hcj]; exact hlt
      have hadv : raycasting_bonus.dda_advance app rb = { rb with
          sidedist := ⟨rb.sidedist.x + rb.deltadist.x, rb.sidedist.y⟩
          map_x := Dbl.toInt (Dbl.ofInt rb.map_x + rb.step.x)
          side := 0
          hit_tile := safe_get_tile app.game (Dbl.toInt (Dbl.ofInt rb.map_x + rb.step.x))
            rb.map_y } := by
        simp only [raycasting_bonus.dda_advance, raycasting_bonus.update_ray_position,
          if_pos hlt]
      have hs := hstop (raycasting_bonus.dda_advance app rb) rfl
      rw [hadv] at hs ⊢
      simp only [if_pos hlt0]
      simp only [hx, hy, hsi] at hs ⊢
      by_cases hw : safe_get_tile app0.game (Dbl.toInt (Dbl.ofInt r0.map_x + r0.step.i))
          r0.map_y = some '1'
      · rw [if_pos (hs.mpr hw), if_pos hw]
        simp only [Option.map_some', raycasting_bonus.ray_core, raycasting.ray_core, hy, hri,
          hrj, hm, hdi, hdj, hsi, hsj, hci, hcj]
      · rw [if_neg (fun h => hw (hs.mp h)), if_neg hw]
        apply ih
        simp only [raycasting_bonus.ray_core, raycasting.ray_core, hy, hri, hrj, hm, hdi, hdj,
          hsi, hsj, hci, hcj]
    · have hlt0 : ¬ r0.sidedist.i < r0.sidedist.j := by rw [← hci, ← hcj]; exact hlt
      have hadv : raycasting_bonus.dda_advance app rb = { rb with
          sidedist := ⟨rb.sidedist.x, rb.sidedist.y + rb.deltadist.y⟩
          map_y := Dbl.toInt (Dbl.ofInt rb.map_y + rb.step.y)
          side := 1
          hit_tile := safe_get_tile app.game rb.map_x
            (Dbl.toInt (Dbl.ofInt rb.map_y + rb.step.y)) } := by
        simp only [raycasting_bonus.dda_advance, raycasting_bonus.update_ray_position,
          if_neg hlt]
      have hs := hstop (raycasting_bonus.dda_advance app rb) rfl
      rw [hadv] at hs ⊢
      simp only [if_neg hlt0]
      simp only [hx, hy, hsj] at hs ⊢
      by_cases hw : safe_get_tile app0.game r0.map_x
          (Dbl.toInt (Dbl.ofInt r0.map_y + r0.step.j)) = some '1'
      · rw [if_pos (hs.mpr hw), if_pos hw]
        simp only [Option.map_some', raycasting_bonus.ray_core, raycasting.ray_core, hx, hri,
          hrj, hm, hdi, hdj, hsi, hsj, hci, hcj]
      · rw [if_neg (fun h => hw (hs.mp h)), if_neg hw]
        apply ih
        simp only [raycasting_bonus.ray_core, raycasting.ray_core, hx, hri, hrj, hm, hdi, hdj,
          hsi, hsj, hci, hcj]

theorem init_step_refines (pos : Dbl) (map : Int) (deltadist raydir : Dbl) :
    (raycasting_bonus.init_step pos map deltadist raydir).x
      = (raycasting.init_step pos map deltadist raydir).i ∧
    (raycasting_bonus.init_step pos map deltadist raydir).y
      = (raycasting.init_step pos map deltadist raydir).j := by
  unfold raycasting_bonus.init_step raycasting.init_step
  split_ifs <;> exact ⟨rfl, rfl⟩

/-- The two `do_dda` give the same results from rays that agree on what `init_ray` sets, as
long as the door test stops on no door tile. -/
theorem do_dda_refines (door : raycasting_bonus.t_app → raycasting_bonus.t_ray → Bool)
    (app : raycasting_bonus.t_app) (app0 : raycasting.t_app) (hg : app.game = app0.game)
    (hdoor : ∀ r : raycasting_bonus.t_ray,
      (r.hit_tile = some '2' ∨ r.hit_tile = some '3') →
      r.hit_tile = safe_get_tile app.game r.map_x r.map_y → door app r = false)
    (hpx : app.camera.pos.x = app0.camera.pos.i) (hpy : app.camera.pos.y = app0.camera.pos.j)
    (fuel : Nat) (rb : raycasting_bonus.t_ray) (r0 : raycasting.t_ray)
    (hx : rb.map_x = r0.map_x) (hy : rb.map_y = r0.map_y)
    (hri : rb.raydir.x = r0.raydir.i) (hrj : rb.raydir.y = r0.raydir.j)
    (hm : rb.raydir_mod = r0.raydir_mod)
    (hdi : rb.deltadist.x = r0.deltadist.i) (hdj : rb.deltadist.y = r0.deltadist.j) :
    (raycasting_bonus.do_dda door fuel app rb).map raycasting_bonus.ray_result =
      (raycasting.do_dda fuel app0 r0).map raycasting.ray_result := by
  have sx := init_step_refines app.camera.pos.x rb.map_x rb.deltadist.x rb.raydir.x
  have sy := init_step_refines app.camera.pos.y rb.map_y rb.deltadist.y rb.raydir.y
  rw [hpx, hx, hdi, hri] at sx
  rw [hpy, hy, hdj, hrj] at sy
  have hcore : raycasting_bonus.ray_core (raycasting_bonus.do_dda_start app rb) =
      raycasting.ray_core { r0 with
        step := { r0.step with
          i := (raycasting.init_step app0.camera.pos.i r0.map_x r0.deltadist.i r0.raydir.i).i,
          j := (raycasting.init_step app0.camera.pos.j r0.map_y r0.deltadist.j r0.raydir.j).i },
        sidedist := { r0.sidedist with
          i := (raycasting.init_step app0.camera.pos.i r0.map_x r0.deltadist.i r0.raydir.i).j,
          j := (raycasting.init_step app0.camera.pos.j r0.map_y r0.deltadist.j
            r0.raydir.j).j } } := by
    simp only [raycasting_bonus.ray_core, raycasting.ray_core, raycasting_bonus.do_dda_start,
      hpx, hpy, hx, hy, hri, hrj, hm, hdi, hdj, sx.1, sx.2, sy.1, sy.2]
  have key := dda_loop_refines door app app0 hg hdoor fuel _ _ hcore
  rw [raycasting_bonus.do_dda_eq]
  simp only [raycasting.do_dda]
  cases e1 : raycasting_bonus.dda_loop door app fuel (raycasting_bonus.do_dda_start app rb) with
  | none =>
    rw [e1] at key
    cases e2 : raycasting.dda_loop app0 fuel { r0 with
        step := { r0.step with
          i := (raycasting.init_step app0.camera.pos.i r0.map_x r0.deltadist.i r0.raydir.i).i,
          j := (raycasting.init_step app0.camera.pos.j r0.map_y r0.deltadist.j r0.raydir.j).i },
        sidedist := { r0.sidedist with
          i := (raycasting.init_step app0.camera.pos.i r0.map_x r0.deltadist.i r0.raydir.i).j,
          j := (raycasting.init_step app0.camera.pos.j r0.map_y r0.deltadist.j
            r0.raydir.j).j } } with
    | none => rfl
    | some b => rw [e2] at key; simp at key
  | some a =>
    rw [e1] at key
    cases e2 : raycasting.dda_loop app0 fuel { r0 with
        step := { r0.step with
          i := (raycasting.init_step app0.camera.pos.i r0.map_x r0.deltadist.i r0.raydir.i).i,
          j := (raycasting.init_step app0.camera.pos.j r0.map_y r0.deltadist.j r0.raydir.j).i },
        sidedist := { r0.sidedist with
          i := (raycasting.init_step app0.camera.pos.i r0.map_x r0.deltadist.i r0.raydir.i).j,
          j := (raycasting.init_step app0.camera.pos.j r0.map_y r0.deltadist.j
            r0.raydir.j).j } } with
    | none => rw [e2] at key; simp at key
    | some b =>
      rw [e2] at key
      simp only [Option.map_some', Option.some.injEq, Prod.mk.injEq] at key
      obtain ⟨hc, hs⟩ := key
      have hc2 := hc
      simp only [raycasting_bonus.ray_core, raycasting.ray_core, Prod.mk.injEq] at hc2
      obtain ⟨_, ⟨_, _, hm2⟩, ⟨hdi2, hdj2⟩, _, ⟨hci2, hcj2⟩⟩ := hc2
      obtain ⟨f1, f2, f3, f4⟩ := raycasting_bonus.do_dda_finish_eval a
      obtain ⟨c1, c2, c3⟩ := raycasting_bonus.do_dda_finish_cell a
      have hcf : raycasting_bonus.ray_core (raycasting_bonus.do_dda_finish a)
          = raycasting_bonus.ray_core a := by
        unfold raycasting_bonus.do_dda_finish
        split_ifs <;> rfl
      by_cases h0 : a.side = 0
      · have h00 : b.side = 0 := by rw [← hs]; exact h0
        simp only [Option.map_some', if_pos h00, raycasting_bonus.ray_result,
          raycasting.ray_result, Option.some.injEq, Prod.mk.injEq]
        refine ⟨?_, ?_, ?_⟩
        · rw [hcf, hc]
          rfl
        · rw [c3, hs]
        · rw [f3 h0, hci2, hdi2, hm2]
      · have h00 : ¬ b.side = 0 := by rw [← hs]; exact h0
        simp only [Option.map_some', if_neg h00, raycasting_bonus.ray_result,
          raycasting.ray_result, Option.some.injEq, Prod.mk.injEq]
        refine ⟨?_, ?_, ?_⟩
        · rw [hcf, hc]
          rfl
        · rw [c3, hs]
        · rw [f4 h0, hcj2, hdj2, hm2]

/-- C31: the bonus ray tracer refines the base one.  For every grid, every pair of cameras
with the same position, facing and plane components, every column, every previous content
of the two ray records and every door test that stops on no door tile (in particular on a
grid where `safe_get_tile` never returns `'2'` or `'3'`, whatever the door test), `init_ray`
and `do_dda` of `raycasting_bonus.c` and of `raycasting.c` both fail to stop within the
iteration bound or both return, with the same cell, ray direction, modulus, delta
distances, steps, side distances, hit side and perpendicular distance.  On a well-formed
map with the camera cell inside it both return within `rows + cols - 1` iterations. -/
theorem bonus_refines_base (sqrt : Dbl → Dbl) (WIDTH : Int)
    (door : raycasting_bonus.t_app → raycasting_bonus.t_ray → Bool) (g : t_game)
    (cam : raycasting_bonus.t_camera) (cam0 : raycasting.t_camera)
    (hpos : cam.pos.x = cam0.pos.i ∧ cam.pos.y = cam0.pos.j)
    (hdir : cam.dir.x = cam0.dir.i ∧ cam.dir.y = cam0.dir.j)
    (hplane : cam.plane.x = cam0.plane.i ∧ cam.plane.y = cam0.plane.j)
    (x : Int) (ray : raycasting_bonus.t_ray) (ray0 : raycasting.t_ray) (fuel : Nat)
    (hdoor : (∀ r : raycasting_bonus.t_ray,
        (r.hit_tile = some '2' ∨ r.hit_tile = some '3') → door ⟨cam, g⟩ r = false) ∨
      (∀ i j : Int, safe_get_tile g j i ≠ some '2' ∧ safe_get_tile g j i ≠ some '3')) :
    (raycasting_bonus.do_dda door fuel ⟨cam, g⟩
        (raycasting_bonus.init_ray sqrt WIDTH ⟨cam, g⟩ x ray)).map raycasting_bonus.ray_result =
      (raycasting.do_dda fuel ⟨cam0, g⟩
        (raycasting.init_ray sqrt WIDTH ⟨cam0, g⟩ x ray0)).map raycasting.ray_result ∧
    (g.wf → 0 ≤ Dbl.toInt cam.pos.x → Dbl.toInt cam.pos.x < max_row_len g →
      0 ≤ Dbl.toInt cam.pos.y → Dbl.toInt cam.pos.y < g.map_height →
      g.map_height + max_row_len g - 1 ≤ fuel →
      ∃ rb r0,
        raycasting_bonus.do_dda door fuel ⟨cam, g⟩
          (raycasting_bonus.init_ray sqrt WIDTH ⟨cam, g⟩ x ray) = some rb ∧
        raycasting.do_dda fuel ⟨cam0, g⟩
          (raycasting.init_ray sqrt WIDTH ⟨cam0, g⟩ x ray0) = some r0 ∧
        raycasting_bonus.ray_result rb = raycasting.ray_result r0) := by
  have hd : ∀ r : raycasting_bonus.t_ray,
      (r.hit_tile = some '2' ∨ r.hit_tile = some '3') →
      r.hit_tile = safe_get_tile g r.map_x r.map_y → door ⟨cam, g⟩ r = false := by
    intro r h1 h2
    rcases hdoor with h | h
    · exact h r h1
    · exfalso
      rw [h2] at h1
      rcases h1 with h1 | h1
      · exact (h r.map_y r.map_x).1 h1
      · exact (h r.map_y r.map_x).2 h1
  have key : (raycasting_bonus.do_dda door fuel ⟨cam, g⟩
        (raycasting_bonus.init_ray sqrt WIDTH ⟨cam, g⟩ x ray)).map raycasting_bonus.ray_result =
      (raycasting.do_dda fuel ⟨cam0, g⟩
        (raycasting.init_ray sqrt WIDTH ⟨cam0, g⟩ x ray0)).map raycasting.ray_result := by
    apply do_dda_refines door ⟨cam, g⟩ ⟨cam0, g⟩ rfl hd hpos.1 hpos.2 <;>
      simp only [raycasting_bonus.init_ray, raycasting.init_ray, hpos.1, hpos.2, hdir.1, hdir.2,
        hplane.1, hplane.2]
  refine ⟨key, ?_⟩
  intro hwf h1 h2 h3 h4 hfuel
  obtain ⟨rb, e1, _⟩ := raycasting_bonus.do_dda_in_box door ⟨cam, g⟩ hwf fuel hfuel
    (raycasting_bonus.init_ray sqrt WIDTH ⟨cam, g⟩ x ray) h1 h2 h3 h4
  obtain ⟨r0, e2, _⟩ := raycasting.do_dda_in_box0 ⟨cam0, g⟩ hwf fuel hfuel
    (raycasting.init_ray sqrt WIDTH ⟨cam0, g⟩ x ray0)
    (by show 0 ≤ Dbl.toInt cam0.pos.i; rw [← hpos.1]; exact h1)
    (by show Dbl.toInt cam0.pos.i < _; rw [← hpos.1]; exact h2)
    (by show 0 ≤ Dbl.toInt cam0.pos.j; rw [← hpos.2]; exact h3)
    (by show Dbl.toInt cam0.pos.j < _; rw [← hpos.2]; exact h4)
  rw [e1, e2] at key
  exact ⟨rb, r0, e1, e2, by simpa using key⟩

theorem open5_no_door (i j : Int) :
    safe_get_tile open5 j i ≠ some '2' ∧ safe_get_tile open5 j i ≠ some '3' := by
  by_cases h : 0 ≤ j ∧ j < 5 ∧ 0 ≤ i ∧ i < 5
  · have e : safe_get_tile open5 j i = some '0' :=
      safe_get_tile_open 5 j i h.1 h.2.1 h.2.2.1 h.2.2.2
    rw [e]
    decide
  · have e : safe_get_tile open5 j i = some '1' := by
      rw [safe_get_tile_wall_iff open5 (by decide)]
      by_cases hi : i < 0 ∨ 5 ≤ i
      · rcases hi with hi | hi
        · exact Or.inl hi
        · exact Or.inr (Or.inl hi)
      · have hj : j < 0 ∨ (5 : Int) ≤ j := by omega
        have hi0 : 0 ≤ i := by omega
        have hi5 : i < 5 := by omega
        refine Or.inr (Or.inr ⟨List.replicate 5 '0', ?_, ?_⟩)
        · interval_cases i <;> decide
        · rcases hj with hj | hj
          · exact Or.inl hj
          · exact Or.inr (Or.inl hj)
    rw [e]
    decide

/-- C31 on the 5 x 5 open map, camera at its centre facing `(1, 0)`, screen column 1 of 2,
nine iterations allowed, with a door test that reports every door as solid (the map has no
door tile): both ray tracers return, with the same results. -/
theorem bonus_refines_base_witness :
    ∃ rb r0,
      raycasting_bonus.do_dda all_doors 9 ⟨cam5, open5⟩
        (raycasting_bonus.init_ray sqrt_exact 2 ⟨cam5, open5⟩ 1 blank_ray) = some rb ∧
      raycasting.do_dda 9 ⟨cast_app.camera, open5⟩
        (raycasting.init_ray sqrt_exact 2 ⟨cast_app.camera, open5⟩ 1 stale_ray_used) = some r0 ∧
      raycasting_bonus.ray_result rb = raycasting.ray_result r0 :=
  (bonus_refines_base sqrt_exact 2 all_doors open5 cam5 cast_app.camera ⟨rfl, rfl⟩ ⟨rfl, rfl⟩
    ⟨rfl, rfl⟩ 1 blank_ray stale_ray_used 9 (Or.inr open5_no_door)).2
    (by decide) (by simp [cam5, toInt_five_halves])
    (by simp [cam5, toInt_five_halves]; decide)
    (by simp [cam5, toInt_five_halves]) (by simp [cam5, toInt_five_halves]; decide) (by decide)

/-! ## Quantities that do not depend on the length of the facing vector -/

namespace raycasting_bonus

end raycasting_bonus

namespace raycasting_bonus

end raycasting_bonus

theorem Dbl.fmax_fin (a b : ℚ) : Dbl.fmax (Dbl.fin a) (Dbl.fin b) = Dbl.fin (max a b) := by
  simp only [Dbl.fmax, Dbl.lt, decide_eq_true_eq]
  split_ifs with h
  · rw [max_eq_right h.le]
  · rw [max_eq_left (not_lt.mp h)]

theorem Dbl.fmul_zero_right (a : ℚ) : Dbl.fmul (Dbl.fin a) (Dbl.fin 0) = Dbl.fin 0 := by
  rw [Dbl.fmul_fin _ _ (by simp), mul_zero, Dbl.r64_zero]

theorem Dbl.fdiv_zero_of_pos (a : ℚ) (h : 0 < a) : Dbl.fdiv (Dbl.fin a) (Dbl.fin 0) = Dbl.pinf := by
  have : Dbl.fdiv (Dbl.fin a) (Dbl.fin 0) = Dbl.rndd (Dbl.fin a / Dbl.fin 0) := rfl
  rw [this, Dbl.fin_div_zero _ h]
  rfl

/-- The difference of an integer of small magnitude and zero is exact. -/
theorem Dbl.fsub_int_zero (n : Int) (h : |n| < 2 ^ 53) :
    Dbl.fsub (Dbl.ofInt n) (Dbl.fin 0) = Dbl.fin (n : ℚ) := by
  rw [Dbl.ofInt_eq, Dbl.fsub_fin _ _ (by
    rw [sub_zero]
    have h1 : |(n : ℚ)| < 2 ^ 53 := by exact_mod_cast h
    exact le_trans h1.le (pow_le_pow_right₀ (by norm_num) (by norm_num)))]
  rw [sub_zero, Dbl.r64_int n h]

theorem Dbl.small_le (q : ℚ) (h : |q| ≤ 2 ^ 60) : |q| ≤ 2 ^ 1023 :=
  le_trans h (pow_le_pow_right₀ (by norm_num) (by norm_num))

theorem Dbl.rnd_3338 : Dbl.rnd (3338 / 10000) = Dbl.fin (3006603111232543 / 2 ^ 53) := by
  rw [Dbl.rnd_eq_fin _ (Dbl.small_le _ (by rw [abs_of_nonneg (by norm_num)]; norm_num))]
  congr 1
  rw [Dbl.r64_eq_of_near (3338 / 10000) (-2) 6013206222465086 (by norm_num)
    (by rw [abs_of_nonneg (by norm_num)]; norm_num)
    (by rw [abs_of_nonneg (by norm_num)]; norm_num)
    (by rw [abs_lt]; norm_num)]
  norm_num

theorem Dbl.rnd_4338 : Dbl.rnd (4338 / 10000) = Dbl.fin (7814646073413285 / 2 ^ 54) := by
  rw [Dbl.rnd_eq_fin _ (Dbl.small_le _ (by rw [abs_of_nonneg (by norm_num)]; norm_num))]
  congr 1
  rw [Dbl.r64_eq_of_near (4338 / 10000) (-2) 7814646073413285 (by norm_num)
    (by rw [abs_of_nonneg (by norm_num)]; norm_num)
    (by rw [abs_of_nonneg (by norm_num)]; norm_num)
    (by rw [abs_lt]; norm_num)]
  norm_num

theorem Dbl.pinf_not_lt (d : Dbl) : ¬ (Dbl.pinf < d) := by
  intro h
  cases d <;> exact Bool.false_ne_true h

/-- The rounding of a rational is a double or an infinity. -/
theorem Dbl.rnd_cases (q : ℚ) :
    Dbl.rnd q = Dbl.fin (Dbl.r64 q) ∨ Dbl.rnd q = Dbl.pinf ∨ Dbl.rnd q = Dbl.ninf := by
  unfold Dbl.rnd Dbl.round_to
  split_ifs
  · right; left; rfl
  · right; right; rfl
  · left; rfl

/-- The magnitude of a rounded difference of finite doubles: a double or `+inf`. -/
theorem Dbl.fabs_fsub_cases (a b : ℚ) :
    Dbl.fabs (Dbl.fsub (Dbl.fin a) (Dbl.fin b)) = Dbl.fin |Dbl.r64 (a - b)| ∨
      Dbl.fabs (Dbl.fsub (Dbl.fin a) (Dbl.fin b)) = Dbl.pinf := by
  have e : Dbl.fsub (Dbl.fin a) (Dbl.fin b) = Dbl.rnd (a - b) := by
    have : Dbl.fsub (Dbl.fin a) (Dbl.fin b) = Dbl.rnd (a + -b) := rfl
    rw [this, ← sub_eq_add_neg]
  rw [e]
  rcases Dbl.rnd_cases (a - b) with h | h | h
  · left; rw [h]; rfl
  · right; rw [h]; rfl
  · right; rw [h]; rfl

/-- The truncation of the rounded product `n * t` lies between 0 and `n` when `0 < t ≤ 1`. -/
theorem toInt_fscale_between (n : Int) (hn : |n| < 2 ^ 53) (t : ℚ) (h0 : 0 < t) (h1 : t ≤ 1) :
    min 0 n ≤ Dbl.toInt (Dbl.fmul (Dbl.ofInt n) (Dbl.fin t)) ∧
    Dbl.toInt (Dbl.fmul (Dbl.ofInt n) (Dbl.fin t)) ≤ max 0 n := by
  have hnq : |(n : ℚ)| < 2 ^ 53 := by exact_mod_cast hn
  have hb : |(n : ℚ) * t| ≤ 2 ^ 1023 := by
    rw [abs_mul, abs_of_pos h0]
    have : |(n : ℚ)| * t ≤ |(n : ℚ)| := by nlinarith [abs_nonneg (n : ℚ)]
    exact le_trans this (le_trans hnq.le (pow_le_pow_right₀ (by norm_num) (by norm_num)))
  rw [Dbl.ofInt_eq, Dbl.fmul_fin _ _ hb, Dbl.toInt_fin]
  by_cases hn0 : 0 ≤ n
  · have hq : (0 : ℚ) ≤ (n : ℚ) := by exact_mod_cast hn0
    have h2 : (0 : ℚ) ≤ (n : ℚ) * t := mul_nonneg hq h0.le
    have h3 : (n : ℚ) * t ≤ (n : ℚ) := by nlinarith
    have r2 := Dbl.r64_nonneg _ h2
    have r3 := Dbl.r64_le_int _ n hn h3
    rw [if_pos r2, min_eq_left hn0, max_eq_right hn0]
    refine ⟨Int.floor_nonneg.mpr r2, ?_⟩
    have := Int.floor_le (Dbl.r64 ((n : ℚ) * t))
    exact_mod_cast le_trans this r3
  · have hn2 : n < 0 := not_le.mp hn0
    have hq : (n : ℚ) < 0 := by exact_mod_cast hn2
    have h2 : (n : ℚ) * t < 0 := mul_neg_of_neg_of_pos hq h0
    have h3 : (n : ℚ) ≤ (n : ℚ) * t := by nlinarith
    have r2 := Dbl.r64_nonpos _ h2.le
    have r3 := Dbl.int_le_r64 _ n hn h3
    rw [min_eq_right hn2.le, max_eq_left hn2.le]
    split_ifs with hz
    · have : Dbl.r64 ((n : ℚ) * t) = 0 := le_antisymm r2 hz
      rw [this]
      simp
      omega
    · refine ⟨?_, ?_⟩
      · have := Int.le_ceil (Dbl.r64 ((n : ℚ) * t))
        exact_mod_cast le_trans r3 this
      · exact Int.ceil_le.mpr (by exact_mod_cast r2)

namespace background_bonus

/-- The statement of `handle_light_panel` in terms of the quantities it computes. -/
theorem handle_light_panel_eq (fog : Int × Int × Int → Dbl → Dbl → Dbl → Nat) (HEIGHT : Int)
    (a : t_app) (pattern : List Bool) (d : t_ceiling) :
    handle_light_panel fog HEIGHT a pattern d =
      if ¬ (arr_read pattern (d.col.i * 15 + d.col.j) = some true) then (false, [])
      else if Dbl.fabs (Dbl.fsub d.col.dx (Dbl.fin (1 / 2))) < Dbl.rnd (3338 / 10000)
          ∧ Dbl.fabs (Dbl.fsub d.col.dy (Dbl.fin (1 / 2))) < Dbl.rnd (3338 / 10000) then
        (true, [⟨d.x, d.y, fog (240, 240, 245) (panel_scale HEIGHT a d)
          (Dbl.rnd (8 / 100)) (Dbl.rnd (2 / 10))⟩])
      else if panel_dist d < Dbl.rnd (4338 / 10000) then
        if panel_blend d > Dbl.fin 0 then
          (true, [⟨d.x, d.y, fog
            (a.c_color.1 + Dbl.toInt (Dbl.fmul (Dbl.ofInt (235 - a.c_color.1)) (panel_blend d)),
              a.c_color.2.1
                + Dbl.toInt (Dbl.fmul (Dbl.ofInt (235 - a.c_color.2.1)) (panel_blend d)),
              a.c_color.2.2
                + Dbl.toInt (Dbl.fmul (Dbl.ofInt (240 - a.c_color.2.2)) (panel_blend d)))
            (panel_scale HEIGHT a d) (Dbl.rnd (8 / 100)) (Dbl.rnd (2 / 10))⟩])
        else (false, [])
      else (false, []) := rfl

/-- For finite offsets the distance `max_dist` is a double, the magnitude of one of the two
rounded differences, or `+inf`; it is below a finite bound when both magnitudes are. -/
theorem panel_dist_cases (d : t_ceiling) (dx dy : ℚ) (hdx : d.col.dx = Dbl.fin dx)
    (hdy : d.col.dy = Dbl.fin dy) :
    (panel_dist d = Dbl.pinf ∨
      ∃ v : ℚ, panel_dist d = Dbl.fin v ∧
        (v = |Dbl.r64 (dx - 1 / 2)| ∨ v = |Dbl.r64 (dy - 1 / 2)|)) ∧
    ∀ T : ℚ, (Dbl.fabs (Dbl.fsub d.col.dx (Dbl.fin (1 / 2))) < Dbl.fin T
        ∧ Dbl.fabs (Dbl.fsub d.col.dy (Dbl.fin (1 / 2))) < Dbl.fin T) ↔
      panel_dist d < Dbl.fin T := by
  unfold panel_dist
  rw [hdx, hdy]
  rcases Dbl.fabs_fsub_cases dx (1 / 2) with h1 | h1 <;>
  rcases Dbl.fabs_fsub_cases dy (1 / 2) with h2 | h2 <;> rw [h1, h2]
  · rw [Dbl.fmax_fin]
    refine ⟨Or.inr ⟨_, rfl, ?_⟩, ?_⟩
    · rcases max_choice |Dbl.r64 (dx - 1 / 2)| |Dbl.r64 (dy - 1 / 2)| with h | h
      · left; exact h
      · right; exact h
    · intro T
      simp only [Dbl.fin_lt_fin]
      exact max_lt_iff.symm
  · refine ⟨Or.inl rfl, ?_⟩
    intro T
    constructor
    · intro h; exact absurd h.2 (Dbl.pinf_not_lt _)
    · intro h; exact absurd h (Dbl.pinf_not_lt _)
  · refine ⟨Or.inl rfl, ?_⟩
    intro T
    constructor
    · intro h; exact absurd h.1 (Dbl.pinf_not_lt _)
    · intro h; exact absurd h (Dbl.pinf_not_lt _)
  · refine ⟨Or.inl rfl, ?_⟩
    intro T
    constructor
    · intro h; exact absurd h.1 (Dbl.pinf_not_lt _)
    · intro h; exact absurd h (Dbl.pinf_not_lt _)

end background_bonus

theorem Dbl.rnd32_eq_fin (q : ℚ) (h : |q| ≤ 2 ^ 127) :
    Dbl.rnd32 q = Dbl.fin (Dbl.round_val 24 (-126) q) := by
  have hk : ∀ k : Nat, k ≤ 127 → Dbl.round_val 24 (-126) ((2 : ℚ) ^ k) = 2 ^ k := by
    intro k hk
    have := Dbl.round_val_repr 24 (-126) 1 (k : Int) (by norm_num) (by omega)
    simpa using this
  have hr := hk 127 le_rfl
  have h' := abs_le.1 h
  have h1 : |Dbl.round_val 24 (-126) q| ≤ 2 ^ 127 := by
    rw [abs_le]
    constructor
    · have := Dbl.round_val_mono 24 (-126) (by norm_num) h'.1
      rw [Dbl.round_val_neg, hr] at this
      exact this
    · have := Dbl.round_val_mono 24 (-126) (by norm_num) h'.2
      rw [hr] at this
      exact this
  unfold Dbl.rnd32 Dbl.round_to
  rw [if_neg]
  push_neg
  have e : (2 : ℚ) ^ ((127 : Int) + 1) = 2 ^ 128 := by
    have : (127 : Int) + 1 = ((128 : Nat) : Int) := by norm_num
    rw [this, zpow_natCast]
  rw [e]
  exact lt_of_le_of_lt h1 (by norm_num)

/-- The `float` literal `0.005f`. -/
theorem Dbl.rnd32_005 : Dbl.rnd32 (5 / 1000) = Dbl.fin (5368709 / 2 ^ 30) := by
  rw [Dbl.rnd32_eq_fin _ (by rw [abs_of_nonneg (by norm_num)]; norm_num)]
  congr 1
  rw [Dbl.round_val_eq_of_near 24 (-126) (5 / 1000) (-8) 10737418 (by norm_num)
    (by rw [abs_of_nonneg (by norm_num)]; norm_num)
    (by rw [abs_of_nonneg (by norm_num)]; norm_num)
    (by rw [abs_lt]; norm_num)]
  norm_num

/-- The `float` literal `0.995f`. -/
theorem Dbl.rnd32_995 : Dbl.rnd32 (995 / 1000) = Dbl.fin (8346665 / 2 ^ 23) := by
  rw [Dbl.rnd32_eq_fin _ (by rw [abs_of_nonneg (by norm_num)]; norm_num)]
  congr 1
  rw [Dbl.round_val_eq_of_near 24 (-126) (995 / 1000) (-1) 16693330 (by norm_num)
    (by rw [abs_of_nonneg (by norm_num)]; norm_num)
    (by rw [abs_of_nonneg (by norm_num)]; norm_num)
    (by rw [abs_lt]; norm_num)]
  norm_num

/-- The `double` literal `0.8`. -/
theorem Dbl.rnd_08 : Dbl.rnd (8 / 10) = Dbl.fin (3602879701896397 / 2 ^ 52) := by
  rw [Dbl.rnd_eq_fin _ (Dbl.small_le _ (by rw [abs_of_nonneg (by norm_num)]; norm_num))]
  congr 1
  rw [Dbl.r64_eq_of_near (8 / 10) (-1) 7205759403792794 (by norm_num)
    (by rw [abs_of_nonneg (by norm_num)]; norm_num)
    (by rw [abs_of_nonneg (by norm_num)]; norm_num)
    (by rw [abs_lt]; norm_num)]
  norm_num

/-- The cast `(int)` is odd: it truncates toward zero. -/
theorem Dbl.toInt_neg (w : ℚ) : Dbl.toInt (Dbl.fin (-w)) = -Dbl.toInt (Dbl.fin w) := by
  rw [Dbl.toInt_fin, Dbl.toInt_fin]
  rcases lt_trichotomy w 0 with h | h | h
  · rw [if_pos (by linarith), if_neg (by linarith), Int.floor_neg]
  · subst h; simp
  · rw [if_neg (by linarith), if_pos h.le, Int.ceil_neg]

/-- The darkened channel `(int)(c * 0.8)` of a channel `c` within the range of `int`, the
product rounded to binary64, is `4 * c / 5` truncated toward zero. -/
theorem toInt_dark (c : Int) (hc : |c| ≤ 2 ^ 31) :
    Dbl.toInt (Dbl.fmul (Dbl.ofInt c) (Dbl.rnd (8 / 10))) = Int.tdiv (4 * c) 5 := by
  have key : ∀ c : Int, 0 ≤ c → c ≤ 2 ^ 31 →
      Dbl.toInt (Dbl.fin (Dbl.r64 ((c : ℚ) * (3602879701896397 / 2 ^ 52)))) = 4 * c / 5 := by
    intro c h0 h1
    have hq0 : (0 : ℚ) ≤ (c : ℚ) := by exact_mod_cast h0
    have hq1 : (c : ℚ) ≤ 2 ^ 31 := by exact_mod_cast h1
    have hz0 : (0 : ℚ) ≤ (c : ℚ) * (3602879701896397 / 2 ^ 52) := mul_nonneg hq0 (by norm_num)
    have hdiv : (((4 * c / 5 : Int) : ℚ)) ≤ 4 * (c : ℚ) / 5 := by
      have h5 : 5 * (4 * c / 5) ≤ 4 * c := by omega
      have h6 : ((5 * (4 * c / 5) : Int) : ℚ) ≤ ((4 * c : Int) : ℚ) := by exact_mod_cast h5
      push_cast at h6
      linarith
    have hdiv2 : 4 * (c : ℚ) / 5 ≤ ((4 * c / 5 : Int) : ℚ) + 4 / 5 := by
      have h5' : 4 * c ≤ 5 * (4 * c / 5) + 4 := by omega
      have h6 : ((4 * c : Int) : ℚ) ≤ ((5 * (4 * c / 5) + 4 : Int) : ℚ) := by exact_mod_cast h5'
      push_cast at h6
      linarith
    have hn0 : (0 : Int) ≤ 4 * c / 5 := Int.ediv_nonneg (by omega) (by norm_num)
    have hnb : |4 * c / 5| < 2 ^ 53 := by
      rw [abs_of_nonneg hn0]
      have : 4 * c / 5 ≤ 4 * c := Int.ediv_le_self _ (by omega)
      have h2 : (2 : Int) ^ 31 * 4 < 2 ^ 53 := by norm_num
      omega
    have hlow : (((4 * c / 5 : Int) : ℚ)) ≤ Dbl.r64 ((c : ℚ) * (3602879701896397 / 2 ^ 52)) := by
      apply Dbl.int_le_r64 _ _ hnb
      have : 4 * (c : ℚ) / 5 ≤ (c : ℚ) * (3602879701896397 / 2 ^ 52) := by
        have : (4 : ℚ) / 5 ≤ 3602879701896397 / 2 ^ 52 := by norm_num
        nlinarith
      linarith
    have hup : Dbl.r64 ((c : ℚ) * (3602879701896397 / 2 ^ 52)) < ((4 * c / 5 : Int) : ℚ) + 1 := by
      have he := Dbl.r64_sub_le ((c : ℚ) * (3602879701896397 / 2 ^ 52))
      rw [abs_of_nonneg hz0] at he
      have he2 := (abs_le.1 he).2
      have hz1 : (c : ℚ) * (3602879701896397 / 2 ^ 52) ≤ 4 * (c : ℚ) / 5 + 1 / 2 ^ 20 := by
        have : (3602879701896397 : ℚ) / 2 ^ 52 = 4 / 5 + 1 / (5 * 2 ^ 52) := by norm_num
        rw [this]
        have : (c : ℚ) * (1 / (5 * 2 ^ 52)) ≤ 2 ^ 31 * (1 / (5 * 2 ^ 52)) :=
          mul_le_mul_of_nonneg_right hq1 (by norm_num)
        norm_num at this ⊢
        linarith
      have hz2 : (c : ℚ) * (3602879701896397 / 2 ^ 52) ≤ 2 ^ 31 := by
        have : (3602879701896397 : ℚ) / 2 ^ 52 ≤ 1 := by norm_num
        nlinarith
      have hz3 : (c : ℚ) * (3602879701896397 / 2 ^ 52) / 2 ^ 53 ≤ 1 / 2 ^ 22 := by
        have := div_le_div_of_nonneg_right hz2 (by norm_num : (0 : ℚ) ≤ 2 ^ 53)
        norm_num at this ⊢
        linarith
      have hz4 : (1 : ℚ) / 2 ^ 1075 ≤ 1 / 2 ^ 22 := by
        apply one_div_le_one_div_of_le (by norm_num)
        exact pow_le_pow_right₀ (by norm_num) (by norm_num)
      have : (1 : ℚ) / 2 ^ 20 + 1 / 2 ^ 22 + 1 / 2 ^ 22 < 1 / 5 := by norm_num
      linarith
    rw [Dbl.toInt_fin, if_pos (Dbl.r64_nonneg _ hz0), Int.floor_eq_iff]
    exact ⟨hlow, hup⟩
  have hb : ∀ c : Int, |c| ≤ 2 ^ 31 → |(c : ℚ) * (3602879701896397 / 2 ^ 52)| ≤ 2 ^ 1023 := by
    intro c hc
    apply Dbl.small_le
    rw [abs_mul, abs_of_nonneg (by norm_num : (0 : ℚ) ≤ 3602879701896397 / 2 ^ 52)]
    have : |(c : ℚ)| ≤ 2 ^ 31 := by exact_mod_cast hc
    have h2 : (3602879701896397 : ℚ) / 2 ^ 52 ≤ 1 := by norm_num
    nlinarith [abs_nonneg (c : ℚ)]
  rw [Dbl.rnd_08, Dbl.ofInt_eq, Dbl.fmul_fin _ _ (hb c hc)]
  rcases le_total 0 c with h0 | h0
  · rw [key c h0 (by rw [abs_of_nonneg h0] at hc; exact hc)]
    exact (Int.tdiv_eq_ediv (by omega) (by norm_num)).symm
  · have hk := key (-c) (by omega) (by rw [abs_of_nonpos h0] at hc; exact hc)
    have e1 : (c : ℚ) * (3602879701896397 / 2 ^ 52)
        = -(((-c : Int) : ℚ) * (3602879701896397 / 2 ^ 52)) := by push_cast; ring
    rw [e1, Dbl.r64_neg, Dbl.toInt_neg, hk]
    have e2 : 4 * c = -(4 * -c) := by ring
    rw [e2, Int.neg_tdiv, Int.tdiv_eq_ediv (by omega) (by norm_num)]

/-- The rounding of a multiple of `1 / 2 ^ k` with numerator below `2 ^ 53` in magnitude is
exact. -/
theorem Dbl.rnd_exact (q : ℚ) (m : Int) (k : Nat) (hq : q = (m : ℚ) / 2 ^ k)
    (hm : |m| < 2 ^ 53) (hk : k ≤ 1074) : Dbl.rnd q = Dbl.fin q := by
  have hb : |q| ≤ 2 ^ 1023 := by
    rw [hq, abs_div, abs_of_pos (by positivity : (0 : ℚ) < 2 ^ k)]
    have h1 : |(m : ℚ)| < 2 ^ 53 := by exact_mod_cast hm
    have h2 : |(m : ℚ)| / 2 ^ k ≤ |(m : ℚ)| :=
      div_le_self (abs_nonneg _) (one_le_pow₀ (by norm_num))
    have h3 : (2 : ℚ) ^ 53 ≤ 2 ^ 1023 := pow_le_pow_right₀ (by norm_num) (by norm_num)
    linarith
  rw [Dbl.rnd_eq_fin q hb, hq, Dbl.r64_dyadic m k hm hk]

theorem Dbl.fadd_exact (a b : ℚ) (m : Int) (k : Nat) (hq : a + b = (m : ℚ) / 2 ^ k)
    (hm : |m| < 2 ^ 53) (hk : k ≤ 1074) : Dbl.fadd (Dbl.fin a) (Dbl.fin b) = Dbl.fin (a + b) :=
  Dbl.rnd_exact (a + b) m k hq hm hk

theorem Dbl.fsub_exact (a b : ℚ) (m : Int) (k : Nat) (hq : a - b = (m : ℚ) / 2 ^ k)
    (hm : |m| < 2 ^ 53) (hk : k ≤ 1074) : Dbl.fsub (Dbl.fin a) (Dbl.fin b) = Dbl.fin (a - b) := by
  have : Dbl.fsub (Dbl.fin a) (Dbl.fin b) = Dbl.rnd (a + -b) := rfl
  rw [this, ← sub_eq_add_neg]
  exact Dbl.rnd_exact (a - b) m k hq hm hk

theorem Dbl.fmul_exact (a b : ℚ) (m : Int) (k : Nat) (hq : a * b = (m : ℚ) / 2 ^ k)
    (hm : |m| < 2 ^ 53) (hk : k ≤ 1074) : Dbl.fmul (Dbl.fin a) (Dbl.fin b) = Dbl.fin (a * b) :=
  Dbl.rnd_exact (a * b) m k hq hm hk

theorem Dbl.fdiv_exact (a b : ℚ) (m : Int) (k : Nat) (hb : b ≠ 0)
    (hq : a / b = (m : ℚ) / 2 ^ k) (hm : |m| < 2 ^ 53) (hk : k ≤ 1074) :
    Dbl.fdiv (Dbl.fin a) (Dbl.fin b) = Dbl.fin (a / b) := by
  have : Dbl.fdiv (Dbl.fin a) (Dbl.fin b) = Dbl.rndd (if b = 0 then
      (if a = 0 then Dbl.nan else if 0 < a then Dbl.pinf else Dbl.ninf)
      else Dbl.fin (a / b)) := rfl
  rw [this, if_neg hb]
  exact Dbl.rnd_exact (a / b) m k hq hm hk

/-! ## Floor and ceiling scale -/

/-- C18, failing input: for the scanline `y = (int)(HEIGHT / 2 - view_z)`, the first row
that `ft_draw_background` sends to `draw_floor`, the denominator `2 * (y - h)` is zero and
is not floored: `draw_floor` passes the scale `r = +inf` to `fog` for every pixel of the
row, and these pixels are among those `ft_draw_background` writes. -/
theorem draw_floor_horizon_row (fog : Int × Int × Int → Dbl → Dbl → Dbl → Nat)
    (grid : t_vec2 → background_bonus.t_col) (WIDTH HEIGHT : Int)
    (app : background_bonus.t_app) (cam : Int → Dbl) (light_panel : List Bool) (vz : ℚ)
    (hvz : app.cam.view_z = Dbl.fin vz) (hH : 0 < HEIGHT)
    (h0 : 0 ≤ Dbl.toInt (Dbl.fsub (Dbl.ofInt (Int.tdiv HEIGHT 2)) (Dbl.fin vz)))
    (h1 : Dbl.toInt (Dbl.fsub (Dbl.ofInt (Int.tdiv HEIGHT 2)) (Dbl.fin vz)) < HEIGHT) :
    background_bonus.draw_floor fog WIDTH HEIGHT app
        (Dbl.toInt (Dbl.fsub (Dbl.ofInt (Int.tdiv HEIGHT 2)) (Dbl.fin vz))) =
      (List.range WIDTH.toNat).map (fun (x : Nat) =>
        ⟨(x : Int), Dbl.toInt (Dbl.fsub (Dbl.ofInt (Int.tdiv HEIGHT 2)) (Dbl.fin vz)),
          fog app.floor_color Dbl.pinf (Dbl.rnd (3 / 10)) (Dbl.rnd (2 / 10))⟩) ∧
    ∀ p ∈ background_bonus.draw_floor fog WIDTH HEIGHT app
        (Dbl.toInt (Dbl.fsub (Dbl.ofInt (Int.tdiv HEIGHT 2)) (Dbl.fin vz))),
      p ∈ background_bonus.ft_draw_background fog grid WIDTH HEIGHT app cam light_panel := by
  have hHq : (0 : ℚ) < (HEIGHT : ℚ) := by exact_mod_cast hH
  constructor
  · have hr : Dbl.fdiv (Dbl.ofInt HEIGHT) (Dbl.fmul (Dbl.fin 2)
        (Dbl.ofInt (Dbl.toInt (Dbl.fsub (Dbl.ofInt (Int.tdiv HEIGHT 2)) (Dbl.fin vz))
          - Dbl.toInt (Dbl.fsub (Dbl.ofInt (Int.tdiv HEIGHT 2)) (Dbl.fin vz))))) = Dbl.pinf := by
      rw [sub_self]
      simp only [Dbl.ofInt_eq, Int.cast_zero, Dbl.fmul_zero_right]
      exact Dbl.fdiv_zero_of_pos _ hHq
    unfold background_bonus.draw_floor
    simp only [hvz, hr]
  · intro p hp
    simp only [background_bonus.ft_draw_background, List.mem_flatMap, List.mem_range]
    refine ⟨(Dbl.toInt (Dbl.fsub (Dbl.ofInt (Int.tdiv HEIGHT 2)) (Dbl.fin vz))).toNat,
      by omega, ?_⟩
    rw [hvz, Int.toNat_of_nonneg h0, if_neg (lt_irrefl _)]
    exact hp

/-- C18 at `HEIGHT = 100`, `WIDTH = 2`, view shift 0: row 50 is drawn by `draw_floor` with
the scale `+inf`. -/
theorem draw_floor_horizon_row_witness :
    background_bonus.draw_floor fog_sample 2 100 level_background 50 =
      [⟨0, 50, fog_sample (50, 50, 50) Dbl.pinf (Dbl.rnd (3 / 10)) (Dbl.rnd (2 / 10))⟩,
        ⟨1, 50, fog_sample (50, 50, 50) Dbl.pinf (Dbl.rnd (3 / 10)) (Dbl.rnd (2 / 10))⟩] ∧
    ∀ p ∈ background_bonus.draw_floor fog_sample 2 100 level_background 50,
      p ∈ background_bonus.ft_draw_background fog_sample grid_sample 2 100 level_background
        (fun _ => Dbl.fin 0) [] := by
  have ht : Dbl.toInt (Dbl.fsub (Dbl.ofInt (Int.tdiv 100 2)) (Dbl.fin 0)) = 50 := by
    have : Int.tdiv 100 2 = 50 := by decide
    rw [this, Dbl.fsub_int_zero 50 (by norm_num), Dbl.toInt_int]
  have T := draw_floor_horizon_row fog_sample grid_sample 2 100 level_background
    (fun _ => Dbl.fin 0) [] 0 rfl (by decide) (by rw [ht]; decide) (by rw [ht]; decide)
  rw [ht] at T
  exact T

/-! ## Light panels of the ceiling -/

theorem Dbl.fin_le_fin_iff (a b : ℚ) : Dbl.fin a ≤ Dbl.fin b ↔ a ≤ b := by
  show Dbl.le (Dbl.fin a) (Dbl.fin b) = true ↔ a ≤ b
  simp only [Dbl.le, decide_eq_true_eq]

namespace background_bonus

/-- In the band between the two thresholds the distance `max_dist` is at most one unit in
the last place below the outer threshold, and the blend factor the machine computes,
`1.0 - (max_dist - 0.3338) * 10.0`, lies in `(0, 1]`. -/
theorem panel_blend_band (d : t_ceiling) (dx dy : ℚ) (hdx : d.col.dx = Dbl.fin dx)
    (hdy : d.col.dy = Dbl.fin dy)
    (h1 : Dbl.rnd (3338 / 10000) ≤ panel_dist d)
    (h2 : panel_dist d < Dbl.rnd (4338 / 10000)) :
    ∃ t : ℚ, panel_blend d = Dbl.fin t ∧ 0 < t ∧ t ≤ 1 := by
  obtain ⟨hc, -⟩ := panel_dist_cases d dx dy hdx hdy
  rcases hc with hc | ⟨v, hv, hq⟩
  · rw [hc] at h2
    exact absurd h2 (Dbl.pinf_not_lt _)
  have hgrid : ∃ q : ℚ, v = |Dbl.r64 q| := by
    rcases hq with h | h
    · exact ⟨_, h⟩
    · exact ⟨_, h⟩
  obtain ⟨q, hvq⟩ := hgrid
  unfold panel_blend
  rw [hv, Dbl.rnd_3338] at h1 ⊢
  rw [hv, Dbl.rnd_4338] at h2
  rw [Dbl.fin_le_fin_iff] at h1
  rw [Dbl.fin_lt_fin] at h2
  -- the distance is a multiple of 2 ^ (-54)
  obtain ⟨n, hn⟩ := Dbl.r64_grid q (-2) (by norm_num)
    (by rw [← hvq]; refine le_trans ?_ h1; norm_num)
    (by rw [← hvq]; refine lt_of_lt_of_le h2 ?_; norm_num)
  rw [← hvq] at hn
  have hn' : v = (n : ℚ) / 2 ^ 54 := by
    rw [hn]
    norm_num
    ring
  have hn1 : (6013206222465086 : Int) ≤ n := by
    have : ((6013206222465086 : Int) : ℚ) ≤ (n : ℚ) := by
      rw [hn'] at h1
      have h3 : (3006603111232543 : ℚ) / 2 ^ 53 * 2 ^ 54 ≤ (n : ℚ) / 2 ^ 54 * 2 ^ 54 :=
        mul_le_mul_of_nonneg_right h1 (by norm_num)
      norm_num at h3 ⊢
      linarith
    exact_mod_cast this
  have hn2 : n ≤ (7814646073413284 : Int) := by
    have : (n : ℚ) < ((7814646073413285 : Int) : ℚ) := by
      rw [hn'] at h2
      have h3 : (n : ℚ) / 2 ^ 54 * 2 ^ 54 < (7814646073413285 : ℚ) / 2 ^ 54 * 2 ^ 54 :=
        mul_lt_mul_of_pos_right h2 (by norm_num)
      norm_num at h3 ⊢
      linarith
    have : n < 7814646073413285 := by exact_mod_cast this
    omega
  -- the difference max_dist - 0.3338 is exact
  have hD : v - 3006603111232543 / 2 ^ 53 = ((n - 6013206222465086 : Int) : ℚ) / 2 ^ 54 := by
    rw [hn']; push_cast; ring
  have hDr : Dbl.r64 (v - 3006603111232543 / 2 ^ 53) = v - 3006603111232543 / 2 ^ 53 := by
    rw [hD]
    exact Dbl.r64_dyadic _ 54 (by rw [abs_lt]; constructor <;> omega) (by norm_num)
  have hD0 : 0 ≤ v - 3006603111232543 / 2 ^ 53 := by linarith
  have hD1 : v - 3006603111232543 / 2 ^ 53 ≤ 1801439850948198 / 2 ^ 54 := by
    rw [hD]
    have : ((n - 6013206222465086 : Int) : ℚ) ≤ ((1801439850948198 : Int) : ℚ) := by
      exact_mod_cast (by omega : n - 6013206222465086 ≤ 1801439850948198)
    have h3 := div_le_div_of_nonneg_right this (by norm_num : (0 : ℚ) ≤ 2 ^ 54)
    norm_num at h3 ⊢
    linarith
  have hX0 : 0 ≤ Dbl.r64 ((v - 3006603111232543 / 2 ^ 53) * 10) :=
    Dbl.r64_nonneg _ (by linarith)
  have hX1 : Dbl.r64 ((v - 3006603111232543 / 2 ^ 53) * 10) ≤ 4503599627370495 / 2 ^ 52 := by
    have h3 : (v - 3006603111232543 / 2 ^ 53) * 10 ≤ ((4503599627370495 : Int) : ℚ) / 2 ^ 52 := by
      norm_num
      linarith
    have h4 := Dbl.r64_mono h3
    rw [Dbl.r64_dyadic _ 52 (by norm_num) (by norm_num)] at h4
    norm_num at h4 ⊢
    linarith
  have hb1 : |v - 3006603111232543 / 2 ^ 53| ≤ 2 ^ 1023 :=
    Dbl.small_le _ (by rw [abs_of_nonneg hD0]; refine le_trans hD1 ?_; norm_num)
  have hb2 : |(v - 3006603111232543 / 2 ^ 53) * 10| ≤ 2 ^ 1023 :=
    Dbl.small_le _ (by rw [abs_of_nonneg (by linarith)]; norm_num; linarith)
  have hb3 : |1 - Dbl.r64 ((v - 3006603111232543 / 2 ^ 53) * 10)| ≤ 2 ^ 1023 :=
    Dbl.small_le _ (by
      rw [abs_of_nonneg (by norm_num at hX1 ⊢; linarith)]
      norm_num
      linarith)
  rw [Dbl.fsub_fin _ _ hb1, hDr, Dbl.fmul_fin _ _ hb2, Dbl.fsub_fin _ _ hb3]
  refine ⟨_, rfl, ?_, ?_⟩
  · have h3 : ((1 : Int) : ℚ) / 2 ^ 52
        ≤ 1 - Dbl.r64 ((v - 3006603111232543 / 2 ^ 53) * 10) := by
      norm_num at hX1 ⊢
      linarith
    have h4 := Dbl.r64_mono h3
    rw [Dbl.r64_dyadic _ 52 (by norm_num) (by norm_num)] at h4
    refine lt_of_lt_of_le ?_ h4
    norm_num
  · have h3 : 1 - Dbl.r64 ((v - 3006603111232543 / 2 ^ 53) * 10) ≤ ((1 : Int) : ℚ) := by
      norm_num
      exact hX0
    have := Dbl.r64_le_int _ 1 (by norm_num) h3
    simpa using this

end background_bonus

/-- C26: for finite offsets `dx`, `dy` inside the cell and base channels within
`[-2 ^ 30, 2 ^ 30]`, with `M` the double `fmax(fabs(dx - 0.5), fabs(dy - 0.5))` the function
computes and the thresholds the `double` literals `0.3338` and `0.4338` of the source
(`3006603111232543 / 2 ^ 53` and `7814646073413285 / 2 ^ 54`): `handle_light_panel` returns
true (and then writes one pixel) exactly when the pattern entry `pattern[i * 15 + j]` is
set and `M < 0.4338`, and writes nothing when it returns false; for `M < 0.3338` the
colour is `fog` of `(240, 240, 245)`; in the band `0.3338 ≤ M < 0.4338` the blend factor
`t = 1.0 - (M - 0.3338) * 10.0`, as rounded by the machine, lies in `(0, 1]`, so the guard
`i > 0` does not reject, and each blended channel `c + (int)((target - c) * t)` lies
between the base channel `c` and its target (235, 235, 240). -/
theorem handle_light_panel_band (fog : Int × Int × Int → Dbl → Dbl → Dbl → Nat) (HEIGHT : Int)
    (a : background_bonus.t_app) (pattern : List Bool) (d : background_bonus.t_ceiling)
    (dx dy : ℚ) (hdx : d.col.dx = Dbl.fin dx) (hdy : d.col.dy = Dbl.fin dy)
    (hc1 : |a.c_color.1| ≤ 2 ^ 30) (hc2 : |a.c_color.2.1| ≤ 2 ^ 30)
    (hc3 : |a.c_color.2.2| ≤ 2 ^ 30) :
    (Dbl.rnd (3338 / 10000) = Dbl.fin (3006603111232543 / 2 ^ 53) ∧
      Dbl.rnd (4338 / 10000) = Dbl.fin (7814646073413285 / 2 ^ 54)) ∧
    ((background_bonus.handle_light_panel fog HEIGHT a pattern d).1 = true ↔
      (arr_read pattern (d.col.i * 15 + d.col.j) = some true ∧
        background_bonus.panel_dist d < Dbl.rnd (4338 / 10000))) ∧
    ((background_bonus.handle_light_panel fog HEIGHT a pattern d).1 = false →
      (background_bonus.handle_light_panel fog HEIGHT a pattern d).2 = []) ∧
    (arr_read pattern (d.col.i * 15 + d.col.j) = some true →
      background_bonus.panel_dist d < Dbl.rnd (3338 / 10000) →
      background_bonus.handle_light_panel fog HEIGHT a pattern d =
        (true, [⟨d.x, d.y, fog (240, 240, 245) (background_bonus.panel_scale HEIGHT a d)
          (Dbl.rnd (8 / 100)) (Dbl.rnd (2 / 10))⟩])) ∧
    (arr_read pattern (d.col.i * 15 + d.col.j) = some true →
      Dbl.rnd (3338 / 10000) ≤ background_bonus.panel_dist d →
      background_bonus.panel_dist d < Dbl.rnd (4338 / 10000) →
      ∃ t : ℚ, background_bonus.panel_blend d = Dbl.fin t ∧ 0 < t ∧ t ≤ 1 ∧
        background_bonus.handle_light_panel fog HEIGHT a pattern d =
          (true, [⟨d.x, d.y, fog
            (a.c_color.1 + Dbl.toInt (Dbl.fmul (Dbl.ofInt (235 - a.c_color.1)) (Dbl.fin t)),
              a.c_color.2.1
                + Dbl.toInt (Dbl.fmul (Dbl.ofInt (235 - a.c_color.2.1)) (Dbl.fin t)),
              a.c_color.2.2
                + Dbl.toInt (Dbl.fmul (Dbl.ofInt (240 - a.c_color.2.2)) (Dbl.fin t)))
            (background_bonus.panel_scale HEIGHT a d) (Dbl.rnd (8 / 100))
            (Dbl.rnd (2 / 10))⟩]) ∧
        min a.c_color.1 235
            ≤ a.c_color.1 + Dbl.toInt (Dbl.fmul (Dbl.ofInt (235 - a.c_color.1)) (Dbl.fin t)) ∧
        a.c_color.1 + Dbl.toInt (Dbl.fmul (Dbl.ofInt (235 - a.c_color.1)) (Dbl.fin t))
            ≤ max a.c_color.1 235 ∧
        min a.c_color.2.1 235
            ≤ a.c_color.2.1
              + Dbl.toInt (Dbl.fmul (Dbl.ofInt (235 - a.c_color.2.1)) (Dbl.fin t)) ∧
        a.c_color.2.1 + Dbl.toInt (Dbl.fmul (Dbl.ofInt (235 - a.c_color.2.1)) (Dbl.fin t))
            ≤ max a.c_color.2.1 235 ∧
        min a.c_color.2.2 240
            ≤ a.c_color.2.2
              + Dbl.toInt (Dbl.fmul (Dbl.ofInt (240 - a.c_color.2.2)) (Dbl.fin t)) ∧
        a.c_color.2.2 + Dbl.toInt (Dbl.fmul (Dbl.ofInt (240 - a.c_color.2.2)) (Dbl.fin t))
            ≤ max a.c_color.2.2 240) := by
  have key := background_bonus.handle_light_panel_eq fog HEIGHT a pattern d
  obtain ⟨hcases, hM⟩ := background_bonus.panel_dist_cases d dx dy hdx hdy
  have hM1 := hM (3006603111232543 / 2 ^ 53)
  rw [← Dbl.rnd_3338] at hM1
  -- below the inner threshold is below the outer one
  have hlt : background_bonus.panel_dist d < Dbl.rnd (3338 / 10000) →
      background_bonus.panel_dist d < Dbl.rnd (4338 / 10000) := by
    intro h
    rcases hcases with hc | ⟨v, hv, -⟩
    · rw [hc] at h; exact absurd h (Dbl.pinf_not_lt _)
    · rw [hv, Dbl.rnd_3338, Dbl.fin_lt_fin] at h
      rw [hv, Dbl.rnd_4338, Dbl.fin_lt_fin]
      refine lt_trans h ?_
      norm_num
  -- outside the inner disc the inner threshold is not above the distance
  have hge : ¬ background_bonus.panel_dist d < Dbl.rnd (3338 / 10000) →
      background_bonus.panel_dist d < Dbl.rnd (4338 / 10000) →
      Dbl.rnd (3338 / 10000) ≤ background_bonus.panel_dist d := by
    intro h h2
    rcases hcases with hc | ⟨v, hv, -⟩
    · rw [hc] at h2; exact absurd h2 (Dbl.pinf_not_lt _)
    · rw [hv, Dbl.rnd_3338, Dbl.fin_lt_fin] at h
      rw [hv, Dbl.rnd_3338, Dbl.fin_le_fin_iff]
      exact not_lt.1 h
  have hband : ∀ (_ : Dbl.rnd (3338 / 10000) ≤ background_bonus.panel_dist d)
      (_ : background_bonus.panel_dist d < Dbl.rnd (4338 / 10000)),
      ¬ background_bonus.panel_dist d < Dbl.rnd (3338 / 10000) := by
    intro h h2 h3
    rcases hcases with hc | ⟨v, hv, -⟩
    · rw [hc] at h2; exact absurd h2 (Dbl.pinf_not_lt _)
    · rw [hv, Dbl.rnd_3338, Dbl.fin_lt_fin] at h3
      rw [hv, Dbl.rnd_3338, Dbl.fin_le_fin_iff] at h
      linarith
  refine ⟨⟨Dbl.rnd_3338, Dbl.rnd_4338⟩, ?_, ?_, ?_, ?_⟩
  · rw [key]
    by_cases hp : arr_read pattern (d.col.i * 15 + d.col.j) = some true
    · rw [if_neg (not_not.mpr hp)]
      by_cases hin : background_bonus.panel_dist d < Dbl.rnd (3338 / 10000)
      · rw [if_pos (hM1.mpr hin)]
        exact ⟨fun _ => ⟨hp, hlt hin⟩, fun _ => rfl⟩
      · rw [if_neg (fun h => hin (hM1.mp h))]
        by_cases hb : background_bonus.panel_dist d < Dbl.rnd (4338 / 10000)
        · obtain ⟨t, ht, ht0, -⟩ := background_bonus.panel_blend_band d dx dy hdx hdy
            (hge hin hb) hb
          have hpos : background_bonus.panel_blend d > Dbl.fin 0 := by
            rw [ht, gt_iff_lt, Dbl.fin_lt_fin]; exact ht0
          rw [if_pos hb, if_pos hpos]
          exact ⟨fun _ => ⟨hp, hb⟩, fun _ => rfl⟩
        · rw [if_neg hb]
          exact ⟨fun h => (Bool.false_ne_true h).elim, fun h => absurd h.2 hb⟩
    · rw [if_pos hp]
      exact ⟨fun h => (Bool.false_ne_true h).elim, fun h => absurd h.1 hp⟩
  · rw [key]
    split_ifs <;> intro h <;> first | rfl | cases h
  · intro hp h1
    rw [key, if_neg (not_not.mpr hp), if_pos (hM1.mpr h1)]
  · intro hp h1 h2
    have hin := hband h1 h2
    obtain ⟨t, ht, ht0, ht1⟩ := background_bonus.panel_blend_band d dx dy hdx hdy h1 h2
    have hpos : background_bonus.panel_blend d > Dbl.fin 0 := by
      rw [ht, gt_iff_lt, Dbl.fin_lt_fin]; exact ht0
    refine ⟨t, ht, ht0, ht1, ?_, ?_⟩
    · rw [key, if_neg (not_not.mpr hp), if_neg (fun h => hin (hM1.mp h)), if_pos h2,
        if_pos hpos, ht]
    · have a1 := abs_le.1 hc1
      have a2 := abs_le.1 hc2
      have a3 := abs_le.1 hc3
      have b1 := toInt_fscale_between (235 - a.c_color.1)
        (by rw [abs_lt]; constructor <;> omega) t ht0 ht1
      have b2 := toInt_fscale_between (235 - a.c_color.2.1)
        (by rw [abs_lt]; constructor <;> omega) t ht0 ht1
      have b3 := toInt_fscale_between (240 - a.c_color.2.2)
        (by rw [abs_lt]; constructor <;> omega) t ht0 ht1
      refine ⟨?_, ?_, ?_, ?_, ?_, ?_⟩
      · have := b1.1
        omega
      · have := b1.2
        omega
      · have := b2.1
        omega
      · have := b2.2
        omega
      · have := b3.1
        omega
      · have := b3.2
        omega

theorem panel_dist_band_cell :
    background_bonus.panel_dist band_cell = Dbl.rnd (3338 / 10000) := by
  rw [Dbl.rnd_3338]
  have e1 : Dbl.fsub (Dbl.fin (7510202738603039 / 2 ^ 53)) (Dbl.fin (1 / 2))
      = Dbl.fin (3006603111232543 / 2 ^ 53) := by
    rw [Dbl.fsub_exact _ _ 3006603111232543 53 (by norm_num) (by norm_num) (by norm_num)]
    congr 1
    norm_num
  have e2 : Dbl.fsub (Dbl.fin (1 / 2)) (Dbl.fin (1 / 2)) = Dbl.fin 0 := by
    rw [Dbl.fsub_exact _ _ 0 0 (by norm_num) (by norm_num) (by norm_num)]
    congr 1
    norm_num
  unfold background_bonus.panel_dist band_cell
  simp only [e1, e2, Dbl.fabs_fin, Dbl.fmax_fin]
  congr 1
  rw [abs_of_nonneg (by norm_num), abs_zero, max_eq_left (by norm_num)]

theorem panel_blend_band_cell : background_bonus.panel_blend band_cell = Dbl.fin 1 := by
  unfold background_bonus.panel_blend
  rw [panel_dist_band_cell, Dbl.rnd_3338]
  rw [Dbl.fsub_exact _ _ 0 0 (by norm_num) (by norm_num) (by norm_num)]
  rw [Dbl.fmul_exact _ _ 0 0 (by norm_num) (by norm_num) (by norm_num)]
  rw [Dbl.fsub_exact _ _ 1 0 (by norm_num) (by norm_num) (by norm_num)]
  congr 1
  norm_num

/-- C26 at the offsets `(0.5 + 0.3338, 0.5)`, the first a double, in a cell whose pattern
entry is set, base ceiling colour `(100, 100, 100)`: the distance is the `double` literal
`0.3338` itself, not below it, so the point is in the band; the blend factor is 1 and the
first channel of the pixel is 235. -/
theorem handle_light_panel_band_witness :
    background_bonus.panel_dist band_cell = Dbl.rnd (3338 / 10000) ∧
    background_bonus.handle_light_panel fog_channel 100 level_background [true] band_cell
      = (true, [⟨3, 7, 235⟩]) := by
  have T := handle_light_panel_band fog_channel 100 level_background [true] band_cell
    (7510202738603039 / 2 ^ 53) (1 / 2) rfl rfl (by decide) (by decide) (by decide)
  have h1 : Dbl.rnd (3338 / 10000) ≤ background_bonus.panel_dist band_cell := by
    rw [panel_dist_band_cell, Dbl.rnd_3338, Dbl.fin_le_fin_iff]
  have h2 : background_bonus.panel_dist band_cell < Dbl.rnd (4338 / 10000) := by
    rw [panel_dist_band_cell, Dbl.rnd_3338, Dbl.rnd_4338, Dbl.fin_lt_fin]
    norm_num
  obtain ⟨t, ht, -, -, hv, -⟩ := T.2.2.2.2 (by decide) h1 h2
  rw [panel_blend_band_cell] at ht
  have ht1 : t = 1 := (Dbl.fin.inj ht).symm
  subst ht1
  refine ⟨panel_dist_band_cell, ?_⟩
  rw [hv]
  have e : Dbl.fmul (Dbl.ofInt (235 - level_background.c_color.1)) (Dbl.fin 1)
      = Dbl.fin ((135 : Int) : ℚ) := by
    have : level_background.c_color.1 = 100 := rfl
    rw [this, Dbl.ofInt_eq,
      Dbl.fmul_exact _ _ 135 0 (by norm_num) (by norm_num) (by norm_num)]
    congr 1
    norm_num
  have hc : fog_channel
      (level_background.c_color.1
          + Dbl.toInt (Dbl.fmul (Dbl.ofInt (235 - level_background.c_color.1)) (Dbl.fin 1)),
        level_background.c_color.2.1
          + Dbl.toInt (Dbl.fmul (Dbl.ofInt (235 - level_background.c_color.2.1)) (Dbl.fin 1)),
        level_background.c_color.2.2
          + Dbl.toInt (Dbl.fmul (Dbl.ofInt (240 - level_background.c_color.2.2)) (Dbl.fin 1)))
      (background_bonus.panel_scale 100 level_background band_cell) (Dbl.rnd (8 / 100))
      (Dbl.rnd (2 / 10)) = 235 := by
    show (level_background.c_color.1
      + Dbl.toInt (Dbl.fmul (Dbl.ofInt (235 - level_background.c_color.1)) (Dbl.fin 1))).toNat
        = 235
    rw [e, Dbl.toInt_int]
    rfl
  rw [hc]
  rfl

/-! ## Priority of the ceiling colours -/

namespace background_bonus

theorem edge_mask_eq_zero_iff (a b c d : Bool) :
    Int.lor (Int.lor (Int.lor (bool_to_int a) (bool_to_int b)) (bool_to_int c)) (bool_to_int d)
      = 0 ↔ (a = false ∧ b = false ∧ c = false ∧ d = false) := by
  cases a <;> cases b <;> cases c <;> cases d <;> decide

/-- The bitmask of `handle_edge_case` is non-zero exactly when one of the four boundary
predicates holds, and the function then writes the darkened colour. -/
theorem handle_edge_case_eq (fog : Int × Int × Int → Dbl → Dbl → Dbl → Nat) (HEIGHT : Int)
    (app : t_app) (x y : Int) (frac : t_vec2) :
    handle_edge_case fog HEIGHT app x y frac =
      if near_edge frac then
        (true, [⟨x, y, fog
          (Dbl.toInt (Dbl.fmul (Dbl.ofInt app.c_color.1) (Dbl.rnd (8 / 10))),
            Dbl.toInt (Dbl.fmul (Dbl.ofInt app.c_color.2.1) (Dbl.rnd (8 / 10))),
            Dbl.toInt (Dbl.fmul (Dbl.ofInt app.c_color.2.2) (Dbl.rnd (8 / 10))))
          (ceiling_scale HEIGHT app y) (Dbl.rnd (4 / 10)) (Dbl.rnd (2 / 10))⟩])
      else (false, []) := by
  have hm := edge_mask_eq_zero_iff (decide (frac.x < Dbl.rnd32 (5 / 1000)))
    (decide (frac.x > Dbl.rnd32 (995 / 1000))) (decide (frac.y < Dbl.rnd32 (5 / 1000)))
    (decide (frac.y > Dbl.rnd32 (995 / 1000)))
  simp only [decide_eq_false_iff_not] at hm
  by_cases h : near_edge frac
  · have hne : ¬ (Int.lor (Int.lor (Int.lor
        (bool_to_int (decide (frac.x < Dbl.rnd32 (5 / 1000))))
        (bool_to_int (decide (frac.x > Dbl.rnd32 (995 / 1000)))))
        (bool_to_int (decide (frac.y < Dbl.rnd32 (5 / 1000)))))
        (bool_to_int (decide (frac.y > Dbl.rnd32 (995 / 1000)))) = 0) := by
      rw [hm]
      unfold near_edge at h
      tauto
    rw [if_pos h]
    unfold handle_edge_case
    simp only [if_neg hne]
    rfl
  · have he : Int.lor (Int.lor (Int.lor
        (bool_to_int (decide (frac.x < Dbl.rnd32 (5 / 1000))))
        (bool_to_int (decide (frac.x > Dbl.rnd32 (995 / 1000)))))
        (bool_to_int (decide (frac.y < Dbl.rnd32 (5 / 1000)))))
        (bool_to_int (decide (frac.y > Dbl.rnd32 (995 / 1000)))) = 0 := by
      rw [hm]
      unfold near_edge at h
      tauto
    rw [if_neg h]
    unfold handle_edge_case
    simp only [if_pos he]

/-- Whatever its arguments, `handle_light_panel` writes one pixel at `(d.x, d.y)` when it
returns true and nothing when it returns false. -/
theorem handle_light_panel_pixels (fog : Int × Int × Int → Dbl → Dbl → Dbl → Nat)
    (HEIGHT : Int) (a : t_app) (pattern : List Bool) (d : t_ceiling) :
    ((handle_light_panel fog HEIGHT a pattern d).1 = true →
      ∃ col, (handle_light_panel fog HEIGHT a pattern d).2 = [⟨d.x, d.y, col⟩]) ∧
    ((handle_light_panel fog HEIGHT a pattern d).1 = false →
      (handle_light_panel fog HEIGHT a pattern d).2 = []) := by
  unfold handle_light_panel
  simp only []
  split_ifs <;> constructor <;> intro h <;> first | exact ⟨_, rfl⟩ | rfl | simp at h

theorem draw_ceiling_eq (fog : Int × Int × Int → Dbl → Dbl → Dbl → Nat)
    (calc0 : t_vec2 → t_col) (WIDTH HEIGHT : Int) (app : t_app) (y : Int)
    (cam_x_table : Int → Dbl) (light_panel : List Bool) :
    draw_ceiling fog calc0 WIDTH HEIGHT app y cam_x_table light_panel =
      (List.range WIDTH.toNat).flatMap (fun (xn : Nat) =>
        if (handle_edge_case fog HEIGHT app xn y
            (ceiling_cell calc0 HEIGHT app y cam_x_table xn).frac).1 = true then
          (handle_edge_case fog HEIGHT app xn y
            (ceiling_cell calc0 HEIGHT app y cam_x_table xn).frac).2
        else if (handle_light_panel fog HEIGHT app light_panel
            (ceiling_cell calc0 HEIGHT app y cam_x_table xn)).1 = true then
          (handle_light_panel fog HEIGHT app light_panel
            (ceiling_cell calc0 HEIGHT app y cam_x_table xn)).2
        else [⟨(xn : Int), y, fog app.c_color (ceiling_scale HEIGHT app y) (Dbl.rnd (4 / 10))
          (Dbl.rnd (2 / 10))⟩]) := rfl

theorem flatMap_singletons {β : Type} (l : List Nat) (f : Nat → List β) (g : Nat → β)
    (h : ∀ n, f n = [g n]) : l.flatMap f = l.map g := by
  induction l with
  | nil => rfl
  | cons a l ih =>
    rw [List.flatMap_cons, List.map_cons, ih, h a]
    rfl

/-- The pixels `draw_ceiling` writes for one column: a single pixel, whose colour follows
the priority edge, light panel, flat colour. -/
theorem draw_ceiling_column (fog : Int × Int × Int → Dbl → Dbl → Dbl → Nat)
    (calc0 : t_vec2 → t_col) (HEIGHT : Int) (app : t_app) (y : Int)
    (cam_x_table : Int → Dbl) (light_panel : List Bool) (xn : Nat) :
    ∃ c : Nat,
      (if (handle_edge_case fog HEIGHT app xn y
            (ceiling_cell calc0 HEIGHT app y cam_x_table xn).frac).1 = true then
          (handle_edge_case fog HEIGHT app xn y
            (ceiling_cell calc0 HEIGHT app y cam_x_table xn).frac).2
        else if (handle_light_panel fog HEIGHT app light_panel
            (ceiling_cell calc0 HEIGHT app y cam_x_table xn)).1 = true then
          (handle_light_panel fog HEIGHT app light_panel
            (ceiling_cell calc0 HEIGHT app y cam_x_table xn)).2
        else [⟨(xn : Int), y, fog app.c_color (ceiling_scale HEIGHT app y) (Dbl.rnd (4 / 10))
          (Dbl.rnd (2 / 10))⟩]) = [⟨(xn : Int), y, c⟩] ∧
      (near_edge (ceiling_cell calc0 HEIGHT app y cam_x_table xn).frac →
        c = fog
          (Dbl.toInt (Dbl.fmul (Dbl.ofInt app.c_color.1) (Dbl.rnd (8 / 10))),
            Dbl.toInt (Dbl.fmul (Dbl.ofInt app.c_color.2.1) (Dbl.rnd (8 / 10))),
            Dbl.toInt (Dbl.fmul (Dbl.ofInt app.c_color.2.2) (Dbl.rnd (8 / 10))))
          (ceiling_scale HEIGHT app y) (Dbl.rnd (4 / 10)) (Dbl.rnd (2 / 10))) ∧
      (¬ near_edge (ceiling_cell calc0 HEIGHT app y cam_x_table xn).frac →
        (handle_light_panel fog HEIGHT app light_panel
          (ceiling_cell calc0 HEIGHT app y cam_x_table xn)).1 = true →
        (handle_light_panel fog HEIGHT app light_panel
          (ceiling_cell calc0 HEIGHT app y cam_x_table xn)).2 = [⟨(xn : Int), y, c⟩]) ∧
      (¬ near_edge (ceiling_cell calc0 HEIGHT app y cam_x_table xn).frac →
        (handle_light_panel fog HEIGHT app light_panel
          (ceiling_cell calc0 HEIGHT app y cam_x_table xn)).1 = false →
        c = fog app.c_color (ceiling_scale HEIGHT app y) (Dbl.rnd (4 / 10))
          (Dbl.rnd (2 / 10))) := by
  rw [handle_edge_case_eq]
  by_cases he : near_edge (ceiling_cell calc0 HEIGHT app y cam_x_table xn).frac
  · rw [if_pos he]
    exact ⟨_, rfl, fun _ => rfl, fun h => absurd he h, fun h => absurd he h⟩
  · rw [if_neg he]
    have hf : ¬ ((false, ([] : List t_pixel)).1 = true) := by simp
    rw [if_neg hf]
    obtain ⟨p1, p2⟩ := handle_light_panel_pixels fog HEIGHT app light_panel
      (ceiling_cell calc0 HEIGHT app y cam_x_table xn)
    by_cases hp : (handle_light_panel fog HEIGHT app light_panel
        (ceiling_cell calc0 HEIGHT app y cam_x_table xn)).1 = true
    · obtain ⟨col, hcol⟩ := p1 hp
      have hcol2 : (handle_light_panel fog HEIGHT app light_panel
          (ceiling_cell calc0 HEIGHT app y cam_x_table xn)).2 = [⟨(xn : Int), y, col⟩] := hcol
      rw [if_pos hp]
      refine ⟨col, hcol2, fun h => absurd h he, fun _ _ => hcol2, fun _ h => ?_⟩
      rw [hp] at h
      exact absurd h (by decide)
    · rw [if_neg hp]
      exact ⟨_, rfl, fun h => absurd h he, fun _ h => absurd h hp, fun _ _ => rfl⟩

end background_bonus

/-- C25: for every row `y`, `draw_ceiling` writes exactly one pixel per column `x`, at
`(x, y)`.  The bitmask edge test of `handle_edge_case` is true exactly when the logical OR
of the four boundary predicates (`frac.x < 0.005f`, `frac.x > 0.995f`, `frac.y < 0.005f`,
`frac.y > 0.995f`) holds, the bounds being the `float` literals of the source,
`5368709 / 2 ^ 30` and `8346665 / 2 ^ 23`; the colour of the pixel is then `fog` of the base
ceiling colour with each channel `c` replaced by `(int)(c * 0.8)`, which for a channel
within the range of `int` is `4 * c / 5` truncated toward zero; otherwise it is the colour
written by `handle_light_panel` when that function returns true, and otherwise `fog` of
the base ceiling colour. -/
theorem draw_ceiling_priority (fog : Int × Int × Int → Dbl → Dbl → Dbl → Nat)
    (calc0 : t_vec2 → background_bonus.t_col) (WIDTH HEIGHT : Int)
    (app : background_bonus.t_app) (y : Int) (cam_x_table : Int → Dbl)
    (light_panel : List Bool) :
    (Dbl.rnd32 (5 / 1000) = Dbl.fin (5368709 / 2 ^ 30) ∧
      Dbl.rnd32 (995 / 1000) = Dbl.fin (8346665 / 2 ^ 23)) ∧
    (∀ c : Int, |c| ≤ 2 ^ 31 →
      Dbl.toInt (Dbl.fmul (Dbl.ofInt c) (Dbl.rnd (8 / 10))) = Int.tdiv (4 * c) 5) ∧
    ∃ colour : Nat → Nat,
      background_bonus.draw_ceiling fog calc0 WIDTH HEIGHT app y cam_x_table light_panel =
        (List.range WIDTH.toNat).map
          (fun (xn : Nat) => (⟨(xn : Int), y, colour xn⟩ : background_bonus.t_pixel)) ∧
      ∀ xn : Nat,
        ((background_bonus.handle_edge_case fog HEIGHT app xn y
            (background_bonus.ceiling_cell calc0 HEIGHT app y cam_x_table xn).frac).1 = true ↔
          background_bonus.near_edge
            (background_bonus.ceiling_cell calc0 HEIGHT app y cam_x_table xn).frac) ∧
        (background_bonus.near_edge
            (background_bonus.ceiling_cell calc0 HEIGHT app y cam_x_table xn).frac →
          colour xn = fog
            (Dbl.toInt (Dbl.fmul (Dbl.ofInt app.c_color.1) (Dbl.rnd (8 / 10))),
              Dbl.toInt (Dbl.fmul (Dbl.ofInt app.c_color.2.1) (Dbl.rnd (8 / 10))),
              Dbl.toInt (Dbl.fmul (Dbl.ofInt app.c_color.2.2) (Dbl.rnd (8 / 10))))
            (background_bonus.ceiling_scale HEIGHT app y) (Dbl.rnd (4 / 10))
            (Dbl.rnd (2 / 10))) ∧
        (¬ background_bonus.near_edge
            (background_bonus.ceiling_cell calc0 HEIGHT app y cam_x_table xn).frac →
          (background_bonus.handle_light_panel fog HEIGHT app light_panel
            (background_bonus.ceiling_cell calc0 HEIGHT app y cam_x_table xn)).1 = true →
          (background_bonus.handle_light_panel fog HEIGHT app light_panel
            (background_bonus.ceiling_cell calc0 HEIGHT app y cam_x_table xn)).2
              = [⟨(xn : Int), y, colour xn⟩]) ∧
        (¬ background_bonus.near_edge
            (background_bonus.ceiling_cell calc0 HEIGHT app y cam_x_table xn).frac →
          (background_bonus.handle_light_panel fog HEIGHT app light_panel
            (background_bonus.ceiling_cell calc0 HEIGHT app y cam_x_table xn)).1 = false →
          colour xn = fog app.c_color (background_bonus.ceiling_scale HEIGHT app y)
            (Dbl.rnd (4 / 10)) (Dbl.rnd (2 / 10))) := by
  choose colour hcol using
    background_bonus.draw_ceiling_column fog calc0 HEIGHT app y cam_x_table light_panel
  refine ⟨⟨Dbl.rnd32_005, Dbl.rnd32_995⟩, toInt_dark, colour, ?_, ?_⟩
  · rw [background_bonus.draw_ceiling_eq]
    exact background_bonus.flatMap_singletons _ _ _ (fun n => (hcol n).1)
  · intro xn
    refine ⟨?_, (hcol xn).2.1, (hcol xn).2.2.1, (hcol xn).2.2.2⟩
    rw [background_bonus.handle_edge_case_eq]
    by_cases he : background_bonus.near_edge
        (background_bonus.ceiling_cell calc0 HEIGHT app y cam_x_table xn).frac
    · rw [if_pos he]
      exact ⟨fun _ => he, fun _ => rfl⟩
    · rw [if_neg he]
      exact ⟨fun h => (Bool.false_ne_true h).elim, fun h => absurd h he⟩


theorem ceiling_scale_edge :
    background_bonus.ceiling_scale 100 edge_background 0 = Dbl.fin 1 := by
  have ht : Int.tdiv 100 2 = 50 := by decide
  unfold background_bonus.ceiling_scale
  have hv : edge_background.cam.view_z = Dbl.fin 0 := rfl
  rw [ht, hv]
  simp only [Dbl.ofInt_eq]
  rw [Dbl.fsub_exact _ _ 50 0 (by norm_num) (by norm_num) (by norm_num)]
  rw [Dbl.fsub_exact _ _ 50 0 (by norm_num) (by norm_num) (by norm_num)]
  rw [Dbl.fmul_exact _ _ 100 0 (by norm_num) (by norm_num) (by norm_num)]
  rw [Dbl.fdiv_exact _ _ 1 0 (by norm_num) (by norm_num) (by norm_num) (by norm_num)]
  congr 1
  norm_num

theorem toInt_edge_x : Dbl.toInt (Dbl.fin (3215856767 / 2 ^ 30)) = 2 := by
  rw [Dbl.toInt_fin_nonneg _ (by norm_num)]
  norm_num [Int.floor_eq_iff]

theorem wrd_x_edge : Dbl.fadd (Dbl.fin (2142114943 / 2 ^ 30))
    (Dbl.fmul (Dbl.fin 1) (Dbl.fadd (Dbl.fin 1) (Dbl.fmul (Dbl.fin 0) (Dbl.fin 0))))
      = Dbl.fin (3215856767 / 2 ^ 30) := by
  rw [Dbl.fmul_exact _ _ 0 0 (by norm_num) (by norm_num) (by norm_num)]
  rw [Dbl.fadd_exact _ _ 1 0 (by norm_num) (by norm_num) (by norm_num)]
  rw [Dbl.fmul_exact _ _ 1 0 (by norm_num) (by norm_num) (by norm_num)]
  rw [Dbl.fadd_exact _ _ 3215856767 30 (by norm_num) (by norm_num) (by norm_num)]
  congr 1
  norm_num

theorem frac_x_edge : Dbl.fsub (Dbl.fin (3215856767 / 2 ^ 30)) (Dbl.ofInt 2)
    = Dbl.fin (1068373119 / 2 ^ 30) := by
  rw [Dbl.ofInt_eq, Dbl.fsub_exact _ _ 1068373119 30 (by norm_num) (by norm_num) (by norm_num)]
  congr 1
  norm_num

theorem wrd_y_edge (c : ℚ) (hc : c = 0 ∨ c = 1) :
    Dbl.fadd (Dbl.fin (5 / 2))
      (Dbl.fmul (Dbl.fin 1) (Dbl.fadd (Dbl.fin 0) (Dbl.fmul (Dbl.fin (1 / 2)) (Dbl.fin c))))
      = Dbl.fin (5 / 2 + c / 2) := by
  rcases hc with h | h <;> subst h
  · rw [Dbl.fmul_exact _ _ 0 0 (by norm_num) (by norm_num) (by norm_num)]
    rw [Dbl.fadd_exact _ _ 0 0 (by norm_num) (by norm_num) (by norm_num)]
    rw [Dbl.fmul_exact _ _ 0 0 (by norm_num) (by norm_num) (by norm_num)]
    rw [Dbl.fadd_exact _ _ 5 1 (by norm_num) (by norm_num) (by norm_num)]
    congr 1
    norm_num
  · rw [Dbl.fmul_exact _ _ 1 1 (by norm_num) (by norm_num) (by norm_num)]
    rw [Dbl.fadd_exact _ _ 1 1 (by norm_num) (by norm_num) (by norm_num)]
    rw [Dbl.fmul_exact _ _ 1 1 (by norm_num) (by norm_num) (by norm_num)]
    rw [Dbl.fadd_exact _ _ 3 0 (by norm_num) (by norm_num) (by norm_num)]
    congr 1
    norm_num

/-- The offsets inside the cell of the two columns of row 0 of the edge scenario. -/
theorem ceiling_cell_edge :
    (background_bonus.ceiling_cell grid_sample 100 edge_background 0 edge_cam_table 0).frac
      = ⟨Dbl.fin (1068373119 / 2 ^ 30), Dbl.fin (1 / 2)⟩ ∧
    (background_bonus.ceiling_cell grid_sample 100 edge_background 0 edge_cam_table 1).frac
      = ⟨Dbl.fin (1068373119 / 2 ^ 30), Dbl.fin 0⟩ := by
  have e0 : edge_cam_table 0 = Dbl.fin 0 := rfl
  have e1 : edge_cam_table 1 = Dbl.fin 1 := rfl
  have y0 := wrd_y_edge 0 (Or.inl rfl)
  have y1 := wrd_y_edge 1 (Or.inr rfl)
  have t0 : Dbl.toInt (Dbl.fin ((5 : ℚ) / 2 + 0 / 2)) = 2 := by
    rw [Dbl.toInt_fin_nonneg _ (by norm_num)]
    norm_num [Int.floor_eq_iff]
  have t1 : Dbl.toInt (Dbl.fin ((5 : ℚ) / 2 + 1 / 2)) = 3 := by
    rw [Dbl.toInt_fin_nonneg _ (by norm_num)]
    norm_num [Int.floor_eq_iff]
  have f0 : Dbl.fsub (Dbl.fin ((5 : ℚ) / 2 + 0 / 2)) (Dbl.ofInt 2) = Dbl.fin (1 / 2) := by
    rw [Dbl.ofInt_eq, Dbl.fsub_exact _ _ 1 1 (by norm_num) (by norm_num) (by norm_num)]
    congr 1
    norm_num
  have f1 : Dbl.fsub (Dbl.fin ((5 : ℚ) / 2 + 1 / 2)) (Dbl.ofInt 3) = Dbl.fin 0 := by
    rw [Dbl.ofInt_eq, Dbl.fsub_exact _ _ 0 0 (by norm_num) (by norm_num) (by norm_num)]
    congr 1
    norm_num
  have hx : Dbl.fadd edge_background.cam.pos.x
      (Dbl.fmul (Dbl.fin 1) (Dbl.fadd edge_background.cam.dir.x
        (Dbl.fmul edge_background.cam.plane.x (Dbl.fin 0)))) = Dbl.fin (3215856767 / 2 ^ 30) :=
    wrd_x_edge
  have hx1 : Dbl.fadd edge_background.cam.pos.x
      (Dbl.fmul (Dbl.fin 1) (Dbl.fadd edge_background.cam.dir.x
        (Dbl.fmul edge_background.cam.plane.x (Dbl.fin 1)))) = Dbl.fin (3215856767 / 2 ^ 30) := by
    show Dbl.fadd (Dbl.fin (2142114943 / 2 ^ 30))
      (Dbl.fmul (Dbl.fin 1) (Dbl.fadd (Dbl.fin 1) (Dbl.fmul (Dbl.fin 0) (Dbl.fin 1)))) = _
    rw [Dbl.fmul_exact _ _ 0 0 (by norm_num) (by norm_num) (by norm_num)]
    rw [Dbl.fadd_exact _ _ 1 0 (by norm_num) (by norm_num) (by norm_num)]
    rw [Dbl.fmul_exact _ _ 1 0 (by norm_num) (by norm_num) (by norm_num)]
    rw [Dbl.fadd_exact _ _ 3215856767 30 (by norm_num) (by norm_num) (by norm_num)]
    congr 1
    norm_num
  have hy0 : Dbl.fadd edge_background.cam.pos.y
      (Dbl.fmul (Dbl.fin 1) (Dbl.fadd edge_background.cam.dir.y
        (Dbl.fmul edge_background.cam.plane.y (Dbl.fin 0)))) = Dbl.fin (5 / 2 + 0 / 2) := y0
  have hy1 : Dbl.fadd edge_background.cam.pos.y
      (Dbl.fmul (Dbl.fin 1) (Dbl.fadd edge_background.cam.dir.y
        (Dbl.fmul edge_background.cam.plane.y (Dbl.fin 1)))) = Dbl.fin (5 / 2 + 1 / 2) := y1
  constructor
  · simp only [background_bonus.ceiling_cell, ceiling_scale_edge, e0, hx, hy0, toInt_edge_x,
      frac_x_edge, t0, f0]
  · simp only [background_bonus.ceiling_cell, ceiling_scale_edge, e1, hx1, hy1, toInt_edge_x,
      frac_x_edge, t1, f1]

/-- C25 at row 0 of a 2 x 100 screen, camera at `(1.99500000383..., 2.5)` facing `(1, 0)`
with view shift 0, an empty panel table.  In both columns the offset `frac.x` is the double
`1068373119 / 2 ^ 30`, which lies above the decimal `0.995` and below the `float` literal
`0.995f`, so it does not trigger the edge test; column 0 falls at `frac.y = 0.5`, no panel
is drawn and the pixel gets the flat colour (first channel 100); column 1 falls at
`frac.y = 0`, on an edge, and gets the darkened colour (first channel 80). -/
theorem draw_ceiling_priority_witness :
    ((995 : ℚ) / 1000 < 1068373119 / 2 ^ 30 ∧ (1068373119 : ℚ) / 2 ^ 30 < 8346665 / 2 ^ 23) ∧
    background_bonus.draw_ceiling fog_channel grid_sample 2 100 edge_background 0
        edge_cam_table [] = [⟨0, 0, 100⟩, ⟨1, 0, 80⟩] := by
  refine ⟨by norm_num, ?_⟩
  obtain ⟨⟨l1, l2⟩, hd, colour, h1, h2⟩ := draw_ceiling_priority fog_channel grid_sample 2 100
    edge_background 0 edge_cam_table []
  have hne : ¬ background_bonus.near_edge
      (background_bonus.ceiling_cell grid_sample 100 edge_background 0 edge_cam_table
        ((0 : Nat) : Int)).frac := by
    have := ceiling_cell_edge.1
    rw [show (((0 : Nat) : Int)) = 0 from rfl, this]
    unfold background_bonus.near_edge
    simp only [l1, l2, Dbl.fin_lt_fin, gt_iff_lt]
    norm_num
  have he : background_bonus.near_edge
      (background_bonus.ceiling_cell grid_sample 100 edge_background 0 edge_cam_table
        ((1 : Nat) : Int)).frac := by
    have := ceiling_cell_edge.2
    rw [show (((1 : Nat) : Int)) = 1 from rfl, this]
    unfold background_bonus.near_edge
    simp only [l1, l2, Dbl.fin_lt_fin, gt_iff_lt]
    norm_num
  have hlp : (background_bonus.handle_light_panel fog_channel 100 edge_background
      [] (background_bonus.ceiling_cell grid_sample 100 edge_background 0
        edge_cam_table ((0 : Nat) : Int))).1 = false := by
    have hp : ¬ (arr_read ([] : List Bool)
        ((background_bonus.ceiling_cell grid_sample 100 edge_background 0
          edge_cam_table ((0 : Nat) : Int)).col.i * 15
        + (background_bonus.ceiling_cell grid_sample 100 edge_background 0
          edge_cam_table ((0 : Nat) : Int)).col.j) = some true) := by
      simp [arr_read]
    unfold background_bonus.handle_light_panel
    rw [if_pos hp]
  have c0 := (h2 0).2.2.2 hne hlp
  have c1 := (h2 1).2.1 he
  rw [h1]
  have hr : List.range (2 : Int).toNat = [0, 1] := by decide
  rw [hr]
  simp only [List.map_cons, List.map_nil, c0, c1]
  have hc : edge_background.c_color = (100, 100, 100) := rfl
  have h80 : Dbl.toInt (Dbl.fmul (Dbl.ofInt 100) (Dbl.rnd (8 / 10))) = 80 := by
    rw [hd 100 (by norm_num)]
    decide
  simp only [hc, h80]
  rfl

/-! ## Rows of the ceiling -/

/-- Filtering by a key the concatenation of lists each of which carries its index as the
key returns the list of that index. -/
theorem filter_flatMap_range {β : Type} (key : β → Int) (f : Nat → List β)
    (hf : ∀ n, ∀ p ∈ f n, key p = (n : Int)) (y : Int) (N : Nat) :
    ((List.range N).flatMap f).filter (fun p => decide (key p = y))
      = if 0 ≤ y ∧ y < (N : Int) then f y.toNat else [] := by
  induction N with
  | zero =>
    have : ¬ (0 ≤ y ∧ y < ((0 : Nat) : Int)) := by
      rintro ⟨h1, h2⟩
      have : ((0 : Nat) : Int) = 0 := rfl
      omega
    rw [if_neg this]
    rfl
  | succ N ih =>
    rw [List.range_succ, List.flatMap_append, List.filter_append, ih, List.flatMap_singleton]
    by_cases hy : y = (N : Int)
    · have h1 : ¬ (0 ≤ y ∧ y < (N : Int)) := by omega
      have h2 : 0 ≤ y ∧ y < ((N + 1 : Nat) : Int) := by
        constructor
        · omega
        · push_cast; omega
      have h3 : y.toNat = N := by omega
      rw [if_neg h1, if_pos h2, h3, List.nil_append, List.filter_eq_self]
      intro p hp
      simp [hf N p hp, hy]
    · have h4 : List.filter (fun p => decide (key p = y)) (f N) = [] := by
        rw [List.filter_eq_nil_iff]
        intro p hp
        simp only [decide_eq_true_eq]
        rw [hf N p hp]
        exact fun h => hy h.symm
      rw [h4, List.append_nil]
      by_cases h1 : 0 ≤ y ∧ y < (N : Int)
      · have h2 : 0 ≤ y ∧ y < ((N + 1 : Nat) : Int) := by
          constructor
          · omega
          · push_cast; omega
        rw [if_pos h1, if_pos h2]
      · have h2 : ¬ (0 ≤ y ∧ y < ((N + 1 : Nat) : Int)) := by
          push_cast
          omega
        rw [if_neg h1, if_neg h2]

namespace background_bonus

/-- Every pixel `draw_ceiling` writes for row `y` is on row `y`. -/
theorem draw_ceiling_row (fog : Int × Int × Int → Dbl → Dbl → Dbl → Nat)
    (calc0 : t_vec2 → t_col) (WIDTH HEIGHT : Int) (app : t_app) (y : Int)
    (cam_x_table : Int → Dbl) (light_panel : List Bool) :
    ∀ p ∈ draw_ceiling fog calc0 WIDTH HEIGHT app y cam_x_table light_panel, p.y = y := by
  choose colour hcol using draw_ceiling_column fog calc0 HEIGHT app y cam_x_table light_panel
  rw [draw_ceiling_eq, flatMap_singletons _ _ _ (fun n => (hcol n).1)]
  intro p hp
  rw [List.mem_map] at hp
  obtain ⟨n, -, rfl⟩ := hp
  rfl

/-- Every pixel `draw_floor` writes for row `y` is on row `y`. -/
theorem draw_floor_row (fog : Int × Int × Int → Dbl → Dbl → Dbl → Nat)
    (WIDTH HEIGHT : Int) (app : t_app) (y : Int) :
    ∀ p ∈ draw_floor fog WIDTH HEIGHT app y, p.y = y := by
  intro p hp
  unfold draw_floor at hp
  simp only [List.mem_map] at hp
  obtain ⟨n, -, rfl⟩ := hp
  rfl

/-- For a ceiling row the rounded quantity `HEIGHT / 2 - view_z - y` is a double not below
1 and not above `2 ^ 31`. -/
theorem ceiling_row_depth (HEIGHT : Int) (vz : ℚ) (hH : HEIGHT ≤ 2 ^ 30) (hv : |vz| ≤ 2 ^ 30)
    (y : Int) (hy0 : 0 ≤ y) (hy1 : y < HEIGHT)
    (hlt : y < Dbl.toInt (Dbl.fsub (Dbl.ofInt (Int.tdiv HEIGHT 2)) (Dbl.fin vz))) :
    ∃ t : ℚ, Dbl.fsub (Dbl.fsub (Dbl.ofInt (Int.tdiv HEIGHT 2)) (Dbl.fin vz)) (Dbl.ofInt y)
      = Dbl.fin t ∧ 1 ≤ t ∧ t ≤ 2 ^ 31 := by
  have hv' := abs_le.1 hv
  have hH2 : 0 ≤ Int.tdiv HEIGHT 2 ∧ Int.tdiv HEIGHT 2 ≤ 2 ^ 29 := by
    rw [Int.tdiv_eq_ediv (by omega) (by norm_num)]
    constructor <;> omega
  have hq2a : (0 : ℚ) ≤ ((Int.tdiv HEIGHT 2 : Int) : ℚ) := by exact_mod_cast hH2.1
  have hq2b : ((Int.tdiv HEIGHT 2 : Int) : ℚ) ≤ 2 ^ 29 := by exact_mod_cast hH2.2
  have hyq0 : (0 : ℚ) ≤ (y : ℚ) := by exact_mod_cast hy0
  have hyq1 : (y : ℚ) ≤ 2 ^ 30 := by
    have : y ≤ 2 ^ 30 := by omega
    exact_mod_cast this
  have hb1 : |((Int.tdiv HEIGHT 2 : Int) : ℚ) - vz| ≤ 2 ^ 31 := by
    rw [abs_le]
    constructor <;> norm_num at hq2b hv' ⊢ <;> linarith
  have e1 : Dbl.fsub (Dbl.ofInt (Int.tdiv HEIGHT 2)) (Dbl.fin vz)
      = Dbl.fin (Dbl.r64 (((Int.tdiv HEIGHT 2 : Int) : ℚ) - vz)) := by
    rw [Dbl.ofInt_eq, Dbl.fsub_fin _ _ (Dbl.small_le _ (le_trans hb1 (by norm_num)))]
  have hr1 : |Dbl.r64 (((Int.tdiv HEIGHT 2 : Int) : ℚ) - vz)| ≤ 2 ^ 31 :=
    Dbl.r64_abs_le_two_pow _ 31 (by norm_num) hb1
  have hr1' := abs_le.1 hr1
  rw [e1, Dbl.toInt_fin] at hlt
  have hge : ((y : ℚ)) + 1 ≤ Dbl.r64 (((Int.tdiv HEIGHT 2 : Int) : ℚ) - vz) := by
    by_cases h0 : 0 ≤ Dbl.r64 (((Int.tdiv HEIGHT 2 : Int) : ℚ) - vz)
    · rw [if_pos h0] at hlt
      have h1 : y + 1 ≤ ⌊Dbl.r64 (((Int.tdiv HEIGHT 2 : Int) : ℚ) - vz)⌋ := hlt
      have h2 := Int.floor_le (Dbl.r64 (((Int.tdiv HEIGHT 2 : Int) : ℚ) - vz))
      have h3 : ((y + 1 : Int) : ℚ)
          ≤ ((⌊Dbl.r64 (((Int.tdiv HEIGHT 2 : Int) : ℚ) - vz)⌋ : Int) : ℚ) := by
        exact_mod_cast h1
      push_cast at h3
      linarith
    · rw [if_neg h0] at hlt
      exfalso
      have h1 : ⌈Dbl.r64 (((Int.tdiv HEIGHT 2 : Int) : ℚ) - vz)⌉ ≤ 0 :=
        Int.ceil_le.mpr (by push_cast; linarith [not_le.mp h0])
      omega
  have hb2 : |Dbl.r64 (((Int.tdiv HEIGHT 2 : Int) : ℚ) - vz) - (y : ℚ)| ≤ 2 ^ 31 := by
    rw [abs_le]
    constructor <;> norm_num at hr1' ⊢ <;> linarith
  refine ⟨Dbl.r64 (Dbl.r64 (((Int.tdiv HEIGHT 2 : Int) : ℚ) - vz) - (y : ℚ)), ?_, ?_, ?_⟩
  · rw [e1, Dbl.ofInt_eq, Dbl.fsub_fin _ _ (Dbl.small_le _ (le_trans hb2 (by norm_num)))]
  · have := Dbl.int_le_r64 (Dbl.r64 (((Int.tdiv HEIGHT 2 : Int) : ℚ) - vz) - (y : ℚ)) 1
      (by norm_num) (by push_cast; linarith)
    exact_mod_cast this
  · exact (abs_le.1 (Dbl.r64_abs_le_two_pow _ 31 (by norm_num) hb2)).2

end background_bonus

/-- C34: for a finite view shift of magnitude at most `2 ^ 30` and `HEIGHT ≤ 2 ^ 30`,
`ft_draw_background` sends every row to exactly one of `draw_ceiling` and `draw_floor`: its
output is the concatenation over the rows `yn` of `[0, HEIGHT)` of the pixels of
`draw_ceiling` when `yn < (int)(HEIGHT / 2 - view_z)` and of `draw_floor` otherwise; each of
the two writes on its own row only, so the pixels of the output that lie on row `y` are
exactly the pixels of the one call made for `y`.  For every row sent to `draw_ceiling` the
quantity `HEIGHT / 2 - view_z - y`, as the machine computes it, is at least 1, the ceiling
scale `r = HEIGHT / (2 * (HEIGHT / 2 - view_z - y))` is finite with `0 < r ≤ HEIGHT / 2`,
and the `fmax(..., 0.01)` of `handle_light_panel` returns its first argument. -/
theorem ceiling_rows_scale (fog : Int × Int × Int → Dbl → Dbl → Dbl → Nat)
    (calc0 : t_vec2 → background_bonus.t_col) (WIDTH HEIGHT : Int)
    (app : background_bonus.t_app) (cam : Int → Dbl) (light_panel : List Bool) (vz : ℚ)
    (hvz : app.cam.view_z = Dbl.fin vz) (hH : HEIGHT ≤ 2 ^ 30) (hv : |vz| ≤ 2 ^ 30)
    (y : Int) (hy0 : 0 ≤ y) (hy1 : y < HEIGHT) :
    background_bonus.ft_draw_background fog calc0 WIDTH HEIGHT app cam light_panel =
      (List.range HEIGHT.toNat).flatMap (fun (yn : Nat) =>
        if (yn : Int) < Dbl.toInt (Dbl.fsub (Dbl.ofInt (Int.tdiv HEIGHT 2)) (Dbl.fin vz)) then
          background_bonus.draw_ceiling fog calc0 WIDTH HEIGHT app yn cam light_panel
        else background_bonus.draw_floor fog WIDTH HEIGHT app yn) ∧
    (∀ yn : Int,
      (∀ p ∈ background_bonus.draw_ceiling fog calc0 WIDTH HEIGHT app yn cam light_panel,
        p.y = yn) ∧
      (∀ p ∈ background_bonus.draw_floor fog WIDTH HEIGHT app yn, p.y = yn)) ∧
    (background_bonus.ft_draw_background fog calc0 WIDTH HEIGHT app cam light_panel).filter
        (fun p => decide (p.y = y)) =
      (if y < Dbl.toInt (Dbl.fsub (Dbl.ofInt (Int.tdiv HEIGHT 2)) (Dbl.fin vz)) then
        background_bonus.draw_ceiling fog calc0 WIDTH HEIGHT app y cam light_panel
      else background_bonus.draw_floor fog WIDTH HEIGHT app y) ∧
    (y < Dbl.toInt (Dbl.fsub (Dbl.ofInt (Int.tdiv HEIGHT 2)) (Dbl.fin vz)) →
      ∃ t r : ℚ,
        Dbl.fsub (Dbl.fsub (Dbl.ofInt (Int.tdiv HEIGHT 2)) app.cam.view_z) (Dbl.ofInt y)
          = Dbl.fin t ∧ 1 ≤ t ∧
        background_bonus.ceiling_scale HEIGHT app y = Dbl.fin r ∧ 0 < r ∧
        r ≤ (HEIGHT : ℚ) / 2 ∧
        Dbl.fmax
            (Dbl.fsub (Dbl.fsub (Dbl.ofInt (Int.tdiv HEIGHT 2)) app.cam.view_z) (Dbl.ofInt y))
            (Dbl.rnd (1 / 100))
          = Dbl.fsub (Dbl.fsub (Dbl.ofInt (Int.tdiv HEIGHT 2)) app.cam.view_z)
            (Dbl.ofInt y)) := by
  have hmem : (y.toNat : Int) = y := Int.toNat_of_nonneg hy0
  have hmain : background_bonus.ft_draw_background fog calc0 WIDTH HEIGHT app cam light_panel =
      (List.range HEIGHT.toNat).flatMap (fun (yn : Nat) =>
        if (yn : Int) < Dbl.toInt (Dbl.fsub (Dbl.ofInt (Int.tdiv HEIGHT 2)) (Dbl.fin vz)) then
          background_bonus.draw_ceiling fog calc0 WIDTH HEIGHT app yn cam light_panel
        else background_bonus.draw_floor fog WIDTH HEIGHT app yn) := by
    unfold background_bonus.ft_draw_background
    rw [hvz]
  have hrows : ∀ yn : Int,
      (∀ p ∈ background_bonus.draw_ceiling fog calc0 WIDTH HEIGHT app yn cam light_panel,
        p.y = yn) ∧
      (∀ p ∈ background_bonus.draw_floor fog WIDTH HEIGHT app yn, p.y = yn) :=
    fun yn => ⟨background_bonus.draw_ceiling_row fog calc0 WIDTH HEIGHT app yn cam light_panel,
      background_bonus.draw_floor_row fog WIDTH HEIGHT app yn⟩
  refine ⟨hmain, hrows, ?_, ?_⟩
  · rw [hmain, filter_flatMap_range (fun p : background_bonus.t_pixel => p.y) _ ?_ y
      HEIGHT.toNat]
    · have hc : 0 ≤ y ∧ y < ((HEIGHT.toNat : Nat) : Int) := by
        constructor
        · exact hy0
        · omega
      rw [if_pos hc, hmem]
    · intro n p hp
      by_cases hn : (n : Int)
          < Dbl.toInt (Dbl.fsub (Dbl.ofInt (Int.tdiv HEIGHT 2)) (Dbl.fin vz))
      · rw [if_pos hn] at hp
        exact (hrows n).1 p hp
      · rw [if_neg hn] at hp
        exact (hrows n).2 p hp
  · intro hlt
    obtain ⟨t, ht, ht1, ht2⟩ :=
      background_bonus.ceiling_row_depth HEIGHT vz hH hv y hy0 hy1 hlt
    have hHq0 : (1 : ℚ) ≤ (HEIGHT : ℚ) := by
      have : 1 ≤ HEIGHT := by omega
      exact_mod_cast this
    have hHq1 : (HEIGHT : ℚ) ≤ 2 ^ 30 := by exact_mod_cast hH
    -- the doubled depth
    have hd0 : (2 : ℚ) ≤ Dbl.r64 (2 * t) := by
      have := Dbl.int_le_r64 (2 * t) 2 (by norm_num) (by push_cast; linarith)
      exact_mod_cast this
    have hd1 : Dbl.r64 (2 * t) ≤ 2 ^ 32 := by
      have := Dbl.r64_abs_le_two_pow (2 * t) 32 (by norm_num) (by
        rw [abs_of_nonneg (by linarith)]
        norm_num at ht2 ⊢
        linarith)
      exact (abs_le.1 this).2
    have em : Dbl.fmul (Dbl.fin 2) (Dbl.fin t) = Dbl.fin (Dbl.r64 (2 * t)) :=
      Dbl.fmul_fin _ _ (Dbl.small_le _ (by
        rw [abs_of_nonneg (by linarith)]
        norm_num at ht2 ⊢
        linarith))
    have hq0 : (0 : ℚ) < (HEIGHT : ℚ) / Dbl.r64 (2 * t) := div_pos (by linarith) (by linarith)
    have hq1 : (HEIGHT : ℚ) / Dbl.r64 (2 * t) ≤ (HEIGHT : ℚ) / 2 :=
      div_le_div_of_nonneg_left (by linarith) (by norm_num) hd0
    have hq2 : (1 : ℚ) / 2 ^ 32 ≤ (HEIGHT : ℚ) / Dbl.r64 (2 * t) := by
      rw [div_le_div_iff₀ (by norm_num) (by linarith)]
      nlinarith
    have ed : Dbl.fdiv (Dbl.fin (HEIGHT : ℚ)) (Dbl.fin (Dbl.r64 (2 * t)))
        = Dbl.fin (Dbl.r64 ((HEIGHT : ℚ) / Dbl.r64 (2 * t))) :=
      Dbl.fdiv_fin _ _ (by linarith) (Dbl.small_le _ (by
        rw [abs_of_nonneg hq0.le]
        have : (HEIGHT : ℚ) / 2 ≤ 2 ^ 60 := by norm_num at hHq1 ⊢; linarith
        linarith))
    refine ⟨t, Dbl.r64 ((HEIGHT : ℚ) / Dbl.r64 (2 * t)), ?_, ht1, ?_, ?_, ?_, ?_⟩
    · rw [hvz]; exact ht
    · unfold background_bonus.ceiling_scale
      rw [hvz, ht, em, Dbl.ofInt_eq, ed]
    · have h := Dbl.r64_two_pow_le ((HEIGHT : ℚ) / Dbl.r64 (2 * t)) (-32) (by norm_num) (by
        have e : (2 : ℚ) ^ (-32 : Int) = 1 / 2 ^ 32 := by
          rw [zpow_neg]; norm_num
        rw [e]; exact hq2)
      have : (0 : ℚ) < (2 : ℚ) ^ (-32 : Int) := zpow_pos (by norm_num) _
      linarith
    · have h := Dbl.r64_mono hq1
      have e : Dbl.r64 ((HEIGHT : ℚ) / 2) = (HEIGHT : ℚ) / 2 := by
        have := Dbl.r64_dyadic HEIGHT 1 (by
          rw [abs_lt]
          constructor <;> omega) (by norm_num)
        simpa using this
      rw [e] at h
      exact h
    · rw [hvz, ht]
      rcases Dbl.rnd_cases (1 / 100) with h | h | h
      · rw [h, Dbl.fmax_fin]
        congr 1
        apply max_eq_left
        have := Dbl.r64_le_int (1 / 100) 1 (by norm_num) (by norm_num)
        push_cast at this
        linarith
      · exfalso
        rw [Dbl.rnd_eq_fin _ (Dbl.small_le _ (by rw [abs_of_nonneg (by norm_num)]; norm_num))]
          at h
        cases h
      · exfalso
        rw [Dbl.rnd_eq_fin _ (Dbl.small_le _ (by rw [abs_of_nonneg (by norm_num)]; norm_num))]
          at h
        cases h

/-- C34 at row 0 of a 2 x 100 screen with view shift 0: the row is a ceiling row, the
pixels of the output on row 0 are those of `draw_ceiling`, the depth is at least 1 and the
scale lies in `(0, 50]`. -/
theorem ceiling_rows_scale_witness :
    (background_bonus.ft_draw_background fog_sample grid_sample 2 100 level_background
        (fun _ => Dbl.fin 0) []).filter (fun p => decide (p.y = 0)) =
      background_bonus.draw_ceiling fog_sample grid_sample 2 100 level_background 0
        (fun _ => Dbl.fin 0) [] ∧
    ∃ t r : ℚ,
      Dbl.fsub (Dbl.fsub (Dbl.ofInt (Int.tdiv 100 2)) level_background.cam.view_z)
        (Dbl.ofInt 0) = Dbl.fin t ∧ 1 ≤ t ∧
      background_bonus.ceiling_scale 100 level_background 0 = Dbl.fin r ∧ 0 < r ∧
      r ≤ ((100 : Int) : ℚ) / 2 ∧
      Dbl.fmax
          (Dbl.fsub (Dbl.fsub (Dbl.ofInt (Int.tdiv 100 2)) level_background.cam.view_z)
            (Dbl.ofInt 0))
          (Dbl.rnd (1 / 100))
        = Dbl.fsub (Dbl.fsub (Dbl.ofInt (Int.tdiv 100 2)) level_background.cam.view_z)
          (Dbl.ofInt 0) := by
  have ht : Dbl.toInt (Dbl.fsub (Dbl.ofInt (Int.tdiv 100 2)) (Dbl.fin 0)) = 50 := by
    have : Int.tdiv 100 2 = 50 := by decide
    rw [this, Dbl.fsub_int_zero 50 (by norm_num), Dbl.toInt_int]
  have T := ceiling_rows_scale fog_sample grid_sample 2 100 level_background
    (fun _ => Dbl.fin 0) [] 0 rfl (by norm_num) (by norm_num) 0 (by decide) (by decide)
  have h50 : (0 : Int) < Dbl.toInt (Dbl.fsub (Dbl.ofInt (Int.tdiv 100 2)) (Dbl.fin 0)) := by
    rw [ht]; decide
  refine ⟨?_, T.2.2.2 h50⟩
  have := T.2.2.1
  rw [if_pos h50] at this
  exact this

/-! ## Rounding error of the cell test -/

namespace Dbl

end Dbl

/-! ## The collision resolver in binary64 arithmetic -/

namespace Dbl

end Dbl

namespace binary64

theorem collides_row_iff_rounded (g : t_game) (X Y : Dbl) :
    ∀ (n : Nat) (c : t_collision), (c.max_j - c.j).toNat = n →
      (collides_row g X Y c = true ↔
        ∃ j, c.j < j ∧ j ≤ c.max_j ∧ safe_get_tile g j c.i = some '1' ∧
          check_cell_collision X Y { c with j := j } = 1) := by
  intro n
  induction n using Nat.strong_induction_on with
  | _ n ih =>
    intro c hn
    rw [collides_row]
    by_cases hle : c.j + 1 ≤ c.max_j
    · have hrec := ih ((c.max_j - (c.j + 1)).toNat) (by omega) { c with j := c.j + 1 } rfl
      simp only [if_pos hle]
      constructor
      · intro h
        by_cases ht : safe_get_tile g (c.j + 1) c.i = some '1'
        · by_cases hc : check_cell_collision X Y { c with j := c.j + 1 } = 1
          · exact ⟨c.j + 1, by omega, hle, ht, hc⟩
          · rw [if_pos ht, if_neg hc] at h
            obtain ⟨j, h1, h2, h3, h4⟩ := hrec.1 h
            exact ⟨j, by simp only at h1; omega, h2, h3, h4⟩
        · rw [if_neg ht] at h
          obtain ⟨j, h1, h2, h3, h4⟩ := hrec.1 h
          exact ⟨j, by simp only at h1; omega, h2, h3, h4⟩
      · rintro ⟨j, h1, h2, h3, h4⟩
        by_cases hj : j = c.j + 1
        · subst hj
          rw [if_pos h3, if_pos h4]
        · have hr := hrec.2 ⟨j, by simp only; omega, h2, h3, h4⟩
          split_ifs <;> first | rfl | exact hr
    · simp only [if_neg hle]
      constructor
      · intro h; cases h
      · rintro ⟨j, h1, h2, -, -⟩
        omega

theorem collides_rows_iff_rounded (g : t_game) (X Y : Dbl) :
    ∀ (n : Nat) (c : t_collision), (c.max_i - c.i).toNat = n →
      (collides_rows g X Y c = 0 ∨ collides_rows g X Y c = 1) ∧
      (collides_rows g X Y c = 1 ↔
        ∃ i j, c.i < i ∧ i ≤ c.max_i ∧ c.min_j ≤ j ∧ j ≤ c.max_j ∧
          safe_get_tile g j i = some '1' ∧
          check_cell_collision X Y { c with i := i, j := j } = 1) := by
  intro n
  induction n using Nat.strong_induction_on with
  | _ n ih =>
    intro c hn
    rw [collides_rows]
    by_cases hle : c.i + 1 ≤ c.max_i
    · have hrec := ih ((c.max_i - (c.i + 1)).toNat) (by omega)
        { c with i := c.i + 1, j := c.min_j - 1 } rfl
      have hrow := collides_row_iff_rounded g X Y _ { c with i := c.i + 1, j := c.min_j - 1 } rfl
      simp only [if_pos hle]
      by_cases hf : collides_row g X Y { c with i := c.i + 1, j := c.min_j - 1 } = true
      · simp only [if_pos hf, true_iff, true_and, or_true]
        obtain ⟨j, h1, h2, h3, h4⟩ := hrow.1 hf
        exact ⟨c.i + 1, j, by omega, hle, by simp only at h1; omega, h2, h3, h4⟩
      · simp only [if_neg hf]
        refine ⟨hrec.1, ?_⟩
        rw [hrec.2]
        constructor
        · rintro ⟨i, j, h1, h2, h3, h4, h5, h6⟩
          exact ⟨i, j, by simp only at h1; omega, h2, h3, h4, h5, h6⟩
        · rintro ⟨i, j, h1, h2, h3, h4, h5, h6⟩
          by_cases hi : i = c.i + 1
          · subst hi
            exfalso; apply hf
            exact hrow.2 ⟨j, by simp only; omega, h4, h5, h6⟩
          · exact ⟨i, j, by simp only; omega, h2, h3, h4, h5, h6⟩
    · rw [if_neg hle]
      refine ⟨Or.inl rfl, ?_⟩
      constructor
      · intro h; simp at h
      · rintro ⟨i, j, h1, h2, -⟩
        omega

/-- On finite inputs of moderate size the cell test compares the rounded sum of the rounded
squares of the rounded differences with the rounded square of the radius. -/
theorem check_cell_collision_fin_rounded (x y r : ℚ) (c : t_collision) (hr : c.r = Dbl.fin r)
    (hx : |x - clampq x c.j| ≤ 2 ^ 33) (hy : |y - clampq y c.i| ≤ 2 ^ 33)
    (hr2 : |r| ≤ 2 ^ 33) :
    check_cell_collision (Dbl.fin x) (Dbl.fin y) c = 1 ↔
      Dbl.r64 (Dbl.r64 (Dbl.r64 (x - clampq x c.j) * Dbl.r64 (x - clampq x c.j))
          + Dbl.r64 (Dbl.r64 (y - clampq y c.i) * Dbl.r64 (y - clampq y c.i)))
        < Dbl.r64 (r * r) := by
  have big : ∀ q : ℚ, |q| ≤ 2 ^ 70 → |q| ≤ 2 ^ 1023 := fun q h =>
    le_trans h (pow_le_pow_right₀ (by norm_num) (by norm_num))
  have sq : ∀ a : ℚ, |a| ≤ 2 ^ 33 → |Dbl.r64 a * Dbl.r64 a| ≤ 2 ^ 66 := by
    intro a ha
    have h1 := Dbl.r64_abs_le_two_pow a 33 (by norm_num) ha
    rw [abs_mul]
    have := mul_le_mul h1 h1 (abs_nonneg _) (by positivity)
    calc |Dbl.r64 a| * |Dbl.r64 a| ≤ 2 ^ 33 * 2 ^ 33 := this
      _ = 2 ^ 66 := by norm_num
  have ex : Dbl.fsub (Dbl.fin x) (Dbl.fin (clampq x c.j))
      = Dbl.fin (Dbl.r64 (x - clampq x c.j)) :=
    Dbl.fsub_fin _ _ (big _ (le_trans hx (by norm_num)))
  have ey : Dbl.fsub (Dbl.fin y) (Dbl.fin (clampq y c.i))
      = Dbl.fin (Dbl.r64 (y - clampq y c.i)) :=
    Dbl.fsub_fin _ _ (big _ (le_trans hy (by norm_num)))
  have mx := Dbl.fmul_fin (Dbl.r64 (x - clampq x c.j)) (Dbl.r64 (x - clampq x c.j))
    (big _ (le_trans (sq _ hx) (by norm_num)))
  have my := Dbl.fmul_fin (Dbl.r64 (y - clampq y c.i)) (Dbl.r64 (y - clampq y c.i))
    (big _ (le_trans (sq _ hy) (by norm_num)))
  have mr : Dbl.fmul (Dbl.fin r) (Dbl.fin r) = Dbl.fin (Dbl.r64 (r * r)) := by
    apply Dbl.fmul_fin
    apply big
    rw [abs_mul]
    calc |r| * |r| ≤ 2 ^ 33 * 2 ^ 33 := mul_le_mul hr2 hr2 (abs_nonneg _) (by positivity)
      _ ≤ 2 ^ 70 := by norm_num
  have sm := Dbl.fadd_fin
    (Dbl.r64 (Dbl.r64 (x - clampq x c.j) * Dbl.r64 (x - clampq x c.j)))
    (Dbl.r64 (Dbl.r64 (y - clampq y c.i) * Dbl.r64 (y - clampq y c.i)))
    (by
      apply big
      have h1 := Dbl.r64_abs_le_two_pow _ 66 (by norm_num) (sq _ hx)
      have h2 := Dbl.r64_abs_le_two_pow _ 66 (by norm_num) (sq _ hy)
      refine le_trans (abs_add _ _) ?_
      have : (2 : ℚ) ^ 66 + 2 ^ 66 ≤ 2 ^ 70 := by norm_num
      linarith)
  simp only [check_cell_collision, closest_eq_clampq, hr, ex, ey, mx, my, mr, sm,
    Dbl.fin_lt_fin]
  split_ifs with h
  · simp only [true_iff]
    exact h
  · simp only [zero_ne_one, false_iff]
    exact h

end binary64

namespace binary64

/-- The cell test reads the radius and the cell of the record only. -/
theorem check_cell_collision_congr (X Y : Dbl) (c d : t_collision) (hr : c.r = d.r)
    (hi : c.i = d.i) (hj : c.j = d.j) :
    check_cell_collision X Y c = check_cell_collision X Y d := by
  unfold check_cell_collision
  rw [hr, hi, hj]

/-- The record `init_collision` leaves for finite inputs of moderate size. -/
theorem init_collision_fin (x y r : ℚ) (c : t_collision) (hx : |x| ≤ 2 ^ 30)
    (hy : |y| ≤ 2 ^ 30) (hr : |r| ≤ 2 ^ 30) :
    init_collision (Dbl.fin r) c (Dbl.fin x) (Dbl.fin y) =
      ⟨Dbl.fin r, ⌊Dbl.r64 (y - r)⌋, ⌈Dbl.r64 (y + r)⌉, ⌊Dbl.r64 (x - r)⌋,
        ⌈Dbl.r64 (x + r)⌉, c.i, c.j⟩ := by
  obtain ⟨x1, x2⟩ := abs_le.1 hx
  obtain ⟨y1, y2⟩ := abs_le.1 hy
  obtain ⟨r1, r2⟩ := abs_le.1 hr
  have big : ∀ q : ℚ, |q| ≤ 2 ^ 31 → |q| ≤ 2 ^ 1023 := fun q h =>
    le_trans h (pow_le_pow_right₀ (by norm_num) (by norm_num))
  have b : ∀ u v : ℚ, -(2 ^ 30) ≤ u → u ≤ 2 ^ 30 → -(2 ^ 30) ≤ v → v ≤ 2 ^ 30 →
      |u - v| ≤ 2 ^ 31 ∧ |u + v| ≤ 2 ^ 31 := by
    intro u v h1 h2 h3 h4
    constructor <;> rw [abs_le] <;> constructor <;> norm_num at h1 h2 h3 h4 ⊢ <;> linarith
  have e1 := Dbl.fsub_fin y r (big _ (b y r y1 y2 r1 r2).1)
  have e2 := Dbl.fadd_fin y r (big _ (b y r y1 y2 r1 r2).2)
  have e3 := Dbl.fsub_fin x r (big _ (b x r x1 x2 r1 r2).1)
  have e4 := Dbl.fadd_fin x r (big _ (b x r x1 x2 r1 r2).2)
  simp only [init_collision, e1, e2, e3, e4, Dbl.floor, Dbl.ceil, Dbl.toInt_int]

/-- What `collides` computes on finite inputs of moderate size: it returns 0 or 1, and 1
exactly when a cell of the window scanned, which is computed from the rounded difference
and sum, is a wall on which the cell test succeeds. -/
theorem collides_fin (g : t_game) (x y r : ℚ) (hx : |x| ≤ 2 ^ 30) (hy : |y| ≤ 2 ^ 30)
    (hr : |r| ≤ 2 ^ 30) :
    (collides (Dbl.fin r) g (Dbl.fin x) (Dbl.fin y) = 0 ∨
      collides (Dbl.fin r) g (Dbl.fin x) (Dbl.fin y) = 1) ∧
    (collides (Dbl.fin r) g (Dbl.fin x) (Dbl.fin y) = 1 ↔
      ∃ i j : Int, ⌊Dbl.r64 (y - r)⌋ ≤ i ∧ i ≤ ⌈Dbl.r64 (y + r)⌉ ∧
        ⌊Dbl.r64 (x - r)⌋ ≤ j ∧ j ≤ ⌈Dbl.r64 (x + r)⌉ ∧
        safe_get_tile g j i = some '1' ∧
        check_cell_collision (Dbl.fin x) (Dbl.fin y) ⟨Dbl.fin r, 0, 0, 0, 0, i, j⟩ = 1) := by
  have key : collides (Dbl.fin r) g (Dbl.fin x) (Dbl.fin y) =
      collides_rows g (Dbl.fin x) (Dbl.fin y)
        ⟨Dbl.fin r, ⌊Dbl.r64 (y - r)⌋, ⌈Dbl.r64 (y + r)⌉, ⌊Dbl.r64 (x - r)⌋,
          ⌈Dbl.r64 (x + r)⌉, ⌊Dbl.r64 (y - r)⌋ - 1, 0⟩ := by
    unfold collides
    simp only [init_collision_fin x y r _ hx hy hr]
  have h := collides_rows_iff_rounded g (Dbl.fin x) (Dbl.fin y) _
    ⟨Dbl.fin r, ⌊Dbl.r64 (y - r)⌋, ⌈Dbl.r64 (y + r)⌉, ⌊Dbl.r64 (x - r)⌋,
      ⌈Dbl.r64 (x + r)⌉, ⌊Dbl.r64 (y - r)⌋ - 1, 0⟩ rfl
  rw [key]
  refine ⟨h.1, ?_⟩
  rw [h.2]
  constructor
  · rintro ⟨i, j, h1, h2, h3, h4, h5, h6⟩
    refine ⟨i, j, by simp only at h1; omega, h2, h3, h4, h5, ?_⟩
    rw [← h6]
    exact check_cell_collision_congr _ _ _ _ rfl rfl rfl
  · rintro ⟨i, j, h1, h2, h3, h4, h5, h6⟩
    refine ⟨i, j, by simp only; omega, h2, h3, h4, h5, ?_⟩
    rw [← h6]
    exact check_cell_collision_congr _ _ _ _ rfl rfl rfl

/-- A candidate whose coordinates are doubles and whose own cell is a wall collides, when
the square of the radius does not round to zero. -/
theorem collides_own_cell (g : t_game) (x y r : ℚ) (hx : |x| ≤ 2 ^ 30) (hy : |y| ≤ 2 ^ 30)
    (hr0 : 0 ≤ r) (hr1 : r ≤ 2 ^ 20) (hrr : 0 < Dbl.r64 (r * r))
    (hdx : Dbl.r64 x = x) (hdy : Dbl.r64 y = y)
    (hw : safe_get_tile g ⌊x⌋ ⌊y⌋ = some '1') :
    collides (Dbl.fin r) g (Dbl.fin x) (Dbl.fin y) = 1 := by
  have hrabs : |r| ≤ 2 ^ 30 := by
    rw [abs_of_nonneg hr0]
    exact le_trans hr1 (by norm_num)
  have win : ∀ v : ℚ, Dbl.r64 v = v →
      ⌊Dbl.r64 (v - r)⌋ ≤ ⌊v⌋ ∧ ⌊v⌋ ≤ ⌈Dbl.r64 (v + r)⌉ := by
    intro v hv
    constructor
    · have := Dbl.r64_mono (by linarith : v - r ≤ v)
      rw [hv] at this
      exact Int.floor_le_floor this
    · have := Dbl.r64_mono (by linarith : v ≤ v + r)
      rw [hv] at this
      have h2 : ((⌊v⌋ : Int) : ℚ) ≤ ((⌈Dbl.r64 (v + r)⌉ : Int) : ℚ) :=
        le_trans (Int.floor_le v) (le_trans this (Int.le_ceil _))
      exact Int.cast_le.1 h2
  have cx := clampq_self x ⌊x⌋ (Int.floor_le x) (Int.lt_floor_add_one x).le
  have cy := clampq_self y ⌊y⌋ (Int.floor_le y) (Int.lt_floor_add_one y).le
  rw [(collides_fin g x y r hx hy hrabs).2]
  refine ⟨⌊y⌋, ⌊x⌋, (win y hdy).1, (win y hdy).2, (win x hdx).1, (win x hdx).2, hw, ?_⟩
  rw [check_cell_collision_fin_rounded x y r ⟨Dbl.fin r, 0, 0, 0, 0, ⌊y⌋, ⌊x⌋⟩ rfl
    (by rw [cx, sub_self, abs_zero]; positivity) (by rw [cy, sub_self, abs_zero]; positivity)
    (by rw [abs_of_nonneg hr0]; exact le_trans hr1 (by norm_num))]
  simp only [cx, cy, sub_self, Dbl.r64_zero, mul_zero, add_zero]
  exact hrr

end binary64

namespace binary64

end binary64

/-- The square of a radius of at least `2 ^ -537` does not round to zero. -/
theorem Dbl.r64_sq_pos (r : ℚ) (h : 1 / 2 ^ 537 ≤ r) : 0 < Dbl.r64 (r * r) := by
  have h0 : (0 : ℚ) < 1 / 2 ^ 537 := by positivity
  have h1 : (1 / 2 ^ 537 : ℚ) * (1 / 2 ^ 537) ≤ r * r :=
    mul_le_mul h h h0.le (le_trans h0.le h)
  have e : (2 : ℚ) ^ (-1074 : Int) = (1 / 2 ^ 537 : ℚ) * (1 / 2 ^ 537) := by
    rw [zpow_neg, one_div_mul_one_div, ← pow_add]
    norm_num
  have h2 := Dbl.r64_two_pow_le (r * r) (-1074) (by norm_num) (by rw [e]; exact h1)
  exact lt_of_lt_of_le (zpow_pos (by norm_num) _) h2

/-! ## The cell test as an overlap test -/

namespace Dbl

theorem fadd_pinf_not_lt (d e : Dbl) : ¬ (fadd pinf d < e) := by
  intro h
  cases d <;> cases e <;> exact Bool.false_ne_true h

theorem r64_two_pow (k : Nat) (hk : k ≤ 1023) : r64 ((2 : ℚ) ^ k) = 2 ^ k := by
  have := r64_repr 1 (k : Int) (by norm_num) (by omega)
  simpa using this

theorem rnd_two_pow (k : Nat) (hk : k ≤ 1023) : rnd ((2 : ℚ) ^ k) = fin (2 ^ k) := by
  rw [rnd_eq_fin _ (by
    rw [abs_of_nonneg (by positivity)]
    exact pow_le_pow_right₀ (by norm_num) hk), r64_two_pow k hk]

/-- The product `2 * 2 ^ 1023` overflows to `+inf`. -/
theorem rnd_overflow (k : Nat) (hk : k = 1023) : rnd (2 * (2 : ℚ) ^ k) = pinf := by
  have e : (2 : ℚ) ^ ((k : Int) + 1) = 2 * 2 ^ k := by
    rw [zpow_add_one₀ (by norm_num), zpow_natCast]
    ring
  have h := round_val_repr 53 (-1022) 1 ((k : Int) + 1) (by norm_num) (by omega)
  rw [e] at h
  simp only [Int.cast_one, one_mul] at h
  have hk2 : (1023 : Int) = ((k : Nat) : Int) := by
    rw [hk]
    rfl
  unfold rnd round_to
  rw [h, hk2, e, if_pos (by rw [abs_of_nonneg (by positivity)]), if_pos (by positivity)]

end Dbl

namespace binary64

/-- At the candidate abscissa `+inf` no cell test succeeds. -/
theorem check_cell_collision_pinf (Y : Dbl) (c : t_collision) :
    check_cell_collision Dbl.pinf Y c = 0 := by
  have h1 : ¬ (Dbl.pinf < Dbl.ofInt c.j) := Dbl.pinf_not_lt _
  have h2 : Dbl.pinf > Dbl.ofInt (c.j + 1) := by
    show Dbl.ofInt (c.j + 1) < Dbl.pinf
    rw [Dbl.ofInt_eq]
    exact (Dbl.fin_lt_pinf _).2 trivial
  unfold check_cell_collision
  simp only [if_neg h1, if_pos h2]
  have e : Dbl.fmul (Dbl.fsub Dbl.pinf (Dbl.ofInt (c.j + 1)))
      (Dbl.fsub Dbl.pinf (Dbl.ofInt (c.j + 1))) = Dbl.pinf := rfl
  rw [e, if_neg (Dbl.fadd_pinf_not_lt _ _)]

theorem collides_rows_pinf (g : t_game) (Y : Dbl) (c : t_collision) :
    collides_rows g Dbl.pinf Y c = 0 := by
  obtain ⟨h01, hiff⟩ := collides_rows_iff_rounded g Dbl.pinf Y _ c rfl
  rcases h01 with h | h
  · exact h
  · exfalso
    obtain ⟨i, j, -, -, -, -, -, hc⟩ := hiff.1 h
    rw [check_cell_collision_pinf] at hc
    exact absurd hc (by decide)

/-- The function `collides` returns 0 at every candidate of abscissa `+inf`. -/
theorem collides_pinf (R : Dbl) (g : t_game) (Y : Dbl) : collides R g Dbl.pinf Y = 0 := by
  unfold collides
  exact collides_rows_pinf g Y _

/-- Function `update_camera_movement` commits the candidate when `collides` returns 0 there
and returns the state untouched otherwise. -/
theorem update_camera_movement_eq_rounded (R : Dbl) (keys : keys_t → Bool) (app : camera.t_app)
    (dt : Dbl) :
    update_camera_movement R keys app dt =
      if collides R app.game (candidate keys app dt).1 (candidate keys app dt).2 = 0 then
        { app with camera := { app.camera with
            pos := { app.camera.pos with
              i := (candidate keys app dt).1
              j := (candidate keys app dt).2 } } }
      else app := rfl

/-- The candidate of the runaway camera with `W` held and `delta_time` 1: the product
`2 * 2 ^ 1023` overflows. -/
theorem candidate_runaway :
    candidate keys_w runaway_app (Dbl.fin 1) = (Dbl.pinf, Dbl.fin (3 / 2)) := by
  have hW : keys_w keys_t.MLX_KEY_W = true := by decide
  have hS : keys_w keys_t.MLX_KEY_S = false := by decide
  have hA : keys_w keys_t.MLX_KEY_A = false := by decide
  have hD : keys_w keys_t.MLX_KEY_D = false := by decide
  have hT : keys_w keys_t.MLX_KEY_LEFT_SHIFT = false := by decide
  have s1 : Dbl.fmul (Dbl.fin (2 ^ 1023)) (Dbl.fin 1) = Dbl.fin (2 ^ 1023) := by
    show Dbl.rnd (2 ^ 1023 * 1) = _
    rw [mul_one, Dbl.rnd_two_pow 1023 (le_refl _)]
  have m1 : Dbl.fmul (Dbl.fin ((1 : Int) : ℚ)) (Dbl.fin 2) = Dbl.fin 2 := by
    rw [Dbl.fmul_exact _ _ 2 0 (by norm_num) (by norm_num) (by norm_num)]
    congr 1
    norm_num
  have m2 : Dbl.fmul (Dbl.fin 2) (Dbl.fin (2 ^ 1023)) = Dbl.pinf := Dbl.rnd_overflow 1023 rfl
  have m3 : ∀ a : ℚ, Dbl.fmul (Dbl.fin ((0 : Int) : ℚ)) (Dbl.fin a) = Dbl.fin 0 := by
    intro a
    rw [Dbl.fmul_exact _ _ 0 0 (by norm_num) (by norm_num) (by norm_num)]
    congr 1
    norm_num
  have m4 : Dbl.fmul (Dbl.fin ((1 : Int) : ℚ)) (Dbl.fin 0) = Dbl.fin 0 := by
    rw [Dbl.fmul_exact _ _ 0 0 (by norm_num) (by norm_num) (by norm_num)]
    congr 1
    norm_num
  have m5 : Dbl.fmul (Dbl.fin 0) (Dbl.fin (2 ^ 1023)) = Dbl.fin 0 := by
    rw [Dbl.fmul_exact _ _ 0 0 (by norm_num) (by norm_num) (by norm_num)]
    congr 1
    norm_num
  have a1 : Dbl.fadd (Dbl.fin (3 / 2)) Dbl.pinf = Dbl.pinf := rfl
  have a2 : Dbl.fadd Dbl.pinf (Dbl.fin 0) = Dbl.pinf := rfl
  have a3 : Dbl.fadd (Dbl.fin (3 / 2)) (Dbl.fin 0) = Dbl.fin (3 / 2) := by
    rw [Dbl.fadd_exact _ _ 3 1 (by norm_num) (by norm_num) (by norm_num)]
    congr 1
    norm_num
  simp only [candidate, hW, hS, hA, hD, hT, runaway_app, bool_to_int, Dbl.ofInt_eq,
    if_true, if_false, Bool.false_eq_true, sub_zero, sub_self, s1, m1, m2, m3, m4, m5, a1,
    a2, a3]

end binary64

/-- A finite position outside a well-formed map lies in a cell that `safe_get_tile` reports
as a wall. -/
theorem outside_cell_is_wall (g : t_game) (hwf : g.wf) (x y : ℚ)
    (hout : y < 0 ∨ (g.map_height : ℚ) ≤ y ∨ x < 0 ∨
      ∃ row, arr_read g.map ⌊y⌋ = some row ∧ ((ft_strlen row : Int) : ℚ) ≤ x) :
    safe_get_tile g ⌊x⌋ ⌊y⌋ = some '1' := by
  rw [safe_get_tile_wall_iff g hwf]
  rcases hout with h | h | h | ⟨row, h1, h2⟩
  · left
    exact Int.floor_lt.mpr (by exact_mod_cast h)
  · right; left
    exact Int.le_floor.mpr h
  · by_cases hy : ⌊y⌋ < 0 ∨ g.map_height ≤ ⌊y⌋
    · rcases hy with hy | hy
      · exact Or.inl hy
      · exact Or.inr (Or.inl hy)
    · unfold t_game.wf at hwf
      obtain ⟨row, hrow, -⟩ := arr_read_some g.map ⌊y⌋ (by omega) (by omega)
      refine Or.inr (Or.inr ⟨row, hrow, Or.inl ?_⟩)
      exact Int.floor_lt.mpr (by exact_mod_cast h)
  · exact Or.inr (Or.inr ⟨row, h1, Or.inr (Or.inl (Int.le_floor.mpr h2))⟩)

/-- C28, refuted: in the corridor map, a camera at `(1.5, 1.5)` whose facing vector is
`(2, 0)` and whose `move_speed` is the double `2 ^ 1023` has, with `W` held for a frame of
`delta_time` 1, the candidate `(+inf, 1.5)`, which is outside the map; `collides` returns 0
there, since no cell test succeeds at an infinite distance, and `update_camera_movement`
commits the abscissa `+inf`. -/
theorem collides_infinite_candidate :
    binary64.candidate keys_w runaway_app (Dbl.fin 1) = (Dbl.pinf, Dbl.fin (3 / 2)) ∧
    binary64.collides (Dbl.fin (1 / 5)) corridor_game Dbl.pinf (Dbl.fin (3 / 2)) = 0 ∧
    (binary64.update_camera_movement (Dbl.fin (1 / 5)) keys_w runaway_app
      (Dbl.fin 1)).camera.pos.i = Dbl.pinf := by
  refine ⟨binary64.candidate_runaway, binary64.collides_pinf _ _ _, ?_⟩
  rw [binary64.update_camera_movement_eq_rounded, binary64.candidate_runaway]
  have hg : runaway_app.game = corridor_game := rfl
  simp only [hg, binary64.collides_pinf, if_true]

/-- C28, amended: on a well-formed map, for a candidate `(x, y)` whose coordinates are
doubles with `|x|, |y| ≤ 2 ^ 30` and a radius `0 < r ≤ 2 ^ 20` whose square does not round
to zero, `collides` returns 1, in binary64 arithmetic and in exact arithmetic alike, when
the candidate is outside the map (`y < 0`, `y ≥ map_height`, `x < 0`, or `x` not below the
length of row `floor y`); `update_camera_movement` then returns the state unchanged, so it
does not commit such a position. -/
theorem collides_outside_map (g : t_game) (hwf : g.wf) (x y r : ℚ) (hx : |x| ≤ 2 ^ 30)
    (hy : |y| ≤ 2 ^ 30) (hr : 0 < r) (hr1 : r ≤ 2 ^ 20) (hrr : 0 < Dbl.r64 (r * r))
    (hdx : Dbl.r64 x = x) (hdy : Dbl.r64 y = y)
    (hout : y < 0 ∨ (g.map_height : ℚ) ≤ y ∨ x < 0 ∨
      ∃ row, arr_read g.map ⌊y⌋ = some row ∧ ((ft_strlen row : Int) : ℚ) ≤ x) :
    binary64.collides (Dbl.fin r) g (Dbl.fin x) (Dbl.fin y) = 1 ∧
    collides (Dbl.fin r) g (Dbl.fin x) (Dbl.fin y) = 1 ∧
    (∀ (keys : keys_t → Bool) (app : camera.t_app) (dt : Dbl), app.game = g →
      binary64.candidate keys app dt = (Dbl.fin x, Dbl.fin y) →
      binary64.update_camera_movement (Dbl.fin r) keys app dt = app) ∧
    (∀ (keys : keys_t → Bool) (app : camera.t_app) (dt : Dbl), app.game = g →
      camera.candidate keys app dt = (Dbl.fin x, Dbl.fin y) →
      camera.update_camera_movement (Dbl.fin r) keys app dt = app) := by
  have hw := outside_cell_is_wall g hwf x y hout
  have hb := binary64.collides_own_cell g x y r hx hy hr.le hr1 hrr hdx hdy hw
  have hc := collides_at_wall_cell g x y r hr hw
  refine ⟨hb, hc, ?_, ?_⟩
  · intro keys app dt hg hcand
    rw [binary64.update_camera_movement_eq_rounded, hcand, hg]
    simp only [hb]
    rfl
  · intro keys app dt hg hcand
    rw [camera.update_camera_movement_eq, hcand, hg]
    simp only [hc]
    rfl

/-- The candidate of the corridor camera with `A` held and `delta_time` 1, in binary64. -/
theorem candidate_corridor_a_rounded :
    binary64.candidate keys_a corridor_app (Dbl.fin 1)
      = (Dbl.fin (1 / 2), Dbl.fin (-5 / 2)) := by
  have hW : keys_a keys_t.MLX_KEY_W = false := by decide
  have hS : keys_a keys_t.MLX_KEY_S = false := by decide
  have hA : keys_a keys_t.MLX_KEY_A = true := by decide
  have hD : keys_a keys_t.MLX_KEY_D = false := by decide
  have hT : keys_a keys_t.MLX_KEY_LEFT_SHIFT = false := by decide
  have s1 : Dbl.fmul (Dbl.fin 4) (Dbl.fin 1) = Dbl.fin 4 := by
    rw [Dbl.fmul_exact _ _ 4 0 (by norm_num) (by norm_num) (by norm_num)]
    congr 1
    norm_num
  have m0 : ∀ a : ℚ, Dbl.fmul (Dbl.fin ((0 : Int) : ℚ)) (Dbl.fin a) = Dbl.fin 0 := by
    intro a
    rw [Dbl.fmul_exact _ _ 0 0 (by norm_num) (by norm_num) (by norm_num)]
    congr 1
    norm_num
  have m1 : Dbl.fmul (Dbl.fin 0) (Dbl.fin 4) = Dbl.fin 0 := by
    rw [Dbl.fmul_exact _ _ 0 0 (by norm_num) (by norm_num) (by norm_num)]
    congr 1
    norm_num
  have m2 : Dbl.fmul (Dbl.fin ((1 : Int) : ℚ)) (Dbl.fin 0) = Dbl.fin 0 := by
    rw [Dbl.fmul_exact _ _ 0 0 (by norm_num) (by norm_num) (by norm_num)]
    congr 1
    norm_num
  have m3 : Dbl.fmul (Dbl.fin ((-1 : Int) : ℚ)) (Dbl.fin 1) = Dbl.fin (-1) := by
    rw [Dbl.fmul_exact _ _ (-1) 0 (by norm_num) (by norm_num) (by norm_num)]
    congr 1
    norm_num
  have m4 : Dbl.fmul (Dbl.fin (-1)) (Dbl.fin 4) = Dbl.fin (-4) := by
    rw [Dbl.fmul_exact _ _ (-4) 0 (by norm_num) (by norm_num) (by norm_num)]
    congr 1
    norm_num
  have a1 : Dbl.fadd (Dbl.fin (1 / 2)) (Dbl.fin 0) = Dbl.fin (1 / 2) := by
    rw [Dbl.fadd_exact _ _ 1 1 (by norm_num) (by norm_num) (by norm_num)]
    congr 1
    norm_num
  have a2 : Dbl.fadd (Dbl.fin (3 / 2)) (Dbl.fin 0) = Dbl.fin (3 / 2) := by
    rw [Dbl.fadd_exact _ _ 3 1 (by norm_num) (by norm_num) (by norm_num)]
    congr 1
    norm_num
  have a3 : Dbl.fadd (Dbl.fin (3 / 2)) (Dbl.fin (-4)) = Dbl.fin (-5 / 2) := by
    rw [Dbl.fadd_exact _ _ (-5) 1 (by norm_num) (by norm_num) (by norm_num)]
    congr 1
    norm_num
  have z1 : (0 : Int) - 1 = -1 := rfl
  simp only [binary64.candidate, hW, hS, hA, hD, hT, corridor_app, bool_to_int, Dbl.ofInt_eq,
    if_true, if_false, Bool.false_eq_true, sub_zero, sub_self, z1, s1, m0, m1, m2, m3, m4,
    a1, a2, a3]

/-- C28 amended, in the corridor map: with `A` held the candidate of the camera at
`(0.5, 1.5)` is `(0.5, -2.5)`, above the map; `collides` returns 1 there and the state is
unchanged. -/
theorem collides_outside_map_witness :
    binary64.collides (Dbl.fin (1 / 5)) corridor_game (Dbl.fin (1 / 2)) (Dbl.fin (-5 / 2)) = 1 ∧
    binary64.update_camera_movement (Dbl.fin (1 / 5)) keys_a corridor_app (Dbl.fin 1)
      = corridor_app ∧
    camera.update_camera_movement (Dbl.fin (1 / 5)) keys_a corridor_app (Dbl.fin 1)
      = corridor_app := by
  have hx : Dbl.r64 (1 / 2) = 1 / 2 := by
    have e : (1 / 2 : ℚ) = ((1 : Int) : ℚ) / 2 ^ 1 := by norm_num
    rw [e]
    exact Dbl.r64_dyadic _ 1 (by norm_num) (by norm_num)
  have hy : Dbl.r64 (-5 / 2) = -5 / 2 := by
    have e : (-5 / 2 : ℚ) = ((-5 : Int) : ℚ) / 2 ^ 1 := by norm_num
    rw [e]
    exact Dbl.r64_dyadic _ 1 (by norm_num) (by norm_num)
  have T := collides_outside_map corridor_game (by decide) (1 / 2) (-5 / 2) (1 / 5)
    (by rw [abs_of_nonneg (by norm_num)]; norm_num)
    (by rw [abs_of_nonpos (by norm_num)]; norm_num) (by norm_num) (by norm_num)
    (Dbl.r64_sq_pos _ (by
      have : (1 : ℚ) / 2 ^ 537 ≤ 1 / 2 ^ 3 :=
        one_div_le_one_div_of_le (by norm_num) (pow_le_pow_right₀ (by norm_num) (by norm_num))
      refine le_trans this ?_
      norm_num))
    hx hy (Or.inl (by norm_num))
  exact ⟨T.1, T.2.2.1 keys_a corridor_app (Dbl.fin 1) rfl candidate_corridor_a_rounded,
    T.2.2.2 keys_a corridor_app (Dbl.fin 1) rfl candidate_corridor_a⟩

/-! ## Sign of the perpendicular distance -/

namespace Dbl

/-- Every double is a multiple of `2 ^ -1074`. -/
theorem r64_multiple (q : ℚ) : ∃ n : Int, r64 q = (n : ℚ) / 2 ^ 1074 := by
  have key : ∀ a : ℚ, ∃ n : Int, round_mag 53 (-1022) a = (n : ℚ) / 2 ^ 1074 := by
    intro a
    have hE : (0 : Int) ≤ max (Int.log 2 a) (-1022) - (((53 : Nat) : Int) - 1) + 1074 := by
      have := le_max_right (Int.log 2 a) (-1022)
      push_cast
      omega
    obtain ⟨k, hk⟩ := Int.eq_ofNat_of_zero_le hE
    refine ⟨round_even (a / ulp 53 (-1022) a) * 2 ^ k, ?_⟩
    unfold round_mag
    have hu : ulp 53 (-1022) a = (2 : ℚ) ^ k / 2 ^ 1074 := by
      unfold ulp
      have e : max (Int.log 2 a) (-1022) - (((53 : Nat) : Int) - 1)
          = (k : Int) - (1074 : Nat) := by
        push_cast
        omega
      rw [e, zpow_sub₀ (by norm_num), zpow_natCast, zpow_natCast]
    rw [hu]
    push_cast
    ring
  unfold r64 round_val
  split_ifs
  · exact key q
  · obtain ⟨n, hn⟩ := key (-q)
    exact ⟨-n, by rw [hn]; push_cast; ring⟩

/-- The difference of two distinct doubles does not round to zero. -/
theorem r64_sub_pos (a b : ℚ) (ha : r64 a = a) (hb : r64 b = b) (h : a < b) :
    0 < r64 (b - a) := by
  obtain ⟨na, hna⟩ := r64_multiple a
  obtain ⟨nb, hnb⟩ := r64_multiple b
  rw [ha] at hna
  rw [hb] at hnb
  have hp : (0 : ℚ) < 2 ^ 1074 := by positivity
  have hlt : (na : ℚ) < (nb : ℚ) := by
    rw [hna, hnb] at h
    exact (div_lt_div_iff_of_pos_right hp).1 h
  have hlt2 : na + 1 ≤ nb := by
    have : na < nb := by exact_mod_cast hlt
    omega
  have hq : ((na : ℚ) + 1) ≤ (nb : ℚ) := by exact_mod_cast hlt2
  have hd : (1 : ℚ) / 2 ^ 1074 ≤ b - a := by
    rw [hna, hnb, ← sub_div]
    exact div_le_div_of_nonneg_right (by linarith) hp.le
  have e : (2 : ℚ) ^ (-1074 : Int) = 1 / 2 ^ 1074 := by
    have : (-1074 : Int) = -((1074 : Nat) : Int) := rfl
    rw [this, zpow_neg, zpow_natCast, one_div]
  have := r64_two_pow_le (b - a) (-1074) (by norm_num) (by rw [e]; exact hd)
  exact lt_of_lt_of_le (zpow_pos (by norm_num) _) this

/-- The rounding of a non-negative rational is a non-negative double or `+inf`. -/
theorem rnd_of_nonneg (q : ℚ) (h : 0 ≤ q) : rnd q = pinf ∨ rnd q = fin (r64 q) := by
  unfold rnd round_to
  split_ifs
  · exact Or.inl rfl
  · exact Or.inr rfl

/-- A multiple of `2 ^ 900` with a factor below `2 ^ 53` is a double. -/
theorem r64_mul_two_pow_900 (A : Int) (hA : |A| < 2 ^ 53) :
    r64 ((A : ℚ) * 2 ^ 900) = (A : ℚ) * 2 ^ 900 := by
  have := r64_repr A ((900 : Nat) : Int) hA (by norm_num)
  rw [zpow_natCast] at this
  exact this

theorem two_pow_900_le : (2 : ℚ) ^ 941 ≤ 2 ^ 1000 ∧ (2 : ℚ) ^ 1000 ≤ 2 ^ 1023 :=
  ⟨pow_le_pow_right₀ (by norm_num) (by norm_num),
    pow_le_pow_right₀ (by norm_num) (by norm_num)⟩

end Dbl

namespace binary64

/-- One call of `update_ray_position` moves the cell by one step on exactly one axis. -/
theorem update_ray_position_cell_rounded (ray : raycasting_bonus.t_ray) (sx sy : Int)
    (hsx : sx = 1 ∨ sx = -1) (hsy : sy = 1 ∨ sy = -1)
    (hx : ray.step.x = Dbl.fin (sx : ℚ)) (hy : ray.step.y = Dbl.fin (sy : ℚ))
    (bx : |ray.map_x| ≤ 2 ^ 31) (bY : |ray.map_y| ≤ 2 ^ 31) :
    (update_ray_position ray).step = ray.step ∧
    (((update_ray_position ray).map_x = ray.map_x + sx ∧
        (update_ray_position ray).map_y = ray.map_y) ∨
      ((update_ray_position ray).map_x = ray.map_x ∧
        (update_ray_position ray).map_y = ray.map_y + sy)) := by
  have ex : ∀ (m s : Int), |m| ≤ 2 ^ 31 → (s = 1 ∨ s = -1) →
      Dbl.toInt (Dbl.fadd (Dbl.ofInt m) (Dbl.fin (s : ℚ))) = m + s := by
    intro m s hm hs
    have hb : |m + s| < 2 ^ 53 := by
      have := abs_le.1 hm
      rw [abs_lt]
      rcases hs with rfl | rfl <;> constructor <;> omega
    rw [Dbl.ofInt_eq, Dbl.fadd_exact _ _ (m + s) 0 (by push_cast; ring) hb (by norm_num),
      ← Int.cast_add, Dbl.toInt_int]
  unfold update_ray_position
  split
  · refine ⟨rfl, Or.inl ⟨?_, rfl⟩⟩
    simp only [hx]
    exact ex _ _ bx hsx
  · refine ⟨rfl, Or.inr ⟨rfl, ?_⟩⟩
    simp only [hy]
    exact ex _ _ bY hsy

/-- The advance of one axis: the side distance grows by the delta distance and stays
within the bound of the next count. -/
theorem axis_advance (b a : ℚ) (A : Int) (hb0 : 0 ≤ b) (hb1 : b ≤ 2 ^ 900)
    (hbd : Dbl.r64 b = b) (ha0 : 0 ≤ a) (ha1 : a ≤ (A : ℚ) * 2 ^ 900) (hA0 : 0 ≤ A)
    (hA1 : A + 1 ≤ 2 ^ 41) :
    ∃ a2 : ℚ, Dbl.fadd (Dbl.fin a) (Dbl.fin b) = Dbl.fin a2 ∧ b ≤ a2 ∧ 0 ≤ a2 ∧
      a2 ≤ ((A + 1 : Int) : ℚ) * 2 ^ 900 ∧ a2 ≤ 2 ^ 1000 := by
  have hAq : ((A + 1 : Int) : ℚ) ≤ 2 ^ 41 := by exact_mod_cast hA1
  have hsum : a + b ≤ ((A + 1 : Int) : ℚ) * 2 ^ 900 := by
    push_cast
    linarith
  have hbig : ((A + 1 : Int) : ℚ) * 2 ^ 900 ≤ 2 ^ 941 := by
    calc ((A + 1 : Int) : ℚ) * 2 ^ 900 ≤ 2 ^ 41 * 2 ^ 900 :=
          mul_le_mul_of_nonneg_right hAq (by positivity)
      _ = 2 ^ 941 := by rw [← pow_add]
  have hfin : |a + b| ≤ 2 ^ 1023 := by
    rw [abs_of_nonneg (by linarith)]
    exact le_trans hsum (le_trans hbig (le_trans Dbl.two_pow_900_le.1 Dbl.two_pow_900_le.2))
  refine ⟨Dbl.r64 (a + b), Dbl.fadd_fin a b hfin, ?_, Dbl.r64_nonneg _ (by linarith), ?_, ?_⟩
  · have := Dbl.r64_mono (by linarith : b ≤ a + b)
    rw [hbd] at this
    exact this
  · have := Dbl.r64_mono hsum
    rw [Dbl.r64_mul_two_pow_900 (A + 1) (by rw [abs_lt]; constructor <;> omega)] at this
    exact this
  · have := Dbl.r64_mono hsum
    rw [Dbl.r64_mul_two_pow_900 (A + 1) (by rw [abs_lt]; constructor <;> omega)] at this
    exact le_trans this (le_trans hbig Dbl.two_pow_900_le.1)

theorem axis_ok_mono (d s : Dbl) (A : Int) (h : axis_ok d s A) : axis_ok d s (A + 1) := by
  rcases h with h | ⟨b, a, h1, h2, h3, h4, h5, h6, h7⟩
  · exact Or.inl h
  · refine Or.inr ⟨b, a, h1, h2, h3, h4, h5, h6, ?_⟩
    push_cast
    have : (0 : ℚ) ≤ 2 ^ 900 := by positivity
    linarith

/-- One call of `update_ray_position` keeps the state of both axes and leaves the axis it
advanced with a side distance not below the delta distance. -/
theorem update_ray_position_sign (ray : raycasting_bonus.t_ray) (A : Int) (hA0 : 0 ≤ A)
    (hA1 : A + 1 ≤ 2 ^ 41)
    (hx : axis_ok ray.deltadist.x ray.sidedist.x A)
    (hy : axis_ok ray.deltadist.y ray.sidedist.y A)
    (hne : ¬ (ray.deltadist.x = Dbl.pinf ∧ ray.deltadist.y = Dbl.pinf)) :
    (update_ray_position ray).deltadist = ray.deltadist ∧
    (update_ray_position ray).raydir_mod = ray.raydir_mod ∧
    axis_ok ray.deltadist.x (update_ray_position ray).sidedist.x (A + 1) ∧
    axis_ok ray.deltadist.y (update_ray_position ray).sidedist.y (A + 1) ∧
    (((update_ray_position ray).side = 0 ∧
        axis_hit ray.deltadist.x (update_ray_position ray).sidedist.x) ∨
      ((update_ray_position ray).side ≠ 0 ∧
        axis_hit ray.deltadist.y (update_ray_position ray).sidedist.y)) := by
  unfold update_ray_position
  split
  · rename_i hlt
    rcases hx with ⟨-, h2⟩ | ⟨b, a, h1, h2, h3, h4, h5, h6, h7⟩
    · rw [h2] at hlt
      exact absurd hlt (Dbl.pinf_not_lt _)
    · obtain ⟨a2, e1, e2, e3, e4, e5⟩ := axis_advance b a A h3 h4 h5 h6 h7 hA0 hA1
      refine ⟨rfl, rfl, ?_, axis_ok_mono _ _ _ hy, Or.inl ⟨rfl, ?_⟩⟩
      · refine Or.inr ⟨b, a2, h1, ?_, h3, h4, h5, e3, e4⟩
        simp only [h1, h2, e1]
      · refine ⟨b, a2, h1, ?_, h3, e2, e5⟩
        simp only [h1, h2, e1]
  · rename_i hlt
    rcases hy with ⟨g1, g2⟩ | ⟨b, a, h1, h2, h3, h4, h5, h6, h7⟩
    · exfalso
      rcases hx with ⟨f1, -⟩ | ⟨b, a, -, f2, -⟩
      · exact hne ⟨f1, g1⟩
      · apply hlt
        rw [f2, g2]
        exact (Dbl.fin_lt_pinf a).2 trivial
    · obtain ⟨a2, e1, e2, e3, e4, e5⟩ := axis_advance b a A h3 h4 h5 h6 h7 hA0 hA1
      refine ⟨rfl, rfl, axis_ok_mono _ _ _ hx, ?_, Or.inr ⟨by simp, ?_⟩⟩
      · refine Or.inr ⟨b, a2, h1, ?_, h3, h4, h5, e3, e4⟩
        simp only [h1, h2, e1]
      · refine ⟨b, a2, h1, ?_, h3, e2, e5⟩
        simp only [h1, h2, e1]

/-- From a cell inside the box and a state of the axes as `do_dda` sets it up, `dda_loop`
returns within the number of advances that the box leaves, on an axis whose side distance
is finite and not below its delta distance. -/
theorem dda_loop_sign (door : raycasting_bonus.t_app → raycasting_bonus.t_ray → Bool)
    (app : raycasting_bonus.t_app) (hwf : app.game.wf)
    (hcols : max_row_len app.game ≤ 2 ^ 30) (hrows : app.game.map_height ≤ 2 ^ 30)
    (sx sy : Int) (hsx : sx = 1 ∨ sx = -1) (hsy : sy = 1 ∨ sy = -1) :
    ∀ (n : Nat) (ray : raycasting_bonus.t_ray) (A : Int),
      ray.step.x = Dbl.fin (sx : ℚ) → ray.step.y = Dbl.fin (sy : ℚ) →
      0 ≤ ray.map_x → ray.map_x < max_row_len app.game →
      0 ≤ ray.map_y → ray.map_y < app.game.map_height →
      togo (max_row_len app.game) app.game.map_height sx sy ray.map_x ray.map_y ≤ n →
      0 ≤ A →
      A + togo (max_row_len app.game) app.game.map_height sx sy ray.map_x ray.map_y
        ≤ 2 ^ 40 →
      axis_ok ray.deltadist.x ray.sidedist.x A → axis_ok ray.deltadist.y ray.sidedist.y A →
      ¬ (ray.deltadist.x = Dbl.pinf ∧ ray.deltadist.y = Dbl.pinf) →
      ∃ r, dda_loop door app n ray = some r ∧ r.raydir_mod = ray.raydir_mod ∧
        ((r.side = 0 ∧ axis_hit r.deltadist.x r.sidedist.x) ∨
          (r.side ≠ 0 ∧ axis_hit r.deltadist.y r.sidedist.y)) := by
  intro n
  induction n with
  | zero =>
    intro ray A _ _ h1 h2 h3 h4 h5
    exfalso
    unfold togo at h5
    rcases hsx with rfl | rfl <;> rcases hsy with rfl | rfl <;> simp at h5 <;> omega
  | succ n ih =>
    intro ray A hx hy h1 h2 h3 h4 h5 hA0 hA1 ax ay hne
    have htogo : 1 ≤ togo (max_row_len app.game) app.game.map_height sx sy ray.map_x
        ray.map_y := by
      unfold togo
      rcases hsx with rfl | rfl <;> rcases hsy with rfl | rfl <;> simp <;> omega
    obtain ⟨hst, hcell⟩ := update_ray_position_cell_rounded ray sx sy hsx hsy hx hy
      (by rw [abs_le]; constructor <;> omega) (by rw [abs_le]; constructor <;> omega)
    obtain ⟨hdd, hmod, ax2, ay2, hhit⟩ := update_ray_position_sign ray A hA0 (by omega) ax ay
      hne
    simp only [dda_loop]
    split_ifs with hw hd
    · refine ⟨_, rfl, hmod, ?_⟩
      simp only [hdd]
      exact hhit
    · refine ⟨_, rfl, hmod, ?_⟩
      simp only [hdd]
      exact hhit
    · have hin := safe_get_tile_ne_wall app.game _ _ hwf hw
      have htg : togo (max_row_len app.game) app.game.map_height sx sy
          (update_ray_position ray).map_x (update_ray_position ray).map_y
          = togo (max_row_len app.game) app.game.map_height sx sy ray.map_x ray.map_y - 1 := by
        unfold togo
        rcases hcell with ⟨e1, e2⟩ | ⟨e1, e2⟩ <;> rw [e1, e2] <;>
          rcases hsx with rfl | rfl <;> rcases hsy with rfl | rfl <;> simp <;> omega
      obtain ⟨r, hr, hm2, hh⟩ := ih
        { update_ray_position ray with
          hit_tile := safe_get_tile app.game (update_ray_position ray).map_x
            (update_ray_position ray).map_y } (A + 1)
        (by show (update_ray_position ray).step.x = _; rw [hst]; exact hx)
        (by show (update_ray_position ray).step.y = _; rw [hst]; exact hy)
        hin.2.2.1 hin.2.2.2 hin.1 hin.2.1
        (by
          show togo _ _ sx sy (update_ray_position ray).map_x (update_ray_position ray).map_y
            ≤ _
          rw [htg]
          omega)
        (by omega)
        (by
          show A + 1 + togo _ _ sx sy (update_ray_position ray).map_x
            (update_ray_position ray).map_y ≤ _
          rw [htg]
          omega)
        (by
          show axis_ok (update_ray_position ray).deltadist.x _ _
          rw [hdd]
          exact ax2)
        (by
          show axis_ok (update_ray_position ray).deltadist.y _ _
          rw [hdd]
          exact ay2)
        (by
          show ¬ ((update_ray_position ray).deltadist.x = _ ∧
            (update_ray_position ray).deltadist.y = _)
          rw [hdd]
          exact hne)
      exact ⟨r, hr, hm2.trans hmod, hh⟩

/-- The step and the initial side distance that `init_step` sets for one axis, from a
position that is a non-negative double and the cell that holds it. -/
theorem init_step_sign (p : ℚ) (rd d : Dbl) (hp0 : 0 ≤ p) (hp1 : p ≤ 2 ^ 31)
    (hpd : Dbl.r64 p = p) (hdd : delta_ok rd d) :
    ∃ s : Int, (s = 1 ∨ s = -1) ∧ (init_step (Dbl.fin p) ⌊p⌋ d rd).x = Dbl.fin (s : ℚ) ∧
      axis_ok d (init_step (Dbl.fin p) ⌊p⌋ d rd).y 1 := by
  obtain ⟨q, hq, hcase⟩ := hdd
  have hf0 : (0 : Int) ≤ ⌊p⌋ := Int.floor_nonneg.mpr hp0
  have hf1 : ⌊p⌋ ≤ 2 ^ 31 := by
    have : ((⌊p⌋ : Int) : ℚ) ≤ ((2 ^ 31 : Int) : ℚ) := by
      push_cast
      exact le_trans (Int.floor_le p) hp1
    exact_mod_cast this
  have hfl := Int.floor_le p
  have hfl2 := Int.lt_floor_add_one p
  have hfq0 : (0 : ℚ) ≤ ((⌊p⌋ : Int) : ℚ) := by exact_mod_cast hf0
  have hfq1 : ((⌊p⌋ : Int) : ℚ) ≤ 2 ^ 31 := by exact_mod_cast hf1
  have small : ∀ v : ℚ, |v| ≤ 2 ^ 40 → |v| ≤ 2 ^ 1023 := fun v h =>
    le_trans h (pow_le_pow_right₀ (by norm_num) (by norm_num))
  -- the product of a factor of [0, 1] with a delta distance of at most 2 ^ 900
  have prod : ∀ c b : ℚ, 0 ≤ c → c ≤ 1 → 0 ≤ b → b ≤ 2 ^ 900 → Dbl.r64 b = b →
      axis_ok (Dbl.fin b) (Dbl.fmul (Dbl.fin c) (Dbl.fin b)) 1 := by
    intro c b c0 c1 b0 b1 bd
    have h1 : c * b ≤ 2 ^ 900 := by nlinarith
    have h0 : 0 ≤ c * b := mul_nonneg c0 b0
    have hfin : |c * b| ≤ 2 ^ 1023 := by
      rw [abs_of_nonneg h0]
      exact le_trans h1 (pow_le_pow_right₀ (by norm_num) (by norm_num))
    refine Or.inr ⟨b, Dbl.r64 (c * b), rfl, Dbl.fmul_fin c b hfin, b0, b1, bd,
      Dbl.r64_nonneg _ h0, ?_⟩
    have := Dbl.r64_mono h1
    rw [Dbl.r64_two_pow 900 (by norm_num)] at this
    simpa using this
  unfold init_step
  rw [hq]
  by_cases hneg : Dbl.fin q < Dbl.fin 0
  · have hq0 : q < 0 := (Dbl.fin_lt_fin q 0).1 hneg
    rw [if_pos hneg]
    clear hneg
    refine ⟨-1, Or.inr rfl, by simp, ?_⟩
    rcases hcase with ⟨h0, -⟩ | ⟨-, b, hb, b0, b1, bd⟩
    · exact absurd h0 (ne_of_lt hq0)
    · have e : Dbl.fsub (Dbl.fin p) (Dbl.ofInt ⌊p⌋) = Dbl.fin (Dbl.r64 (p - ⌊p⌋)) := by
        rw [Dbl.ofInt_eq]
        exact Dbl.fsub_fin _ _ (small _ (by
          rw [abs_of_nonneg (by linarith)]
          have : (1 : ℚ) ≤ 2 ^ 40 := by norm_num
          linarith))
      simp only [e, hb]
      exact prod _ b (Dbl.r64_nonneg _ (by linarith))
        (by
          have := Dbl.r64_le_int (p - ⌊p⌋) 1 (by norm_num) (by push_cast; linarith)
          simpa using this) b0 b1 bd
  · have hq0 : 0 ≤ q := not_lt.1 (fun h => hneg ((Dbl.fin_lt_fin q 0).2 h))
    rw [if_neg hneg]
    clear hneg
    refine ⟨1, Or.inl rfl, by simp, ?_⟩
    have e1 : Dbl.fadd (Dbl.ofInt ⌊p⌋) (Dbl.fin 1) = Dbl.fin (((⌊p⌋ + 1 : Int)) : ℚ) := by
      rw [Dbl.ofInt_eq, Dbl.fadd_exact _ _ (⌊p⌋ + 1) 0 (by push_cast; ring)
        (by rw [abs_lt]; constructor <;> omega) (by norm_num)]
      congr 1
      push_cast
      ring
    have e2 : Dbl.fsub (Dbl.fin (((⌊p⌋ + 1 : Int)) : ℚ)) (Dbl.fin p)
        = Dbl.fin (Dbl.r64 ((((⌊p⌋ + 1 : Int)) : ℚ) - p)) :=
      Dbl.fsub_fin _ _ (small _ (by
        push_cast
        rw [abs_of_nonneg (by linarith)]
        have : (1 : ℚ) ≤ 2 ^ 40 := by norm_num
        linarith))
    have hc0 : 0 < Dbl.r64 ((((⌊p⌋ + 1 : Int)) : ℚ) - p) :=
      Dbl.r64_sub_pos p _ hpd (Dbl.r64_int _ (by rw [abs_lt]; constructor <;> omega))
        (by push_cast; exact hfl2)
    have hc1 : Dbl.r64 ((((⌊p⌋ + 1 : Int)) : ℚ) - p) ≤ 1 := by
      have := Dbl.r64_le_int ((((⌊p⌋ + 1 : Int)) : ℚ) - p) 1 (by norm_num)
        (by push_cast; linarith)
      simpa using this
    rw [e1, e2]
    rcases hcase with ⟨-, hd⟩ | ⟨-, b, hb, b0, b1, bd⟩
    · refine Or.inl ⟨hd, ?_⟩
      rw [hd]
      show Dbl.rndd (Dbl.fin _ * Dbl.pinf) = _
      rw [Dbl.fin_mul_pinf _ hc0]
      rfl
    · simp only [hb]
      exact prod _ b hc0.le hc1 b0 b1 bd

end binary64

/-- The ray that `init_ray` sets up for the centre column of a 2-column screen from the
camera `cam_near_line`; every operation is exact at this input. -/
theorem init_ray_near_line :
    raycasting_bonus.init_ray sqrt_exact 2 ⟨cam_near_line, open5⟩ 1 blank_ray =
      { blank_ray with
        raydir := ⟨Dbl.fin (-1), Dbl.fin 0⟩
        map_x := 0
        map_y := 0
        raydir_mod := Dbl.fin 1
        deltadist := ⟨Dbl.fin 1, Dbl.pinf⟩ } := by
  have h1 : cam_near_line
      = scaled_camera ⟨Dbl.fin (1 / 2 ^ 60), Dbl.fin (1 / 2)⟩ (-1) 0 0 (33 / 50) 1 := by
    simp [cam_near_line, scaled_camera]
  have t1 : Dbl.toInt (Dbl.fin (1 / 2 ^ 60)) = 0 := by
    rw [Dbl.toInt_fin_nonneg _ (by norm_num), Int.floor_eq_iff]
    constructor <;> norm_num
  have t2 : Dbl.toInt (Dbl.fin (1 / 2)) = 0 := by
    rw [Dbl.toInt_fin_nonneg _ (by norm_num), Int.floor_eq_iff]
    constructor <;> norm_num
  rw [h1, raycasting_bonus.init_ray_fin sqrt_exact 2 (by decide)]
  simp only [camx_centre, t1, t2]
  norm_num
  rw [sqrt_exact_one, Dbl.fin_div_fin _ _ (by norm_num), Dbl.fin_div_zero 1 one_pos]
  norm_num

namespace binary64

/-- The value of `do_dda` once `dda_loop` has returned. -/
theorem do_dda_of_loop (door : raycasting_bonus.t_app → raycasting_bonus.t_ray → Bool)
    (fuel : Nat) (app : raycasting_bonus.t_app) (ray r : raycasting_bonus.t_ray)
    (h : dda_loop door app fuel
      { ray with
        step := ⟨(init_step app.camera.pos.x ray.map_x ray.deltadist.x ray.raydir.x).x,
          (init_step app.camera.pos.y ray.map_y ray.deltadist.y ray.raydir.y).x⟩,
        sidedist := ⟨(init_step app.camera.pos.x ray.map_x ray.deltadist.x ray.raydir.x).y,
          (init_step app.camera.pos.y ray.map_y ray.deltadist.y ray.raydir.y).y⟩ } = some r) :
    ∃ r2, do_dda door fuel app ray = some r2 ∧ r2.side = r.side ∧
      r2.perpwalldist =
        (if r.side = 0 then Dbl.fdiv (Dbl.fsub r.sidedist.x r.deltadist.x) r.raydir_mod
          else Dbl.fdiv (Dbl.fsub r.sidedist.y r.deltadist.y) r.raydir_mod) := by
  unfold do_dda
  simp only
  rw [h]
  simp only
  split_ifs with hs
  · exact ⟨_, rfl, rfl, rfl⟩
  · exact ⟨_, rfl, rfl, rfl⟩

/-- One iteration of `dda_loop` that stops on a wall. -/
theorem dda_loop_wall (door : raycasting_bonus.t_app → raycasting_bonus.t_ray → Bool)
    (app : raycasting_bonus.t_app) (n : Nat) (ray : raycasting_bonus.t_ray)
    (h : safe_get_tile app.game (update_ray_position ray).map_x
      (update_ray_position ray).map_y = some '1') :
    dda_loop door app (n + 1) ray
      = some { update_ray_position ray with hit_tile := some '1' } := by
  simp only [dda_loop, h, if_true]

/-- The advance on x of `update_ray_position`. -/
theorem update_ray_position_x (ray : raycasting_bonus.t_ray) (h : ray.sidedist.x < ray.sidedist.y) :
    update_ray_position ray =
      { ray with
        sidedist := ⟨Dbl.fadd ray.sidedist.x ray.deltadist.x, ray.sidedist.y⟩,
        map_x := Dbl.toInt (Dbl.fadd (Dbl.ofInt ray.map_x) ray.step.x),
        side := 0 } := by
  unfold update_ray_position
  rw [if_pos h]

end binary64

namespace binary64

/-- The perpendicular distance computed from an axis on which the loop stopped is not
below zero: it is a non-negative double or `+inf`. -/
theorem perp_nonneg (d s : Dbl) (m : ℚ) (hm : 0 < m) (h : axis_hit d s) :
    Dbl.fin 0 ≤ Dbl.fdiv (Dbl.fsub s d) (Dbl.fin m) := by
  obtain ⟨b, a, hd, hs, hb0, hba, ha⟩ := h
  have hfin : |a - b| ≤ 2 ^ 1023 := by
    rw [abs_of_nonneg (by linarith)]
    exact le_trans (by linarith) (le_trans ha Dbl.two_pow_900_le.2)
  have hw : 0 ≤ Dbl.r64 (a - b) := Dbl.r64_nonneg _ (by linarith)
  rw [hd, hs, Dbl.fsub_fin a b hfin]
  have e : Dbl.fdiv (Dbl.fin (Dbl.r64 (a - b))) (Dbl.fin m)
      = Dbl.rnd (Dbl.r64 (a - b) / m) := by
    have : Dbl.fdiv (Dbl.fin (Dbl.r64 (a - b))) (Dbl.fin m) = Dbl.rndd (if m = 0 then
        (if Dbl.r64 (a - b) = 0 then Dbl.nan
          else if 0 < Dbl.r64 (a - b) then Dbl.pinf else Dbl.ninf)
        else Dbl.fin (Dbl.r64 (a - b) / m)) := rfl
    rw [this, if_neg (ne_of_gt hm)]
    rfl
  rw [e]
  rcases Dbl.rnd_of_nonneg _ (div_nonneg hw hm.le) with h | h
  · rw [h]
    rfl
  · rw [h, Dbl.fin_le_fin_iff]
    exact Dbl.r64_nonneg _ (div_nonneg hw hm.le)

end binary64

/-- C32, refuted: a camera at `(2 ^ -60, 0.5)`, off every grid line, facing `(-1, 0)` on the
5 x 5 open map; for the centre column `init_ray` leaves the direction `(-1, 0)`, the cell
`(0, 0)`, the modulus 1 and the delta distances `(1, +inf)`, all exact; in binary64 the
first advance adds 1 to the side distance `2 ^ -60`, which rounds to 1, the ray stops on
the cell `(-1, 0)` outside the map with a hit on x, and `do_dda` returns the perpendicular
distance `1 - 1 = 0`, not strictly positive. -/
theorem perpwalldist_zero_off_grid :
    cam_near_line.pos = ⟨Dbl.fin (1 / 2 ^ 60), Dbl.fin (1 / 2)⟩ ∧
    ((⌊(1 / 2 ^ 60 : ℚ)⌋ : Int) : ℚ) ≠ 1 / 2 ^ 60 ∧
    ∃ r, binary64.do_dda no_door 1 ⟨cam_near_line, open5⟩
        (raycasting_bonus.init_ray sqrt_exact 2 ⟨cam_near_line, open5⟩ 1 blank_ray) = some r ∧
      r.side = 0 ∧ r.perpwalldist = Dbl.fin 0 := by
  refine ⟨rfl, ?_, ?_⟩
  · have e : ⌊(1 / 2 ^ 60 : ℚ)⌋ = 0 := by
      rw [Int.floor_eq_iff]
      constructor <;> norm_num
    rw [e]
    norm_num
  · rw [init_ray_near_line]
    have s1 : binary64.init_step (Dbl.fin (1 / 2 ^ 60)) 0 (Dbl.fin 1) (Dbl.fin (-1))
        = ⟨Dbl.fin (-1), Dbl.fin (1 / 2 ^ 60)⟩ := by
      have hneg : Dbl.fin (-1) < Dbl.fin 0 := (Dbl.fin_lt_fin _ _).2 (by norm_num)
      unfold binary64.init_step
      rw [if_pos hneg, Dbl.ofInt_eq,
        Dbl.fsub_exact _ _ 1 60 (by norm_num) (by norm_num) (by norm_num),
        Dbl.fmul_exact _ _ 1 60 (by norm_num) (by norm_num) (by norm_num)]
      congr 2
      norm_num
    have s2 : binary64.init_step (Dbl.fin (1 / 2)) 0 Dbl.pinf (Dbl.fin 0)
        = ⟨Dbl.fin 1, Dbl.pinf⟩ := by
      have hneg : ¬ (Dbl.fin 0 < Dbl.fin 0) := fun h => by
        have := (Dbl.fin_lt_fin 0 0).1 h
        exact lt_irrefl _ this
      unfold binary64.init_step
      rw [if_neg hneg, Dbl.ofInt_eq,
        Dbl.fadd_exact _ _ 1 0 (by norm_num) (by norm_num) (by norm_num),
        Dbl.fsub_exact _ _ 1 1 (by norm_num) (by norm_num) (by norm_num)]
      congr 1
      show Dbl.rndd (Dbl.fin _ * Dbl.pinf) = _
      rw [Dbl.fin_mul_pinf _ (by norm_num)]
      rfl
    have a1 : Dbl.fadd (Dbl.fin (1 / 2 ^ 60)) (Dbl.fin 1) = Dbl.fin 1 := by
      rw [Dbl.fadd_fin _ _ (Dbl.small_le _ (by rw [abs_of_nonneg (by norm_num)]; norm_num))]
      congr 1
      rw [Dbl.r64_eq_of_near _ 0 4503599627370496 (by norm_num)
        (by rw [abs_of_nonneg (by norm_num)]; norm_num)
        (by rw [abs_of_nonneg (by norm_num)]; norm_num)
        (by rw [abs_lt]; norm_num)]
      norm_num
    have a2 : Dbl.toInt (Dbl.fadd (Dbl.ofInt 0) (Dbl.fin (-1))) = -1 := by
      rw [Dbl.ofInt_eq, Dbl.fadd_exact _ _ (-1) 0 (by norm_num) (by norm_num) (by norm_num)]
      have : ((0 : Int) : ℚ) + -1 = ((-1 : Int) : ℚ) := by norm_num
      rw [this, Dbl.toInt_int]
    have hw : safe_get_tile open5 (-1) 0 = some '1' := by decide
    have p1 : Dbl.fdiv (Dbl.fsub (Dbl.fin 1) (Dbl.fin 1)) (Dbl.fin 1) = Dbl.fin 0 := by
      rw [Dbl.fsub_exact _ _ 0 0 (by norm_num) (by norm_num) (by norm_num),
        Dbl.fdiv_exact _ _ 0 0 (by norm_num) (by norm_num) (by norm_num) (by norm_num)]
      congr 1
      norm_num
    have hup := binary64.update_ray_position_x
      { blank_ray with
        raydir := ⟨Dbl.fin (-1), Dbl.fin 0⟩
        map_x := 0
        map_y := 0
        raydir_mod := Dbl.fin 1
        deltadist := ⟨Dbl.fin 1, Dbl.pinf⟩
        step := ⟨Dbl.fin (-1), Dbl.fin 1⟩
        sidedist := ⟨Dbl.fin (1 / 2 ^ 60), Dbl.pinf⟩ }
      ((Dbl.fin_lt_pinf _).2 trivial)
    simp only [a1, a2] at hup
    have hloop := binary64.dda_loop_wall no_door ⟨cam_near_line, open5⟩ 0
      { blank_ray with
        raydir := ⟨Dbl.fin (-1), Dbl.fin 0⟩
        map_x := 0
        map_y := 0
        raydir_mod := Dbl.fin 1
        deltadist := ⟨Dbl.fin 1, Dbl.pinf⟩
        step := ⟨Dbl.fin (-1), Dbl.fin 1⟩
        sidedist := ⟨Dbl.fin (1 / 2 ^ 60), Dbl.pinf⟩ }
      (by rw [hup]; exact hw)
    rw [hup] at hloop
    obtain ⟨r2, h1, h2, h3⟩ := binary64.do_dda_of_loop no_door 1 ⟨cam_near_line, open5⟩
      { blank_ray with
        raydir := ⟨Dbl.fin (-1), Dbl.fin 0⟩
        map_x := 0
        map_y := 0
        raydir_mod := Dbl.fin 1
        deltadist := ⟨Dbl.fin 1, Dbl.pinf⟩ } _
      (by
        have c1 : cam_near_line.pos.x = Dbl.fin (1 / 2 ^ 60) := rfl
        have c2 : cam_near_line.pos.y = Dbl.fin (1 / 2) := rfl
        simp only [c1, c2, s1, s2]
        exact hloop)
    refine ⟨r2, h1, h2, ?_⟩
    rw [h3]
    show (if (0 : Int) = 0 then Dbl.fdiv (Dbl.fsub (Dbl.fin 1) (Dbl.fin 1)) (Dbl.fin 1)
      else _) = _
    rw [if_pos rfl, p1]

/-- C32, amended: on a well-formed map of at most `2 ^ 30` rows and columns, for a camera
whose coordinates are non-negative doubles in a cell of the map and a ray record as
`init_ray` leaves it (the cell of the camera, a modulus `m > 0`, and for each axis the delta
distance `+inf` when the component of the direction is zero and a non-negative double of at
most `2 ^ 900` otherwise, the direction not being zero), `do_dda` as binary64 evaluates it
returns within `rows + cols - 1` iterations and the perpendicular distance it produces is
not below zero: a non-negative double or `+inf`, never negative and never `NaN`. -/
theorem perpwalldist_nonneg
    (door : raycasting_bonus.t_app → raycasting_bonus.t_ray → Bool) (g : t_game)
    (cam : raycasting_bonus.t_camera) (ray : raycasting_bonus.t_ray) (px py m : ℚ)
    (hwf : g.wf) (hcols : max_row_len g ≤ 2 ^ 30) (hrows : g.map_height ≤ 2 ^ 30)
    (hpos : cam.pos = ⟨Dbl.fin px, Dbl.fin py⟩) (hpx : 0 ≤ px) (hpy : 0 ≤ py)
    (hdx : Dbl.r64 px = px) (hdy : Dbl.r64 py = py)
    (hcx : ⌊px⌋ < max_row_len g) (hcy : ⌊py⌋ < g.map_height)
    (hmx : ray.map_x = ⌊px⌋) (hmy : ray.map_y = ⌊py⌋)
    (hmod : ray.raydir_mod = Dbl.fin m) (hm : 0 < m)
    (hddx : binary64.delta_ok ray.raydir.x ray.deltadist.x)
    (hddy : binary64.delta_ok ray.raydir.y ray.deltadist.y)
    (hne : ray.raydir.x ≠ Dbl.fin 0 ∨ ray.raydir.y ≠ Dbl.fin 0)
    (fuel : Nat) (hfuel : g.map_height + max_row_len g - 1 ≤ fuel) :
    ∃ r, binary64.do_dda door fuel ⟨cam, g⟩ ray = some r ∧ Dbl.fin 0 ≤ r.perpwalldist := by
  have bound : ∀ p : ℚ, ∀ c : Int, c ≤ 2 ^ 30 → ⌊p⌋ < c → p ≤ 2 ^ 31 := by
    intro p c hc hlt
    have h1 := Int.lt_floor_add_one p
    have h2 : ((⌊p⌋ : Int) : ℚ) + 1 ≤ ((2 ^ 30 : Int) : ℚ) := by
      have : ⌊p⌋ + 1 ≤ 2 ^ 30 := by omega
      exact_mod_cast this
    push_cast at h2
    have : (2 : ℚ) ^ 30 ≤ 2 ^ 31 := by norm_num
    linarith
  have hx2 : (⟨cam, g⟩ : raycasting_bonus.t_app).camera.pos.x = Dbl.fin px := by
    show cam.pos.x = _
    rw [hpos]
  have hy2 : (⟨cam, g⟩ : raycasting_bonus.t_app).camera.pos.y = Dbl.fin py := by
    show cam.pos.y = _
    rw [hpos]
  obtain ⟨sx, hsx, ex, ax⟩ := binary64.init_step_sign px ray.raydir.x ray.deltadist.x hpx
    (bound px _ hcols hcx) hdx hddx
  obtain ⟨sy, hsy, ey, ay⟩ := binary64.init_step_sign py ray.raydir.y ray.deltadist.y hpy
    (bound py _ hrows hcy) hdy hddy
  rw [← hmx, ← hx2] at ex ax
  rw [← hmy, ← hy2] at ey ay
  have hboth : ¬ (ray.deltadist.x = Dbl.pinf ∧ ray.deltadist.y = Dbl.pinf) := by
    rintro ⟨h1, h2⟩
    obtain ⟨q1, hq1, c1⟩ := hddx
    obtain ⟨q2, hq2, c2⟩ := hddy
    have z1 : q1 = 0 := by
      rcases c1 with ⟨h, -⟩ | ⟨-, b, hb, -⟩
      · exact h
      · rw [h1] at hb
        cases hb
    have z2 : q2 = 0 := by
      rcases c2 with ⟨h, -⟩ | ⟨-, b, hb, -⟩
      · exact h
      · rw [h2] at hb
        cases hb
    rcases hne with h | h
    · exact h (by rw [hq1, z1])
    · exact h (by rw [hq2, z2])
  have h1 : (0 : Int) ≤ ⌊px⌋ := Int.floor_nonneg.mpr hpx
  have h3 : (0 : Int) ≤ ⌊py⌋ := Int.floor_nonneg.mpr hpy
  have hle := togo_le (max_row_len g) g.map_height sx sy ⌊px⌋ ⌊py⌋ hsx hsy h1 hcx h3 hcy
  rw [← hmx, ← hmy] at hle
  obtain ⟨r, hr, hrm, hhit⟩ := binary64.dda_loop_sign door ⟨cam, g⟩ hwf hcols hrows sx sy hsx
    hsy fuel
    { ray with
      step := ⟨(binary64.init_step (⟨cam, g⟩ : raycasting_bonus.t_app).camera.pos.x ray.map_x
          ray.deltadist.x ray.raydir.x).x,
        (binary64.init_step (⟨cam, g⟩ : raycasting_bonus.t_app).camera.pos.y ray.map_y
          ray.deltadist.y ray.raydir.y).x⟩,
      sidedist := ⟨(binary64.init_step (⟨cam, g⟩ : raycasting_bonus.t_app).camera.pos.x
          ray.map_x ray.deltadist.x ray.raydir.x).y,
        (binary64.init_step (⟨cam, g⟩ : raycasting_bonus.t_app).camera.pos.y ray.map_y
          ray.deltadist.y ray.raydir.y).y⟩ } 1
    ex ey (by rw [hmx]; exact h1) (by rw [hmx]; exact hcx) (by rw [hmy]; exact h3)
    (by rw [hmy]; exact hcy)
    (by
      show togo (max_row_len g) g.map_height sx sy ray.map_x ray.map_y ≤ _
      exact le_trans hle hfuel)
    (by norm_num)
    (by
      show 1 + togo (max_row_len g) g.map_height sx sy ray.map_x ray.map_y ≤ _
      have h40 : (2 : Int) ^ 31 + 1 ≤ 2 ^ 40 := by norm_num
      omega)
    ax ay hboth
  obtain ⟨r2, e1, e2, e3⟩ := binary64.do_dda_of_loop door fuel ⟨cam, g⟩ ray r hr
  have hrm2 : r.raydir_mod = Dbl.fin m := by rw [hrm]; exact hmod
  refine ⟨r2, e1, ?_⟩
  rw [e3, hrm2]
  rcases hhit with ⟨hs, hh⟩ | ⟨hs, hh⟩
  · rw [if_pos hs]
    exact binary64.perp_nonneg _ _ m hm hh
  · rw [if_neg hs]
    exact binary64.perp_nonneg _ _ m hm hh

/-- C32 amended, at the camera `(2 ^ -60, 0.5)` facing `(-1, 0)` on the 5 x 5 open map,
centre column: `do_dda` returns within 9 iterations with a perpendicular distance that is
not below zero. -/
theorem perpwalldist_nonneg_witness :
    ∃ r, binary64.do_dda no_door 9 ⟨cam_near_line, open5⟩
        (raycasting_bonus.init_ray sqrt_exact 2 ⟨cam_near_line, open5⟩ 1 blank_ray) = some r ∧
      Dbl.fin 0 ≤ r.perpwalldist := by
  have e1 : ⌊(1 / 2 ^ 60 : ℚ)⌋ = 0 := by
    rw [Int.floor_eq_iff]
    constructor <;> norm_num
  have e2 : ⌊(1 / 2 : ℚ)⌋ = 0 := by
    rw [Int.floor_eq_iff]
    constructor <;> norm_num
  have d1 : Dbl.r64 (1 / 2 ^ 60) = 1 / 2 ^ 60 := by
    have e : (1 / 2 ^ 60 : ℚ) = ((1 : Int) : ℚ) / 2 ^ 60 := by norm_num
    rw [e]
    exact Dbl.r64_dyadic _ 60 (by norm_num) (by norm_num)
  have d2 : Dbl.r64 (1 / 2) = 1 / 2 := by
    have e : (1 / 2 : ℚ) = ((1 : Int) : ℚ) / 2 ^ 1 := by norm_num
    rw [e]
    exact Dbl.r64_dyadic _ 1 (by norm_num) (by norm_num)
  have d3 : Dbl.r64 1 = 1 := by
    have := Dbl.r64_int 1 (by norm_num)
    simpa using this
  have hcols : max_row_len open5 = 5 := max_row_len_open 5
  exact perpwalldist_nonneg no_door open5 cam_near_line
    (raycasting_bonus.init_ray sqrt_exact 2 ⟨cam_near_line, open5⟩ 1 blank_ray)
    (1 / 2 ^ 60) (1 / 2) 1 (by decide) (by rw [hcols]; norm_num) (by decide) rfl
    (by norm_num) (by norm_num) d1 d2 (by rw [e1, hcols]; decide) (by rw [e2]; decide)
    (by rw [init_ray_near_line, e1]) (by rw [init_ray_near_line, e2])
    (by rw [init_ray_near_line]) one_pos
    (by
      rw [init_ray_near_line]
      exact ⟨-1, rfl, Or.inr ⟨by norm_num, 1, rfl, by norm_num,
        one_le_pow₀ (by norm_num), d3⟩⟩)
    (by
      rw [init_ray_near_line]
      exact ⟨0, rfl, Or.inl ⟨rfl, rfl⟩⟩)
    (Or.inl (by
      rw [init_ray_near_line]
      intro h
      have := Dbl.fin.inj h
      norm_num at this))
    9 (by rw [hcols]; decide)
